import Mathlib

/-!
# A verification development for the next-fit explicit-free-list allocator

Source: `malloclab/malloclab-ex-nextFit/mm.c`.

The embedding fixes the ILP32 data model of the lab's `-m32` build: `unsigned int`,
`size_t` and `void *` are all 4 bytes wide.  Memory is a byte map; the word
accessors `GET`/`PUT` are little-endian.  `NULL` is address `0`.  Unsigned
arithmetic on `size_t` is reduced modulo `2^32` where the source computes a sum,
product or difference.
-/

namespace MM

/-! ## Definitions -/

/-- Byte-addressed memory. -/
abbrev Mem := Nat → Nat

/-- The process-wide state: the simulated memory, the break of the memory system and
the three globals `heap_listp`, `free_listp`, `rover` of `mm.c`. -/
structure State where
  mem : Mem
  mem_brk : Nat
  mem_max_addr : Nat
  heap_listp : Nat
  free_listp : Nat
  rover : Nat

/-- Number of values of a 32-bit `size_t` / `unsigned int`. -/
def TWO32 : Nat := 4294967296

def WSIZE : Nat := 4

def DSIZE : Nat := 8

def CHUNKSIZE : Nat := 4096

def MAX (x y : Nat) : Nat := if x > y then x else y

def PACK (size alloc : Nat) : Nat := size ||| alloc

/-- Little-endian read of the 4-byte word at `p`: `*(unsigned int *)(p)`. -/
def GET (m : Mem) (p : Nat) : Nat :=
  m p % 256 + 256 * (m (p + 1) % 256) + 65536 * (m (p + 2) % 256)
    + 16777216 * (m (p + 3) % 256)

/-- Little-endian write of the 4-byte word at `p`: `*(unsigned int *)(p) = val`. -/
def PUT (m : Mem) (p val : Nat) : Mem := fun x =>
  if x = p then val % 256
  else if x = p + 1 then val / 256 % 256
  else if x = p + 2 then val / 65536 % 256
  else if x = p + 3 then val / 16777216 % 256
  else m x

/-- The macro `GET_SIZE(p)`, that is `GET(p) & ~0x7` on 32-bit words. -/
def GET_SIZE (m : Mem) (p : Nat) : Nat := GET m p &&& 4294967288

def GET_ALLOC (m : Mem) (p : Nat) : Nat := GET m p &&& 1

def HDRP (bp : Nat) : Nat := bp - WSIZE

def FTRP (m : Mem) (bp : Nat) : Nat := bp + GET_SIZE m (HDRP bp) - DSIZE

def NEXT_BLKP (m : Mem) (bp : Nat) : Nat := bp + GET_SIZE m (bp - WSIZE)

def PREV_BLKP (m : Mem) (bp : Nat) : Nat := bp - GET_SIZE m (bp - DSIZE)

/-- The macro `GET_SUCC(bp)`: the pointer stored in the first payload word. -/
def GET_SUCC (m : Mem) (bp : Nat) : Nat := GET m bp

/-- The macro `GET_PREV(bp)`: the pointer stored at `(void **)(bp) + 1`. -/
def GET_PREV (m : Mem) (bp : Nat) : Nat := GET m (bp + 4)

def PUT_SUCC (m : Mem) (bp val : Nat) : Mem := PUT m bp val

def PUT_PREV (m : Mem) (bp val : Nat) : Mem := PUT m (bp + 4) val

/-- Modelled from the spec: the heap-growth primitive `mem_sbrk` of `memlib.c`,
which is not part of the sources.  It extends the arena by `incr` bytes and
returns the base address of the new region, or the failure sentinel
`(void *)-1` when the address space cannot grow. -/
def mem_sbrk (incr : Nat) (s : State) : Nat × State :=
  if s.mem_brk + incr > s.mem_max_addr then (4294967295, s)
  else (s.mem_brk, { s with mem_brk := s.mem_brk + incr })

def removeblock (bp : Nat) (s : State) : State :=
  let prev := GET_PREV s.mem bp
  let succ := GET_SUCC s.mem bp
  let m1 := PUT_PREV s.mem bp 0
  let m2 := PUT_SUCC m1 bp 0
  if prev = 0 ∧ succ = 0 then { s with mem := m2, free_listp := 0 }
  else if prev = 0 ∧ succ ≠ 0 then
    { s with mem := PUT_PREV m2 succ 0, free_listp := succ }
  else if prev ≠ 0 ∧ succ = 0 then { s with mem := PUT_SUCC m2 prev 0 }
  else if prev ≠ 0 ∧ succ ≠ 0 then
    { s with mem := PUT_PREV (PUT_SUCC m2 prev succ) succ prev }
  else { s with mem := m2 }

def headinsert (bp : Nat) (s : State) : State :=
  if s.free_listp = 0 then { s with free_listp := bp }
  else
    let q := s.free_listp
    let m1 := PUT_SUCC s.mem bp q
    let m2 := PUT_PREV m1 bp 0
    let m3 := PUT_PREV m2 q bp
    { s with mem := m3, free_listp := bp }

def coalesce (bp : Nat) (s : State) : Nat × State :=
  let prev_alloc := GET_ALLOC s.mem (FTRP s.mem (PREV_BLKP s.mem bp))
  let next_alloc := GET_ALLOC s.mem (HDRP (NEXT_BLKP s.mem bp))
  let size := GET_SIZE s.mem (HDRP bp)
  let r : Nat × State :=
    if prev_alloc ≠ 0 ∧ next_alloc ≠ 0 then (bp, s)
    else if prev_alloc ≠ 0 ∧ next_alloc = 0 then
      let s1 := removeblock (NEXT_BLKP s.mem bp) s
      let size := (size + GET_SIZE s1.mem (HDRP (NEXT_BLKP s1.mem bp))) % TWO32
      let m2 := PUT s1.mem (HDRP bp) (PACK size 0)
      let m3 := PUT m2 (FTRP m2 bp) (PACK size 0)
      (bp, { s1 with mem := m3 })
    else if prev_alloc = 0 ∧ next_alloc ≠ 0 then
      let s1 := removeblock (PREV_BLKP s.mem bp) s
      let size := (size + GET_SIZE s1.mem (HDRP (PREV_BLKP s1.mem bp))) % TWO32
      let m2 := PUT s1.mem (FTRP s1.mem bp) (PACK size 0)
      let m3 := PUT m2 (HDRP (PREV_BLKP m2 bp)) (PACK size 0)
      (PREV_BLKP m3 bp, { s1 with mem := m3 })
    else
      let s1 := removeblock (PREV_BLKP s.mem bp) s
      let s2 := removeblock (NEXT_BLKP s1.mem bp) s1
      let size := (size + (GET_SIZE s2.mem (HDRP (PREV_BLKP s2.mem bp))
        + GET_SIZE s2.mem (FTRP s2.mem (NEXT_BLKP s2.mem bp))) % TWO32) % TWO32
      let m3 := PUT s2.mem (HDRP (PREV_BLKP s2.mem bp)) (PACK size 0)
      let m4 := PUT m3 (FTRP m3 (NEXT_BLKP m3 bp)) (PACK size 0)
      (PREV_BLKP m4 bp, { s2 with mem := m4 })
  if r.2.rover > r.1 ∧ r.2.rover < NEXT_BLKP r.2.mem r.1 then
    (r.1, { r.2 with rover := r.1 })
  else r

def extend_heap (words : Nat) (s : State) : Nat × State :=
  let size := if words % 2 ≠ 0 then ((words + 1) % TWO32 * WSIZE) % TWO32
              else (words * WSIZE) % TWO32
  let r := mem_sbrk size s
  if r.1 = 4294967295 then (0, r.2)
  else
    let bp := r.1
    let m1 := PUT r.2.mem (HDRP bp) (PACK size 0)
    let m2 := PUT m1 (FTRP m1 bp) (PACK size 0)
    let m3 := PUT m2 (HDRP (NEXT_BLKP m2 bp)) (PACK 0 1)
    let m4 := PUT_PREV m3 bp 0
    let m5 := PUT_SUCC m4 bp 0
    let c := coalesce bp { r.2 with mem := m5 }
    (c.1, headinsert c.1 c.2)

def place (bp asize : Nat) (s : State) : State :=
  let csize := GET_SIZE s.mem (HDRP bp)
  let s1 := removeblock bp s
  if (csize + TWO32 - asize) % TWO32 ≥ 2 * DSIZE then
    let m1 := PUT s1.mem (HDRP bp) (PACK asize 1)
    let m2 := PUT m1 (FTRP m1 bp) (PACK asize 1)
    let bp2 := NEXT_BLKP m2 bp
    let rest := (csize + TWO32 - asize) % TWO32
    let m3 := PUT m2 (HDRP bp2) (PACK rest 0)
    let m4 := PUT m3 (FTRP m3 bp2) (PACK rest 0)
    let m5 := PUT_SUCC m4 bp2 0
    let m6 := PUT_PREV m5 bp2 0
    let c := coalesce bp2 { s1 with mem := m6 }
    headinsert bp2 c.2
  else
    let m1 := PUT s1.mem (HDRP bp) (PACK csize 1)
    let m2 := PUT m1 (FTRP m1 bp) (PACK csize 1)
    { s1 with mem := m2 }

/-- One `for (; rover != NULL; rover = GET_SUCC(rover))` loop of `find_fit`.
The outer `Option` is `none` when the fuel is exhausted (the loop did not finish);
the inner one is `some ret` when the loop body returned `ret` and `none` when the
loop ran off the end of the list. -/
def find_loop (asize : Nat) : Nat → State → Option (Option Nat × State)
  | 0, _ => none
  | fuel + 1, s =>
    if s.rover = 0 then some (none, s)
    else if asize ≤ GET_SIZE s.mem (HDRP s.rover) then
      some (some s.rover, { s with rover := GET_SUCC s.mem s.rover })
    else find_loop asize fuel { s with rover := GET_SUCC s.mem s.rover }

/-- The next-fit `find_fit` (the variant compiled under `#define NEXT_FIT`).
Each loop is given `mem_brk + 1` iterations of fuel. -/
def find_fit (asize : Nat) (s : State) : Option (Nat × State) :=
  let s0 := if s.rover = 0 then { s with rover := s.free_listp } else s
  match find_loop asize (s.mem_brk + 1) s0 with
  | none => none
  | some (some ret, s1) => some (ret, s1)
  | some (none, s1) =>
    match find_loop asize (s.mem_brk + 1) { s1 with rover := s1.free_listp } with
    | none => none
    | some (some ret, s2) => some (ret, s2)
    | some (none, s2) => some (0, s2)

def mm_init (s : State) : Int × State :=
  let r := mem_sbrk (4 * WSIZE) s
  let s1 := { r.2 with heap_listp := r.1 }
  if r.1 = 4294967295 then (-1, s1)
  else
    let m1 := PUT s1.mem s1.heap_listp 0
    let m2 := PUT m1 (s1.heap_listp + 1 * WSIZE) (PACK DSIZE 1)
    let m3 := PUT m2 (s1.heap_listp + 2 * WSIZE) (PACK DSIZE 1)
    let m4 := PUT m3 (s1.heap_listp + 3 * WSIZE) (PACK 0 1)
    let s2 := { s1 with mem := m4, heap_listp := s1.heap_listp + 2 * WSIZE,
                        free_listp := 0, rover := 0 }
    let e := extend_heap (CHUNKSIZE / WSIZE) s2
    if e.1 = 0 then (-1, e.2) else (0, e.2)

/-- The adjusted block size computed at the head of `mm_malloc`. -/
def adjust (size : Nat) : Nat :=
  if size ≤ DSIZE then 2 * DSIZE
  else (DSIZE * (((size + DSIZE + (DSIZE - 1)) % TWO32) / DSIZE)) % TWO32

def mm_malloc (size : Nat) (s : State) : Option (Nat × State) :=
  let s0 := if s.heap_listp = 0 then (mm_init s).2 else s
  if size = 0 then some (0, s0)
  else
    let asize := adjust size
    match find_fit asize s0 with
    | none => none
    | some (bp, s1) =>
      if bp ≠ 0 then some (bp, place bp asize s1)
      else
        let extendsize := MAX asize CHUNKSIZE
        let e := extend_heap (extendsize / WSIZE) s1
        if e.1 = 0 then some (0, e.2)
        else some (e.1, place e.1 asize e.2)

def mm_free (bp : Nat) (s : State) : State :=
  if bp = 0 then s
  else
    let size := GET_SIZE s.mem (HDRP bp)
    let s0 := if s.heap_listp = 0 then (mm_init s).2 else s
    let m1 := PUT s0.mem (HDRP bp) (PACK size 0)
    let m2 := PUT m1 (FTRP m1 bp) (PACK size 0)
    let m3 := PUT_PREV m2 bp 0
    let m4 := PUT_SUCC m3 bp 0
    let c := coalesce bp { s0 with mem := m4 }
    headinsert c.1 c.2

/-- The library `memcpy(dst, src, n)` on the byte map (the two ranges do not overlap
wherever `mm_realloc` calls it). -/
def memcpy (m : Mem) (dst src n : Nat) : Mem := fun x =>
  if dst ≤ x ∧ x < dst + n then m (src + (x - dst)) else m x

def mm_realloc (ptr newsize : Nat) (s : State) : Option (Nat × State) :=
  if newsize = 0 then some (0, mm_free ptr s)
  else if ptr = 0 then mm_malloc newsize s
  else
    match mm_malloc newsize s with
    | none => none
    | some (newptr, s1) =>
      if newptr = 0 then some (0, s1)
      else
        let oldsize := GET_SIZE s1.mem (HDRP ptr)
        let oldsize := if newsize < oldsize then newsize else oldsize
        let m1 := memcpy s1.mem newptr ptr oldsize
        some (newptr, mm_free ptr { s1 with mem := m1 })

/-- The tag word of a block of size `sz` with allocated bit `al`. -/
def tagOf (sz : Nat) (al : Bool) : Nat := sz + al.toNat

/-- One block of the arena as the physical walk sees it: payload address, total size
and allocated bit. -/
structure Blk where
  bp : Nat
  sz : Nat
  al : Bool
  deriving DecidableEq, Repr

/-- The blocks of `bs` tile the address range from payload address `s` to payload
address `e`, each with a size that is a multiple of 8 and at least 16. -/
def Contig : Nat → List Blk → Nat → Prop
  | s, [], e => s = e
  | s, b :: bs, e => b.bp = s ∧ 16 ≤ b.sz ∧ 8 ∣ b.sz ∧ Contig (s + b.sz) bs e

/-- The free index rooted at `head` is the list `L`: its nodes are distinct, non-null,
8-aligned 32-bit addresses, each successor field holds the next node (null at the
tail) and each predecessor field the previous node (null at the head). -/
def FList (m : Mem) (head : Nat) (L : List Nat) : Prop :=
  head = L.getD 0 0 ∧ L.Nodup ∧ (∀ x ∈ L, x ≠ 0 ∧ 8 ∣ x ∧ x < 4294967296) ∧
  ∀ i, i < L.length →
    GET m (L.getD i 0) = L.getD (i + 1) 0 ∧
    GET m (L.getD i 0 + 4) = (if i = 0 then 0 else L.getD (i - 1) 0)

/-- The memory `removeblock` leaves behind, given the node `b`, its predecessor
field `P` and its successor field `S`. -/
def rbMem (m : Mem) (b P S : Nat) : Mem :=
  if S ≠ 0 then
    PUT (if P ≠ 0 then PUT (PUT (PUT m (b + 4) 0) b 0) P S
         else PUT (PUT m (b + 4) 0) b 0) (S + 4) P
  else (if P ≠ 0 then PUT (PUT (PUT m (b + 4) 0) b 0) P S
        else PUT (PUT m (b + 4) 0) b 0)

/-- Header and footer of block `b` both hold its tag. -/
def Tagged (m : Mem) (b : Blk) : Prop :=
  GET m (b.bp - 4) = tagOf b.sz b.al ∧ GET m (b.bp + b.sz - 8) = tagOf b.sz b.al

/-- The arena of state `s` is the prologue, the blocks `bs` in address order, and the
epilogue header in the last word below the break. -/
structure Heap (s : State) (bs : List Blk) : Prop where
  hl8 : 8 ∣ s.heap_listp
  hlpos : 8 ≤ s.heap_listp
  pro_h : GET s.mem (s.heap_listp - 4) = 9
  pro_f : GET s.mem s.heap_listp = 9
  contig : Contig (s.heap_listp + 8) bs s.mem_brk
  epi : GET s.mem (s.mem_brk - 4) = 1
  tags : ∀ b ∈ bs, Tagged s.mem b
  lim : s.mem_brk ≤ s.mem_max_addr ∧ s.mem_max_addr < 4294967296

/-- No two neighbours in the list are both free. -/
def NoAdj (bs : List Blk) : Prop := List.Chain' (fun a b => a.al = true ∨ b.al = true) bs

/-- The last block of the list, if any, is allocated. -/
def lastAlloc (pre : List Blk) : Prop := ∀ p ∈ pre.getLast?, p.al = true

/-- The first block of the list, if any, is allocated. -/
def headAlloc (post : List Blk) : Prop := ∀ n ∈ post.head?, n.al = true

/-- The transient state around `coalesce`: the heap is `pre ++ b :: post`, the block
`b` is marked free with null link fields but is not in the free index `L`, which
holds exactly the other free blocks; `pre` and `post` have no adjacent free pair. -/
structure Mid (s : State) (pre : List Blk) (b : Blk) (post : List Blk) (L : List Nat) :
    Prop where
  heap : Heap s (pre ++ b :: post)
  bfree : b.al = false
  fl : FList s.mem s.free_listp L
  l0 : GET s.mem b.bp = 0
  l4 : GET s.mem (b.bp + 4) = 0
  idx : ∀ x, x ∈ L ↔ ∃ c, (c ∈ pre ∨ c ∈ post) ∧ c.bp = x ∧ c.al = false
  na_pre : NoAdj pre
  na_post : NoAdj post

/-- Writing the free tag of size `sz` at the header and then at the footer of the
region starting at `st`. -/
def retagHF (m : Mem) (st sz : Nat) : Mem :=
  PUT (PUT m (st - 4) (tagOf sz false)) (st + sz - 8) (tagOf sz false)

/-- Writing the free tag of size `sz` at the footer and then at the header of the
region starting at `st`. -/
def retagFH (m : Mem) (st sz : Nat) : Mem :=
  PUT (PUT m (st + sz - 8) (tagOf sz false)) (st - 4) (tagOf sz false)

/-- The part of `coalesce` before the cursor adjustment. -/
def coalCore (bp : Nat) (s : State) : Nat × State :=
  let prev_alloc := GET_ALLOC s.mem (FTRP s.mem (PREV_BLKP s.mem bp))
  let next_alloc := GET_ALLOC s.mem (HDRP (NEXT_BLKP s.mem bp))
  let size := GET_SIZE s.mem (HDRP bp)
  if prev_alloc ≠ 0 ∧ next_alloc ≠ 0 then (bp, s)
  else if prev_alloc ≠ 0 ∧ next_alloc = 0 then
    let s1 := removeblock (NEXT_BLKP s.mem bp) s
    let size := (size + GET_SIZE s1.mem (HDRP (NEXT_BLKP s1.mem bp))) % TWO32
    let m2 := PUT s1.mem (HDRP bp) (PACK size 0)
    let m3 := PUT m2 (FTRP m2 bp) (PACK size 0)
    (bp, { s1 with mem := m3 })
  else if prev_alloc = 0 ∧ next_alloc ≠ 0 then
    let s1 := removeblock (PREV_BLKP s.mem bp) s
    let size := (size + GET_SIZE s1.mem (HDRP (PREV_BLKP s1.mem bp))) % TWO32
    let m2 := PUT s1.mem (FTRP s1.mem bp) (PACK size 0)
    let m3 := PUT m2 (HDRP (PREV_BLKP m2 bp)) (PACK size 0)
    (PREV_BLKP m3 bp, { s1 with mem := m3 })
  else
    let s1 := removeblock (PREV_BLKP s.mem bp) s
    let s2 := removeblock (NEXT_BLKP s1.mem bp) s1
    let size := (size + (GET_SIZE s2.mem (HDRP (PREV_BLKP s2.mem bp))
      + GET_SIZE s2.mem (FTRP s2.mem (NEXT_BLKP s2.mem bp))) % TWO32) % TWO32
    let m3 := PUT s2.mem (HDRP (PREV_BLKP s2.mem bp)) (PACK size 0)
    let m4 := PUT m3 (FTRP m3 (NEXT_BLKP m3 bp)) (PACK size 0)
    (PREV_BLKP m4 bp, { s2 with mem := m4 })

/-- The cursor adjustment that ends `coalesce`. -/
def roverFix (r : Nat × State) : Nat × State :=
  if r.2.rover > r.1 ∧ r.2.rover < NEXT_BLKP r.2.mem r.1 then
    (r.1, { r.2 with rover := r.1 })
  else r

/-- What `coalesce` establishes, relative to the transient state it started from. -/
structure CoalOut (s : State) (pre : List Blk) (b : Blk) (post : List Blk) (L : List Nat)
    (r : Nat × State) (pre' : List Blk) (b' : Blk) (post' : List Blk) (L' : List Nat) :
    Prop where
  ret : r.1 = b'.bp
  mid : Mid r.2 pre' b' post' L'
  la : lastAlloc pre'
  ha : headAlloc post'
  brk : r.2.mem_brk = s.mem_brk
  max : r.2.mem_max_addr = s.mem_max_addr
  hl : r.2.heap_listp = s.heap_listp
  sub : ∀ c, (c ∈ pre' ∨ c ∈ post') → (c ∈ pre ∨ c ∈ post)
  keep : ∀ c, c.al = true → (c ∈ pre ∨ c ∈ post) → (c ∈ pre' ∨ c ∈ post')
  lsub : ∀ x ∈ L', x ∈ L
  lin : ∀ x ∈ L, x ∈ L' ∨ (b'.bp ≤ x ∧ x < b'.bp + b'.sz)
  lo : b'.bp ≤ b.bp
  hi : b.bp + b.sz ≤ b'.bp + b'.sz
  same_pre : lastAlloc pre → b'.bp = b.bp ∧ pre' = pre
  last : post = [] → post' = []
  frame : ∀ a, (∀ y ∈ L, a < y ∨ y + 8 ≤ a) → (a < b'.bp - 4 ∨ b'.bp + b'.sz - 4 ≤ a) →
    r.2.mem a = s.mem a

/-- The body of case 2 of `coalesce`, after the successor was unlinked (state `s1`). -/
def coal2 (bp : Nat) (s s1 : State) : Nat × State :=
  let size := (GET_SIZE s.mem (HDRP bp) + GET_SIZE s1.mem (HDRP (NEXT_BLKP s1.mem bp))) % TWO32
  let m2 := PUT s1.mem (HDRP bp) (PACK size 0)
  let m3 := PUT m2 (FTRP m2 bp) (PACK size 0)
  (bp, { s1 with mem := m3 })

/-- The body of case 3 of `coalesce`, after the predecessor was unlinked (state `s1`). -/
def coal3 (bp : Nat) (s s1 : State) : Nat × State :=
  let size := (GET_SIZE s.mem (HDRP bp) + GET_SIZE s1.mem (HDRP (PREV_BLKP s1.mem bp))) % TWO32
  let m2 := PUT s1.mem (FTRP s1.mem bp) (PACK size 0)
  let m3 := PUT m2 (HDRP (PREV_BLKP m2 bp)) (PACK size 0)
  (PREV_BLKP m3 bp, { s1 with mem := m3 })

/-- The body of case 4 of `coalesce`, after both neighbours were unlinked (state `s2`). -/
def coal4 (bp : Nat) (s s2 : State) : Nat × State :=
  let size := (GET_SIZE s.mem (HDRP bp) + (GET_SIZE s2.mem (HDRP (PREV_BLKP s2.mem bp))
    + GET_SIZE s2.mem (FTRP s2.mem (NEXT_BLKP s2.mem bp))) % TWO32) % TWO32
  let m3 := PUT s2.mem (HDRP (PREV_BLKP s2.mem bp)) (PACK size 0)
  let m4 := PUT m3 (FTRP m3 (NEXT_BLKP m3 bp)) (PACK size 0)
  (PREV_BLKP m4 bp, { s2 with mem := m4 })

/-- The invariant of the allocator between two calls: the arena is the tagged block
sequence `bs` without adjacent free blocks, the free index is the list `L` of exactly
the free blocks, and the scan cursor is null or a member of the index. -/
structure Inv (s : State) (bs : List Blk) (L : List Nat) : Prop where
  heap : Heap s bs
  fl : FList s.mem s.free_listp L
  idx : ∀ x, x ∈ L ↔ ∃ c ∈ bs, c.bp = x ∧ c.al = false
  noadj : NoAdj bs
  rov : s.rover = 0 ∨ s.rover ∈ L

/-- The memory after `mm_free` marked the block free and nulled its link fields. -/
def freeMem (m : Mem) (p sz : Nat) : Mem :=
  PUT (PUT (retagHF m p sz) (p + 4) 0) p 0

/-- The memory after `place` split a block: allocated tags of size `asize` at `bp`, free
tags of size `rest` and null links for the remainder. -/
def placeMemS (m : Mem) (bp asize rest : Nat) : Mem :=
  PUT (PUT (PUT (PUT (PUT (PUT m (bp - 4) (tagOf asize true)) (bp + asize - 8)
    (tagOf asize true)) (bp + asize - 4) (tagOf rest false)) (bp + asize + rest - 8)
    (tagOf rest false)) (bp + asize) 0) (bp + asize + 4) 0

/-- The memory after `place` took a whole block: allocated tags of size `csize`. -/
def placeMemW (m : Mem) (bp csize : Nat) : Mem :=
  PUT (PUT m (bp - 4) (tagOf csize true)) (bp + csize - 8) (tagOf csize true)

/-- The block sequence after `place bp asize` on a free block of size `csize`. -/
def placeBs (pre post : List Blk) (bp csize asize : Nat) : List Blk :=
  if 16 ≤ csize - asize then
    pre ++ ⟨bp, asize, true⟩ :: ⟨bp + asize, csize - asize, false⟩ :: post
  else pre ++ ⟨bp, csize, true⟩ :: post

/-- The free index after `place bp asize` on a free block of size `csize`. -/
def placeL (L : List Nat) (bp csize asize : Nat) : List Nat :=
  if 16 ≤ csize - asize then (bp + asize) :: L.erase bp else L.erase bp

/-- The block at `x` is large enough for `asize`. -/
def Fits (m : Mem) (asize x : Nat) : Prop := asize ≤ GET_SIZE m (HDRP x)

instance (m : Mem) (asize x : Nat) : Decidable (Fits m asize x) := by
  unfold Fits; infer_instance

/-- The memory after `extend_heap` laid a free block of `size` bytes over the old
epilogue at `bp` and wrote the new epilogue. -/
def growMem (m : Mem) (bp size : Nat) : Mem :=
  PUT (PUT (PUT (PUT (PUT m (bp - 4) (tagOf size false)) (bp + size - 8) (tagOf size false))
    (bp + size - 4) 1) (bp + 4) 0) bp 0

/-- The state `extend_heap` hands to `coalesce`. -/
def growState (s : State) (words : Nat) : State :=
  { s with mem := growMem s.mem s.mem_brk (words * 4), mem_brk := s.mem_brk + words * 4 }

/-- The assumption on the memory system before `mm_init`: the first region starts at an
8-byte-aligned address and every address fits in 32 bits. -/
def Boot (s : State) : Prop := 8 ∣ s.mem_brk ∧ s.mem_max_addr < 4294967296

/-- The memory after `mm_init` wrote the padding word, the prologue and the epilogue
at the old break `p`. -/
def initMem (m : Mem) (p : Nat) : Mem :=
  PUT (PUT (PUT (PUT m p 0) (p + 4) 9) (p + 8) 9) (p + 12) 1

/-- The state `mm_init` hands to `extend_heap`: an arena of prologue and epilogue only,
with an empty free index and a null cursor. -/
def initState (s : State) : State :=
  { mem := initMem s.mem s.mem_brk, mem_brk := s.mem_brk + 16,
    mem_max_addr := s.mem_max_addr, heap_listp := s.mem_brk + 8, free_listp := 0, rover := 0 }

/-- What a call `mm_malloc n` that returned `r` in state `s'` establishes. -/
structure MallocOut (s : State) (bs : List Blk) (L : List Nat) (n r : Nat) (s' : State)
    (bs' : List Blk) (L' : List Nat) : Prop where
  inv : Inv s' bs' L'
  max : s'.mem_max_addr = s.mem_max_addr
  hl : s'.heap_listp = s.heap_listp
  brk : s.mem_brk ≤ s'.mem_brk
  keep : ∀ c ∈ bs, c.al = true → c ∈ bs'
  frame : ∀ c ∈ bs, c.al = true → ∀ a, c.bp ≤ a + 4 → a + 4 < c.bp + c.sz → s'.mem a = s.mem a
  only : ∀ c ∈ bs', c.al = true → c ∈ bs ∨ c.bp = r
  got : r ≠ 0 → ∃ pre1 sz post1, bs' = pre1 ++ ⟨r, sz, true⟩ :: post1 ∧ lastAlloc pre1 ∧
    adjust n ≤ sz ∧ (∀ c ∈ bs, c.al = true → c.bp ≠ r)
  null : r = 0 → s'.mem = s.mem ∧ s'.mem_brk = s.mem_brk ∧ s'.free_listp = s.free_listp ∧
    bs' = bs ∧ L' = L

/-- The physical walk of the arena from payload address `bp`: read the header, stop
at a zero size (the epilogue), otherwise record the block and step by its size. -/
def heapWalk (m : Mem) : Nat → Nat → List Blk
  | 0, _ => []
  | fuel + 1, bp =>
    if GET_SIZE m (HDRP bp) = 0 then []
    else ⟨bp, GET_SIZE m (HDRP bp), decide (GET_ALLOC m (HDRP bp) ≠ 0)⟩ ::
      heapWalk m fuel (NEXT_BLKP m bp)

/-- The payload address at which the physical walk meets a zero-size header, if it
does within the fuel. -/
def walkEnd (m : Mem) : Nat → Nat → Option Nat
  | 0, _ => none
  | fuel + 1, bp =>
    if GET_SIZE m (HDRP bp) = 0 then some bp else walkEnd m fuel (NEXT_BLKP m bp)

/-- The blocks between the prologue and the epilogue. -/
def blocks (s : State) : List Blk :=
  heapWalk s.mem s.mem_brk (NEXT_BLKP s.mem s.heap_listp)

/-- The end of the physical walk that starts after the prologue. -/
def arenaEnd (s : State) : Option Nat :=
  walkEnd s.mem s.mem_brk (NEXT_BLKP s.mem s.heap_listp)

/-- The walk of the free index from `p` along the successor fields; `none` when it
does not reach null within the fuel. -/
def freeWalk (m : Mem) : Nat → Nat → Option (List Nat)
  | 0, _ => none
  | fuel + 1, p =>
    if p = 0 then some [] else (freeWalk m fuel (GET_SUCC m p)).map (fun l => p :: l)

/-- The free index of a state, read from `free_listp`. -/
def freeList (s : State) : Option (List Nat) := freeWalk s.mem (s.mem_brk + 1) s.free_listp

/-- The address `p` is the payload address of a block that the physical walk shows as
allocated. -/
def Allocated (s : State) (p : Nat) : Prop := ∃ b ∈ blocks s, b.bp = p ∧ b.al = true

/-- The byte address `a` lies in the payload of an allocated block. -/
def InPayload (s : State) (a : Nat) : Prop :=
  ∃ b ∈ blocks s, b.al = true ∧ b.bp ≤ a ∧ a + 8 < b.bp + b.sz

/-- The user stores the byte `v` at address `a`. -/
def store (a v : Nat) (s : State) : State :=
  { s with mem := fun x => if x = a then v else s.mem x }

/-- The states reachable from a successful `mm_init` by allocate, free and resize
calls under valid use, interleaved with user stores into allocated payload.  Valid
use: `mm_free` and `mm_realloc` receive null or a currently allocated block, and the
requested size is one for which the size adjustment does not wrap (`n + 15 < 2^32`). -/
inductive Reach : State → Prop
  | init (s0 : State) : Boot s0 → (mm_init s0).1 = 0 → Reach (mm_init s0).2
  | malloc (s : State) (n r : Nat) (s' : State) : Reach s → n + 15 < 4294967296 →
      mm_malloc n s = some (r, s') → Reach s'
  | free (s : State) (p : Nat) : Reach s → (p = 0 ∨ Allocated s p) → Reach (mm_free p s)
  | realloc (s : State) (p n r : Nat) (s' : State) : Reach s → (p = 0 ∨ Allocated s p) →
      n + 15 < 4294967296 → mm_realloc p n s = some (r, s') → Reach s'
  | store (s : State) (a v : Nat) : Reach s → InPayload s a → Reach (store a v s)

/-- The adjusted size in the words of the specification, in exact integers: 16 for a
request of at most 8 bytes, otherwise `n + 8` rounded up to a multiple of 8. -/
def adjustSpec (n : Nat) : Nat := if n ≤ 8 then 16 else 8 * ((n + 8 + 7) / 8)

/-- A boot state for worked examples: an empty arena at address 1000 that may grow up
to address 100000. -/
def demo0 : State :=
  { mem := fun _ => 0, mem_brk := 1000, mem_max_addr := 100000, heap_listp := 0,
    free_listp := 0, rover := 0 }

/-- The result of `mm_malloc n` on `s`, with the null result on the same state when the
model runs out of fuel. -/
def stepMalloc (n : Nat) (s : State) : Nat × State := (mm_malloc n s).getD (0, s)

/-- The result of `mm_realloc p n` on `s`, with the null result on the same state when
the model runs out of fuel. -/
def stepRealloc (p n : Nat) (s : State) : Nat × State := (mm_realloc p n s).getD (0, s)

/-- The state left by `mm_init` on `demo0`. -/
def demo1 : State := (mm_init demo0).2

/-- The state after `mm_malloc 100` on `demo1`. -/
def demo2 : State := (stepMalloc 100 demo1).2

/-- The state after init, `a = mm_malloc 100`, `mm_malloc 100` and `mm_free a`. -/
def demoA : State := mm_free 1016 (stepMalloc 100 demo2).2

/-- The state after init, `a = mm_malloc 2000`, `mm_malloc 2000`, `mm_free a` and
`mm_malloc 100`: the cursor stands on the last block of the free index. -/
def demoW : State :=
  (stepMalloc 100 (mm_free 1016 (stepMalloc 2000 (stepMalloc 2000 demo1).2).2)).2

/-- A boot state whose arena cannot grow beyond the first extension. -/
def tiny0 : State :=
  { mem := fun _ => 0, mem_brk := 1000, mem_max_addr := 5112, heap_listp := 0,
    free_listp := 0, rover := 0 }

/-- The state left by `mm_init` on `tiny0`. -/
def tiny1 : State := (mm_init tiny0).2

/-- The state after `mm_malloc 100` on `tiny1`: the block at 1016 is allocated, one free
block of 3984 bytes remains and the arena cannot grow. -/
def tiny2 : State := (stepMalloc 100 tiny1).2

/-- The state `demo2` after the user stored the bytes 205 and 171 at the start of the
payload of the allocated block at 1016. -/
def demoS : State := store 1017 171 (store 1016 205 demo2)

/-- The free-index operation `insert_front` in the words of the specification: the
block becomes the new head of the sequence. -/
def insert_front (b : Nat) (L : List Nat) : List Nat := b :: L

/-- The free-index operation `remove` in the words of the specification: the sequence
without the block, the other members in their original order. -/
def remove (b : Nat) (L : List Nat) : List Nat := L.erase b

/-- The shape of the merge that `coalesce` performs around `b` in `pre ++ b :: post`
with index `L`: which neighbours are absorbed into the surviving block `b'` and
unlinked from the index. -/
def MergeShape (pre : List Blk) (b : Blk) (post : List Blk) (L : List Nat)
    (pre' : List Blk) (b' : Blk) (post' : List Blk) (L' : List Nat) : Prop :=
  (lastAlloc pre ∧ headAlloc post ∧ pre' = pre ∧ b' = b ∧ post' = post ∧ L' = L) ∨
  (lastAlloc pre ∧ ∃ n : Blk, n.al = false ∧ post = n :: post' ∧ pre' = pre ∧
    b' = ⟨b.bp, b.sz + n.sz, false⟩ ∧ L' = L.erase n.bp) ∨
  (headAlloc post ∧ ∃ p : Blk, p.al = false ∧ pre = pre' ++ [p] ∧ post' = post ∧
    b' = ⟨p.bp, p.sz + b.sz, false⟩ ∧ L' = L.erase p.bp) ∨
  (∃ p n : Blk, p.al = false ∧ n.al = false ∧ pre = pre' ++ [p] ∧ post = n :: post' ∧
    b' = ⟨p.bp, p.sz + b.sz + n.sz, false⟩ ∧ L' = (L.erase p.bp).erase n.bp)

/-- The state with the scan cursor reset to null: what remains is the arena and the
free index. -/
def noRov (s : State) : State := { s with rover := 0 }

/-- The store `*(void **)(a) = val` when a pointer is `p` bytes wide (little-endian). -/
def PUTP (p : Nat) (m : Mem) (a val : Nat) : Mem := fun x =>
  if a ≤ x ∧ x < a + p then val / 256 ^ (x - a) % 256 else m x

/-- The macro `PUT_SUCC(bp, val)` with pointers of `p` bytes: a store at
`(void **)(bp)`. -/
def PUT_SUCCp (p : Nat) (m : Mem) (bp val : Nat) : Mem := PUTP p m bp val

/-- The macro `PUT_PREV(bp, val)` with pointers of `p` bytes: a store at
`(void **)(bp) + 1`, that is at byte offset `p`. -/
def PUT_PREVp (p : Nat) (m : Mem) (bp val : Nat) : Mem := PUTP p m (bp + p) val

/-- The bytes `[lo, hi)` of the successor field of the block at `bp`. -/
def succField (p bp : Nat) : Nat × Nat := (bp, bp + p)

/-- The bytes `[lo, hi)` of the predecessor field of the block at `bp`. -/
def prevField (p bp : Nat) : Nat × Nat := (bp + p, bp + p + p)

/-- The bytes of the header word `HDRP(bp)`. -/
def hdrWord (bp : Nat) : Nat × Nat := (HDRP bp, HDRP bp + WSIZE)

/-- The bytes of the footer word `FTRP(bp)` of a block of `size` bytes. -/
def ftrWord (bp size : Nat) : Nat × Nat := (bp + size - DSIZE, bp + size - DSIZE + WSIZE)

/-- The payload bytes of a block of `size` bytes: from `bp` up to the footer. -/
def payloadOf (bp size : Nat) : Nat × Nat := (bp, bp + size - DSIZE)

/-- Two half-open byte ranges share a byte. -/
def Overlaps (r q : Nat × Nat) : Prop := r.1 < q.2 ∧ q.1 < r.2

/-- The byte range `r` lies inside the byte range `q`. -/
def Within (r q : Nat × Nat) : Prop := q.1 ≤ r.1 ∧ r.2 ≤ q.2

instance (r q : Nat × Nat) : Decidable (Overlaps r q) := by
  unfold Overlaps; infer_instance

instance (r q : Nat × Nat) : Decidable (Within r q) := by
  unfold Within; infer_instance

/-- A memory holding a free block of the minimum size 16 at payload address 16
(header at 12, footer at 24), followed by the header of an allocated block of size 32
at 28. -/
def minBlockMem : Mem := PUT (PUT (PUT (fun _ => 0) 12 (PACK 16 0)) 24 (PACK 16 0)) 28 (PACK 32 1)

/-- The state `mm_free 1016` hands to `coalesce` from `demo2`: the block at 1016 is
marked free with null links, next to the free block at 1128. -/
def demoM : State := { demo2 with mem := freeMem demo2.mem 1016 112 }

end MM

/-!
# The smooth kernels of the performance lab

Source: `perflab/perflab-handout/kernels.c`.

Images are row-major buffers of pixels.  Loop counters and indices are C `int`s and
are modelled as integers; a read or write at an index outside the buffer fails, so a
kernel that returns a buffer has touched only indices inside it.  The source and the
destination buffer are distinct.  Channel sums are at most nine 16-bit values and are
modelled as natural numbers.  No index, limit or counter the kernels compute lies
outside `[-1, dim * dim + dim]`, so the integers of the model are the `int`s of the
source whenever `dim * dim + dim < 2^31`, that is for `dim ≤ 46340`.  For larger `dim`
the `int` arithmetic of the source overflows; the theorems about the kernels carry the
bound as a hypothesis and say nothing beyond it.
-/

namespace Perf

/-- Modelled from the spec: the `pixel` type of `defs.h`, which is not part of the
sources: three 16-bit unsigned channels. -/
structure pixel where
  red : Nat
  green : Nat
  blue : Nat
deriving DecidableEq, Repr

/-- Modelled from the spec: the macro `RIDX(i,j,n)` of `defs.h`, which is not part of
the sources: the row-major index `i*n + j`. -/
def RIDX (i j n : Int) : Int := i * n + j

/-- An image buffer. -/
abbrev Img := List pixel

/-- The read `buf[k]`; it fails outside the buffer. -/
def rd (buf : Img) (k : Int) : Option pixel :=
  if 0 ≤ k then buf[k.toNat]? else none

/-- The write `buf[k] = p`; it fails outside the buffer. -/
def wr (buf : Img) (k : Int) (p : pixel) : Option Img :=
  if 0 ≤ k ∧ k.toNat < buf.length then some (buf.set k.toNat p) else none

/-- The loop `for (i = i0; cond(i); i = next(i)) body`, run on a state that `body` may
fail to produce; `fuel` bounds the number of iterations. -/
def forLoop {σ : Type} (cond : Int → Bool) (next : Int → Int) (body : Int → σ → Option σ) :
    Nat → Int → σ → Option σ
  | 0, _, _ => none
  | fuel + 1, i, st =>
    if cond i then (body i st).bind (forLoop cond next body fuel (next i)) else some st

/-- The iteration bound given to every loop over a `dim × dim` image. -/
def fuelOf (dim : Int) : Nat := (dim * dim).toNat + 1

structure pixel_sum where
  red : Nat
  green : Nat
  blue : Nat
  num : Nat
deriving DecidableEq, Repr

def min (a b : Int) : Int := if a < b then a else b

def max (a b : Int) : Int := if a > b then a else b

def initialize_pixel_sum : pixel_sum := ⟨0, 0, 0, 0⟩

def accumulate_sum (sum : pixel_sum) (p : pixel) : pixel_sum :=
  ⟨sum.red + p.red, sum.green + p.green, sum.blue + p.blue, sum.num + 1⟩

/-- The conversion `(unsigned short) x`. -/
def toU16 (x : Nat) : Nat := x % 65536

def assign_sum_to_pixel (sum : pixel_sum) : pixel :=
  ⟨toU16 (sum.red / sum.num), toU16 (sum.green / sum.num), toU16 (sum.blue / sum.num)⟩

def avg (dim i j : Int) (src : Img) : Option pixel :=
  (forLoop (fun ii => decide (ii ≤ min (i + 1) (dim - 1))) (fun ii => ii + 1)
    (fun ii sum =>
      forLoop (fun jj => decide (jj ≤ min (j + 1) (dim - 1))) (fun jj => jj + 1)
        (fun jj sum => (rd src (RIDX ii jj dim)).map (accumulate_sum sum))
        (fuelOf dim) (max (j - 1) 0) sum)
    (fuelOf dim) (max (i - 1) 0) initialize_pixel_sum).map assign_sum_to_pixel

def naive_smooth (dim : Int) (src dst : Img) : Option Img :=
  forLoop (fun i => decide (i < dim)) (fun i => i + 1)
    (fun i dst =>
      forLoop (fun j => decide (j < dim)) (fun j => j + 1)
        (fun j dst => (avg dim i j src).bind (wr dst (RIDX i j dim)))
        (fuelOf dim) 0 dst)
    (fuelOf dim) 0 dst

/-- The expression `src[k1].c + src[k2].c + ...` for the channel `c`. -/
def sumAt (src : Img) (c : pixel → Nat) (ks : List Int) : Option Nat :=
  ks.foldlM (fun acc k => (rd src k).map (fun q => acc + c q)) 0

/-- The assignment `dst[k].red = v` of an `int` value to a 16-bit channel. -/
def wrRed (dst : Img) (k : Int) (v : Nat) : Option Img :=
  (rd dst k).bind (fun p => wr dst k { p with red := toU16 v })

def wrGreen (dst : Img) (k : Int) (v : Nat) : Option Img :=
  (rd dst k).bind (fun p => wr dst k { p with green := toU16 v })

def wrBlue (dst : Img) (k : Int) (v : Nat) : Option Img :=
  (rd dst k).bind (fun p => wr dst k { p with blue := toU16 v })

/-- The three statements `dst[curr].c = (src[k1].c + ... + src[kn].c) op` for the
channels red, green and blue, which read the same indices `ks`. -/
def assign3 (src dst : Img) (curr : Int) (ks : List Int) (op : Nat → Nat) : Option Img :=
  (sumAt src pixel.red ks).bind fun r =>
  (wrRed dst curr (op r)).bind fun dst =>
  (sumAt src pixel.green ks).bind fun g =>
  (wrGreen dst curr (op g)).bind fun dst =>
  (sumAt src pixel.blue ks).bind fun b =>
  wrBlue dst curr (op b)

def smooth (dim : Int) (src dst : Img) : Option Img :=
  (forLoop (fun i => decide (i < dim - 1)) (fun i => i + 1)
    (fun i dst =>
      forLoop (fun j => decide (j < dim - 1)) (fun j => j + 1)
        (fun j dst =>
          let curr := i * dim + j
          assign3 src dst curr
            [curr, curr - 1, curr + 1, curr - dim, curr - dim - 1, curr - dim + 1,
              curr + dim, curr + dim - 1, curr + dim + 1] (fun x => x / 9))
        (fuelOf dim) 1 dst)
    (fuelOf dim) 1 dst).bind fun dst =>
  let limit := dim - 1
  (forLoop (fun ii => decide (ii < limit)) (fun ii => ii + 1)
    (fun ii dst =>
      assign3 src dst ii [ii, ii - 1, ii + 1, ii + dim, ii + dim - 1, ii + dim + 1]
        (fun x => x / 6))
    (fuelOf dim) 1 dst).bind fun dst =>
  let limit := dim * dim - 1
  (forLoop (fun ii => decide (ii < limit)) (fun ii => ii + 1)
    (fun ii dst =>
      assign3 src dst ii [ii, ii - 1, ii + 1, ii - dim, ii - dim - 1, ii - dim + 1]
        (fun x => x / 6))
    (fuelOf dim) ((dim - 1) * dim + 1) dst).bind fun dst =>
  let limit := dim * (dim - 1)
  (forLoop (fun jj => decide (jj < limit)) (fun jj => jj + dim)
    (fun jj dst =>
      assign3 src dst jj [jj, jj + 1, jj - dim, jj - dim + 1, jj + dim, jj + dim + 1]
        (fun x => x / 6))
    (fuelOf dim) dim dst).bind fun dst =>
  (forLoop (fun jj => decide (jj < limit)) (fun jj => jj + dim)
    (fun jj dst =>
      assign3 src dst jj [jj, jj - 1, jj - dim, jj - dim - 1, jj + dim, jj + dim - 1]
        (fun x => x / 6))
    (fuelOf dim) (2 * dim - 1) dst).bind fun dst =>
  (assign3 src dst 0 [0, 1, dim, dim + 1] (fun x => x >>> 2)).bind fun dst =>
  let curr := dim - 1
  (assign3 src dst curr [curr, curr - 1, curr + dim - 1, curr + dim]
    (fun x => x >>> 2)).bind fun dst =>
  let curr := curr * dim
  (assign3 src dst curr [curr, curr + 1, curr - dim, curr - dim + 1]
    (fun x => x >>> 2)).bind fun dst =>
  let curr := curr + (dim - 1)
  assign3 src dst curr [curr, curr - 1, curr - dim, curr - dim - 1] (fun x => x >>> 2)

/-- The pixel at index `k` of a buffer (a zero pixel outside it). -/
def px (buf : Img) (k : Int) : pixel := buf.getD k.toNat ⟨0, 0, 0⟩

/-- The buffer `d'` has the length of `d`, holds `T k` at every index `k` of the set `S`
and agrees with `d` elsewhere. -/
def Upd (S : Int → Prop) (T : Int → pixel) (d d' : Img) : Prop :=
  d'.length = d.length ∧ (∀ k, S k → rd d' k = some (T k)) ∧ (∀ k, ¬ S k → rd d' k = rd d k)

/-- The pixel that `assign3` stores. -/
def pix3 (src : Img) (ks : List Int) (op : Nat → Nat) : pixel :=
  ⟨toU16 (op ((ks.map (fun k => (px src k).red)).sum)),
    toU16 (op ((ks.map (fun k => (px src k).green)).sum)),
    toU16 (op ((ks.map (fun k => (px src k).blue)).sum))⟩

/-- The in-bounds rows (or columns) adjacent to row `i` of a `dim × dim` image, in the
order in which `avg` visits them. -/
def rowsOf (dim i : Int) : List Int :=
  if i = 0 then [0, 1] else if i = dim - 1 then [i - 1, i] else [i - 1, i, i + 1]

/-- The sum record `avg` accumulates over the rows `rows` and columns `cols`. -/
def accAll (src : Img) (dim : Int) (rows cols : List Int) : pixel_sum :=
  rows.foldl (fun sum ii =>
    cols.foldl (fun sum jj => accumulate_sum sum (px src (RIDX ii jj dim))) sum)
    initialize_pixel_sum

/-- The pixel `avg(dim, i, j, src)` returns on an in-bounds position. -/
def avgval (src : Img) (dim i j : Int) : pixel :=
  assign_sum_to_pixel (accAll src dim (rowsOf dim i) (rowsOf dim j))

/-- The target pixel of every kernel at the flat index `k`. -/
def target (src : Img) (dim : Int) (k : Int) : pixel := avgval src dim (k / dim) (k % dim)

/-- The loop of `smooth` over the top edge. -/
def smoothTop (dim : Int) (src dst : Img) : Option Img :=
  forLoop (fun ii => decide (ii < dim - 1)) (fun ii => ii + 1)
    (fun ii dst =>
      assign3 src dst ii [ii, ii - 1, ii + 1, ii + dim, ii + dim - 1, ii + dim + 1]
        (fun x => x / 6))
    (fuelOf dim) 1 dst

/-- The loop of `smooth` over the bottom edge. -/
def smoothBottom (dim : Int) (src dst : Img) : Option Img :=
  forLoop (fun ii => decide (ii < dim * dim - 1)) (fun ii => ii + 1)
    (fun ii dst =>
      assign3 src dst ii [ii, ii - 1, ii + 1, ii - dim, ii - dim - 1, ii - dim + 1]
        (fun x => x / 6))
    (fuelOf dim) ((dim - 1) * dim + 1) dst

/-- The loop of `smooth` over the left edge. -/
def smoothLeft (dim : Int) (src dst : Img) : Option Img :=
  forLoop (fun jj => decide (jj < dim * (dim - 1))) (fun jj => jj + dim)
    (fun jj dst =>
      assign3 src dst jj [jj, jj + 1, jj - dim, jj - dim + 1, jj + dim, jj + dim + 1]
        (fun x => x / 6))
    (fuelOf dim) dim dst

/-- The loop of `smooth` over the right edge. -/
def smoothRight (dim : Int) (src dst : Img) : Option Img :=
  forLoop (fun jj => decide (jj < dim * (dim - 1))) (fun jj => jj + dim)
    (fun jj dst =>
      assign3 src dst jj [jj, jj - 1, jj - dim, jj - dim - 1, jj + dim, jj + dim - 1]
        (fun x => x / 6))
    (fuelOf dim) (2 * dim - 1) dst

/-- The doubly nested loop of `smooth` over the interior pixels. -/
def smoothInterior (dim : Int) (src dst : Img) : Option Img :=
  forLoop (fun i => decide (i < dim - 1)) (fun i => i + 1)
    (fun i dst =>
      forLoop (fun j => decide (j < dim - 1)) (fun j => j + 1)
        (fun j dst =>
          let curr := i * dim + j
          assign3 src dst curr
            [curr, curr - 1, curr + 1, curr - dim, curr - dim - 1, curr - dim + 1,
              curr + dim, curr + dim - 1, curr + dim + 1] (fun x => x / 9))
        (fuelOf dim) 1 dst)
    (fuelOf dim) 1 dst

/-- The rows (or columns) `i - 1, i, i + 1` that lie inside a `dim × dim` image. -/
def axis (dim i : Int) : List Int :=
  [i - 1, i, i + 1].filter (fun k => decide (0 ≤ k ∧ k < dim))

/-- The in-bounds positions of the 3×3 neighbourhood of `(i, j)`. -/
def nbhd (dim i j : Int) : List (Int × Int) :=
  (axis dim i).flatMap (fun ii => (axis dim j).map (fun jj => (ii, jj)))

/-- The smoothed pixel at `(i, j)` in the words of the claim: per channel, the integer
quotient of the sum over the in-bounds 3×3 neighbourhood by the number of in-bounds
neighbours. -/
def smoothSpec (src : Img) (dim i j : Int) : pixel :=
  ⟨(((nbhd dim i j).map (fun p => px src (RIDX p.1 p.2 dim))).map pixel.red).sum /
      (nbhd dim i j).length,
    (((nbhd dim i j).map (fun p => px src (RIDX p.1 p.2 dim))).map pixel.green).sum /
      (nbhd dim i j).length,
    (((nbhd dim i j).map (fun p => px src (RIDX p.1 p.2 dim))).map pixel.blue).sum /
      (nbhd dim i j).length⟩

/-- Every channel of every pixel of the buffer is a 16-bit value. -/
def Chan16 (src : Img) : Prop :=
  ∀ p ∈ src, p.red < 65536 ∧ p.green < 65536 ∧ p.blue < 65536

/-- A 2×2 source image for worked examples. -/
def demoSrc : Img := [⟨10, 20, 30⟩, ⟨50, 60, 70⟩, ⟨65535, 0, 1⟩, ⟨7, 65535, 300⟩]

/-- A 2×2 destination buffer for worked examples. -/
def demoDst : Img := [⟨0, 0, 0⟩, ⟨0, 0, 0⟩, ⟨0, 0, 0⟩, ⟨0, 0, 0⟩]

/-- A 4×4 source image for worked examples, with four interior pixels and two pixels
on each edge. -/
def gridSrc : Img :=
  [⟨10, 20, 30⟩, ⟨50, 60, 70⟩, ⟨65535, 0, 1⟩, ⟨7, 65535, 300⟩,
    ⟨1, 2, 3⟩, ⟨400, 500, 600⟩, ⟨65535, 65535, 65535⟩, ⟨0, 0, 0⟩,
    ⟨9, 8, 7⟩, ⟨1000, 2000, 3000⟩, ⟨123, 456, 789⟩, ⟨65535, 1, 65535⟩,
    ⟨5, 5, 5⟩, ⟨60000, 50000, 40000⟩, ⟨11, 22, 33⟩, ⟨44, 55, 66⟩]

/-- A 4×4 destination buffer for worked examples. -/
def gridDst : Img := List.replicate 16 ⟨0, 0, 0⟩

/-- The smoothed `gridSrc`. -/
def gridOut : Img :=
  [⟨115, 145, 175⟩, ⟨21921, 11019, 11039⟩, ⟨21921, 21938, 11084⟩, ⟨32769, 32767, 16459⟩,
    ⟨245, 431, 618⟩, ⟨14740, 7620, 7781⟩, ⟨22020, 14898, 15092⟩, ⟨32789, 21921, 22026⟩,
    ⟨10235, 8752, 7269⟩, ⟨14120, 13169, 12219⟩, ⟨21405, 13174, 19506⟩,
    ⟨21874, 11011, 21993⟩,
    ⟨15253, 13003, 10753⟩, ⟨10191, 8748, 7305⟩, ⟨21118, 8755, 18237⟩, ⟨16428, 133, 16605⟩]

/-! ## The rotate kernels

`naive_rotate`, `rotate1` and `rotate` of `kernels.c` only copy pixels from `src` to
`dst`.  Each is embedded over a destination buffer that carries a trace of the indices
written so far; the trace is ghost state which no kernel reads, kept to state how often
an index is written.  A read or a write outside its buffer makes the kernel fail.
Every index the kernels compute lies in `[0, dim * dim)` and every counter value in
`[0, dim + 3]`, so under the bound `dim * dim + dim < 2^31` of the theorems no `int`
computation of the source overflows. -/

/-- A destination buffer together with the trace of the indices written to it, the most
recent first. -/
abbrev Traced := Img × List Int

/-- The write `dst[k] = p` on a traced buffer; it fails outside the buffer. -/
def wrT (d : Traced) (k : Int) (p : pixel) : Option Traced :=
  (wr d.1 k p).map (fun im => (im, k :: d.2))

/-- The statement `dst[k] = src[s]`. -/
def copyPx (src : Img) (d : Traced) (k s : Int) : Option Traced :=
  (rd src s).bind (wrT d k)

/-- The loop `for (i = i0; cond(i); i = next(i)) body` that also returns the value of
the counter at exit, for a loop whose counter is used afterwards. -/
def forLoopC {σ : Type} (cond : Int → Bool) (next : Int → Int) (body : Int → σ → Option σ) :
    Nat → Int → σ → Option (Int × σ)
  | 0, _, _ => none
  | fuel + 1, i, st =>
    if cond i then (body i st).bind (forLoopC cond next body fuel (next i)) else some (i, st)

/-- The baseline kernel: `dst[RIDX(dim-1-j, i, dim)] = src[RIDX(i, j, dim)]` for `i`, then
`j`, in `[0, dim)`. -/
def naive_rotate (dim : Int) (src : Img) (dst : Traced) : Option Traced :=
  forLoop (fun i => decide (i < dim)) (fun i => i + 1)
    (fun i dst =>
      forLoop (fun j => decide (j < dim)) (fun j => j + 1)
        (fun j dst => copyPx src dst (RIDX (dim - 1 - j) i dim) (RIDX i j dim))
        (fuelOf dim) 0 dst)
    (fuelOf dim) 0 dst

/-- The kernel `rotate1`: the loops of the baseline exchanged, with the row offset
`a = (dim-1-j)*dim` computed once per column. -/
def rotate1 (dim : Int) (src : Img) (dst : Traced) : Option Traced :=
  forLoop (fun j => decide (j < dim)) (fun j => j + 1)
    (fun j dst =>
      let a := (dim - 1 - j) * dim
      forLoop (fun i => decide (i < dim)) (fun i => i + 1)
        (fun i dst => copyPx src dst (a + i) (i * dim + j))
        (fuelOf dim) 0 dst)
    (fuelOf dim) 0 dst

/-- The kernel `rotate`: `rotate1` with the column loop unrolled four times, followed by
a loop over the columns that remain, which starts at the exit value of `j`. -/
def rotate (dim : Int) (src : Img) (dst : Traced) : Option Traced :=
  (forLoopC (fun j => decide (j + 3 < dim)) (fun j => j + 4)
    (fun j dst =>
      let a := (dim - 1 - j) * dim
      forLoop (fun i => decide (i < dim)) (fun i => i + 1)
        (fun i dst =>
          (copyPx src dst (a + i) (i * dim + j)).bind fun dst =>
          (copyPx src dst (a + i - dim) (i * dim + j + 1)).bind fun dst =>
          (copyPx src dst (a + i - 2 * dim) (i * dim + j + 2)).bind fun dst =>
          copyPx src dst (a + i - 3 * dim) (i * dim + j + 3))
        (fuelOf dim) 0 dst)
    (fuelOf dim) 0 dst).bind fun r =>
  forLoop (fun j => decide (j < dim)) (fun j => j + 1)
    (fun j dst =>
      let a := (dim - 1 - j) * dim
      forLoop (fun i => decide (i < dim)) (fun i => i + 1)
        (fun i dst => copyPx src dst (a + i) (i * dim + j))
        (fuelOf dim) 0 dst)
    (fuelOf dim) r.1 r.2

/-- The rotated image, as specified:
`dst[(dim-1-j)*dim + i] = src[i*dim + j]` for all `0 ≤ i, j < dim`, both pixels lying
inside their buffers. -/
def Rotated (dim : Int) (src out : Img) : Prop :=
  ∀ i j : Int, 0 ≤ i → i < dim → 0 ≤ j → j < dim →
    ∃ p, rd src (i * dim + j) = some p ∧ rd out ((dim - 1 - j) * dim + i) = some p

/-- Every index of `[0, n)` occurs exactly once in the trace, and nothing else. -/
def OncEach (n : Int) (log : List Int) : Prop :=
  log.Nodup ∧ ∀ k, k ∈ log ↔ 0 ≤ k ∧ k < n

/-- A 5×5 source image for worked examples: pixel `k` has the channels `k`, `2k`, `3k`. -/
def rotSrc : Img := (List.range 25).map (fun k => ⟨k, 2 * k, 3 * k⟩)

/-- A 5×5 destination buffer for worked examples. -/
def rotDst : Img := List.replicate 25 ⟨0, 0, 0⟩

/-- The traced buffer `d'` extends `d`: its image holds `T k` at every index of the set
`S` and agrees with `d` elsewhere, and its trace is that of `d` preceded by `c` new
entries, which are exactly the indices of `S`. -/
def UpdT (S : Int → Prop) (T : Int → pixel) (c : Nat) (d d' : Traced) : Prop :=
  Upd S T d.1 d'.1 ∧
  ∃ new : List Int, d'.2 = new ++ d.2 ∧ new.length = c ∧ ∀ k, k ∈ new ↔ S k

/-- The pixel a rotate kernel stores at the flat destination index `k`. -/
def rotTarget (src : Img) (dim : Int) (k : Int) : pixel :=
  px src ((k % dim) * dim + (dim - 1 - k / dim))

/-- The destination indices of the source column `j`: row `dim - 1 - j` of the
destination. -/
def ColSet (dim j x : Int) : Prop :=
  ∃ i, 0 ≤ i ∧ i < dim ∧ x = (dim - 1 - j) * dim + i

/-- The destination indices of the source row `i`: column `i` of the destination. -/
def RowSet (dim i x : Int) : Prop :=
  ∃ j, 0 ≤ j ∧ j < dim ∧ x = (dim - 1 - j) * dim + i

/-- The destination indices of the four source columns `j .. j + 3`. -/
def QuadSet (dim j x : Int) : Prop :=
  ColSet dim j x ∨ ColSet dim (j + 1) x ∨ ColSet dim (j + 2) x ∨ ColSet dim (j + 3) x

end Perf

namespace MM

/-! ## Theorems -/

/-! ## Words in byte memory -/

theorem GET_lt (m : Mem) (p : Nat) : GET m p < 4294967296 := by
  unfold GET; omega

theorem PUT_other (m : Mem) (p v x : Nat) (h : x < p ∨ p + 4 ≤ x) : PUT m p v x = m x := by
  unfold PUT
  have h0 : x ≠ p := by omega
  have h1 : x ≠ p + 1 := by omega
  have h2 : x ≠ p + 2 := by omega
  have h3 : x ≠ p + 3 := by omega
  simp [h0, h1, h2, h3]

theorem GET_PUT_same (m : Mem) (p v : Nat) : GET (PUT m p v) p = v % 4294967296 := by
  unfold GET PUT
  simp
  omega

theorem GET_congr (m m' : Mem) (p : Nat) (h : ∀ x, p ≤ x → x < p + 4 → m' x = m x) :
    GET m' p = GET m p := by
  unfold GET
  rw [h p (by omega) (by omega), h (p + 1) (by omega) (by omega),
    h (p + 2) (by omega) (by omega), h (p + 3) (by omega) (by omega)]

theorem GET_PUT_other (m : Mem) (p v q : Nat) (h : q + 4 ≤ p ∨ p + 4 ≤ q) :
    GET (PUT m p v) q = GET m q := by
  apply GET_congr
  intro x h1 h2
  exact PUT_other m p v x (by omega)

/-! ## Tag encoding -/

theorem PACK_add (sz a : Nat) (h8 : 8 ∣ sz) (ha : a < 8) : PACK sz a = sz + a := by
  obtain ⟨k, rfl⟩ := h8
  unfold PACK
  exact (Nat.mul_add_lt_is_or (i := 3) ha k).symm

theorem mask_size (sz a : Nat) (h8 : 8 ∣ sz) (ha : a < 8) (hlt : sz < 4294967296) :
    (sz + a) &&& 4294967288 = sz := by
  obtain ⟨k, rfl⟩ := h8
  have hk : k < 2 ^ 29 := by omega
  apply Nat.eq_of_testBit_eq
  intro i
  rw [Nat.testBit_and]
  have e1 : (4294967288 : Nat) = 2 ^ 3 * (2 ^ 29 - 1) + 0 := by norm_num
  have e2 : 8 * k + a = 2 ^ 3 * k + a := by norm_num
  have e3 : 8 * k = 2 ^ 3 * k + 0 := by norm_num
  rw [e1, e2, e3, Nat.testBit_mul_pow_two_add _ (by omega : a < 2 ^ 3),
    Nat.testBit_mul_pow_two_add _ (by norm_num : 0 < 2 ^ 3),
    Nat.testBit_mul_pow_two_add _ (by norm_num : 0 < 2 ^ 3), Nat.testBit_two_pow_sub_one]
  by_cases h : i < 3
  · simp [h]
  · simp only [h, if_false]
    by_cases h2 : i - 3 < 29
    · simp [h2]
    · simp only [h2, decide_False, Bool.and_false]
      symm
      apply Nat.testBit_lt_two_pow
      calc k < 2 ^ 29 := hk
        _ ≤ 2 ^ (i - 3) := Nat.pow_le_pow_right (by norm_num) (by omega)

theorem mask_alloc (sz a : Nat) (h8 : 8 ∣ sz) (ha : a ≤ 1) : (sz + a) &&& 1 = a := by
  rw [Nat.and_one_is_mod]
  omega

theorem toNat_le_one (al : Bool) : al.toNat ≤ 1 := by cases al <;> simp

theorem PACK_zero (sz : Nat) (h8 : 8 ∣ sz) : PACK sz 0 = tagOf sz false := by
  rw [PACK_add sz 0 h8 (by omega)]; rfl

theorem PACK_one (sz : Nat) (h8 : 8 ∣ sz) : PACK sz 1 = tagOf sz true := by
  rw [PACK_add sz 1 h8 (by omega)]; rfl

theorem GET_SIZE_of_tag (m : Mem) (p sz : Nat) (al : Bool) (h : GET m p = tagOf sz al)
    (h8 : 8 ∣ sz) : GET_SIZE m p = sz := by
  have hl := GET_lt m p
  have h1 := toNat_le_one al
  unfold GET_SIZE
  rw [h]
  unfold tagOf at *
  exact mask_size sz _ h8 (by omega) (by omega)

theorem GET_ALLOC_of_tag (m : Mem) (p sz : Nat) (al : Bool) (h : GET m p = tagOf sz al)
    (h8 : 8 ∣ sz) : GET_ALLOC m p = al.toNat := by
  unfold GET_ALLOC
  rw [h]
  exact mask_alloc sz _ h8 (toNat_le_one al)

theorem tagOf_lt (m : Mem) (p sz : Nat) (al : Bool) (h : GET m p = tagOf sz al) :
    sz < 4294967296 := by
  have hl := GET_lt m p
  unfold tagOf at h
  omega

/-! ## The physical layout: a contiguous run of blocks -/

theorem Contig_append (xs ys : List Blk) (s e : Nat) :
    Contig s (xs ++ ys) e ↔ ∃ mid, Contig s xs mid ∧ Contig mid ys e := by
  induction xs generalizing s with
  | nil => simp [Contig]
  | cons x xs ih =>
    show (x.bp = s ∧ 16 ≤ x.sz ∧ 8 ∣ x.sz ∧ Contig (s + x.sz) (xs ++ ys) e) ↔
      ∃ mid, (x.bp = s ∧ 16 ≤ x.sz ∧ 8 ∣ x.sz ∧ Contig (s + x.sz) xs mid) ∧ Contig mid ys e
    rw [ih]
    constructor
    · rintro ⟨h1, h2, h3, mid, h4, h5⟩
      exact ⟨mid, ⟨h1, h2, h3, h4⟩, h5⟩
    · rintro ⟨mid, ⟨h1, h2, h3, h4⟩, h5⟩
      exact ⟨h1, h2, h3, mid, h4, h5⟩

theorem Contig_le (bs : List Blk) (s e : Nat) (h : Contig s bs e) : s ≤ e := by
  induction bs generalizing s with
  | nil => simp [Contig] at h; omega
  | cons x xs ih =>
    obtain ⟨_, _, _, h4⟩ := h
    have := ih _ h4
    omega

theorem Contig_mem (bs : List Blk) (s e : Nat) (h : Contig s bs e) (b : Blk) (hb : b ∈ bs) :
    s ≤ b.bp ∧ b.bp + b.sz ≤ e ∧ 16 ≤ b.sz ∧ 8 ∣ b.sz ∧ (8 ∣ s → 8 ∣ b.bp) := by
  induction bs generalizing s with
  | nil => simp at hb
  | cons x xs ih =>
    obtain ⟨h1, h2, h3, h4⟩ := h
    rcases List.mem_cons.1 hb with rfl | hb
    · have := Contig_le _ _ _ h4
      refine ⟨by omega, by omega, h2, h3, fun h => by omega⟩
    · obtain ⟨a1, a2, a3, a4, a5⟩ := ih _ h4 hb
      refine ⟨by omega, a2, a3, a4, fun h => a5 (by omega)⟩

theorem Contig_disj (bs : List Blk) (s e : Nat) (h : Contig s bs e) (b c : Blk)
    (hb : b ∈ bs) (hc : c ∈ bs) :
    b = c ∨ b.bp + b.sz ≤ c.bp ∨ c.bp + c.sz ≤ b.bp := by
  induction bs generalizing s with
  | nil => simp at hb
  | cons x xs ih =>
    obtain ⟨h1, h2, h3, h4⟩ := h
    rcases List.mem_cons.1 hb with hb1 | hb1 <;> rcases List.mem_cons.1 hc with hc1 | hc1
    · left; rw [hb1, hc1]
    · have := Contig_mem _ _ _ h4 c hc1
      subst hb1
      right; left; omega
    · have := Contig_mem _ _ _ h4 b hb1
      subst hc1
      right; right; omega
    · exact ih _ h4 hb1 hc1

theorem Contig_split (pre post : List Blk) (b : Blk) (s e : Nat) :
    Contig s (pre ++ b :: post) e ↔
      Contig s pre b.bp ∧ 16 ≤ b.sz ∧ 8 ∣ b.sz ∧ Contig (b.bp + b.sz) post e := by
  rw [Contig_append]
  constructor
  · rintro ⟨mid, h1, h2, h3, h4, h5⟩
    subst h2
    exact ⟨h1, h3, h4, h5⟩
  · rintro ⟨h1, h3, h4, h5⟩
    exact ⟨b.bp, h1, rfl, h3, h4, h5⟩

/-! ## The free index: a doubly linked list threaded through memory -/

theorem getD_mem (L : List Nat) (i : Nat) (h : i < L.length) : L.getD i 0 ∈ L := by
  rw [List.getD_eq_getElem L 0 h]
  exact List.getElem_mem h

theorem getD_inj (L : List Nat) (hn : L.Nodup) (i j : Nat) (hi : i < L.length)
    (hj : j < L.length) (h : L.getD i 0 = L.getD j 0) : i = j := by
  rw [List.getD_eq_getElem L 0 hi, List.getD_eq_getElem L 0 hj] at h
  exact (List.Nodup.getElem_inj_iff hn).1 h

theorem getD_eraseIdx (L : List Nat) (k i : Nat) :
    (L.eraseIdx k).getD i 0 = if i < k then L.getD i 0 else L.getD (i + 1) 0 := by
  simp only [List.getD_eq_getElem?_getD, List.getElem?_eraseIdx]
  split <;> rfl

theorem eraseIdx_eq_erase (L : List Nat) (hn : L.Nodup) (k : Nat) (hk : k < L.length) :
    L.eraseIdx k = L.erase (L.getD k 0) := by
  rw [← List.eraseIdx_indexOf_eq_erase, List.getD_eq_getElem L 0 hk]
  congr 1
  exact (List.indexOf_getElem hn k hk).symm

theorem exists_index (L : List Nat) (x : Nat) (h : x ∈ L) :
    ∃ k, k < L.length ∧ L.getD k 0 = x := by
  obtain ⟨n, hn, rfl⟩ := List.mem_iff_getElem.1 h
  exact ⟨n, hn, List.getD_eq_getElem L 0 hn⟩

/-! ## `removeblock` and `headinsert` on the free index -/

/-- The four branches of `removeblock` write the same thing: the successor field of a
non-null predecessor, the predecessor field of a non-null successor, and the list
head when there is no predecessor. -/
theorem removeblock_eq (bp : Nat) (s : State) :
    removeblock bp s =
      { s with
        mem := rbMem s.mem bp (GET s.mem (bp + 4)) (GET s.mem bp),
        free_listp := if GET s.mem (bp + 4) = 0 then GET s.mem bp else s.free_listp } := by
  unfold removeblock GET_PREV GET_SUCC PUT_PREV PUT_SUCC rbMem
  by_cases h1 : GET s.mem (bp + 4) = 0 <;> by_cases h2 : GET s.mem bp = 0 <;>
    simp [h1, h2]

theorem GET_ite_other (c : Prop) [Decidable c] (m : Mem) (p v q : Nat)
    (h : c → q + 4 ≤ p ∨ p + 4 ≤ q) :
    GET (if c then PUT m p v else m) q = GET m q := by
  split
  · exact GET_PUT_other m p v q (h ‹_›)
  · rfl

theorem GET_ite_same (c : Prop) [Decidable c] (m : Mem) (p v : Nat) (h : c) :
    GET (if c then PUT m p v else m) p = v % 4294967296 := by
  rw [if_pos h]; exact GET_PUT_same m p v

theorem ite_PUT_other (c : Prop) [Decidable c] (m : Mem) (p v x : Nat)
    (h : c → x < p ∨ p + 4 ≤ x) :
    (if c then PUT m p v else m) x = m x := by
  split
  · exact PUT_other m p v x (h ‹_›)
  · rfl

/-- Memory after the writes of `removeblock`, as seen through an index `L`. -/
theorem removeblock_mem (m : Mem) (L : List Nat) (k : Nat) (head : Nat)
    (hf : FList m head L) (hk : k < L.length) (b P S : Nat)
    (hb : b = L.getD k 0) (hP : P = if k = 0 then 0 else L.getD (k - 1) 0)
    (hS : S = L.getD (k + 1) 0) (m4 : Mem)
    (hm4 : m4 = rbMem m b P S) :
    (∀ j, j < L.length → j ≠ k →
      GET m4 (L.getD j 0) = (if j + 1 = k then S else L.getD (j + 1) 0)) ∧
    (∀ j, j < L.length → j ≠ k →
      GET m4 (L.getD j 0 + 4) =
        (if j = k + 1 then P else if j = 0 then 0 else L.getD (j - 1) 0)) ∧
    GET m4 b = 0 ∧ GET m4 (b + 4) = 0 ∧
    (∀ a, (∀ x ∈ L, a < x ∨ x + 8 ≤ a) → m4 a = m a) := by
  obtain ⟨hhead, hnd, hall, hlk⟩ := hf
  have hA : ∀ j, j < L.length → L.getD j 0 ≠ 0 ∧ 8 ∣ L.getD j 0 ∧ L.getD j 0 < 4294967296 :=
    fun j hj => hall _ (getD_mem L j hj)
  have hI : ∀ i j, i < L.length → j < L.length → i ≠ j → L.getD i 0 ≠ L.getD j 0 :=
    fun i j hi hj hne h => hne (getD_inj L hnd i j hi hj h)
  have hbk := hA k hk
  rw [← hb] at hbk
  -- facts on the successor
  have hS0 : S ≠ 0 → k + 1 < L.length := by
    intro h
    by_contra hc
    exact h (by rw [hS]; exact List.getD_eq_default L 0 (by omega))
  have hS8 : 8 ∣ S ∧ S < 4294967296 := by
    by_cases h : k + 1 < L.length
    · rw [hS]; exact (hA _ h).2
    · rw [hS, List.getD_eq_default L 0 (by omega)]; exact ⟨by omega, by omega⟩
  have hP0 : P ≠ 0 → k ≠ 0 := by
    intro h hc; simp [hc] at hP; exact h hP
  have hP8 : 8 ∣ P ∧ P < 4294967296 := by
    by_cases h : k = 0
    · simp only [h, if_true] at hP; rw [hP]; exact ⟨by omega, by omega⟩
    · simp only [h, if_false] at hP; rw [hP]; exact (hA _ (by omega)).2
  have hPb : P ≠ 0 → P ≠ b := by
    intro h
    have := hP0 h
    simp only [this, if_false] at hP
    rw [hP, hb]; exact hI _ _ (by omega) hk (by omega)
  have hSb : S ≠ 0 → S ≠ b := by
    intro h
    rw [hS, hb]; exact hI _ _ (hS0 h) hk (by omega)
  subst hm4
  unfold rbMem
  refine ⟨?_, ?_, ?_, ?_, ?_⟩
  · intro j hj hjk
    have h1 := hA j hj
    have h2 := hI j k hj hk hjk
    rw [← hb] at h2
    rw [GET_ite_other _ _ _ _ _ (fun _ => by omega)]
    by_cases hj1 : j + 1 = k
    · have hPe : P = L.getD j 0 := by
        have : k ≠ 0 := by omega
        simp only [this, if_false] at hP
        rw [hP]; congr 1; omega
      simp only [hj1, if_true]
      rw [← hPe, GET_ite_same _ _ _ _ (by rw [hPe]; exact h1.1)]
      omega
    · simp only [hj1, if_false]
      have hPj : P ≠ 0 → P ≠ L.getD j 0 := by
        intro h
        have := hP0 h
        simp only [this, if_false] at hP
        rw [hP]; exact hI _ _ (by omega) hj (by omega)
      rw [GET_ite_other _ _ _ _ _ (fun h => by have := hPj h; omega)]
      simp (disch := omega) only [GET_PUT_other]
      exact (hlk j hj).1
  · intro j hj hjk
    have h1 := hA j hj
    have h2 := hI j k hj hk hjk
    rw [← hb] at h2
    by_cases hj1 : j = k + 1
    · have hSe : S = L.getD j 0 := by rw [hS, hj1]
      simp only [hj1, if_true]
      rw [← hj1, ← hSe, GET_ite_same _ _ _ _ (by rw [hSe]; exact h1.1)]
      omega
    · simp only [hj1, if_false]
      have hSj : S ≠ 0 → S ≠ L.getD j 0 := by
        intro h
        rw [hS]; exact hI _ _ (hS0 h) hj (by omega)
      rw [GET_ite_other _ _ _ _ _ (fun h => by have := hSj h; omega)]
      rw [GET_ite_other _ _ _ _ _ (fun h => by omega)]
      simp (disch := omega) only [GET_PUT_other]
      exact (hlk j hj).2
  · rw [GET_ite_other _ _ _ _ _ (fun h => by have := hSb h; omega)]
    rw [GET_ite_other _ _ _ _ _ (fun h => by have := hPb h; omega)]
    rw [GET_PUT_same]
  · rw [GET_ite_other _ _ _ _ _ (fun h => by have := hSb h; omega)]
    rw [GET_ite_other _ _ _ _ _ (fun h => by have := hPb h; omega)]
    rw [GET_PUT_other _ _ _ _ (by omega), GET_PUT_same]
  · intro a ha
    have hab := ha b (by rw [hb]; exact getD_mem L k hk)
    rw [ite_PUT_other _ _ _ _ _ (fun h => by
      have := ha S (by rw [hS]; exact getD_mem L _ (hS0 h)); omega)]
    rw [ite_PUT_other _ _ _ _ _ (fun h => by
      have hk0 := hP0 h
      simp only [hk0, if_false] at hP
      have := ha P (by rw [hP]; exact getD_mem L _ (by omega)); omega)]
    rw [PUT_other _ _ _ _ (by omega), PUT_other _ _ _ _ (by omega)]

theorem getD_congr (L : List Nat) (a b : Nat) (h : a = b) : L.getD a 0 = L.getD b 0 := by
  rw [h]

theorem removeblock_fields (bp : Nat) (s : State) :
    (removeblock bp s).mem_brk = s.mem_brk ∧
    (removeblock bp s).mem_max_addr = s.mem_max_addr ∧
    (removeblock bp s).heap_listp = s.heap_listp ∧
    (removeblock bp s).rover = s.rover := by
  rw [removeblock_eq]
  exact ⟨rfl, rfl, rfl, rfl⟩

theorem removeblock_spec (s : State) (L : List Nat) (k : Nat)
    (hf : FList s.mem s.free_listp L) (hk : k < L.length) :
    FList (removeblock (L.getD k 0) s).mem (removeblock (L.getD k 0) s).free_listp
        (L.eraseIdx k) ∧
    GET (removeblock (L.getD k 0) s).mem (L.getD k 0) = 0 ∧
    GET (removeblock (L.getD k 0) s).mem (L.getD k 0 + 4) = 0 ∧
    (∀ a, (∀ x ∈ L, a < x ∨ x + 8 ≤ a) →
      (removeblock (L.getD k 0) s).mem a = s.mem a) := by
  have hprev := (hf.2.2.2 k hk).2
  have hsucc := (hf.2.2.2 k hk).1
  obtain ⟨h1, h2, h3, h4, h5⟩ := removeblock_mem s.mem L k s.free_listp hf hk
    (L.getD k 0) _ _ rfl rfl rfl _ rfl
  obtain ⟨hhead, hnd, hall, hlk⟩ := hf
  rw [removeblock_eq]
  simp only [hprev, hsucc]
  generalize rbMem s.mem (L.getD k 0) (if k = 0 then 0 else L.getD (k - 1) 0)
    (L.getD (k + 1) 0) = m4 at *
  refine ⟨⟨?_, ?_, ?_, ?_⟩, h3, h4, h5⟩
  · rw [getD_eraseIdx]
    by_cases hk0 : k = 0
    · subst hk0; simp
    · have : (L.getD (k - 1) 0) ≠ 0 := (hall _ (getD_mem L _ (by omega))).1
      have h0 : 0 < k := by omega
      simp only [hk0, if_false, this, h0, if_true]
      exact hhead
  · exact hnd.sublist (List.eraseIdx_sublist L k)
  · intro x hx
    exact hall x ((List.eraseIdx_sublist L k).subset hx)
  · intro i hi
    rw [List.length_eraseIdx, if_pos hk] at hi
    rw [getD_eraseIdx, getD_eraseIdx, getD_eraseIdx]
    by_cases hik : i < k
    · rw [if_pos hik, h1 i (by omega) (by omega), h2 i (by omega) (by omega)]
      constructor
      · split_ifs <;> first | rfl | contradiction | omega | exact getD_congr _ _ _ (by omega)
      · split_ifs <;> first | rfl | contradiction | omega
    · rw [if_neg hik, h1 (i + 1) (by omega) (by omega), h2 (i + 1) (by omega) (by omega)]
      constructor
      · split_ifs <;> first | rfl | contradiction | omega
      · split_ifs <;> first | rfl | contradiction | omega | exact getD_congr _ _ _ (by omega)

theorem headinsert_fields (bp : Nat) (s : State) :
    (headinsert bp s).free_listp = bp ∧
    (headinsert bp s).mem_brk = s.mem_brk ∧
    (headinsert bp s).mem_max_addr = s.mem_max_addr ∧
    (headinsert bp s).heap_listp = s.heap_listp ∧
    (headinsert bp s).rover = s.rover := by
  unfold headinsert
  split <;> exact ⟨rfl, rfl, rfl, rfl, rfl⟩

theorem headinsert_mem (bp : Nat) (s : State) :
    (headinsert bp s).mem =
      if s.free_listp = 0 then s.mem
      else PUT (PUT (PUT s.mem bp s.free_listp) (bp + 4) 0) (s.free_listp + 4) bp := by
  unfold headinsert PUT_SUCC PUT_PREV
  split <;> rfl

/-- The spec of `headinsert` for a node with null link fields. -/
theorem headinsert_spec (s : State) (L : List Nat) (bp : Nat)
    (hf : FList s.mem s.free_listp L) (hnot : bp ∉ L)
    (hbp : bp ≠ 0 ∧ 8 ∣ bp ∧ bp < 4294967296)
    (h0 : GET s.mem bp = 0) (h4 : GET s.mem (bp + 4) = 0) :
    FList (headinsert bp s).mem (headinsert bp s).free_listp (bp :: L) ∧
    (∀ a, (∀ x ∈ bp :: L, a < x ∨ x + 8 ≤ a) → (headinsert bp s).mem a = s.mem a) := by
  obtain ⟨hhead, hnd, hall, hlk⟩ := hf
  rw [headinsert_mem, (headinsert_fields bp s).1]
  by_cases hq : s.free_listp = 0
  · have hL : L = [] := by
      cases L with
      | nil => rfl
      | cons x xs =>
        simp at hhead
        have := (hall x (by simp)).1
        omega
    subst hL
    rw [if_pos hq]
    refine ⟨⟨by simp, by simp, ?_, ?_⟩, fun a _ => rfl⟩
    · intro x hx
      simp at hx
      subst hx; exact hbp
    · intro i hi
      simp at hi
      subst hi
      simp [h0, h4]
  · rw [if_neg hq]
    have hL : 0 < L.length := by
      cases L with
      | nil => simp at hhead; exact absurd hhead hq
      | cons x xs => simp
    have hq8 := hall _ (getD_mem L 0 hL)
    rw [← hhead] at hq8
    have hqb : s.free_listp ≠ bp := by
      intro h; apply hnot; rw [← h, hhead]; exact getD_mem L 0 hL
    refine ⟨⟨by simp, List.nodup_cons.2 ⟨hnot, hnd⟩, ?_, ?_⟩, ?_⟩
    · intro x hx
      rcases List.mem_cons.1 hx with rfl | hx
      · exact hbp
      · exact hall x hx
    · intro i hi
      cases i with
      | zero =>
        simp only [List.getD_cons_zero, List.getD_cons_succ, if_true, zero_add]
        rw [← hhead]
        simp (disch := omega) only [GET_PUT_other, GET_PUT_same]
        exact ⟨by omega, trivial⟩
      | succ i =>
        simp only [List.length_cons, Nat.add_lt_add_iff_right] at hi
        have hx8 := hall _ (getD_mem L i hi)
        have hxb : L.getD i 0 ≠ bp := by
          intro h; apply hnot; rw [← h]; exact getD_mem L i hi
        simp only [List.getD_cons_succ, Nat.add_one_ne_zero, if_false, Nat.add_sub_cancel]
        constructor
        · simp (disch := omega) only [GET_PUT_other]
          exact (hlk i hi).1
        · cases i with
          | zero =>
            rw [← hhead]
            simp (disch := omega) only [GET_PUT_same, List.getD_cons_zero]
            omega
          | succ i =>
            have hne : L.getD (i + 1) 0 ≠ s.free_listp := by
              rw [hhead]; intro h
              have := getD_inj L hnd _ _ hi hL h
              omega
            simp (disch := omega) only [GET_PUT_other, List.getD_cons_succ]
            have := (hlk (i + 1) hi).2
            simpa using this
    · intro a ha
      have h1 := ha bp (by simp)
      have h2 := ha s.free_listp (by rw [hhead]; exact List.mem_cons_of_mem _ (getD_mem L 0 hL))
      rw [PUT_other _ _ _ _ (by omega), PUT_other _ _ _ _ (by omega),
        PUT_other _ _ _ _ (by omega)]

/-! ## The tagged heap -/

theorem Heap.mem_facts {s : State} {bs : List Blk} (h : Heap s bs) (b : Blk) (hb : b ∈ bs) :
    s.heap_listp + 8 ≤ b.bp ∧ b.bp + b.sz ≤ s.mem_brk ∧ 16 ≤ b.sz ∧ 8 ∣ b.sz ∧ 8 ∣ b.bp ∧
    b.bp < 4294967296 ∧ b.bp ≠ 0 := by
  obtain ⟨h1, h2, h3, h4, h5⟩ := Contig_mem _ _ _ h.contig b hb
  have := h.hl8
  have := h.lim
  refine ⟨h1, h2, h3, h4, h5 (by omega), by omega, by omega⟩

theorem Heap.disj {s : State} {bs : List Blk} (h : Heap s bs) (b c : Blk) (hb : b ∈ bs)
    (hc : c ∈ bs) : b = c ∨ b.bp + b.sz ≤ c.bp ∨ c.bp + c.sz ≤ b.bp :=
  Contig_disj _ _ _ h.contig b c hb hc

theorem Heap.bp_inj {s : State} {bs : List Blk} (h : Heap s bs) (b c : Blk) (hb : b ∈ bs)
    (hc : c ∈ bs) (e : b.bp = c.bp) : b = c := by
  have h1 := h.mem_facts b hb
  have h2 := h.mem_facts c hc
  rcases h.disj b c hb hc with h3 | h3 | h3
  · exact h3
  · omega
  · omega

theorem Tagged_frame (m m' : Mem) (b : Blk) (h : Tagged m b)
    (hf : ∀ a, (b.bp - 4 ≤ a ∧ a < b.bp - 4 + 4) ∨
      (b.bp + b.sz - 8 ≤ a ∧ a < b.bp + b.sz - 8 + 4) → m' a = m a) : Tagged m' b := by
  obtain ⟨h1, h2⟩ := h
  constructor
  · rw [← h1]
    apply GET_congr
    intro x hx1 hx2
    exact hf x (Or.inl ⟨hx1, by omega⟩)
  · rw [← h2]
    apply GET_congr
    intro x hx1 hx2
    exact hf x (Or.inr ⟨hx1, by omega⟩)

/-- Rebuilding the heap after the bytes of one region `[st - 4, en - 4)` (and possibly
the break) changed, when the region is tiled again by tagged blocks. -/
theorem Heap_rebuild (s s' : State) (bs pre mid post : List Blk) (st en : Nat)
    (h : Heap s bs) (hpre : ∀ c ∈ pre, c ∈ bs) (hpost : ∀ c ∈ post, c ∈ bs)
    (hhl : s'.heap_listp = s.heap_listp) (hmax : s'.mem_max_addr = s.mem_max_addr)
    (hbrk : s'.mem_brk ≤ s'.mem_max_addr)
    (c1 : Contig (s.heap_listp + 8) pre st) (c2 : Contig st mid en)
    (c3 : Contig en post s'.mem_brk)
    (hmid : ∀ c ∈ mid, Tagged s'.mem c)
    (hepi : GET s'.mem (s'.mem_brk - 4) = 1)
    (hfr : ∀ a, a < st - 4 ∨ (en - 4 ≤ a ∧ a < s'.mem_brk - 4) → s'.mem a = s.mem a) :
    Heap s' (pre ++ mid ++ post) := by
  have hst := Contig_le _ _ _ c1
  have hse := Contig_le _ _ _ c2
  have heb := Contig_le _ _ _ c3
  have h8 := h.hl8
  have hp := h.hlpos
  refine ⟨by rw [hhl]; exact h8, by rw [hhl]; exact hp, ?_, ?_, ?_, hepi, ?_, ?_⟩
  · rw [hhl, ← h.pro_h]
    apply GET_congr
    intro x _ _
    exact hfr x (Or.inl (by omega))
  · rw [hhl, ← h.pro_f]
    apply GET_congr
    intro x _ _
    exact hfr x (Or.inl (by omega))
  · rw [hhl, List.append_assoc, Contig_append]
    exact ⟨st, c1, (Contig_append _ _ _ _).2 ⟨en, c2, c3⟩⟩
  · intro c hc
    rcases List.mem_append.1 hc with hc | hc
    · rcases List.mem_append.1 hc with hc | hc
      · have hm := Contig_mem _ _ _ c1 c hc
        apply Tagged_frame _ _ _ (h.tags c (hpre c hc))
        intro a ha
        exact hfr a (Or.inl (by omega))
      · exact hmid c hc
    · have hm := Contig_mem _ _ _ c3 c hc
      apply Tagged_frame _ _ _ (h.tags c (hpost c hc))
      intro a ha
      exact hfr a (Or.inr (by omega))
  · rw [hmax]
    exact ⟨by rw [← hmax]; exact hbrk, h.lim.2⟩

/-- Writes confined to the link fields of blocks keep the heap intact. -/
theorem Heap_frame (s s' : State) (bs : List Blk) (h : Heap s bs)
    (hhl : s'.heap_listp = s.heap_listp) (hmax : s'.mem_max_addr = s.mem_max_addr)
    (hbrk : s'.mem_brk = s.mem_brk)
    (hfr : ∀ a, (∀ b ∈ bs, a < b.bp ∨ b.bp + 8 ≤ a) → s'.mem a = s.mem a) :
    Heap s' bs := by
  have h8 := h.hl8
  have hp := h.hlpos
  have hlim := h.lim
  refine ⟨by rw [hhl]; exact h8, by rw [hhl]; exact hp, ?_, ?_, ?_, ?_, ?_, ?_⟩
  · rw [hhl, ← h.pro_h]
    apply GET_congr
    intro x _ _
    apply hfr
    intro b hb
    have := h.mem_facts b hb
    omega
  · rw [hhl, ← h.pro_f]
    apply GET_congr
    intro x _ _
    apply hfr
    intro b hb
    have := h.mem_facts b hb
    omega
  · rw [hhl, hbrk]; exact h.contig
  · rw [hbrk, ← h.epi]
    apply GET_congr
    intro x _ _
    apply hfr
    intro b hb
    have := h.mem_facts b hb
    omega
  · intro c hc
    have hcf := h.mem_facts c hc
    apply Tagged_frame _ _ _ (h.tags c hc)
    intro a ha
    apply hfr
    intro b hb
    have hbf := h.mem_facts b hb
    rcases h.disj b c hb hc with e | e | e
    · subst e; omega
    · omega
    · omega
  · rw [hmax, hbrk]; exact hlim

theorem FList_frame (m m' : Mem) (head : Nat) (L : List Nat) (h : FList m head L)
    (hf : ∀ x ∈ L, ∀ a, x ≤ a → a < x + 8 → m' a = m a) : FList m' head L := by
  obtain ⟨h1, h2, h3, h4⟩ := h
  refine ⟨h1, h2, h3, ?_⟩
  intro i hi
  have hx := getD_mem L i hi
  rw [← (h4 i hi).1, ← (h4 i hi).2]
  constructor
  · apply GET_congr
    intro a ha1 ha2
    exact hf _ hx a ha1 (by omega)
  · apply GET_congr
    intro a ha1 ha2
    exact hf _ hx a (by omega) (by omega)

/-- The view of the physical predecessor of `b` through the footer just below it. -/
theorem prevView (s : State) (pre post : List Blk) (b : Blk)
    (h : Heap s (pre ++ b :: post)) :
    ∃ psz pal, 8 ∣ psz ∧ 8 ≤ psz ∧ psz + 8 ≤ b.bp ∧
      GET s.mem (b.bp - 8) = tagOf psz pal ∧ GET s.mem (b.bp - psz - 4) = tagOf psz pal ∧
      (pal = true → lastAlloc pre) ∧
      (pal = false → ∃ pre', pre = pre' ++ [⟨b.bp - psz, psz, false⟩]) := by
  have hc := h.contig
  have hp := h.hlpos
  rcases List.eq_nil_or_concat pre with e | ⟨pre', p, e⟩
  · subst e
    obtain ⟨hb, _⟩ := hc
    refine ⟨8, true, by omega, by omega, by omega, ?_, ?_, ?_, ?_⟩
    · rw [hb, Nat.add_sub_cancel]; exact h.pro_f
    · rw [hb]
      have : s.heap_listp + 8 - 8 - 4 = s.heap_listp - 4 := by omega
      rw [this]; exact h.pro_h
    · intro _ p hp; simp at hp
    · intro hf; simp at hf
  · rw [List.concat_eq_append] at e
    subst e
    have hpm : p ∈ pre' ++ [p] ++ b :: post := by simp
    have hpf := h.mem_facts p hpm
    have hpt := h.tags p hpm
    rw [List.append_assoc, List.singleton_append, Contig_split] at hc
    obtain ⟨_, _, _, hc2⟩ := hc
    obtain ⟨hb, _⟩ := hc2
    refine ⟨p.sz, p.al, hpf.2.2.2.1, by omega, by omega, ?_, ?_, ?_, ?_⟩
    · have : b.bp - 8 = p.bp + p.sz - 8 := by omega
      rw [this]; exact hpt.2
    · have : b.bp - p.sz - 4 = p.bp - 4 := by omega
      rw [this]; exact hpt.1
    · intro hal q hq
      simp at hq
      subst hq; exact hal
    · intro hal
      refine ⟨pre', ?_⟩
      have : p = ⟨b.bp - p.sz, p.sz, false⟩ := by
        cases p with
        | mk pb ps pa =>
          simp only at hal hb ⊢
          subst hal
          congr 1
          omega
      rw [← this]

/-- The view of the physical successor of `b` through the header just above it. -/
theorem nextView (s : State) (pre post : List Blk) (b : Blk)
    (h : Heap s (pre ++ b :: post)) :
    ∃ nsz nal, 8 ∣ nsz ∧ GET s.mem (b.bp + b.sz - 4) = tagOf nsz nal ∧
      (nal = true → headAlloc post) ∧
      (nal = false → 16 ≤ nsz ∧ ∃ post', post = ⟨b.bp + b.sz, nsz, false⟩ :: post') := by
  have hc := h.contig
  rw [Contig_split] at hc
  obtain ⟨_, _, _, hc2⟩ := hc
  cases post with
  | nil =>
    simp only [Contig] at hc2
    refine ⟨0, true, by omega, ?_, ?_, ?_⟩
    · rw [hc2]; exact h.epi
    · intro _ p hp; simp at hp
    · intro hf; simp at hf
  | cons n post' =>
    have hnm : n ∈ pre ++ b :: n :: post' := by simp
    have hnf := h.mem_facts n hnm
    have hnt := h.tags n hnm
    obtain ⟨hb, _⟩ := hc2
    refine ⟨n.sz, n.al, hnf.2.2.2.1, ?_, ?_, ?_⟩
    · rw [← hb]; exact hnt.1
    · intro hal q hq
      simp at hq
      subst hq; exact hal
    · intro hal
      refine ⟨hnf.2.2.1, post', ?_⟩
      cases n with
      | mk nb ns na =>
        simp only at hal hb ⊢
        subst hal
        subst hb
        rfl

/-! ## Coalescing -/

theorem Contig_dvd (bs : List Blk) (s e : Nat) (h : Contig s bs e) : 8 ∣ e - s := by
  induction bs generalizing s with
  | nil => simp only [Contig] at h; subst h; simp
  | cons x xs ih =>
    obtain ⟨_, _, h3, h4⟩ := h
    have h5 := ih _ h4
    have h6 := Contig_le _ _ _ h4
    omega

theorem Heap_rover (s : State) (bs : List Blk) (r : Nat) (h : Heap s bs) :
    Heap { s with rover := r } bs :=
  ⟨h.hl8, h.hlpos, h.pro_h, h.pro_f, h.contig, h.epi, h.tags, h.lim⟩

theorem Mid_rover (s : State) (pre post : List Blk) (b : Blk) (L : List Nat) (r : Nat)
    (h : Mid s pre b post L) : Mid { s with rover := r } pre b post L :=
  ⟨Heap_rover _ _ _ h.heap, h.bfree, h.fl, h.l0, h.l4, h.idx, h.na_pre, h.na_post⟩

/-- Unlinking an indexed block keeps every tag and empties the node's link fields. -/
theorem removeblock_heap (s : State) (bs : List Blk) (L : List Nat) (x : Nat)
    (h : Heap s bs) (hf : FList s.mem s.free_listp L)
    (hsub : ∀ y ∈ L, ∃ c ∈ bs, c.bp = y) (hx : x ∈ L) :
    Heap (removeblock x s) bs ∧
    FList (removeblock x s).mem (removeblock x s).free_listp (L.erase x) ∧
    GET (removeblock x s).mem x = 0 ∧ GET (removeblock x s).mem (x + 4) = 0 ∧
    (∀ a, (∀ y ∈ L, a < y ∨ y + 8 ≤ a) → (removeblock x s).mem a = s.mem a) := by
  obtain ⟨k, hk, rfl⟩ := exists_index L x hx
  obtain ⟨h1, h2, h3, h4⟩ := removeblock_spec s L k hf hk
  obtain ⟨f1, f2, f3, f4⟩ := removeblock_fields (L.getD k 0) s
  rw [eraseIdx_eq_erase L hf.2.1 k hk] at h1
  refine ⟨?_, h1, h2, h3, h4⟩
  apply Heap_frame s _ bs h f3 f2 f1
  intro a ha
  apply h4
  intro y hy
  obtain ⟨c, hc, rfl⟩ := hsub y hy
  exact ha c hc

theorem Mid.idx_sub {s : State} {pre post : List Blk} {b : Blk} {L : List Nat}
    (h : Mid s pre b post L) : ∀ y ∈ L, ∃ c ∈ pre ++ b :: post, c.bp = y := by
  intro y hy
  obtain ⟨c, hc, e, _⟩ := (h.idx y).1 hy
  refine ⟨c, ?_, e⟩
  rcases hc with hc | hc
  · exact List.mem_append_left _ hc
  · exact List.mem_append_right _ (List.mem_cons_of_mem _ hc)

/-- Closing a merge: once the region of size `sz` at `st` carries one free tag pair
and null link fields, and the index does not refer into it, the transient state is
re-established around the block `[st, st + sz)`. -/
theorem merge_finish (s1 : State) (bs pre' post' : List Blk) (L' : List Nat)
    (st sz : Nat) (m' : Mem)
    (h : Heap s1 bs) (hpre : ∀ c ∈ pre', c ∈ bs) (hpost : ∀ c ∈ post', c ∈ bs)
    (hc1 : Contig (s1.heap_listp + 8) pre' st) (hc3 : Contig (st + sz) post' s1.mem_brk)
    (hsz : 16 ≤ sz) (h8 : 8 ∣ sz)
    (hf : FList s1.mem s1.free_listp L')
    (hidx : ∀ x, x ∈ L' ↔ ∃ c, (c ∈ pre' ∨ c ∈ post') ∧ c.bp = x ∧ c.al = false)
    (hna1 : NoAdj pre') (hna2 : NoAdj post')
    (hh : GET m' (st - 4) = tagOf sz false)
    (hft : GET m' (st + sz - 8) = tagOf sz false)
    (hl0 : GET m' st = 0) (hl4 : GET m' (st + 4) = 0)
    (hfr : ∀ a, (a < st - 4 ∨ st + sz - 4 ≤ a) → m' a = s1.mem a) :
    Mid { s1 with mem := m' } pre' ⟨st, sz, false⟩ post' L' := by
  have hst := Contig_le _ _ _ hc1
  have heb := Contig_le _ _ _ hc3
  have hp := h.hlpos
  have hlim := h.lim
  have hheap : Heap { s1 with mem := m' } (pre' ++ [⟨st, sz, false⟩] ++ post') := by
    refine Heap_rebuild s1 { s1 with mem := m' } bs pre' [⟨st, sz, false⟩] post' st (st + sz)
      h hpre hpost rfl rfl hlim.1 hc1 ?_ hc3 ?_ ?_ ?_
    · exact ⟨rfl, hsz, h8, rfl⟩
    · intro c hc
      simp only [List.mem_singleton] at hc
      subst hc
      exact ⟨hh, hft⟩
    · show GET m' (s1.mem_brk - 4) = 1
      rw [← h.epi]
      apply GET_congr
      intro a _ _
      exact hfr a (by omega)
    · intro a ha
      exact hfr a (by omega)
  rw [List.append_assoc, List.singleton_append] at hheap
  refine ⟨hheap, rfl, ?_, hl0, hl4, hidx, hna1, hna2⟩
  apply FList_frame _ _ _ _ hf
  intro x hx a ha1 ha2
  obtain ⟨c, hc, rfl, _⟩ := (hidx x).1 hx
  rcases hc with hc | hc
  · have := Contig_mem _ _ _ hc1 c hc
    exact hfr a (by omega)
  · have := Contig_mem _ _ _ hc3 c hc
    exact hfr a (by omega)

theorem tagOf_false (sz : Nat) : tagOf sz false = sz := by
  unfold tagOf; simp

theorem retagHF_facts (m : Mem) (st sz : Nat) (h4 : 4 ≤ st) (hsz : 16 ≤ sz)
    (hlt : sz < 4294967296) :
    GET (retagHF m st sz) (st - 4) = tagOf sz false ∧
    GET (retagHF m st sz) (st + sz - 8) = tagOf sz false ∧
    (∀ a, (a < st - 4 ∨ st ≤ a) → (a < st + sz - 8 ∨ st + sz - 4 ≤ a) →
      retagHF m st sz a = m a) := by
  unfold retagHF
  rw [tagOf_false]
  refine ⟨?_, ?_, ?_⟩
  · rw [GET_PUT_other _ _ _ _ (by omega), GET_PUT_same]; omega
  · rw [GET_PUT_same]; omega
  · intro a h1 h2
    rw [PUT_other _ _ _ _ (by omega), PUT_other _ _ _ _ (by omega)]

theorem retagFH_facts (m : Mem) (st sz : Nat) (h4 : 4 ≤ st) (hsz : 16 ≤ sz)
    (hlt : sz < 4294967296) :
    GET (retagFH m st sz) (st - 4) = tagOf sz false ∧
    GET (retagFH m st sz) (st + sz - 8) = tagOf sz false ∧
    (∀ a, (a < st - 4 ∨ st ≤ a) → (a < st + sz - 8 ∨ st + sz - 4 ≤ a) →
      retagFH m st sz a = m a) := by
  unfold retagFH
  rw [tagOf_false]
  refine ⟨?_, ?_, ?_⟩
  · rw [GET_PUT_same]; omega
  · rw [GET_PUT_other _ _ _ _ (by omega), GET_PUT_same]; omega
  · intro a h1 h2
    rw [PUT_other _ _ _ _ (by omega), PUT_other _ _ _ _ (by omega)]

theorem coalesce_eq (bp : Nat) (s : State) : coalesce bp s = roverFix (coalCore bp s) := rfl

theorem Mid.next_eq {s : State} {pre post : List Blk} {b : Blk} {L : List Nat}
    (h : Mid s pre b post L) : NEXT_BLKP s.mem b.bp = b.bp + b.sz := by
  have hb : b ∈ pre ++ b :: post := by simp
  have hf := h.heap.mem_facts b hb
  unfold NEXT_BLKP WSIZE
  rw [GET_SIZE_of_tag _ _ _ _ (h.heap.tags b hb).1 hf.2.2.2.1]

theorem roverFix_spec (s1 : State) (pre post : List Blk) (b : Blk) (L : List Nat)
    (h : Mid s1 pre b post L)
    (hr : s1.rover = 0 ∨ s1.rover ∈ L ∨ (b.bp ≤ s1.rover ∧ s1.rover < b.bp + b.sz)) :
    (roverFix (b.bp, s1)).1 = b.bp ∧
    Mid (roverFix (b.bp, s1)).2 pre b post L ∧
    ((roverFix (b.bp, s1)).2.rover = 0 ∨ (roverFix (b.bp, s1)).2.rover ∈ L ∨
      (roverFix (b.bp, s1)).2.rover = b.bp) ∧
    (roverFix (b.bp, s1)).2.mem = s1.mem ∧
    (roverFix (b.bp, s1)).2.mem_brk = s1.mem_brk ∧
    (roverFix (b.bp, s1)).2.mem_max_addr = s1.mem_max_addr ∧
    (roverFix (b.bp, s1)).2.heap_listp = s1.heap_listp ∧
    (roverFix (b.bp, s1)).2.free_listp = s1.free_listp ∧
    ((s1.rover = 0 ∨ s1.rover ∈ L) → roverFix (b.bp, s1) = (b.bp, s1)) := by
  have hn := h.next_eq
  have hout : s1.rover ∈ L → ¬ (b.bp < s1.rover ∧ s1.rover < b.bp + b.sz) := by
    intro hin
    obtain ⟨c, hc, e, _⟩ := (h.idx _).1 hin
    have hb : b ∈ pre ++ b :: post := by simp
    have hcm : c ∈ pre ++ b :: post := by
      rcases hc with hc | hc
      · exact List.mem_append_left _ hc
      · exact List.mem_append_right _ (List.mem_cons_of_mem _ hc)
    have hcf := h.heap.mem_facts c hcm
    rcases h.heap.disj b c hb hcm with e1 | e1 | e1
    · subst e1; omega
    · omega
    · omega
  unfold roverFix
  simp only [hn]
  by_cases hc : s1.rover > b.bp ∧ s1.rover < b.bp + b.sz
  · rw [if_pos hc]
    refine ⟨rfl, Mid_rover _ _ _ _ _ _ h, Or.inr (Or.inr rfl), rfl, rfl, rfl, rfl, rfl, ?_⟩
    rintro (h0 | h0)
    · omega
    · exact absurd hc (hout h0)
  · rw [if_neg hc]
    refine ⟨rfl, h, ?_, rfl, rfl, rfl, rfl, rfl, fun _ => rfl⟩
    rcases hr with h0 | h0 | h0
    · exact Or.inl h0
    · exact Or.inr (Or.inl h0)
    · right; right
      show s1.rover = b.bp
      omega

theorem rd_size (m : Mem) (bp sz : Nat) (al : Bool) (h8 : 8 ∣ sz)
    (h : GET m (bp - 4) = tagOf sz al) :
    GET_SIZE m (HDRP bp) = sz ∧ NEXT_BLKP m bp = bp + sz ∧ FTRP m bp = bp + sz - 8 := by
  have := GET_SIZE_of_tag m (bp - 4) sz al h h8
  unfold HDRP NEXT_BLKP FTRP HDRP WSIZE DSIZE
  rw [this]
  exact ⟨rfl, rfl, rfl⟩

theorem rd_prev (m : Mem) (bp psz : Nat) (pal : Bool) (h8 : 8 ∣ psz)
    (h : GET m (bp - 8) = tagOf psz pal) : PREV_BLKP m bp = bp - psz := by
  have := GET_SIZE_of_tag m (bp - 8) psz pal h h8
  unfold PREV_BLKP DSIZE
  rw [this]

theorem lastAlloc_append_singleton (pre : List Blk) (p : Blk) :
    lastAlloc (pre ++ [p]) ↔ p.al = true := by
  unfold lastAlloc
  simp

theorem headAlloc_cons (n : Blk) (post : List Blk) : headAlloc (n :: post) ↔ n.al = true := by
  unfold headAlloc
  simp

theorem NoAdj_tail (n : Blk) (post : List Blk) (h : NoAdj (n :: post)) : NoAdj post :=
  List.Chain'.tail h

theorem NoAdj_head_free (n : Blk) (post : List Blk) (h : NoAdj (n :: post))
    (hn : n.al = false) : headAlloc post := by
  intro q hq
  cases post with
  | nil => simp at hq
  | cons y ys =>
    simp at hq
    subst hq
    have := (List.chain'_cons.1 h).1
    rcases this with h1 | h1
    · rw [hn] at h1; cases h1
    · exact h1

theorem NoAdj_init (pre : List Blk) (p : Blk) (h : NoAdj (pre ++ [p])) : NoAdj pre :=
  List.Chain'.left_of_append h

theorem NoAdj_last_free (pre : List Blk) (p : Blk) (h : NoAdj (pre ++ [p]))
    (hp : p.al = false) : lastAlloc pre := by
  intro q hq
  have h2 := (List.chain'_append.1 h).2.2 q hq p (by simp)
  rcases h2 with h1 | h1
  · exact h1
  · rw [hp] at h1; cases h1

/-- Case 1 of `coalesce`: both neighbours allocated. -/
theorem coalCore_case1 (bp : Nat) (s : State)
    (h1 : GET_ALLOC s.mem (FTRP s.mem (PREV_BLKP s.mem bp)) ≠ 0)
    (h2 : GET_ALLOC s.mem (HDRP (NEXT_BLKP s.mem bp)) ≠ 0) : coalCore bp s = (bp, s) := by
  unfold coalCore
  simp only [h1, h2, ne_eq, not_false_eq_true, and_self, if_true]

theorem coalCore_case2 (bp : Nat) (s : State)
    (h1 : GET_ALLOC s.mem (FTRP s.mem (PREV_BLKP s.mem bp)) ≠ 0)
    (h2 : GET_ALLOC s.mem (HDRP (NEXT_BLKP s.mem bp)) = 0) :
    coalCore bp s = coal2 bp s (removeblock (NEXT_BLKP s.mem bp) s) := by
  unfold coalCore coal2
  simp only [h1, h2, ne_eq, not_false_eq_true, not_true_eq_false, and_false, and_self,
    if_true, if_false]

theorem coalCore_case3 (bp : Nat) (s : State)
    (h1 : GET_ALLOC s.mem (FTRP s.mem (PREV_BLKP s.mem bp)) = 0)
    (h2 : GET_ALLOC s.mem (HDRP (NEXT_BLKP s.mem bp)) ≠ 0) :
    coalCore bp s = coal3 bp s (removeblock (PREV_BLKP s.mem bp) s) := by
  unfold coalCore coal3
  simp only [h1, h2, ne_eq, not_false_eq_true, not_true_eq_false, and_false, false_and,
    and_self, if_true, if_false]

theorem coalCore_case4 (bp : Nat) (s : State)
    (h1 : GET_ALLOC s.mem (FTRP s.mem (PREV_BLKP s.mem bp)) = 0)
    (h2 : GET_ALLOC s.mem (HDRP (NEXT_BLKP s.mem bp)) = 0) :
    coalCore bp s = coal4 bp s
      (removeblock (NEXT_BLKP (removeblock (PREV_BLKP s.mem bp) s).mem bp)
        (removeblock (PREV_BLKP s.mem bp) s)) := by
  unfold coalCore coal4
  simp only [h1, h2, ne_eq, not_false_eq_true, not_true_eq_false, and_false, false_and,
    and_self, if_true, if_false]

theorem mod_two32 (x : Nat) (h : x < 4294967296) : x % TWO32 = x := by
  unfold TWO32; omega

theorem calc2 (s s1 : State) (bp sz nsz : Nat) (al : Bool) (h8 : 8 ∣ sz) (hn8 : 8 ∣ nsz)
    (hlt : sz + nsz < 4294967296)
    (h0 : GET s.mem (bp - 4) = tagOf sz al)
    (h1 : GET s1.mem (bp - 4) = tagOf sz al)
    (h2 : GET s1.mem (bp + sz - 4) = tagOf nsz false) :
    coal2 bp s s1 = (bp, { s1 with mem := retagHF s1.mem bp (sz + nsz) }) := by
  have e8 : 8 ∣ sz + nsz := by omega
  unfold coal2 retagHF
  simp only
  rw [(rd_size s.mem bp sz al h8 h0).1, (rd_size s1.mem bp sz al h8 h1).2.1]
  have e1 : HDRP (bp + sz) = bp + sz - 4 := rfl
  rw [e1, GET_SIZE_of_tag _ _ _ _ h2 hn8, mod_two32 _ hlt, PACK_zero _ e8]
  have e2 : HDRP bp = bp - 4 := rfl
  rw [e2]
  have hh : GET (PUT s1.mem (bp - 4) (tagOf (sz + nsz) false)) (bp - 4)
      = tagOf (sz + nsz) false := by
    rw [GET_PUT_same, tagOf_false]; omega
  rw [(rd_size _ bp (sz + nsz) false e8 hh).2.2]

theorem calc3 (s s1 : State) (bp sz psz : Nat) (al : Bool) (h8 : 8 ∣ sz) (hp8 : 8 ∣ psz)
    (hlt : psz + sz < 4294967296) (hsz : 16 ≤ sz) (hpsz : 16 ≤ psz) (hle : psz + 8 ≤ bp)
    (h0 : GET s.mem (bp - 4) = tagOf sz al)
    (h1 : GET s1.mem (bp - 4) = tagOf sz al)
    (h2 : GET s1.mem (bp - 8) = tagOf psz false)
    (h3 : GET s1.mem (bp - psz - 4) = tagOf psz false) :
    coal3 bp s s1 = (bp - psz, { s1 with mem := retagFH s1.mem (bp - psz) (psz + sz) }) := by
  have e8 : 8 ∣ psz + sz := by omega
  unfold coal3 retagFH
  simp only
  rw [(rd_size s.mem bp sz al h8 h0).1, rd_prev s1.mem bp psz false hp8 h2,
    (rd_size s1.mem (bp - psz) psz false hp8 h3).1, (rd_size s1.mem bp sz al h8 h1).2.2,
    mod_two32 _ (by omega), Nat.add_comm sz psz, PACK_zero _ e8]
  have a1 : GET (PUT s1.mem (bp + sz - 8) (tagOf (psz + sz) false)) (bp - 8)
      = tagOf psz false := by
    rw [GET_PUT_other _ _ _ _ (by omega)]; exact h2
  rw [rd_prev _ bp psz false hp8 a1]
  have e2 : HDRP (bp - psz) = bp - psz - 4 := rfl
  rw [e2]
  have a2 : GET (PUT (PUT s1.mem (bp + sz - 8) (tagOf (psz + sz) false)) (bp - psz - 4)
      (tagOf (psz + sz) false)) (bp - 8) = tagOf psz false := by
    rw [GET_PUT_other _ _ _ _ (by omega)]; exact a1
  rw [rd_prev _ bp psz false hp8 a2]
  have e3 : bp - psz + (psz + sz) - 8 = bp + sz - 8 := by omega
  rw [e3]

theorem calc4 (s s2 : State) (bp sz psz nsz : Nat) (al : Bool) (h8 : 8 ∣ sz)
    (hp8 : 8 ∣ psz) (hn8 : 8 ∣ nsz)
    (hlt : psz + sz + nsz < 4294967296) (hsz : 16 ≤ sz) (hpsz : 16 ≤ psz)
    (hnsz : 16 ≤ nsz) (hle : psz + 8 ≤ bp)
    (h0 : GET s.mem (bp - 4) = tagOf sz al)
    (h1 : GET s2.mem (bp - 4) = tagOf sz al)
    (h2 : GET s2.mem (bp - 8) = tagOf psz false)
    (h3 : GET s2.mem (bp - psz - 4) = tagOf psz false)
    (h4 : GET s2.mem (bp + sz - 4) = tagOf nsz false)
    (h5 : GET s2.mem (bp + sz + nsz - 8) = tagOf nsz false) :
    coal4 bp s s2 =
      (bp - psz, { s2 with mem := retagHF s2.mem (bp - psz) (psz + sz + nsz) }) := by
  have e8 : 8 ∣ psz + sz + nsz := by omega
  unfold coal4 retagHF
  simp only
  rw [(rd_size s.mem bp sz al h8 h0).1, rd_prev s2.mem bp psz false hp8 h2,
    (rd_size s2.mem (bp - psz) psz false hp8 h3).1, (rd_size s2.mem bp sz al h8 h1).2.1]
  have b1 : GET s2.mem (bp + sz - 4) = tagOf nsz false := h4
  rw [(rd_size s2.mem (bp + sz) nsz false hn8 b1).2.2, GET_SIZE_of_tag _ _ _ _ h5 hn8,
    mod_two32 (psz + nsz) (by omega), mod_two32 (sz + (psz + nsz)) (by omega)]
  have e0 : sz + (psz + nsz) = psz + sz + nsz := by omega
  rw [e0, PACK_zero _ e8]
  have e2 : HDRP (bp - psz) = bp - psz - 4 := rfl
  rw [e2]
  have a1 : GET (PUT s2.mem (bp - psz - 4) (tagOf (psz + sz + nsz) false)) (bp - 4)
      = tagOf sz al := by
    rw [GET_PUT_other _ _ _ _ (by omega)]; exact h1
  rw [(rd_size _ bp sz al h8 a1).2.1]
  have a2 : GET (PUT s2.mem (bp - psz - 4) (tagOf (psz + sz + nsz) false)) (bp + sz - 4)
      = tagOf nsz false := by
    rw [GET_PUT_other _ _ _ _ (by omega)]; exact h4
  rw [(rd_size _ (bp + sz) nsz false hn8 a2).2.2]
  have a3 : GET (PUT (PUT s2.mem (bp - psz - 4) (tagOf (psz + sz + nsz) false))
      (bp + sz + nsz - 8) (tagOf (psz + sz + nsz) false)) (bp - 8) = tagOf psz false := by
    rw [GET_PUT_other _ _ _ _ (by omega), GET_PUT_other _ _ _ _ (by omega)]; exact h2
  rw [rd_prev _ bp psz false hp8 a3]
  have e3 : bp - psz + (psz + sz + nsz) - 8 = bp + sz + nsz - 8 := by omega
  rw [e3]

theorem Mid.contigs {s : State} {pre post : List Blk} {b : Blk} {L : List Nat}
    (h : Mid s pre b post L) :
    Contig (s.heap_listp + 8) pre b.bp ∧ Contig (b.bp + b.sz) post s.mem_brk :=
  ⟨((Contig_split pre post b _ _).1 h.heap.contig).1,
    ((Contig_split pre post b _ _).1 h.heap.contig).2.2.2⟩

theorem Mid.lnk_sep {s : State} {pre post : List Blk} {b : Blk} {L : List Nat}
    (h : Mid s pre b post L) (a : Nat) (ha1 : b.bp - 4 ≤ a) (ha2 : a < b.bp + b.sz - 4) :
    ∀ y ∈ L, a < y ∨ y + 8 ≤ a := by
  intro y hy
  obtain ⟨c, hc, rfl, _⟩ := (h.idx y).1 hy
  have hb : b ∈ pre ++ b :: post := by simp
  have hbf := h.heap.mem_facts b hb
  obtain ⟨hc1, hc2⟩ := h.contigs
  rcases hc with hc | hc
  · have := Contig_mem _ _ _ hc1 c hc
    omega
  · have := Contig_mem _ _ _ hc2 c hc
    omega

/-- The bookkeeping shared by the three merging cases of `coalesce`. -/
theorem merge_general (s s1 : State) (pre post pre' post' ps ns : List Blk) (b : Blk)
    (L L' : List Nat) (st sz : Nat) (m' : Mem)
    (h : Mid s pre b post L)
    (hpre : pre = pre' ++ ps) (hpost : post = ns ++ post')
    (hps1 : ps = [] ∨ ∃ p, ps = [p])
    (hst : ps = [] → st = b.bp)
    (hin : ∀ c ∈ ps ++ ns, c.al = false ∧ st ≤ c.bp ∧ c.bp < st + sz)
    (hlo : st ≤ b.bp) (hhi : b.bp + b.sz ≤ st + sz) (h8 : 8 ∣ sz)
    (hc1 : Contig (s.heap_listp + 8) pre' st) (hc3 : Contig (st + sz) post' s.mem_brk)
    (hla : lastAlloc pre') (hha : headAlloc post')
    (hheap : Heap s1 (pre ++ b :: post))
    (hfl : FList s1.mem s1.free_listp L')
    (hbrk : s1.mem_brk = s.mem_brk) (hmax : s1.mem_max_addr = s.mem_max_addr)
    (hhl : s1.heap_listp = s.heap_listp)
    (hL' : ∀ x, x ∈ L' ↔ x ∈ L ∧ ∀ c ∈ ps ++ ns, c.bp ≠ x)
    (hl0 : GET s1.mem st = 0) (hl4 : GET s1.mem (st + 4) = 0)
    (hfr1 : ∀ a, (∀ y ∈ L, a < y ∨ y + 8 ≤ a) → s1.mem a = s.mem a)
    (hh : GET m' (st - 4) = tagOf sz false)
    (hft : GET m' (st + sz - 8) = tagOf sz false)
    (hfr : ∀ a, (a < st - 4 ∨ st ≤ a) → (a < st + sz - 8 ∨ st + sz - 4 ≤ a) →
      m' a = s1.mem a) :
    CoalOut s pre b post L (st, { s1 with mem := m' }) pre' ⟨st, sz, false⟩ post' L' := by
  have hb : b ∈ pre ++ b :: post := by simp
  have hbf := h.heap.mem_facts b hb
  have hmpre : ∀ c ∈ pre', c ∈ pre := fun c hc => by rw [hpre]; exact List.mem_append_left _ hc
  have hmpost : ∀ c ∈ post', c ∈ post := fun c hc => by
    rw [hpost]; exact List.mem_append_right _ hc
  have hidx : ∀ x, x ∈ L' ↔ ∃ c, (c ∈ pre' ∨ c ∈ post') ∧ c.bp = x ∧ c.al = false := by
    intro x
    rw [hL', h.idx x]
    constructor
    · rintro ⟨⟨c, hc, e, hal⟩, hne⟩
      refine ⟨c, ?_, e, hal⟩
      rcases hc with hc | hc
      · rw [hpre] at hc
        rcases List.mem_append.1 hc with hc | hc
        · exact Or.inl hc
        · exact absurd e (hne c (List.mem_append_left _ hc))
      · rw [hpost] at hc
        rcases List.mem_append.1 hc with hc | hc
        · exact absurd e (hne c (List.mem_append_right _ hc))
        · exact Or.inr hc
    · rintro ⟨c, hc, e, hal⟩
      rcases hc with hc | hc
      · refine ⟨⟨c, Or.inl (hmpre c hc), e, hal⟩, ?_⟩
        intro d hd
        have h1 := Contig_mem _ _ _ hc1 c hc
        have h2 := hin d hd
        omega
      · refine ⟨⟨c, Or.inr (hmpost c hc), e, hal⟩, ?_⟩
        intro d hd
        have h1 := Contig_mem _ _ _ hc3 c hc
        have h2 := hin d hd
        omega
  have hmid := merge_finish s1 _ pre' post' L' st sz m' hheap
    (fun c hc => List.mem_append_left _ (hmpre c hc))
    (fun c hc => List.mem_append_right _ (List.mem_cons_of_mem _ (hmpost c hc)))
    (by rw [hhl]; exact hc1) (by rw [hbrk]; exact hc3) (by omega) h8 hfl hidx
    (by have := h.na_pre; rw [hpre] at this; exact List.Chain'.left_of_append this)
    (by have := h.na_post; rw [hpost] at this; exact List.Chain'.right_of_append this)
    hh hft
    (by rw [← hl0]; apply GET_congr; intro a _ _; exact hfr a (by omega) (by omega))
    (by rw [← hl4]; apply GET_congr; intro a _ _; exact hfr a (by omega) (by omega))
    (fun a ha => hfr a (by omega) (by omega))
  refine ⟨rfl, hmid, hla, hha, hbrk, hmax, hhl, ?_, ?_, ?_, ?_, hlo, hhi, ?_, ?_, ?_⟩
  · rintro c (hc | hc)
    · exact Or.inl (hmpre c hc)
    · exact Or.inr (hmpost c hc)
  · rintro c hal (hc | hc)
    · rw [hpre] at hc
      rcases List.mem_append.1 hc with hc | hc
      · exact Or.inl hc
      · have := (hin c (List.mem_append_left _ hc)).1
        rw [hal] at this; cases this
    · rw [hpost] at hc
      rcases List.mem_append.1 hc with hc | hc
      · have := (hin c (List.mem_append_right _ hc)).1
        rw [hal] at this; cases this
      · exact Or.inr hc
  · intro x hx
    exact ((hL' x).1 hx).1
  · intro x hx
    by_cases e : ∀ c ∈ ps ++ ns, c.bp ≠ x
    · exact Or.inl ((hL' x).2 ⟨hx, e⟩)
    · right
      push_neg at e
      obtain ⟨c, hc, rfl⟩ := e
      exact (hin c hc).2
  · intro hlap
    rcases hps1 with e | ⟨p, e⟩
    · subst e
      refine ⟨hst rfl, ?_⟩
      rw [hpre]; simp
    · subst e
      rw [hpre, lastAlloc_append_singleton] at hlap
      have := (hin p (by simp)).1
      rw [hlap] at this; cases this
  · intro e
    rw [hpost] at e
    exact (List.append_eq_nil.1 e).2
  · intro a ha1 ha2
    show m' a = s.mem a
    simp only at ha2
    rw [hfr a (by omega) (by omega)]
    exact hfr1 a ha1

theorem coalCore_spec2 (s : State) (pre post : List Blk) (b : Blk) (L : List Nat)
    (h : Mid s pre b post L) (nsz : Nat) (post' : List Blk)
    (hpa : GET_ALLOC s.mem (FTRP s.mem (PREV_BLKP s.mem b.bp)) ≠ 0)
    (hna : GET_ALLOC s.mem (HDRP (NEXT_BLKP s.mem b.bp)) = 0)
    (hla : lastAlloc pre)
    (hpost : post = ⟨b.bp + b.sz, nsz, false⟩ :: post') :
    CoalOut s pre b post L (coalCore b.bp s) pre ⟨b.bp, b.sz + nsz, false⟩ post'
      (L.erase (b.bp + b.sz)) ∧ (coalCore b.bp s).2.rover = s.rover := by
  have hb : b ∈ pre ++ b :: post := by simp
  have hn : (⟨b.bp + b.sz, nsz, false⟩ : Blk) ∈ pre ++ b :: post := by
    rw [hpost]; simp
  have hbf := h.heap.mem_facts b hb
  have hnf := h.heap.mem_facts _ hn
  simp only at hnf
  have hlim := h.heap.lim
  obtain ⟨hc1, hc2⟩ := h.contigs
  have hc3 : Contig (b.bp + (b.sz + nsz)) post' s.mem_brk := by
    rw [hpost] at hc2
    have := hc2.2.2.2
    simp only at this
    rw [Nat.add_assoc] at this
    exact this
  have hnL : b.bp + b.sz ∈ L :=
    (h.idx _).2 ⟨_, Or.inr (by rw [hpost]; exact List.mem_cons_self _ _), rfl, rfl⟩
  obtain ⟨g1, g2, g3, g4, g5⟩ := removeblock_heap s _ L (b.bp + b.sz) h.heap h.fl h.idx_sub hnL
  obtain ⟨f1, f2, f3, f4⟩ := removeblock_fields (b.bp + b.sz) s
  have hcalc := calc2 s (removeblock (b.bp + b.sz) s) b.bp b.sz nsz b.al hbf.2.2.2.1
    hnf.2.2.2.1 (by omega) (h.heap.tags b hb).1 (g1.tags b hb).1 (g1.tags _ hn).1
  rw [coalCore_case2 _ _ hpa hna, h.next_eq, hcalc]
  obtain ⟨t1, t2, t3⟩ := retagHF_facts (removeblock (b.bp + b.sz) s).mem b.bp (b.sz + nsz)
    (by omega) (by omega) (by omega)
  refine ⟨merge_general s _ pre post pre post' [] [⟨b.bp + b.sz, nsz, false⟩] b L _
    b.bp (b.sz + nsz) _ h (by simp) (by rw [hpost]; simp) (Or.inl rfl) (fun _ => rfl) ?_
    (le_refl _) (by omega) (by omega) hc1 hc3 hla ?_ g1 g2 f1 f2 f3 ?_ ?_ ?_ g5 t1 t2 t3, f4⟩
  · intro c hc
    simp only [List.nil_append, List.mem_singleton] at hc
    subst hc
    exact ⟨rfl, by show b.bp ≤ b.bp + b.sz; omega, by show b.bp + b.sz < b.bp + (b.sz + nsz); omega⟩
  · have := h.na_post
    rw [hpost] at this
    exact NoAdj_head_free _ _ this rfl
  · intro x
    rw [List.Nodup.mem_erase_iff h.fl.2.1]
    simp only [List.nil_append, List.mem_singleton, forall_eq]
    constructor
    · rintro ⟨h1, h2⟩; exact ⟨h2, fun e => h1 e.symm⟩
    · rintro ⟨h1, h2⟩; exact ⟨fun e => h2 e.symm, h1⟩
  · rw [← h.l0]; apply GET_congr; intro a _ _
    exact g5 a (h.lnk_sep a (by omega) (by omega))
  · rw [← h.l4]; apply GET_congr; intro a _ _
    exact g5 a (h.lnk_sep a (by omega) (by omega))

theorem coalCore_spec3 (s : State) (pre post : List Blk) (b : Blk) (L : List Nat)
    (h : Mid s pre b post L) (psz : Nat) (pre0 : List Blk)
    (hpa : GET_ALLOC s.mem (FTRP s.mem (PREV_BLKP s.mem b.bp)) = 0)
    (hna : GET_ALLOC s.mem (HDRP (NEXT_BLKP s.mem b.bp)) ≠ 0)
    (hha : headAlloc post) (hle : psz + 8 ≤ b.bp)
    (hpre : pre = pre0 ++ [⟨b.bp - psz, psz, false⟩]) :
    CoalOut s pre b post L (coalCore b.bp s) pre0 ⟨b.bp - psz, psz + b.sz, false⟩ post
      (L.erase (b.bp - psz)) ∧ (coalCore b.bp s).2.rover = s.rover := by
  have hb : b ∈ pre ++ b :: post := by simp
  have hp : (⟨b.bp - psz, psz, false⟩ : Blk) ∈ pre ++ b :: post := by
    rw [hpre]; simp
  have hbf := h.heap.mem_facts b hb
  have hpf := h.heap.mem_facts _ hp
  simp only at hpf
  have hlim := h.heap.lim
  obtain ⟨hc1, hc2⟩ := h.contigs
  have hc0 : Contig (s.heap_listp + 8) pre0 (b.bp - psz) := by
    rw [hpre] at hc1
    exact ((Contig_split pre0 [] _ _ _).1 hc1).1
  have hc3 : Contig (b.bp - psz + (psz + b.sz)) post s.mem_brk := by
    have e : b.bp - psz + (psz + b.sz) = b.bp + b.sz := by omega
    rw [e]; exact hc2
  have hpL : b.bp - psz ∈ L :=
    (h.idx _).2 ⟨⟨b.bp - psz, psz, false⟩, Or.inl (by rw [hpre]; simp), rfl, rfl⟩
  obtain ⟨g1, g2, g3, g4, g5⟩ := removeblock_heap s _ L (b.bp - psz) h.heap h.fl h.idx_sub hpL
  obtain ⟨f1, f2, f3, f4⟩ := removeblock_fields (b.bp - psz) s
  have hpt0 := h.heap.tags _ hp
  have hpt := g1.tags _ hp
  unfold Tagged at hpt hpt0
  dsimp only at hpt hpt0
  have e1 : b.bp - psz + psz - 8 = b.bp - 8 := by omega
  rw [e1] at hpt hpt0
  have hcalc := calc3 s (removeblock (b.bp - psz) s) b.bp b.sz psz b.al hbf.2.2.2.1
    hpf.2.2.2.1 (by omega) hbf.2.2.1 hpf.2.2.1 hle (h.heap.tags b hb).1 (g1.tags b hb).1
    hpt.2 hpt.1
  rw [coalCore_case3 _ _ hpa hna, rd_prev s.mem b.bp psz false hpf.2.2.2.1 hpt0.2, hcalc]
  obtain ⟨t1, t2, t3⟩ := retagFH_facts (removeblock (b.bp - psz) s).mem (b.bp - psz)
    (psz + b.sz) (by omega) (by omega) (by omega)
  refine ⟨merge_general s _ pre post pre0 post [⟨b.bp - psz, psz, false⟩] [] b L _
    (b.bp - psz) (psz + b.sz) _ h hpre (by simp) (Or.inr ⟨_, rfl⟩) ?_ ?_
    (by omega) (by omega) (by omega) hc0 hc3 ?_ hha g1 g2 f1 f2 f3 ?_ g3 g4 g5 t1 t2 t3, f4⟩
  · intro e; simp at e
  · intro c hc
    simp only [List.append_nil, List.mem_singleton] at hc
    subst hc
    exact ⟨rfl, le_refl _, by show b.bp - psz < b.bp - psz + (psz + b.sz); omega⟩
  · have := h.na_pre
    rw [hpre] at this
    exact NoAdj_last_free _ _ this rfl
  · intro x
    rw [List.Nodup.mem_erase_iff h.fl.2.1]
    simp only [List.append_nil, List.mem_singleton, forall_eq]
    constructor
    · rintro ⟨h1, h2⟩; exact ⟨h2, fun e => h1 e.symm⟩
    · rintro ⟨h1, h2⟩; exact ⟨fun e => h2 e.symm, h1⟩

theorem coalCore_spec4 (s : State) (pre post : List Blk) (b : Blk) (L : List Nat)
    (h : Mid s pre b post L) (psz nsz : Nat) (pre0 post' : List Blk)
    (hpa : GET_ALLOC s.mem (FTRP s.mem (PREV_BLKP s.mem b.bp)) = 0)
    (hna : GET_ALLOC s.mem (HDRP (NEXT_BLKP s.mem b.bp)) = 0)
    (hle : psz + 8 ≤ b.bp)
    (hpre : pre = pre0 ++ [⟨b.bp - psz, psz, false⟩])
    (hpost : post = ⟨b.bp + b.sz, nsz, false⟩ :: post') :
    CoalOut s pre b post L (coalCore b.bp s) pre0 ⟨b.bp - psz, psz + b.sz + nsz, false⟩ post'
      ((L.erase (b.bp - psz)).erase (b.bp + b.sz)) ∧ (coalCore b.bp s).2.rover = s.rover := by
  have hb : b ∈ pre ++ b :: post := by simp
  have hp : (⟨b.bp - psz, psz, false⟩ : Blk) ∈ pre ++ b :: post := by
    rw [hpre]; simp
  have hn : (⟨b.bp + b.sz, nsz, false⟩ : Blk) ∈ pre ++ b :: post := by
    rw [hpost]; simp
  have hbf := h.heap.mem_facts b hb
  have hpf := h.heap.mem_facts _ hp
  have hnf := h.heap.mem_facts _ hn
  simp only at hpf hnf
  have hlim := h.heap.lim
  obtain ⟨hc1, hc2⟩ := h.contigs
  have hc0 : Contig (s.heap_listp + 8) pre0 (b.bp - psz) := by
    rw [hpre] at hc1
    exact ((Contig_split pre0 [] _ _ _).1 hc1).1
  have hc3 : Contig (b.bp - psz + (psz + b.sz + nsz)) post' s.mem_brk := by
    have e : b.bp - psz + (psz + b.sz + nsz) = b.bp + b.sz + nsz := by omega
    rw [e]
    rw [hpost] at hc2
    exact hc2.2.2.2
  have hpL : b.bp - psz ∈ L :=
    (h.idx _).2 ⟨⟨b.bp - psz, psz, false⟩, Or.inl (by rw [hpre]; simp), rfl, rfl⟩
  have hnL : b.bp + b.sz ∈ L :=
    (h.idx _).2 ⟨_, Or.inr (by rw [hpost]; exact List.mem_cons_self _ _), rfl, rfl⟩
  obtain ⟨g1, g2, g3, g4, g5⟩ := removeblock_heap s _ L (b.bp - psz) h.heap h.fl h.idx_sub hpL
  obtain ⟨f1, f2, f3, f4⟩ := removeblock_fields (b.bp - psz) s
  have hnL1 : b.bp + b.sz ∈ L.erase (b.bp - psz) :=
    (List.Nodup.mem_erase_iff h.fl.2.1).2 ⟨by omega, hnL⟩
  have hsub1 : ∀ y ∈ L.erase (b.bp - psz), ∃ c ∈ pre ++ b :: post, c.bp = y :=
    fun y hy => h.idx_sub y (List.mem_of_mem_erase hy)
  obtain ⟨k1, k2, k3, k4, k5⟩ := removeblock_heap (removeblock (b.bp - psz) s) _ _
    (b.bp + b.sz) g1 g2 hsub1 hnL1
  obtain ⟨j1, j2, j3, j4⟩ := removeblock_fields (b.bp + b.sz) (removeblock (b.bp - psz) s)
  have hpt0 := h.heap.tags _ hp
  have hpt := k1.tags _ hp
  have hnt := k1.tags _ hn
  unfold Tagged at hpt hpt0 hnt
  dsimp only at hpt hpt0 hnt
  have e1 : b.bp - psz + psz - 8 = b.bp - 8 := by omega
  rw [e1] at hpt hpt0
  have hcalc := calc4 s (removeblock (b.bp + b.sz) (removeblock (b.bp - psz) s)) b.bp b.sz
    psz nsz b.al hbf.2.2.2.1 hpf.2.2.2.1 hnf.2.2.2.1 (by omega) hbf.2.2.1 hpf.2.2.1
    hnf.2.2.1 hle (h.heap.tags b hb).1 (k1.tags b hb).1 hpt.2 hpt.1 hnt.1 hnt.2
  rw [coalCore_case4 _ _ hpa hna, rd_prev s.mem b.bp psz false hpf.2.2.2.1 hpt0.2,
    (rd_size _ b.bp b.sz b.al hbf.2.2.2.1 (g1.tags b hb).1).2.1, hcalc]
  obtain ⟨t1, t2, t3⟩ := retagHF_facts
    (removeblock (b.bp + b.sz) (removeblock (b.bp - psz) s)).mem (b.bp - psz)
    (psz + b.sz + nsz) (by omega) (by omega) (by omega)
  have hsepp : ∀ a, b.bp - psz ≤ a → a < b.bp - psz + 8 →
      ∀ y ∈ L.erase (b.bp - psz), a < y ∨ y + 8 ≤ a := by
    intro a ha1 ha2 y hy
    obtain ⟨hne, hyL⟩ := (List.Nodup.mem_erase_iff h.fl.2.1).1 hy
    obtain ⟨c, hc, e⟩ := h.idx_sub y hyL
    have hcf := h.heap.mem_facts c hc
    rcases h.heap.disj _ c hp hc with e2 | e2 | e2
    · subst e2; exact absurd e.symm hne
    · simp only at e2; omega
    · simp only at e2; omega
  refine ⟨merge_general s _ pre post pre0 post' [⟨b.bp - psz, psz, false⟩]
    [⟨b.bp + b.sz, nsz, false⟩] b L _
    (b.bp - psz) (psz + b.sz + nsz) _ h hpre (by rw [hpost]; simp) (Or.inr ⟨_, rfl⟩) ?_ ?_
    (by omega) (by omega) (by omega) hc0 hc3 ?_ ?_ k1 k2 (by rw [j1, f1]) (by rw [j2, f2])
    (by rw [j3, f3]) ?_ ?_ ?_ ?_ t1 t2 t3, by rw [j4, f4]⟩
  · intro e; simp at e
  · intro c hc
    simp only [List.singleton_append, List.mem_cons, List.mem_singleton, List.not_mem_nil,
      or_false] at hc
    rcases hc with hc | hc
    · subst hc
      exact ⟨rfl, le_refl _, by show b.bp - psz < b.bp - psz + (psz + b.sz + nsz); omega⟩
    · subst hc
      exact ⟨rfl, by show b.bp - psz ≤ b.bp + b.sz; omega,
        by show b.bp + b.sz < b.bp - psz + (psz + b.sz + nsz); omega⟩
  · have := h.na_pre
    rw [hpre] at this
    exact NoAdj_last_free _ _ this rfl
  · have := h.na_post
    rw [hpost] at this
    exact NoAdj_head_free _ _ this rfl
  · intro x
    rw [List.Nodup.mem_erase_iff g2.2.1, List.Nodup.mem_erase_iff h.fl.2.1]
    simp only [List.singleton_append, List.mem_cons, List.mem_singleton, List.not_mem_nil,
      or_false, forall_eq_or_imp, forall_eq]
    constructor
    · rintro ⟨h1, h2, h3⟩; exact ⟨h3, fun e => h2 e.symm, fun e => h1 e.symm⟩
    · rintro ⟨h1, h2, h3⟩; exact ⟨fun e => h3 e.symm, fun e => h2 e.symm, h1⟩
  · rw [← g3]; apply GET_congr; intro a ha1 ha2
    exact k5 a (hsepp a ha1 (by omega))
  · rw [← g4]; apply GET_congr; intro a ha1 ha2
    exact k5 a (hsepp a (by omega) (by omega))
  · intro a ha
    rw [k5 a (fun y hy => ha y (List.mem_of_mem_erase hy))]
    exact g5 a ha

theorem rd_prev_alloc (m : Mem) (bp psz : Nat) (pal : Bool) (h8 : 8 ∣ psz)
    (hle : psz + 8 ≤ bp) (hf : GET m (bp - 8) = tagOf psz pal)
    (hh : GET m (bp - psz - 4) = tagOf psz pal) :
    GET_ALLOC m (FTRP m (PREV_BLKP m bp)) = pal.toNat := by
  rw [rd_prev m bp psz pal h8 hf, (rd_size m (bp - psz) psz pal h8 hh).2.2]
  have : bp - psz + psz - 8 = bp - 8 := by omega
  rw [this]
  exact GET_ALLOC_of_tag m _ psz pal hf h8

theorem rd_next_alloc (m : Mem) (bp sz nsz : Nat) (al nal : Bool) (h8 : 8 ∣ sz)
    (hn8 : 8 ∣ nsz) (_hsz : 4 ≤ bp + sz) (hh : GET m (bp - 4) = tagOf sz al)
    (hn : GET m (bp + sz - 4) = tagOf nsz nal) :
    GET_ALLOC m (HDRP (NEXT_BLKP m bp)) = nal.toNat := by
  rw [(rd_size m bp sz al h8 hh).2.1]
  unfold HDRP WSIZE
  exact GET_ALLOC_of_tag m _ nsz nal hn hn8

theorem coalCore_spec (s : State) (pre post : List Blk) (b : Blk) (L : List Nat)
    (h : Mid s pre b post L) :
    ∃ pre' b' post' L', CoalOut s pre b post L (coalCore b.bp s) pre' b' post' L' ∧
      (coalCore b.bp s).2.rover = s.rover ∧
      (lastAlloc pre → headAlloc post →
        coalCore b.bp s = (b.bp, s) ∧ pre' = pre ∧ b' = b ∧ post' = post ∧ L' = L) := by
  have hb : b ∈ pre ++ b :: post := by simp
  have hbf := h.heap.mem_facts b hb
  obtain ⟨psz, pal, hp8, hp16, hple, hpf, hph, hpT, hpF⟩ := prevView s pre post b h.heap
  obtain ⟨nsz, nal, hn8, hnh, hnT, hnF⟩ := nextView s pre post b h.heap
  have hpa := rd_prev_alloc s.mem b.bp psz pal hp8 hple hpf hph
  have hna := rd_next_alloc s.mem b.bp b.sz nsz b.al nal hbf.2.2.2.1 hn8 (by omega)
    (h.heap.tags b hb).1 hnh
  cases pal <;> cases nal
  · -- both free
    obtain ⟨pre0, hpre⟩ := hpF rfl
    obtain ⟨_, post', hpost⟩ := hnF rfl
    obtain ⟨c1, c2⟩ := coalCore_spec4 s pre post b L h psz nsz pre0 post' hpa hna hple hpre hpost
    refine ⟨_, _, _, _, c1, c2, ?_⟩
    intro hl _
    rw [hpre, lastAlloc_append_singleton] at hl
    cases hl
  · -- previous free
    obtain ⟨pre0, hpre⟩ := hpF rfl
    have hna' : GET_ALLOC s.mem (HDRP (NEXT_BLKP s.mem b.bp)) ≠ 0 := by rw [hna]; simp
    obtain ⟨c1, c2⟩ := coalCore_spec3 s pre post b L h psz pre0 hpa hna' (hnT rfl) hple hpre
    refine ⟨_, _, _, _, c1, c2, ?_⟩
    intro hl _
    rw [hpre, lastAlloc_append_singleton] at hl
    cases hl
  · -- next free
    obtain ⟨_, post', hpost⟩ := hnF rfl
    have hpa' : GET_ALLOC s.mem (FTRP s.mem (PREV_BLKP s.mem b.bp)) ≠ 0 := by rw [hpa]; simp
    obtain ⟨c1, c2⟩ := coalCore_spec2 s pre post b L h nsz post' hpa' hna (hpT rfl) hpost
    refine ⟨_, _, _, _, c1, c2, ?_⟩
    intro _ hl
    rw [hpost, headAlloc_cons] at hl
    cases hl
  · -- both allocated
    have hpa' : GET_ALLOC s.mem (FTRP s.mem (PREV_BLKP s.mem b.bp)) ≠ 0 := by rw [hpa]; simp
    have hna' : GET_ALLOC s.mem (HDRP (NEXT_BLKP s.mem b.bp)) ≠ 0 := by rw [hna]; simp
    rw [coalCore_case1 _ _ hpa' hna']
    refine ⟨pre, b, post, L, ⟨rfl, h, hpT rfl, hnT rfl, rfl, rfl, rfl, fun _ hc => hc,
      fun _ _ hc => hc, fun _ hx => hx, fun _ hx => Or.inl hx, le_refl _, le_refl _,
      fun _ => ⟨rfl, rfl⟩, fun e => e, fun _ _ _ => rfl⟩, rfl, fun _ _ => ⟨rfl, rfl, rfl, rfl, rfl⟩⟩

/-- The spec of `coalesce` on a transient state whose cursor is null or indexed. -/
theorem coalesce_spec (s : State) (pre post : List Blk) (b : Blk) (L : List Nat)
    (h : Mid s pre b post L) (hr : s.rover = 0 ∨ s.rover ∈ L) :
    ∃ pre' b' post' L', CoalOut s pre b post L (coalesce b.bp s) pre' b' post' L' ∧
      ((coalesce b.bp s).2.rover = 0 ∨ (coalesce b.bp s).2.rover ∈ L' ∨
        (coalesce b.bp s).2.rover = b'.bp) ∧
      (lastAlloc pre → headAlloc post →
        coalesce b.bp s = (b.bp, s) ∧ pre' = pre ∧ b' = b ∧ post' = post ∧ L' = L) ∧
      (s.rover = 0 → (coalesce b.bp s).2.rover = 0) := by
  obtain ⟨pre', b', post', L', c, hrv, hsame⟩ := coalCore_spec s pre post b L h
  rw [coalesce_eq]
  have hr' : (coalCore b.bp s).2.rover = 0 ∨ (coalCore b.bp s).2.rover ∈ L' ∨
      (b'.bp ≤ (coalCore b.bp s).2.rover ∧ (coalCore b.bp s).2.rover < b'.bp + b'.sz) := by
    rw [hrv]
    rcases hr with h0 | h0
    · exact Or.inl h0
    · rcases c.lin _ h0 with h1 | h1
      · exact Or.inr (Or.inl h1)
      · exact Or.inr (Or.inr h1)
  have hpair : coalCore b.bp s = (b'.bp, (coalCore b.bp s).2) := by
    rw [← c.ret]
  obtain ⟨q1, q2, q3, q4, q5, q6, q7, q8, q9⟩ :=
    roverFix_spec (coalCore b.bp s).2 pre' post' b' L' c.mid hr'
  rw [hpair]
  refine ⟨pre', b', post', L', ⟨q1, q2, c.la, c.ha, by rw [q5, c.brk], by rw [q6, c.max],
    by rw [q7, c.hl], c.sub, c.keep, c.lsub, c.lin, c.lo, c.hi, c.same_pre, c.last, ?_⟩, q3, ?_,
    ?_⟩
  · intro a ha1 ha2
    rw [q4]
    exact c.frame a ha1 ha2
  · intro hl hh
    obtain ⟨e1, e2, e3, e4, e5⟩ := hsame hl hh
    subst e2 e3 e4 e5
    refine ⟨?_, rfl, rfl, rfl, rfl⟩
    have e6 : (coalCore b'.bp s).2 = s := by rw [e1]
    rw [e6] at q9 ⊢
    exact q9 hr
  · intro h0
    rw [q9 (Or.inl (by rw [hrv]; exact h0))]
    show (coalCore b.bp s).2.rover = 0
    rw [hrv]; exact h0

/-! ## The allocator invariant -/

theorem NoAdj_join (pre post : List Blk) (b : Blk) (h1 : NoAdj pre) (h2 : NoAdj post)
    (hla : lastAlloc pre) (hha : headAlloc post) : NoAdj (pre ++ b :: post) := by
  unfold NoAdj
  rw [List.chain'_append, List.chain'_cons']
  refine ⟨h1, ⟨fun y hy => Or.inr (hha y hy), h2⟩, ?_⟩
  intro x hx y hy
  exact Or.inl (hla x hx)

theorem NoAdj_parts (pre post : List Blk) (b : Blk) (h : NoAdj (pre ++ b :: post)) :
    NoAdj pre ∧ NoAdj post ∧ (b.al = false → lastAlloc pre ∧ headAlloc post) := by
  unfold NoAdj at h
  rw [List.chain'_append, List.chain'_cons'] at h
  obtain ⟨h1, ⟨h2, h3⟩, h4⟩ := h
  refine ⟨h1, h3, fun hb => ⟨?_, ?_⟩⟩
  · intro x hx
    rcases h4 x hx b (by simp) with e | e
    · exact e
    · rw [hb] at e; cases e
  · intro y hy
    rcases h2 y hy with e | e
    · rw [hb] at e; cases e
    · exact e

theorem NoAdj_alloc (pre post : List Blk) (b : Blk) (h1 : NoAdj pre) (h2 : NoAdj post)
    (hb : b.al = true) : NoAdj (pre ++ b :: post) := by
  unfold NoAdj
  rw [List.chain'_append, List.chain'_cons']
  refine ⟨h1, ⟨fun y _ => Or.inl hb, h2⟩, ?_⟩
  intro x _ y hy
  simp at hy
  subst hy
  exact Or.inr hb

/-- Two different blocks of the heap are far apart: a byte of one block's extent is
outside the other block's extent. -/
theorem Heap.sep {s : State} {bs : List Blk} (h : Heap s bs) (c d : Blk) (hc : c ∈ bs)
    (hd : d ∈ bs) (hne : c.bp ≠ d.bp) (a : Nat) (ha1 : c.bp ≤ a + 4) (ha2 : a + 4 < c.bp + c.sz) :
    a + 4 < d.bp ∨ d.bp + d.sz ≤ a + 4 := by
  rcases h.disj c d hc hd with e | e | e
  · subst e; exact absurd rfl hne
  · omega
  · omega

/-- Inserting the coalesced block at the head of the index re-establishes the
invariant. -/
theorem insert_finish (s1 : State) (pre post : List Blk) (b : Blk) (L : List Nat)
    (h : Mid s1 pre b post L) (hla : lastAlloc pre) (hha : headAlloc post)
    (hr : s1.rover = 0 ∨ s1.rover ∈ L ∨ s1.rover = b.bp) :
    Inv (headinsert b.bp s1) (pre ++ b :: post) (b.bp :: L) ∧
    (∀ a, (∀ x ∈ b.bp :: L, a < x ∨ x + 8 ≤ a) → (headinsert b.bp s1).mem a = s1.mem a) := by
  have hb : b ∈ pre ++ b :: post := by simp
  have hbf := h.heap.mem_facts b hb
  obtain ⟨hc1, hc2⟩ := h.contigs
  have hnot : b.bp ∉ L := by
    intro hin
    obtain ⟨c, hc, e, _⟩ := (h.idx _).1 hin
    rcases hc with hc | hc
    · have := Contig_mem _ _ _ hc1 c hc
      omega
    · have := Contig_mem _ _ _ hc2 c hc
      omega
  obtain ⟨k1, k2⟩ := headinsert_spec s1 L b.bp h.fl hnot ⟨hbf.2.2.2.2.2.2, hbf.2.2.2.2.1,
    hbf.2.2.2.2.2.1⟩ h.l0 h.l4
  obtain ⟨f0, f1, f2, f3, f4⟩ := headinsert_fields b.bp s1
  refine ⟨⟨?_, k1, ?_, NoAdj_join _ _ _ h.na_pre h.na_post hla hha, ?_⟩, k2⟩
  · apply Heap_frame s1 _ _ h.heap f3 f2 f1
    intro a ha
    apply k2
    intro x hx
    rcases List.mem_cons.1 hx with e | e
    · subst e; exact ha b hb
    · obtain ⟨c, hc, e2⟩ := h.idx_sub x e
      subst e2; exact ha c hc
  · intro x
    rw [List.mem_cons, h.idx x]
    constructor
    · rintro (e | ⟨c, hc, e, hal⟩)
      · subst e; exact ⟨b, hb, rfl, h.bfree⟩
      · refine ⟨c, ?_, e, hal⟩
        rcases hc with hc | hc
        · exact List.mem_append_left _ hc
        · exact List.mem_append_right _ (List.mem_cons_of_mem _ hc)
    · rintro ⟨c, hc, e, hal⟩
      rcases List.mem_append.1 hc with hc | hc
      · exact Or.inr ⟨c, Or.inl hc, e, hal⟩
      · rcases List.mem_cons.1 hc with hc | hc
        · subst hc; exact Or.inl e.symm
        · exact Or.inr ⟨c, Or.inr hc, e, hal⟩
  · rw [f4]
    rcases hr with e | e | e
    · exact Or.inl e
    · exact Or.inr (List.mem_cons_of_mem _ e)
    · exact Or.inr (by rw [e]; exact List.mem_cons_self _ _)

/-! ## `mm_free` -/

theorem freeMem_facts (m : Mem) (p sz : Nat) (h4 : 4 ≤ p) (hsz : 16 ≤ sz)
    (hlt : sz < 4294967296) :
    GET (freeMem m p sz) (p - 4) = tagOf sz false ∧
    GET (freeMem m p sz) (p + sz - 8) = tagOf sz false ∧
    GET (freeMem m p sz) p = 0 ∧ GET (freeMem m p sz) (p + 4) = 0 ∧
    (∀ a, (a < p - 4 ∨ p + sz - 4 ≤ a) → freeMem m p sz a = m a) := by
  obtain ⟨t1, t2, t3⟩ := retagHF_facts m p sz h4 hsz hlt
  unfold freeMem
  refine ⟨?_, ?_, ?_, ?_, ?_⟩
  · rw [GET_PUT_other _ _ _ _ (by omega), GET_PUT_other _ _ _ _ (by omega)]; exact t1
  · rw [GET_PUT_other _ _ _ _ (by omega), GET_PUT_other _ _ _ _ (by omega)]; exact t2
  · rw [GET_PUT_same]
  · rw [GET_PUT_other _ _ _ _ (by omega), GET_PUT_same]
  · intro a ha
    rw [PUT_other _ _ _ _ (by omega), PUT_other _ _ _ _ (by omega)]
    exact t3 a (by omega) (by omega)

theorem mm_free_eq (s : State) (p sz : Nat) (al : Bool) (hp : p ≠ 0)
    (hhl : s.heap_listp ≠ 0) (h8 : 8 ∣ sz) (ht : GET s.mem (p - 4) = tagOf sz al)
    (hlt : sz < 4294967295) :
    mm_free p s =
      headinsert (coalesce p { s with mem := freeMem s.mem p sz }).1
        (coalesce p { s with mem := freeMem s.mem p sz }).2 := by
  unfold mm_free freeMem retagHF PUT_PREV PUT_SUCC
  simp only [hp, hhl, if_false]
  rw [(rd_size s.mem p sz al h8 ht).1, PACK_zero _ h8]
  have e2 : HDRP p = p - 4 := rfl
  rw [e2]
  have hh : GET (PUT s.mem (p - 4) (tagOf sz false)) (p - 4) = tagOf sz false := by
    rw [GET_PUT_same, tagOf_false]; omega
  rw [(rd_size _ p sz false h8 hh).2.2]

theorem Inv.split_idx {s : State} {pre post : List Blk} {b : Blk} {L : List Nat}
    (h : Inv s (pre ++ b :: post) L) (hb : b.al = true) :
    ∀ x, x ∈ L ↔ ∃ c, (c ∈ pre ∨ c ∈ post) ∧ c.bp = x ∧ c.al = false := by
  intro x
  rw [h.idx x]
  constructor
  · rintro ⟨c, hc, e, hal⟩
    refine ⟨c, ?_, e, hal⟩
    rcases List.mem_append.1 hc with hc | hc
    · exact Or.inl hc
    · rcases List.mem_cons.1 hc with hc | hc
      · subst hc; rw [hb] at hal; cases hal
      · exact Or.inr hc
  · rintro ⟨c, hc, e, hal⟩
    refine ⟨c, ?_, e, hal⟩
    rcases hc with hc | hc
    · exact List.mem_append_left _ hc
    · exact List.mem_append_right _ (List.mem_cons_of_mem _ hc)

/-- Marking an allocated block free and nulling its links yields the transient state
that `coalesce` expects. -/
theorem free_mark (s : State) (pre post : List Blk) (p sz : Nat) (L : List Nat)
    (h : Inv s (pre ++ ⟨p, sz, true⟩ :: post) L) :
    Mid { s with mem := freeMem s.mem p sz } pre ⟨p, sz, false⟩ post L := by
  have hb : (⟨p, sz, true⟩ : Blk) ∈ pre ++ ⟨p, sz, true⟩ :: post := by simp
  have hbf := h.heap.mem_facts _ hb
  simp only at hbf
  have hlim := h.heap.lim
  obtain ⟨hc1, _, _, hc2⟩ := (Contig_split pre post _ _ _).1 h.heap.contig
  obtain ⟨n1, n2, _⟩ := NoAdj_parts _ _ _ h.noadj
  obtain ⟨t1, t2, t3, t4, t5⟩ := freeMem_facts s.mem p sz (by omega) (by omega) (by omega)
  exact merge_finish s _ pre post L p sz _ h.heap
    (fun c hc => List.mem_append_left _ hc)
    (fun c hc => List.mem_append_right _ (List.mem_cons_of_mem _ hc))
    hc1 hc2 hbf.2.2.1 hbf.2.2.2.1 h.fl (h.split_idx rfl) n1 n2 t1 t2 t3 t4 t5

/-- The spec of `mm_free` on an allocated block. -/
theorem mm_free_spec (s : State) (pre post : List Blk) (p sz : Nat) (L : List Nat)
    (h : Inv s (pre ++ ⟨p, sz, true⟩ :: post) L) :
    ∃ pre' b' post' L',
      Inv (mm_free p s) (pre' ++ b' :: post') (b'.bp :: L') ∧
      (mm_free p s).mem_brk = s.mem_brk ∧
      (mm_free p s).mem_max_addr = s.mem_max_addr ∧
      (mm_free p s).heap_listp = s.heap_listp ∧
      (mm_free p s).free_listp = b'.bp ∧
      b'.al = false ∧ b'.bp ≤ p ∧ p + sz ≤ b'.bp + b'.sz ∧
      (lastAlloc pre → b'.bp = p ∧ pre' = pre) ∧
      (∀ c, (c ∈ pre' ∨ c ∈ post') → (c ∈ pre ∨ c ∈ post)) ∧
      (∀ c, c.al = true → (c ∈ pre ∨ c ∈ post) → (c ∈ pre' ∨ c ∈ post')) ∧
      (∀ x ∈ L', x ∈ L) ∧
      ((mm_free p s).rover = 0 ∨ (mm_free p s).rover ∈ L' ∨ (mm_free p s).rover = b'.bp) ∧
      (∀ c, c.al = true → (c ∈ pre ∨ c ∈ post) → ∀ a, c.bp ≤ a + 4 → a + 4 < c.bp + c.sz →
        (mm_free p s).mem a = s.mem a) := by
  have hb : (⟨p, sz, true⟩ : Blk) ∈ pre ++ ⟨p, sz, true⟩ :: post := by simp
  have hbf := h.heap.mem_facts _ hb
  simp only at hbf
  have hlim := h.heap.lim
  have hhp := h.heap.hlpos
  have hmid := free_mark s pre post p sz L h
  rw [mm_free_eq s p sz true hbf.2.2.2.2.2.2 (by omega) hbf.2.2.2.1 (h.heap.tags _ hb).1
    (by omega)]
  obtain ⟨pre', b', post', L', c, hrv, _, _⟩ :=
    coalesce_spec _ pre post ⟨p, sz, false⟩ L hmid h.rov
  simp only at c hrv
  obtain ⟨t1, t2, t3, t4, t5⟩ := freeMem_facts s.mem p sz (by omega) (by omega) (by omega)
  generalize coalesce p { s with mem := freeMem s.mem p sz } = r at c hrv ⊢
  rw [c.ret]
  obtain ⟨i1, i2⟩ := insert_finish r.2 pre' post' b' L' c.mid c.la c.ha hrv
  obtain ⟨f0, f1, f2, f3, f4⟩ := headinsert_fields b'.bp r.2
  have hmb := c.mid.bfree
  have hlo := c.lo
  have hhi := c.hi
  simp only at hlo hhi
  refine ⟨pre', b', post', L', i1, by rw [f1, c.brk], by rw [f2, c.max], by rw [f3, c.hl],
    f0, hmb, hlo, hhi, c.same_pre, c.sub, c.keep, c.lsub, by rw [f4]; exact hrv, ?_⟩
  intro d hdal hd a ha1 ha2
  have hdm : d ∈ pre ++ ⟨p, sz, true⟩ :: post := by
    rcases hd with hd | hd
    · exact List.mem_append_left _ hd
    · exact List.mem_append_right _ (List.mem_cons_of_mem _ hd)
  have hdf := h.heap.mem_facts d hdm
  have hd' := c.keep d hdal hd
  have hdm' : d ∈ pre' ++ b' :: post' := by
    rcases hd' with hd' | hd'
    · exact List.mem_append_left _ hd'
    · exact List.mem_append_right _ (List.mem_cons_of_mem _ hd')
  have hbm' : b' ∈ pre' ++ b' :: post' := by simp
  have hne' : d.bp ≠ b'.bp := by
    intro e
    have := c.mid.heap.bp_inj d b' hdm' hbm' e
    rw [this, hmb] at hdal; cases hdal
  have hneL : ∀ y ∈ L, a < y ∨ y + 8 ≤ a := by
    intro y hy
    obtain ⟨e, he, rfl, hal⟩ := (h.idx y).1 hy
    have hef := h.heap.mem_facts e he
    have hne : d.bp ≠ e.bp := by
      intro e2
      have := h.heap.bp_inj d e hdm he e2
      rw [this, hal] at hdal; cases hdal
    have := h.heap.sep d e hdm he hne a ha1 ha2
    omega
  have hsb := c.mid.heap.sep d b' hdm' hbm' hne' a ha1 ha2
  have hb'f := c.mid.heap.mem_facts b' hbm'
  rw [i2 a ?_, c.frame a hneL (by omega)]
  · show freeMem s.mem p sz a = s.mem a
    apply t5
    have hne : d.bp ≠ p := by
      intro e2
      have := h.heap.bp_inj d _ hdm hb e2
      rw [this] at hd
      obtain ⟨hc1, _, _, hc2⟩ := (Contig_split pre post _ _ _).1 h.heap.contig
      rcases hd with hd | hd
      · have := Contig_mem _ _ _ hc1 _ hd
        simp only at this; omega
      · have := Contig_mem _ _ _ hc2 _ hd
        simp only at this; omega
    have := h.heap.sep d _ hdm hb hne a ha1 ha2
    simp only at this
    omega
  · intro x hx
    rcases List.mem_cons.1 hx with e | e
    · subst e; omega
    · exact hneL x (c.lsub x e)

/-! ## `place` -/

theorem tagOf_true (sz : Nat) : tagOf sz true = sz + 1 := by
  unfold tagOf; simp

theorem placeMemS_facts (m : Mem) (bp asize rest : Nat) (h4 : 4 ≤ bp) (ha : 16 ≤ asize)
    (hr : 16 ≤ rest) (hlt : asize + rest < 4294967295) :
    GET (placeMemS m bp asize rest) (bp - 4) = tagOf asize true ∧
    GET (placeMemS m bp asize rest) (bp + asize - 8) = tagOf asize true ∧
    GET (placeMemS m bp asize rest) (bp + asize - 4) = tagOf rest false ∧
    GET (placeMemS m bp asize rest) (bp + asize + rest - 8) = tagOf rest false ∧
    GET (placeMemS m bp asize rest) (bp + asize) = 0 ∧
    GET (placeMemS m bp asize rest) (bp + asize + 4) = 0 ∧
    (∀ a, (a < bp - 4 ∨ bp + asize + rest - 4 ≤ a) → placeMemS m bp asize rest a = m a) := by
  unfold placeMemS
  rw [tagOf_false, tagOf_true]
  refine ⟨?_, ?_, ?_, ?_, ?_, ?_, ?_⟩
  · rw [GET_PUT_other _ _ _ _ (by omega), GET_PUT_other _ _ _ _ (by omega),
      GET_PUT_other _ _ _ _ (by omega), GET_PUT_other _ _ _ _ (by omega),
      GET_PUT_other _ _ _ _ (by omega), GET_PUT_same]; omega
  · rw [GET_PUT_other _ _ _ _ (by omega), GET_PUT_other _ _ _ _ (by omega),
      GET_PUT_other _ _ _ _ (by omega), GET_PUT_other _ _ _ _ (by omega), GET_PUT_same]
    omega
  · rw [GET_PUT_other _ _ _ _ (by omega), GET_PUT_other _ _ _ _ (by omega),
      GET_PUT_other _ _ _ _ (by omega), GET_PUT_same]; omega
  · rw [GET_PUT_other _ _ _ _ (by omega), GET_PUT_other _ _ _ _ (by omega), GET_PUT_same]
    omega
  · rw [GET_PUT_other _ _ _ _ (by omega), GET_PUT_same]
  · rw [GET_PUT_same]
  · intro a h
    rw [PUT_other _ _ _ _ (by omega), PUT_other _ _ _ _ (by omega),
      PUT_other _ _ _ _ (by omega), PUT_other _ _ _ _ (by omega),
      PUT_other _ _ _ _ (by omega), PUT_other _ _ _ _ (by omega)]

theorem placeMemW_facts (m : Mem) (bp csize : Nat) (h4 : 4 ≤ bp) (hc : 16 ≤ csize)
    (hlt : csize < 4294967295) :
    GET (placeMemW m bp csize) (bp - 4) = tagOf csize true ∧
    GET (placeMemW m bp csize) (bp + csize - 8) = tagOf csize true ∧
    (∀ a, (a < bp - 4 ∨ bp ≤ a) → (a < bp + csize - 8 ∨ bp + csize - 4 ≤ a) →
      placeMemW m bp csize a = m a) := by
  unfold placeMemW
  rw [tagOf_true]
  refine ⟨?_, ?_, ?_⟩
  · rw [GET_PUT_other _ _ _ _ (by omega), GET_PUT_same]; omega
  · rw [GET_PUT_same]; omega
  · intro a h1 h2
    rw [PUT_other _ _ _ _ (by omega), PUT_other _ _ _ _ (by omega)]

theorem sub_two32 (csize asize : Nat) (h1 : asize ≤ csize) (h2 : csize < 4294967296) :
    (csize + TWO32 - asize) % TWO32 = csize - asize := by
  unfold TWO32; omega

theorem place_eq_split (s : State) (bp csize asize : Nat) (al : Bool)
    (h8 : 8 ∣ csize) (ha8 : 8 ∣ asize) (hle : asize ≤ csize) (hlt : csize < 4294967295)
    (ht : GET s.mem (bp - 4) = tagOf csize al) (hbig : 16 ≤ csize - asize)
    (ha16 : 16 ≤ asize) (h4 : 4 ≤ bp) :
    place bp asize s =
      headinsert (bp + asize)
        (coalesce (bp + asize) { removeblock bp s with
          mem := placeMemS (removeblock bp s).mem bp asize (csize - asize) }).2 := by
  have hr8 : 8 ∣ csize - asize := by omega
  unfold place placeMemS PUT_SUCC PUT_PREV
  simp only
  rw [(rd_size s.mem bp csize al h8 ht).1, sub_two32 csize asize hle (by omega)]
  have e16 : 2 * DSIZE = 16 := rfl
  rw [e16, if_pos hbig, PACK_one _ ha8, PACK_zero _ hr8]
  have e2 : HDRP bp = bp - 4 := rfl
  rw [e2]
  have hh : GET (PUT (removeblock bp s).mem (bp - 4) (tagOf asize true)) (bp - 4)
      = tagOf asize true := by
    rw [GET_PUT_same, tagOf_true]; omega
  rw [(rd_size _ bp asize true ha8 hh).2.2]
  have hh2 : GET (PUT (PUT (removeblock bp s).mem (bp - 4) (tagOf asize true))
      (bp + asize - 8) (tagOf asize true)) (bp - 4) = tagOf asize true := by
    rw [GET_PUT_other _ _ _ _ (by omega)]; exact hh
  rw [(rd_size _ bp asize true ha8 hh2).2.1]
  have e3 : HDRP (bp + asize) = bp + asize - 4 := rfl
  rw [e3]
  have hh3 : GET (PUT (PUT (PUT (removeblock bp s).mem (bp - 4) (tagOf asize true))
      (bp + asize - 8) (tagOf asize true)) (bp + asize - 4) (tagOf (csize - asize) false))
      (bp + asize - 4) = tagOf (csize - asize) false := by
    rw [GET_PUT_same, tagOf_false]; omega
  rw [(rd_size _ (bp + asize) (csize - asize) false hr8 hh3).2.2]

theorem place_eq_whole (s : State) (bp csize asize : Nat) (al : Bool)
    (h8 : 8 ∣ csize) (hle : asize ≤ csize) (hlt : csize < 4294967295)
    (ht : GET s.mem (bp - 4) = tagOf csize al) (hsmall : ¬ 16 ≤ csize - asize) :
    place bp asize s =
      { removeblock bp s with mem := placeMemW (removeblock bp s).mem bp csize } := by
  unfold place placeMemW
  simp only
  rw [(rd_size s.mem bp csize al h8 ht).1, sub_two32 csize asize hle (by omega)]
  have e16 : 2 * DSIZE = 16 := rfl
  rw [e16, if_neg hsmall, PACK_one _ h8]
  have e2 : HDRP bp = bp - 4 := rfl
  rw [e2]
  have hh : GET (PUT (removeblock bp s).mem (bp - 4) (tagOf csize true)) (bp - 4)
      = tagOf csize true := by
    rw [GET_PUT_same, tagOf_true]; omega
  rw [(rd_size _ bp csize true h8 hh).2.2]

theorem Inv.idx_erase {s : State} {pre post : List Blk} {b : Blk} {L : List Nat}
    (h : Inv s (pre ++ b :: post) L) :
    ∀ x, x ∈ L.erase b.bp ↔ ∃ c, (c ∈ pre ∨ c ∈ post) ∧ c.bp = x ∧ c.al = false := by
  intro x
  obtain ⟨hc1, _, _, hc2⟩ := (Contig_split pre post b _ _).1 h.heap.contig
  rw [List.Nodup.mem_erase_iff h.fl.2.1, h.idx x]
  constructor
  · rintro ⟨hne, c, hc, e, hal⟩
    refine ⟨c, ?_, e, hal⟩
    rcases List.mem_append.1 hc with hc | hc
    · exact Or.inl hc
    · rcases List.mem_cons.1 hc with hc | hc
      · subst hc; exact absurd e.symm hne
      · exact Or.inr hc
  · rintro ⟨c, hc, e, hal⟩
    rcases hc with hc | hc
    · have := Contig_mem _ _ _ hc1 c hc
      exact ⟨by omega, c, List.mem_append_left _ hc, e, hal⟩
    · have := Contig_mem _ _ _ hc2 c hc
      exact ⟨by omega, c, List.mem_append_right _ (List.mem_cons_of_mem _ hc), e, hal⟩

theorem Inv.sub {s : State} {bs : List Blk} {L : List Nat} (h : Inv s bs L) :
    ∀ y ∈ L, ∃ c ∈ bs, c.bp = y := by
  intro y hy
  obtain ⟨c, hc, e, _⟩ := (h.idx y).1 hy
  exact ⟨c, hc, e⟩

/-- A byte in the extent of an allocated block is outside the link fields of every
indexed block. -/
theorem Inv.live_sep {s : State} {bs : List Blk} {L : List Nat} (h : Inv s bs L) (d : Blk)
    (hd : d ∈ bs) (hal : d.al = true) (a : Nat) (ha1 : d.bp ≤ a + 4)
    (ha2 : a + 4 < d.bp + d.sz) : ∀ y ∈ L, a < y ∨ y + 8 ≤ a := by
  intro y hy
  obtain ⟨e, he, rfl, hal2⟩ := (h.idx y).1 hy
  have hef := h.heap.mem_facts e he
  have hne : d.bp ≠ e.bp := by
    intro e2
    have := h.heap.bp_inj d e hd he e2
    rw [this, hal2] at hal; cases hal
  have := h.heap.sep d e hd he hne a ha1 ha2
  omega

theorem place_spec_whole (s : State) (pre post : List Blk) (bp csize asize : Nat)
    (L : List Nat) (h : Inv s (pre ++ ⟨bp, csize, false⟩ :: post) L) (hr : s.rover ≠ bp)
    (hle : asize ≤ csize) (hsmall : ¬ 16 ≤ csize - asize) :
    Inv (place bp asize s) (pre ++ ⟨bp, csize, true⟩ :: post) (L.erase bp) ∧
    (place bp asize s).mem_brk = s.mem_brk ∧
    (place bp asize s).mem_max_addr = s.mem_max_addr ∧
    (place bp asize s).heap_listp = s.heap_listp ∧
    (place bp asize s).rover = s.rover ∧
    (∀ a, (∀ y ∈ L, a < y ∨ y + 8 ≤ a) → (a + 4 < bp ∨ bp + csize ≤ a + 4) →
      (place bp asize s).mem a = s.mem a) := by
  have hb : (⟨bp, csize, false⟩ : Blk) ∈ pre ++ ⟨bp, csize, false⟩ :: post := by simp
  have hbf := h.heap.mem_facts _ hb
  simp only at hbf
  have hlim := h.heap.lim
  obtain ⟨hc1, _, _, hc2⟩ := (Contig_split pre post _ _ _).1 h.heap.contig
  simp only at hc1 hc2
  have hbL : bp ∈ L := (h.idx bp).2 ⟨_, hb, rfl, rfl⟩
  obtain ⟨g1, g2, g3, g4, g5⟩ := removeblock_heap s _ L bp h.heap h.fl h.sub hbL
  obtain ⟨f1, f2, f3, f4⟩ := removeblock_fields bp s
  obtain ⟨n1, n2, _⟩ := NoAdj_parts _ _ _ h.noadj
  rw [place_eq_whole s bp csize asize false hbf.2.2.2.1 hle (by omega) (h.heap.tags _ hb).1
    hsmall]
  obtain ⟨t1, t2, t3⟩ := placeMemW_facts (removeblock bp s).mem bp csize (by omega)
    (by omega) (by omega)
  have hidx := h.idx_erase
  simp only at hidx
  refine ⟨⟨?_, ?_, ?_, NoAdj_alloc _ _ _ n1 n2 rfl, ?_⟩, f1, f2, f3, f4, ?_⟩
  · have := Heap_rebuild (removeblock bp s)
      { removeblock bp s with mem := placeMemW (removeblock bp s).mem bp csize }
      _ pre [⟨bp, csize, true⟩] post bp (bp + csize) g1
      (fun c hc => List.mem_append_left _ hc)
      (fun c hc => List.mem_append_right _ (List.mem_cons_of_mem _ hc))
      rfl rfl g1.lim.1 (by rw [f3]; exact hc1) ⟨rfl, hbf.2.2.1, hbf.2.2.2.1, rfl⟩
      (by show Contig _ _ (removeblock bp s).mem_brk; rw [f1]; exact hc2)
      (by
        intro c hc
        simp only [List.mem_singleton] at hc
        subst hc
        exact ⟨t1, t2⟩)
      (by
        show GET (placeMemW _ _ _) ((removeblock bp s).mem_brk - 4) = 1
        rw [← g1.epi]; apply GET_congr; intro a _ _
        rw [f1] at *
        exact t3 a (by omega) (by omega))
      (fun a ha => t3 a (by omega) (by omega))
    rw [List.append_assoc, List.singleton_append] at this
    exact this
  · apply FList_frame _ _ _ _ g2
    intro x hx a ha1 ha2
    obtain ⟨c, hc, rfl, _⟩ := (hidx x).1 hx
    rcases hc with hc | hc
    · have := Contig_mem _ _ _ hc1 c hc
      exact t3 a (by omega) (by omega)
    · have := Contig_mem _ _ _ hc2 c hc
      exact t3 a (by omega) (by omega)
  · intro x
    rw [hidx x]
    constructor
    · rintro ⟨c, hc, e, hal⟩
      refine ⟨c, ?_, e, hal⟩
      rcases hc with hc | hc
      · exact List.mem_append_left _ hc
      · exact List.mem_append_right _ (List.mem_cons_of_mem _ hc)
    · rintro ⟨c, hc, e, hal⟩
      refine ⟨c, ?_, e, hal⟩
      rcases List.mem_append.1 hc with hc | hc
      · exact Or.inl hc
      · rcases List.mem_cons.1 hc with hc | hc
        · subst hc; cases hal
        · exact Or.inr hc
  · show (removeblock bp s).rover = 0 ∨ (removeblock bp s).rover ∈ L.erase bp
    rw [f4]
    rcases h.rov with e | e
    · exact Or.inl e
    · exact Or.inr ((List.Nodup.mem_erase_iff h.fl.2.1).2 ⟨hr, e⟩)
  · intro a ha1 ha2
    show placeMemW _ _ _ a = _
    rw [t3 a (by omega) (by omega)]
    exact g5 a ha1

theorem place_spec_split (s : State) (pre post : List Blk) (bp csize asize : Nat)
    (L : List Nat) (h : Inv s (pre ++ ⟨bp, csize, false⟩ :: post) L) (hr : s.rover ≠ bp)
    (ha16 : 16 ≤ asize) (ha8 : 8 ∣ asize) (hle : asize ≤ csize)
    (hbig : 16 ≤ csize - asize) :
    Inv (place bp asize s)
      (pre ++ ⟨bp, asize, true⟩ :: ⟨bp + asize, csize - asize, false⟩ :: post)
      ((bp + asize) :: L.erase bp) ∧
    (place bp asize s).mem_brk = s.mem_brk ∧
    (place bp asize s).mem_max_addr = s.mem_max_addr ∧
    (place bp asize s).heap_listp = s.heap_listp ∧
    (place bp asize s).rover = s.rover ∧
    (∀ a, (∀ y ∈ L, a < y ∨ y + 8 ≤ a) → (a + 4 < bp ∨ bp + csize ≤ a + 4) →
      (place bp asize s).mem a = s.mem a) := by
  have hb : (⟨bp, csize, false⟩ : Blk) ∈ pre ++ ⟨bp, csize, false⟩ :: post := by simp
  have hbf := h.heap.mem_facts _ hb
  simp only at hbf
  have hlim := h.heap.lim
  obtain ⟨hc1, _, _, hc2⟩ := (Contig_split pre post _ _ _).1 h.heap.contig
  simp only at hc1 hc2
  have hbL : bp ∈ L := (h.idx bp).2 ⟨_, hb, rfl, rfl⟩
  obtain ⟨g1, g2, g3, g4, g5⟩ := removeblock_heap s _ L bp h.heap h.fl h.sub hbL
  obtain ⟨f1, f2, f3, f4⟩ := removeblock_fields bp s
  obtain ⟨n1, n2, n3⟩ := NoAdj_parts _ _ _ h.noadj
  rw [place_eq_split s bp csize asize false hbf.2.2.2.1 ha8 hle (by omega)
    (h.heap.tags _ hb).1 hbig ha16 (by omega)]
  obtain ⟨t1, t2, t3, t4, t5, t6, t7⟩ := placeMemS_facts (removeblock bp s).mem bp asize
    (csize - asize) (by omega) ha16 hbig (by omega)
  have hidx := h.idx_erase
  simp only at hidx
  have ecs : bp + asize + (csize - asize) = bp + csize := by omega
  have hfr : ∀ a, (a < bp - 4 ∨ bp + csize - 4 ≤ a) →
      placeMemS (removeblock bp s).mem bp asize (csize - asize) a = (removeblock bp s).mem a := by
    intro a ha
    exact t7 a (by omega)
  clear t7
  have hla : lastAlloc (pre ++ [⟨bp, asize, true⟩]) :=
    (lastAlloc_append_singleton _ _).2 rfl
  have hmid : Mid { removeblock bp s with
      mem := placeMemS (removeblock bp s).mem bp asize (csize - asize) }
      (pre ++ [⟨bp, asize, true⟩]) ⟨bp + asize, csize - asize, false⟩ post (L.erase bp) := by
    refine ⟨?_, rfl, ?_, t5, t6, ?_, NoAdj_alloc pre [] _ n1 List.chain'_nil rfl, n2⟩
    · have := Heap_rebuild (removeblock bp s)
        { removeblock bp s with
          mem := placeMemS (removeblock bp s).mem bp asize (csize - asize) }
        _ pre [⟨bp, asize, true⟩, ⟨bp + asize, csize - asize, false⟩] post bp (bp + csize) g1
        (fun c hc => List.mem_append_left _ hc)
        (fun c hc => List.mem_append_right _ (List.mem_cons_of_mem _ hc))
        rfl rfl g1.lim.1 (by rw [f3]; exact hc1)
        ⟨rfl, ha16, ha8, rfl, hbig, by show 8 ∣ csize - asize; omega,
          by show bp + asize + (csize - asize) = _; omega⟩
        (by show Contig _ _ (removeblock bp s).mem_brk; rw [f1]; exact hc2)
        (by
          intro c hc
          simp only [List.mem_cons, List.mem_singleton, List.not_mem_nil, or_false] at hc
          rcases hc with hc | hc
          · subst hc; exact ⟨t1, t2⟩
          · subst hc; exact ⟨t3, t4⟩)
        (by
          show GET (placeMemS _ _ _ _) ((removeblock bp s).mem_brk - 4) = 1
          rw [← g1.epi]; apply GET_congr; intro a _ _
          rw [f1] at *
          exact hfr a (by omega))
        (fun a ha => hfr a (by omega))
      simpa using this
    · apply FList_frame _ _ _ _ g2
      intro x hx a ha1 ha2
      obtain ⟨c, hc, rfl, _⟩ := (hidx x).1 hx
      rcases hc with hc | hc
      · have := Contig_mem _ _ _ hc1 c hc
        exact hfr a (by omega)
      · have := Contig_mem _ _ _ hc2 c hc
        exact hfr a (by omega)
    · intro x
      rw [hidx x]
      constructor
      · rintro ⟨c, hc, e, hal⟩
        refine ⟨c, ?_, e, hal⟩
        rcases hc with hc | hc
        · exact Or.inl (List.mem_append_left _ hc)
        · exact Or.inr hc
      · rintro ⟨c, hc, e, hal⟩
        refine ⟨c, ?_, e, hal⟩
        rcases hc with hc | hc
        · rcases List.mem_append.1 hc with hc | hc
          · exact Or.inl hc
          · simp only [List.mem_singleton] at hc
            subst hc; cases hal
        · exact Or.inr hc
  have hrov : (removeblock bp s).rover = 0 ∨ (removeblock bp s).rover ∈ L.erase bp := by
    rw [f4]
    rcases h.rov with e | e
    · exact Or.inl e
    · exact Or.inr ((List.Nodup.mem_erase_iff h.fl.2.1).2 ⟨hr, e⟩)
  obtain ⟨pre', b', post', L', c, hrv, hsame, _⟩ := coalesce_spec _ _ post
    ⟨bp + asize, csize - asize, false⟩ (L.erase bp) hmid hrov
  obtain ⟨e1, e2, e3, e4, e5⟩ := hsame hla (n3 rfl).2
  simp only at e1
  rw [e1]
  obtain ⟨i1, i2⟩ := insert_finish _ _ post ⟨bp + asize, csize - asize, false⟩ (L.erase bp)
    hmid hla (n3 rfl).2 (by
      rcases hrov with e | e
      · exact Or.inl e
      · exact Or.inr (Or.inl e))
  obtain ⟨j0, j1, j2, j3, j4⟩ := headinsert_fields (bp + asize) { removeblock bp s with
      mem := placeMemS (removeblock bp s).mem bp asize (csize - asize) }
  simp only at i1 i2
  refine ⟨by simpa using i1, by rw [j1]; exact f1, by rw [j2]; exact f2, by rw [j3]; exact f3,
    by rw [j4]; exact f4, ?_⟩
  intro a ha1 ha2
  rw [i2 a ?_]
  · show placeMemS _ _ _ _ a = _
    rw [hfr a (by omega)]
    exact g5 a ha1
  · intro x hx
    rcases List.mem_cons.1 hx with e | e
    · subst e; omega
    · exact ha1 x (List.mem_of_mem_erase e)

/-- The spec of `place` on an indexed free block that the cursor does not point to. -/
theorem place_spec (s : State) (pre post : List Blk) (bp csize asize : Nat)
    (L : List Nat) (h : Inv s (pre ++ ⟨bp, csize, false⟩ :: post) L) (hr : s.rover ≠ bp)
    (ha16 : 16 ≤ asize) (ha8 : 8 ∣ asize) (hle : asize ≤ csize) :
    Inv (place bp asize s) (placeBs pre post bp csize asize) (placeL L bp csize asize) ∧
    (place bp asize s).mem_brk = s.mem_brk ∧
    (place bp asize s).mem_max_addr = s.mem_max_addr ∧
    (place bp asize s).heap_listp = s.heap_listp ∧
    (place bp asize s).rover = s.rover ∧
    (∀ a, (∀ y ∈ L, a < y ∨ y + 8 ≤ a) → (a + 4 < bp ∨ bp + csize ≤ a + 4) →
      (place bp asize s).mem a = s.mem a) := by
  unfold placeBs placeL
  by_cases hbig : 16 ≤ csize - asize
  · rw [if_pos hbig, if_pos hbig]
    exact place_spec_split s pre post bp csize asize L h hr ha16 ha8 hle hbig
  · rw [if_neg hbig, if_neg hbig]
    exact place_spec_whole s pre post bp csize asize L h hr hle hbig

/-! ## `find_fit` -/

theorem find_loop_spec (asize : Nat) (s : State) (L : List Nat)
    (hf : FList s.mem s.free_listp L) :
    ∀ fuel k, k ≤ L.length → L.length - k < fuel →
      (∃ j, k ≤ j ∧ j < L.length ∧ Fits s.mem asize (L.getD j 0) ∧
        (∀ i, k ≤ i → i < j → ¬ Fits s.mem asize (L.getD i 0)) ∧
        find_loop asize fuel { s with rover := L.getD k 0 } =
          some (some (L.getD j 0), { s with rover := L.getD (j + 1) 0 })) ∨
      ((∀ i, k ≤ i → i < L.length → ¬ Fits s.mem asize (L.getD i 0)) ∧
        find_loop asize fuel { s with rover := L.getD k 0 } =
          some (none, { s with rover := 0 })) := by
  intro fuel
  induction fuel with
  | zero => intro k _ h; omega
  | succ fuel ih =>
    intro k hk hfuel
    by_cases hkn : k = L.length
    · right
      refine ⟨fun i h1 h2 => by omega, ?_⟩
      have : L.getD k 0 = 0 := List.getD_eq_default L 0 (by omega)
      rw [this]
      simp [find_loop]
    · have hk' : k < L.length := by omega
      have hne : L.getD k 0 ≠ 0 := (hf.2.2.1 _ (getD_mem L k hk')).1
      have hsucc : GET s.mem (L.getD k 0) = L.getD (k + 1) 0 := (hf.2.2.2 k hk').1
      by_cases hfit : Fits s.mem asize (L.getD k 0)
      · left
        refine ⟨k, le_refl _, hk', hfit, fun i h1 h2 => by omega, ?_⟩
        unfold Fits at hfit
        simp only [find_loop, hne, if_false, hfit, if_true, GET_SUCC, hsucc]
      · have hstep : find_loop asize (fuel + 1) { s with rover := L.getD k 0 } =
            find_loop asize fuel { s with rover := L.getD (k + 1) 0 } := by
          unfold Fits at hfit
          simp only [find_loop, hne, if_false, hfit, GET_SUCC, hsucc]
        rw [hstep]
        rcases ih (k + 1) (by omega) (by omega) with ⟨j, h1, h2, h3, h4, h5⟩ | ⟨h1, h2⟩
        · left
          refine ⟨j, by omega, h2, h3, ?_, h5⟩
          intro i hi1 hi2
          by_cases e : i = k
          · subst e; exact hfit
          · exact h4 i (by omega) hi2
        · right
          refine ⟨?_, h2⟩
          intro i hi1 hi2
          by_cases e : i = k
          · subst e; exact hfit
          · exact h1 i (by omega) hi2

theorem nodup_length_le (L : List Nat) (N : Nat) (hn : L.Nodup) (hlt : ∀ x ∈ L, x < N) :
    L.length ≤ N := by
  have h1 : L.toFinset ⊆ Finset.range N := by
    intro x hx
    rw [List.mem_toFinset] at hx
    exact Finset.mem_range.2 (hlt x hx)
  have h2 := Finset.card_le_card h1
  rw [List.toFinset_card_of_nodup hn, Finset.card_range] at h2
  exact h2

theorem State.rover_eta (s : State) : { s with rover := s.rover } = s := rfl

/-- The spec of the next-fit search over a well-formed index: the first fitting node
at or after the cursor, else the first fitting node from the head, else null.  The
cursor ends on the successor of the returned node. -/
theorem find_fit_spec (asize : Nat) (s : State) (L : List Nat)
    (hf : FList s.mem s.free_listp L) (hrov : s.rover = 0 ∨ s.rover ∈ L)
    (hlen : L.length ≤ s.mem_brk) :
    ∃ k0, k0 ≤ L.length ∧ (s.rover = 0 → k0 = 0) ∧
      (s.rover ≠ 0 → k0 < L.length ∧ s.rover = L.getD k0 0) ∧
      ((∃ j, j < L.length ∧ Fits s.mem asize (L.getD j 0) ∧
          ((k0 ≤ j ∧ ∀ i, k0 ≤ i → i < j → ¬ Fits s.mem asize (L.getD i 0)) ∨
           (j < k0 ∧ (∀ i, k0 ≤ i → i < L.length → ¬ Fits s.mem asize (L.getD i 0)) ∧
              ∀ i, i < j → ¬ Fits s.mem asize (L.getD i 0))) ∧
          find_fit asize s = some (L.getD j 0, { s with rover := L.getD (j + 1) 0 })) ∨
        ((∀ i, i < L.length → ¬ Fits s.mem asize (L.getD i 0)) ∧
          find_fit asize s = some (0, { s with rover := 0 }))) := by
  -- the start position
  have hstart : ∃ k0, k0 ≤ L.length ∧ (s.rover = 0 → k0 = 0) ∧
      (s.rover ≠ 0 → k0 < L.length ∧ s.rover = L.getD k0 0) ∧
      (if s.rover = 0 then { s with rover := s.free_listp } else s) =
        { s with rover := L.getD k0 0 } := by
    by_cases h0 : s.rover = 0
    · refine ⟨0, by omega, fun _ => rfl, fun h => absurd h0 h, ?_⟩
      rw [if_pos h0, hf.1]
    · rcases hrov with e | e
      · exact absurd e h0
      · obtain ⟨k, hk, e2⟩ := exists_index L _ e
        refine ⟨k, by omega, fun h => absurd h h0, fun _ => ⟨hk, e2.symm⟩, ?_⟩
        rw [if_neg h0, e2]
  obtain ⟨k0, hk0, hz, hnz, hs0⟩ := hstart
  refine ⟨k0, hk0, hz, hnz, ?_⟩
  unfold find_fit
  simp only [hs0]
  rcases find_loop_spec asize s L hf (s.mem_brk + 1) k0 hk0 (by omega) with
    ⟨j, h1, h2, h3, h4, h5⟩ | ⟨h1, h2⟩
  · left
    refine ⟨j, h2, h3, Or.inl ⟨h1, h4⟩, ?_⟩
    rw [h5]
  · rw [h2]
    simp only
    rcases find_loop_spec asize s L hf (s.mem_brk + 1) 0 (by omega) (by omega) with
      ⟨j, g1, g2, g3, g4, g5⟩ | ⟨g1, g2⟩
    · left
      have hjk : j < k0 := by
        by_contra hc
        exact h1 j (by omega) g2 g3
      refine ⟨j, g2, g3, Or.inr ⟨hjk, h1, fun i hi => g4 i (by omega) hi⟩, ?_⟩
      rw [← hf.1] at g5
      rw [g5]
    · right
      refine ⟨fun i hi => g1 i (by omega) hi, ?_⟩
      rw [← hf.1] at g2
      rw [g2]

/-! ## `extend_heap` and `mm_init` -/

theorem growMem_facts (m : Mem) (bp size : Nat) (h4 : 4 ≤ bp) (hsz : 16 ≤ size)
    (hlt : size < 4294967296) :
    GET (growMem m bp size) (bp - 4) = tagOf size false ∧
    GET (growMem m bp size) (bp + size - 8) = tagOf size false ∧
    GET (growMem m bp size) (bp + size - 4) = 1 ∧
    GET (growMem m bp size) bp = 0 ∧ GET (growMem m bp size) (bp + 4) = 0 ∧
    (∀ a, a < bp - 4 → growMem m bp size a = m a) := by
  unfold growMem
  rw [tagOf_false]
  refine ⟨?_, ?_, ?_, ?_, ?_, ?_⟩
  · rw [GET_PUT_other _ _ _ _ (by omega), GET_PUT_other _ _ _ _ (by omega),
      GET_PUT_other _ _ _ _ (by omega), GET_PUT_other _ _ _ _ (by omega), GET_PUT_same]
    omega
  · rw [GET_PUT_other _ _ _ _ (by omega), GET_PUT_other _ _ _ _ (by omega),
      GET_PUT_other _ _ _ _ (by omega), GET_PUT_same]
    omega
  · rw [GET_PUT_other _ _ _ _ (by omega), GET_PUT_other _ _ _ _ (by omega), GET_PUT_same]
  · rw [GET_PUT_same]
  · rw [GET_PUT_other _ _ _ _ (by omega), GET_PUT_same]
  · intro a h
    rw [PUT_other _ _ _ _ (by omega), PUT_other _ _ _ _ (by omega),
      PUT_other _ _ _ _ (by omega), PUT_other _ _ _ _ (by omega),
      PUT_other _ _ _ _ (by omega)]

theorem extend_size (words : Nat) (hw : words % 2 = 0) (hlt : words * 4 < 4294967296) :
    (if words % 2 ≠ 0 then ((words + 1) % TWO32 * WSIZE) % TWO32
     else (words * WSIZE) % TWO32) = words * 4 := by
  rw [if_neg (by omega)]
  unfold WSIZE TWO32
  omega

theorem extend_heap_fail (s : State) (words : Nat) (hw : words % 2 = 0)
    (hlt : words * 4 < 4294967296) (hfail : s.mem_brk + words * 4 > s.mem_max_addr) :
    extend_heap words s = (0, s) := by
  unfold extend_heap mem_sbrk
  simp only [extend_size words hw hlt, hfail, if_true]

theorem extend_heap_ok (s : State) (words : Nat) (hw : words % 2 = 0)
    (hlt : words * 4 < 4294967296) (hok : s.mem_brk + words * 4 ≤ s.mem_max_addr)
    (hbrk : s.mem_brk ≠ 4294967295) (h16 : 16 ≤ words * 4) (h4 : 4 ≤ s.mem_brk) :
    extend_heap words s =
      ((coalesce s.mem_brk (growState s words)).1,
        headinsert (coalesce s.mem_brk (growState s words)).1
          (coalesce s.mem_brk (growState s words)).2) := by
  have h8 : 8 ∣ words * 4 := by omega
  have hnf : ¬ (s.mem_brk + words * 4 > s.mem_max_addr) := by omega
  unfold extend_heap mem_sbrk growState growMem PUT_PREV PUT_SUCC
  simp only [extend_size words hw hlt, hnf, if_false, hbrk]
  rw [PACK_zero _ h8]
  have e1 : PACK 0 1 = 1 := rfl
  have e2 : HDRP s.mem_brk = s.mem_brk - 4 := rfl
  rw [e1, e2]
  have hh : GET (PUT s.mem (s.mem_brk - 4) (tagOf (words * 4) false)) (s.mem_brk - 4)
      = tagOf (words * 4) false := by
    rw [GET_PUT_same, tagOf_false]; omega
  rw [(rd_size _ s.mem_brk (words * 4) false h8 hh).2.2]
  have hh2 : GET (PUT (PUT s.mem (s.mem_brk - 4) (tagOf (words * 4) false))
      (s.mem_brk + words * 4 - 8) (tagOf (words * 4) false)) (s.mem_brk - 4)
      = tagOf (words * 4) false := by
    rw [GET_PUT_other _ _ _ _ (by omega)]; exact hh
  rw [(rd_size _ s.mem_brk (words * 4) false h8 hh2).2.1]
  have e3 : HDRP (s.mem_brk + words * 4) = s.mem_brk + words * 4 - 4 := rfl
  rw [e3]

theorem Heap.brk8 {s : State} {bs : List Blk} (h : Heap s bs) :
    8 ∣ s.mem_brk ∧ s.heap_listp + 8 ≤ s.mem_brk := by
  have h1 := Contig_dvd _ _ _ h.contig
  have h2 := Contig_le _ _ _ h.contig
  have h3 := h.hl8
  exact ⟨by omega, h2⟩

/-- The spec of a successful `extend_heap`. -/
theorem extend_heap_spec (s : State) (bs : List Blk) (L : List Nat) (words : Nat)
    (h : Inv s bs L) (hw : words % 2 = 0) (h16 : 16 ≤ words * 4)
    (hok : s.mem_brk + words * 4 ≤ s.mem_max_addr) :
    ∃ pre' b' L',
      (extend_heap words s).1 = b'.bp ∧
      Inv (extend_heap words s).2 (pre' ++ [b']) (b'.bp :: L') ∧
      b'.al = false ∧ b'.bp ≤ s.mem_brk ∧ b'.bp + b'.sz = s.mem_brk + words * 4 ∧
      (extend_heap words s).2.mem_brk = s.mem_brk + words * 4 ∧
      (extend_heap words s).2.mem_max_addr = s.mem_max_addr ∧
      (extend_heap words s).2.heap_listp = s.heap_listp ∧
      (s.rover = 0 → (extend_heap words s).2.rover = 0) ∧
      (∀ c, c ∈ pre' → c ∈ bs) ∧
      (∀ c, c.al = true → c ∈ bs → c ∈ pre') ∧
      (∀ x ∈ L', x ∈ L) ∧
      (∀ c, c.al = true → c ∈ bs → ∀ a, c.bp ≤ a + 4 → a + 4 < c.bp + c.sz →
        (extend_heap words s).2.mem a = s.mem a) := by
  have hlim := h.heap.lim
  have hhp := h.heap.hlpos
  obtain ⟨hb8, hble⟩ := h.heap.brk8
  rw [extend_heap_ok s words hw (by omega) hok (by omega) h16 (by omega)]
  obtain ⟨t1, t2, t3, t4, t5, t6⟩ := growMem_facts s.mem s.mem_brk (words * 4) (by omega) h16
    (by omega)
  have hmid : Mid (growState s words)
      bs ⟨s.mem_brk, words * 4, false⟩ [] L := by
    refine ⟨?_, rfl, ?_, t4, t5, ?_, h.noadj, List.chain'_nil⟩
    · have := Heap_rebuild s (growState s words)
        bs bs [⟨s.mem_brk, words * 4, false⟩] [] s.mem_brk (s.mem_brk + words * 4) h.heap
        (fun c hc => hc) (fun c hc => by simp at hc) rfl rfl hok h.heap.contig
        ⟨rfl, h16, by show 8 ∣ words * 4; omega, rfl⟩ rfl
        (by
          intro c hc
          simp only [List.mem_singleton] at hc
          subst hc
          exact ⟨t1, t2⟩)
        t3
        (by
          intro a ha
          apply t6
          rcases ha with ha | ha
          · exact ha
          · exfalso
            have : (growState s words).mem_brk = s.mem_brk + words * 4 := rfl
            omega)
      simpa using this
    · apply FList_frame _ _ _ _ h.fl
      intro x hx a ha1 ha2
      obtain ⟨c, hc, rfl⟩ := h.sub x hx
      have := h.heap.mem_facts c hc
      exact t6 a (by omega)
    · intro x
      rw [h.idx x]
      constructor
      · rintro ⟨c, hc, e, hal⟩; exact ⟨c, Or.inl hc, e, hal⟩
      · rintro ⟨c, hc, e, hal⟩
        rcases hc with hc | hc
        · exact ⟨c, hc, e, hal⟩
        · simp at hc
  obtain ⟨pre', b', post', L', c, hrv, _, hr0⟩ := coalesce_spec _ bs []
    ⟨s.mem_brk, words * 4, false⟩ L hmid h.rov
  simp only at c hrv hr0
  have hpost := c.last rfl
  subst hpost
  generalize coalesce s.mem_brk (growState s words) = r at c hrv hr0 ⊢
  simp only
  rw [c.ret]
  obtain ⟨i1, i2⟩ := insert_finish r.2 pre' [] b' L' c.mid c.la c.ha hrv
  obtain ⟨f0, f1, f2, f3, f4⟩ := headinsert_fields b'.bp r.2
  have hbm' : b' ∈ pre' ++ [b'] := by simp
  have hb'f := c.mid.heap.mem_facts b' hbm'
  have hc' := Contig_split pre' [] b' _ _ |>.1 c.mid.heap.contig
  have hend : b'.bp + b'.sz = r.2.mem_brk := hc'.2.2.2
  have hlo := c.lo
  simp only at hlo
  refine ⟨pre', b', L', rfl, i1, c.mid.bfree, hlo, by rw [hend, c.brk]; rfl,
    by rw [f1, c.brk]; rfl, by rw [f2, c.max]; rfl, by rw [f3, c.hl]; rfl, ?_, ?_, ?_, c.lsub,
    ?_⟩
  · intro h0; rw [f4]; exact hr0 h0
  · intro d hd
    rcases c.sub d (Or.inl hd) with e | e
    · exact e
    · simp at e
  · intro d hal hd
    rcases c.keep d hal (Or.inl hd) with e | e
    · exact e
    · simp at e
  · intro d hdal hd a ha1 ha2
    have hdf := h.heap.mem_facts d hd
    have hd' : d ∈ pre' ++ [b'] := by
      rcases c.keep d hdal (Or.inl hd) with e | e
      · exact List.mem_append_left _ e
      · simp at e
    have hne' : d.bp ≠ b'.bp := by
      intro e
      have := c.mid.heap.bp_inj d b' hd' hbm' e
      rw [this, c.mid.bfree] at hdal; cases hdal
    have hneL := h.live_sep d hd hdal a ha1 ha2
    have hsb := c.mid.heap.sep d b' hd' hbm' hne' a ha1 ha2
    rw [i2 a ?_, c.frame a hneL (by omega)]
    · show growMem s.mem s.mem_brk (words * 4) a = s.mem a
      exact t6 a (by omega)
    · intro x hx
      rcases List.mem_cons.1 hx with e | e
      · subst e; omega
      · exact hneL x (c.lsub x e)

theorem mm_init_fail (s : State) (h : s.mem_brk + 16 > s.mem_max_addr) :
    mm_init s = (-1, { s with heap_listp := 4294967295 }) := by
  unfold mm_init mem_sbrk WSIZE
  simp only [h, if_true]

theorem mm_init_ok (s : State) (hb : Boot s) (h : s.mem_brk + 16 ≤ s.mem_max_addr) :
    mm_init s =
      (if (extend_heap 1024 (initState s)).1 = 0 then -1 else 0,
        (extend_heap 1024 (initState s)).2) := by
  have hnf : ¬ (s.mem_brk + 16 > s.mem_max_addr) := by omega
  have hne : s.mem_brk ≠ 4294967295 := by
    have := hb.1; omega
  have e1 : PACK DSIZE 1 = 9 := rfl
  have e2 : PACK 0 1 = 1 := rfl
  have e3 : CHUNKSIZE / 4 = 1024 := rfl
  unfold mm_init mem_sbrk initState initMem
  simp only [hnf, if_false, hne, e1, e2, WSIZE, e3, Nat.reduceMul, Nat.one_mul]
  split <;> rfl

theorem initState_inv (s : State) (hb : Boot s) (h : s.mem_brk + 16 ≤ s.mem_max_addr) :
    Inv (initState s) [] [] := by
  obtain ⟨hb8, hmax⟩ := hb
  refine ⟨⟨?_, ?_, ?_, ?_, ?_, ?_, ?_, ?_⟩, ?_, ?_, List.chain'_nil, Or.inl rfl⟩
  · show 8 ∣ s.mem_brk + 8; omega
  · show 8 ≤ s.mem_brk + 8; omega
  · show GET (initMem s.mem s.mem_brk) (s.mem_brk + 8 - 4) = 9
    have : s.mem_brk + 8 - 4 = s.mem_brk + 4 := by omega
    rw [this]
    unfold initMem
    rw [GET_PUT_other _ _ _ _ (by omega), GET_PUT_other _ _ _ _ (by omega), GET_PUT_same]
  · show GET (initMem s.mem s.mem_brk) (s.mem_brk + 8) = 9
    unfold initMem
    rw [GET_PUT_other _ _ _ _ (by omega), GET_PUT_same]
  · show s.mem_brk + 8 + 8 = s.mem_brk + 16; omega
  · show GET (initMem s.mem s.mem_brk) (s.mem_brk + 16 - 4) = 1
    have : s.mem_brk + 16 - 4 = s.mem_brk + 12 := by omega
    rw [this]
    unfold initMem
    rw [GET_PUT_same]
  · intro b hb; simp at hb
  · exact ⟨h, hmax⟩
  · refine ⟨rfl, List.nodup_nil, ?_, ?_⟩
    · intro x hx; simp at hx
    · intro i hi; simp at hi
  · intro x; simp

/-- After a successful `mm_init` the arena holds one free block of `CHUNKSIZE` bytes,
which is the only member of the free index; the cursor is null. -/
theorem mm_init_spec (s : State) (hb : Boot s) (hok : (mm_init s).1 = 0) :
    Inv (mm_init s).2 [⟨s.mem_brk + 16, 4096, false⟩] [s.mem_brk + 16] ∧
    (mm_init s).2.mem_brk = s.mem_brk + 16 + 4096 ∧
    (mm_init s).2.mem_max_addr = s.mem_max_addr ∧
    (mm_init s).2.heap_listp = s.mem_brk + 8 ∧
    (mm_init s).2.rover = 0 ∧
    s.mem_brk + 16 + 4096 ≤ s.mem_max_addr := by
  by_cases h1 : s.mem_brk + 16 > s.mem_max_addr
  · rw [mm_init_fail s h1] at hok
    simp at hok
  have h1' : s.mem_brk + 16 ≤ s.mem_max_addr := by omega
  rw [mm_init_ok s hb h1'] at hok ⊢
  have hinv := initState_inv s hb h1'
  by_cases h2 : (initState s).mem_brk + 1024 * 4 > (initState s).mem_max_addr
  · rw [extend_heap_fail _ 1024 (by omega) (by omega) h2] at hok
    simp at hok
  have h2' : (initState s).mem_brk + 1024 * 4 ≤ (initState s).mem_max_addr := by omega
  obtain ⟨pre', b', L', e1, e2, e3, e4, e5, e6, e7, e8, e9, e10, _, e11, _⟩ :=
    extend_heap_spec (initState s) [] [] 1024 hinv (by omega) (by omega) h2'
  have hpre : pre' = [] := by
    cases pre' with
    | nil => rfl
    | cons x xs => have := e10 x (by simp); simp at this
  have hL : L' = [] := by
    cases L' with
    | nil => rfl
    | cons x xs => have := e11 x (by simp); simp at this
  subst hpre hL
  have hc := e2.heap.contig
  rw [e8] at hc
  simp only [List.nil_append, Contig] at hc
  have hbrk : (initState s).mem_brk = s.mem_brk + 16 := rfl
  have hhl : (initState s).heap_listp = s.mem_brk + 8 := rfl
  have hmx : (initState s).mem_max_addr = s.mem_max_addr := rfl
  rw [hbrk] at e5 e6 h2'
  rw [hhl] at hc e8
  rw [hmx] at e7 h2'
  have hb' : b' = ⟨s.mem_brk + 16, 4096, false⟩ := by
    cases b' with
    | mk x y z =>
      simp only at e3 e4 e5 hc
      subst e3
      congr 1
      · omega
      · omega
  subst hb'
  simp only [List.nil_append] at e2
  exact ⟨e2, by rw [e6], e7, e8, e9 rfl, by omega⟩

/-! ## `mm_malloc` -/

theorem adjust_facts (n : Nat) (hn : 0 < n) (hw : n + 15 < 4294967296) :
    16 ≤ adjust n ∧ 8 ∣ adjust n ∧ n + 8 ≤ adjust n ∧ adjust n ≤ n + 15 := by
  unfold adjust DSIZE TWO32
  by_cases h : n ≤ 8
  · rw [if_pos h]; omega
  · rw [if_neg h]; omega

theorem Inv_rover (s : State) (bs : List Blk) (L : List Nat) (r : Nat) (h : Inv s bs L)
    (hr : r = 0 ∨ r ∈ L) : Inv { s with rover := r } bs L :=
  ⟨Heap_rover _ _ _ h.heap, h.fl, h.idx, h.noadj, hr⟩

theorem Inv.len_le {s : State} {bs : List Blk} {L : List Nat} (h : Inv s bs L) :
    L.length ≤ s.mem_brk := by
  apply nodup_length_le L _ h.fl.2.1
  intro x hx
  obtain ⟨c, hc, rfl⟩ := h.sub x hx
  have := h.heap.mem_facts c hc
  omega

theorem Inv.fits_iff {s : State} {bs : List Blk} {L : List Nat} (h : Inv s bs L) (c : Blk)
    (hc : c ∈ bs) (asize : Nat) : Fits s.mem asize c.bp ↔ asize ≤ c.sz := by
  unfold Fits
  rw [(rd_size s.mem c.bp c.sz c.al (h.heap.mem_facts c hc).2.2.2.1 (h.heap.tags c hc).1).1]

theorem mm_malloc_zero (s : State) (h : s.heap_listp ≠ 0) : mm_malloc 0 s = some (0, s) := by
  unfold mm_malloc
  simp only [h, if_false, if_true]

theorem mm_malloc_hit_eq (s s1 : State) (n bp : Nat) (hn : 0 < n) (h : s.heap_listp ≠ 0)
    (hbp : bp ≠ 0) (hf : find_fit (adjust n) s = some (bp, s1)) :
    mm_malloc n s = some (bp, place bp (adjust n) s1) := by
  have hn0 : n ≠ 0 := by omega
  unfold mm_malloc
  simp only [h, if_false, hn0, hf, ne_eq, hbp, not_false_eq_true, if_true]

theorem mm_malloc_miss_eq (s s1 : State) (n : Nat) (hn : 0 < n) (h : s.heap_listp ≠ 0)
    (hf : find_fit (adjust n) s = some (0, s1)) :
    mm_malloc n s =
      if (extend_heap (MAX (adjust n) CHUNKSIZE / WSIZE) s1).1 = 0 then
        some (0, (extend_heap (MAX (adjust n) CHUNKSIZE / WSIZE) s1).2)
      else some ((extend_heap (MAX (adjust n) CHUNKSIZE / WSIZE) s1).1,
        place (extend_heap (MAX (adjust n) CHUNKSIZE / WSIZE) s1).1 (adjust n)
          (extend_heap (MAX (adjust n) CHUNKSIZE / WSIZE) s1).2) := by
  have hn0 : n ≠ 0 := by omega
  unfold mm_malloc
  simp only [h, if_false, hn0, hf, ne_eq, not_true_eq_false]

/-- The number of words `mm_malloc` asks `extend_heap` for. -/
theorem ext_words (asize : Nat) (h8 : 8 ∣ asize) :
    (MAX asize CHUNKSIZE / WSIZE) % 2 = 0 ∧
    (MAX asize CHUNKSIZE / WSIZE) * 4 = MAX asize CHUNKSIZE ∧
    asize ≤ MAX asize CHUNKSIZE ∧ 4096 ≤ MAX asize CHUNKSIZE ∧
    (MAX asize CHUNKSIZE = asize ∨ MAX asize CHUNKSIZE = 4096) := by
  unfold MAX CHUNKSIZE WSIZE
  by_cases h : asize > 4096
  · rw [if_pos h]; omega
  · rw [if_neg h]; omega

theorem placeBs_shape (pre post : List Blk) (bp csize asize : Nat) (hle : asize ≤ csize) :
    ∃ sz post1, placeBs pre post bp csize asize = pre ++ ⟨bp, sz, true⟩ :: post1 ∧
      asize ≤ sz ∧ sz ≤ csize ∧
      (∀ c ∈ post1, c ∈ post ∨ (c.al = false ∧ bp ≤ c.bp)) ∧ (∀ c ∈ post, c ∈ post1) := by
  unfold placeBs
  by_cases h : 16 ≤ csize - asize
  · rw [if_pos h]
    refine ⟨asize, _, rfl, le_refl _, hle, ?_, fun c hc => List.mem_cons_of_mem _ hc⟩
    intro c hc
    rcases List.mem_cons.1 hc with e | e
    · subst e; right; exact ⟨rfl, by show bp ≤ bp + asize; omega⟩
    · exact Or.inl e
  · rw [if_neg h]
    exact ⟨csize, _, rfl, hle, le_refl _, fun c hc => Or.inl hc, fun c hc => hc⟩

/-- `place` on an indexed free block, packaged for `mm_malloc`. -/
theorem place_out (s : State) (pre post : List Blk) (bp csize asize : Nat) (L : List Nat)
    (h : Inv s (pre ++ ⟨bp, csize, false⟩ :: post) L) (hr : s.rover ≠ bp)
    (ha16 : 16 ≤ asize) (ha8 : 8 ∣ asize) (hle : asize ≤ csize) :
    ∃ bs' L', Inv (place bp asize s) bs' L' ∧
      (place bp asize s).mem_brk = s.mem_brk ∧
      (place bp asize s).mem_max_addr = s.mem_max_addr ∧
      (place bp asize s).heap_listp = s.heap_listp ∧
      (∀ c, (c ∈ pre ∨ c ∈ post) → c ∈ bs') ∧
      (∀ c, (c ∈ pre ∨ c ∈ post) → c.al = true → ∀ a, c.bp ≤ a + 4 → a + 4 < c.bp + c.sz →
        (place bp asize s).mem a = s.mem a) ∧
      (∀ c ∈ bs', c.al = true → (c ∈ pre ∨ c ∈ post) ∨ c.bp = bp) ∧
      (∃ sz post1, bs' = pre ++ ⟨bp, sz, true⟩ :: post1 ∧ asize ≤ sz ∧ sz ≤ csize) := by
  have hb : (⟨bp, csize, false⟩ : Blk) ∈ pre ++ ⟨bp, csize, false⟩ :: post := by simp
  obtain ⟨p1, p2, p3, p4, p5, p6⟩ := place_spec s pre post bp csize asize L h hr ha16 ha8 hle
  obtain ⟨sz, post1, q1, q2, q3, q4, q5⟩ := placeBs_shape pre post bp csize asize hle
  refine ⟨_, _, p1, p2, p3, p4, ?_, ?_, ?_, ⟨sz, post1, q1, q2, q3⟩⟩
  · rw [q1]
    rintro c (hc | hc)
    · exact List.mem_append_left _ hc
    · exact List.mem_append_right _ (List.mem_cons_of_mem _ (q5 c hc))
  · intro c hc hal a ha1 ha2
    have hcm : c ∈ pre ++ ⟨bp, csize, false⟩ :: post := by
      rcases hc with hc | hc
      · exact List.mem_append_left _ hc
      · exact List.mem_append_right _ (List.mem_cons_of_mem _ hc)
    have hne : c.bp ≠ bp := by
      intro e
      have := h.heap.bp_inj c _ hcm hb e
      rw [this] at hal; cases hal
    have h1 := h.heap.sep c _ hcm hb hne a ha1 ha2
    simp only at h1
    exact p6 a (h.live_sep c hcm hal a ha1 ha2) h1
  · rw [q1]
    intro c hc hal
    rcases List.mem_append.1 hc with hc | hc
    · exact Or.inl (Or.inl hc)
    · rcases List.mem_cons.1 hc with hc | hc
      · subst hc; exact Or.inr rfl
      · rcases q4 c hc with e | e
        · exact Or.inl (Or.inr e)
        · rw [e.1] at hal; cases hal

theorem blk_eta (c : Blk) (h : c.al = false) : c = ⟨c.bp, c.sz, false⟩ := by
  cases c with
  | mk x y z => simp only at h; subst h; rfl

theorem getD_succ (L : List Nat) (j : Nat) : L.getD (j + 1) 0 = 0 ∨ L.getD (j + 1) 0 ∈ L := by
  by_cases h : j + 1 < L.length
  · exact Or.inr (getD_mem L _ h)
  · exact Or.inl (List.getD_eq_default L 0 (by omega))

theorem malloc_hit (s : State) (bs : List Blk) (L : List Nat) (n j : Nat) (h : Inv s bs L)
    (hn : 0 < n) (hw : n + 15 < 4294967296) (hj : j < L.length)
    (hfit : Fits s.mem (adjust n) (L.getD j 0))
    (hf : find_fit (adjust n) s = some (L.getD j 0, { s with rover := L.getD (j + 1) 0 })) :
    ∃ s' bs' L', mm_malloc n s = some (L.getD j 0, s') ∧
      MallocOut s bs L n (L.getD j 0) s' bs' L' ∧ s'.mem_brk = s.mem_brk ∧
      (∃ csize sz, (⟨L.getD j 0, csize, false⟩ : Blk) ∈ bs ∧
        (⟨L.getD j 0, sz, true⟩ : Blk) ∈ bs' ∧ sz ≤ csize) := by
  obtain ⟨a1, a2, a3, a4⟩ := adjust_facts n hn hw
  have hhp := h.heap.hlpos
  have hin := getD_mem L j hj
  obtain ⟨c, hc, hcb, hcal⟩ := (h.idx _).1 hin
  obtain ⟨pre, post, hbs⟩ := List.append_of_mem hc
  have hcf := h.heap.mem_facts c hc
  have hle : adjust n ≤ c.sz := by
    rw [← hcb] at hfit
    exact (h.fits_iff c hc _).1 hfit
  rw [blk_eta c hcal, hcb] at hbs
  subst hbs
  have hinv1 : Inv { s with rover := L.getD (j + 1) 0 } _ L := Inv_rover s _ L _ h (getD_succ L j)
  have hrne : L.getD (j + 1) 0 ≠ L.getD j 0 := by
    rcases Nat.lt_or_ge (j + 1) L.length with h1 | h1
    · intro e
      have := getD_inj L h.fl.2.1 _ _ h1 hj e
      omega
    · rw [List.getD_eq_default L 0 h1]
      intro e
      rw [← hcb] at e
      exact hcf.2.2.2.2.2.2 e.symm
  obtain ⟨bs', L', p1, p2, p3, p4, p5, p6, p7, sz, post1, p8, p9, p10⟩ :=
    place_out _ pre post (L.getD j 0) c.sz (adjust n) L hinv1 hrne a1 a2 hle
  have hbne : L.getD j 0 ≠ 0 := by rw [← hcb]; exact hcf.2.2.2.2.2.2
  have hsplit : ∀ d ∈ pre ++ (⟨L.getD j 0, c.sz, false⟩ : Blk) :: post, d.al = true →
      d ∈ pre ∨ d ∈ post := by
    intro d hd hal
    rcases List.mem_append.1 hd with hd | hd
    · exact Or.inl hd
    · rcases List.mem_cons.1 hd with hd | hd
      · subst hd; cases hal
      · exact Or.inr hd
  refine ⟨_, bs', L', mm_malloc_hit_eq s _ n _ hn (by omega) hbne hf, ⟨p1, p3, p4, ?_, ?_, ?_, ?_,
    ?_, ?_⟩, p2, ⟨c.sz, sz, by simp, by rw [p8]; simp, p10⟩⟩
  · rw [p2]
  · intro d hd hal
    exact p5 d (hsplit d hd hal)
  · intro d hd hal a ha1 ha2
    exact p6 d (hsplit d hd hal) hal a ha1 ha2
  · intro d hd hal
    rcases p7 d hd hal with e | e
    · left
      rcases e with e | e
      · exact List.mem_append_left _ e
      · exact List.mem_append_right _ (List.mem_cons_of_mem _ e)
    · exact Or.inr e
  · intro _
    refine ⟨pre, sz, post1, p8, (NoAdj_parts _ _ _ h.noadj).2.2 rfl |>.1, p9, ?_⟩
    intro d hd hal e
    have := h.heap.bp_inj d ⟨L.getD j 0, c.sz, false⟩ hd (by simp) e
    rw [this] at hal; cases hal
  · intro e; exact absurd e hbne

theorem malloc_miss_fail (s : State) (bs : List Blk) (L : List Nat) (n : Nat)
    (h : Inv s bs L) (hn : 0 < n) (hw : n + 15 < 4294967296)
    (hf : find_fit (adjust n) s = some (0, { s with rover := 0 }))
    (hfail : s.mem_brk + MAX (adjust n) CHUNKSIZE > s.mem_max_addr) :
    mm_malloc n s = some (0, { s with rover := 0 }) ∧
      MallocOut s bs L n 0 { s with rover := 0 } bs L := by
  obtain ⟨a1, a2, a3, a4⟩ := adjust_facts n hn hw
  obtain ⟨w1, w2, w3, w4, w5⟩ := ext_words (adjust n) a2
  have hhp := h.heap.hlpos
  have hlim := h.heap.lim
  have hfl : extend_heap (MAX (adjust n) CHUNKSIZE / WSIZE) { s with rover := 0 } =
      (0, { s with rover := 0 }) :=
    extend_heap_fail _ _ w1 (by rw [w2]; omega) (by rw [w2]; exact hfail)
  refine ⟨?_, ⟨Inv_rover s bs L 0 h (Or.inl rfl), rfl, rfl, le_refl _, fun c hc _ => hc,
    fun _ _ _ _ _ _ => rfl, fun c hc _ => Or.inl hc, fun e => absurd rfl e,
    fun _ => ⟨rfl, rfl, rfl, rfl, rfl⟩⟩⟩
  rw [mm_malloc_miss_eq s _ n hn (by omega) hf, hfl]
  simp only [if_true]

theorem malloc_miss_grow (s : State) (bs : List Blk) (L : List Nat) (n : Nat)
    (h : Inv s bs L) (hn : 0 < n) (hw : n + 15 < 4294967296)
    (hf : find_fit (adjust n) s = some (0, { s with rover := 0 }))
    (hok : s.mem_brk + MAX (adjust n) CHUNKSIZE ≤ s.mem_max_addr) :
    ∃ r s' bs' L', mm_malloc n s = some (r, s') ∧ MallocOut s bs L n r s' bs' L' ∧ r ≠ 0 ∧
      s'.mem_brk = s.mem_brk + MAX (adjust n) CHUNKSIZE := by
  obtain ⟨a1, a2, a3, a4⟩ := adjust_facts n hn hw
  obtain ⟨w1, w2, w3, w4, w5⟩ := ext_words (adjust n) a2
  have hhp := h.heap.hlpos
  have hlim := h.heap.lim
  have hinv1 : Inv { s with rover := 0 } bs L := Inv_rover s bs L 0 h (Or.inl rfl)
  obtain ⟨pre', b', L', e1, e2, e3, e4, e5, e6, e7, e8, e9, e10, e11, e12, e13⟩ :=
    extend_heap_spec { s with rover := 0 } bs L (MAX (adjust n) CHUNKSIZE / WSIZE) hinv1 w1
      (by rw [w2]; omega) (by rw [w2]; exact hok)
  rw [w2] at e5 e6
  have hbm : b' ∈ pre' ++ [b'] := by simp
  have hbf := e2.heap.mem_facts b' hbm
  have hr0 : (extend_heap (MAX (adjust n) CHUNKSIZE / WSIZE) { s with rover := 0 }).1 ≠ 0 := by
    rw [e1]; exact hbf.2.2.2.2.2.2
  rw [mm_malloc_miss_eq s _ n hn (by omega) hf, if_neg hr0, e1]
  generalize (extend_heap (MAX (adjust n) CHUNKSIZE / WSIZE) { s with rover := 0 }).2 = s2
    at e2 e6 e7 e8 e9 e13 ⊢
  have hle : adjust n ≤ b'.sz := by
    have : ({ s with rover := 0 } : State).mem_brk = s.mem_brk := rfl
    omega
  rw [blk_eta b' e3] at e2
  have hrne : s2.rover ≠ b'.bp := by
    rw [e9 rfl]; exact fun e => hbf.2.2.2.2.2.2 e.symm
  obtain ⟨bs', L'', p1, p2, p3, p4, p5, p6, p7, sz, post1, p8, p9, _⟩ :=
    place_out s2 pre' [] b'.bp b'.sz (adjust n) (b'.bp :: L') e2 hrne a1 a2 hle
  have hbm2 : (⟨b'.bp, b'.sz, false⟩ : Blk) ∈ pre' ++ [(⟨b'.bp, b'.sz, false⟩ : Blk)] := by simp
  refine ⟨b'.bp, _, bs', L'', rfl, ⟨p1, by rw [p3, e7], by rw [p4, e8], ?_, ?_, ?_, ?_, ?_, ?_⟩,
    hbf.2.2.2.2.2.2, by rw [p2, e6]⟩
  · rw [p2, e6]
    show s.mem_brk ≤ s.mem_brk + _
    omega
  · intro d hd hal
    exact p5 d (Or.inl (e11 d hal hd))
  · intro d hd hal a ha1 ha2
    rw [p6 d (Or.inl (e11 d hal hd)) hal a ha1 ha2]
    exact e13 d hal hd a ha1 ha2
  · intro d hd hal
    rcases p7 d hd hal with e | e
    · rcases e with e | e
      · exact Or.inl (e10 d e)
      · simp at e
    · exact Or.inr e
  · intro _
    refine ⟨pre', sz, post1, p8, (NoAdj_parts _ _ _ e2.noadj).2.2 rfl |>.1, p9, ?_⟩
    intro d hd hal e
    have := e2.heap.bp_inj d ⟨b'.bp, b'.sz, false⟩ (List.mem_append_left _ (e11 d hal hd)) hbm2 e
    rw [this] at hal; cases hal
  · intro e; exact absurd e hbf.2.2.2.2.2.2

/-- The spec of `mm_malloc` in a state that satisfies the invariant: it returns, the
invariant holds again, and allocated blocks are untouched. -/
theorem mm_malloc_spec (s : State) (bs : List Blk) (L : List Nat) (n : Nat)
    (h : Inv s bs L) (hw : n + 15 < 4294967296) :
    ∃ r s' bs' L', mm_malloc n s = some (r, s') ∧ MallocOut s bs L n r s' bs' L' ∧
      (0 < n → (∃ x ∈ L, Fits s.mem (adjust n) x) →
        r ∈ L ∧ Fits s.mem (adjust n) r ∧ s'.mem_brk = s.mem_brk ∧
        ∃ csize sz, (⟨r, csize, false⟩ : Blk) ∈ bs ∧ (⟨r, sz, true⟩ : Blk) ∈ bs' ∧ sz ≤ csize) ∧
      (0 < n → (∀ x ∈ L, ¬ Fits s.mem (adjust n) x) →
        (s.mem_brk + MAX (adjust n) CHUNKSIZE > s.mem_max_addr → r = 0) ∧
        (s.mem_brk + MAX (adjust n) CHUNKSIZE ≤ s.mem_max_addr →
          r ≠ 0 ∧ s'.mem_brk = s.mem_brk + MAX (adjust n) CHUNKSIZE)) ∧
      (0 < n → 0 < L.length → Fits s.mem (adjust n) (L.getD 0 0) →
        (s.rover = 0 ∨ ∃ k, k < L.length ∧ s.rover = L.getD k 0 ∧
          (k = 0 ∨ ∀ i, k ≤ i → i < L.length → ¬ Fits s.mem (adjust n) (L.getD i 0))) →
        r = L.getD 0 0) := by
  have hhp := h.heap.hlpos
  by_cases hn : n = 0
  · subst hn
    refine ⟨0, s, bs, L, mm_malloc_zero s (by omega), ⟨h, rfl, rfl, le_refl _, fun c hc _ => hc,
      fun _ _ _ _ _ _ => rfl, fun c hc _ => Or.inl hc, fun e => absurd rfl e,
      fun _ => ⟨rfl, rfl, rfl, rfl, rfl⟩⟩, fun h0 => absurd h0 (by omega),
      fun h0 => absurd h0 (by omega), fun h0 => absurd h0 (by omega)⟩
  have hn' : 0 < n := by omega
  obtain ⟨k0, hk0, hz, hnz, hcase⟩ := find_fit_spec (adjust n) s L h.fl h.rov h.len_le
  rcases hcase with ⟨j, hj, hfit, hord, hf⟩ | ⟨hnone, hf⟩
  · obtain ⟨s', bs', L', m1, m2, m3, m4⟩ := malloc_hit s bs L n j h hn' hw hj hfit hf
    refine ⟨_, s', bs', L', m1, m2, fun _ _ => ⟨getD_mem L j hj, hfit, m3, m4⟩, ?_, ?_⟩
    · intro _ hno
      exact absurd hfit (hno _ (getD_mem L j hj))
    · intro _ hlen hfit0 hrv
      have hcs : k0 = 0 ∨ ∀ i, k0 ≤ i → i < L.length → ¬ Fits s.mem (adjust n) (L.getD i 0) := by
        by_cases h0 : s.rover = 0
        · exact Or.inl (hz h0)
        · obtain ⟨g1, g2⟩ := hnz h0
          rcases hrv with e | ⟨k, hk, e, hkc⟩
          · exact absurd e h0
          · rw [e] at g2
            have := getD_inj L h.fl.2.1 _ _ hk g1 g2
            subst this
            exact hkc
      have hj0 : j = 0 := by
        by_contra hne
        rcases hord with ⟨g1, g2⟩ | ⟨g1, _, g3⟩
        · rcases hcs with e | e
          · subst e
            exact g2 0 (le_refl _) (by omega) hfit0
          · exact e j g1 hj hfit
        · exact g3 0 (by omega) hfit0
      rw [hj0]
  · have hno : ∀ x ∈ L, ¬ Fits s.mem (adjust n) x := by
      intro x hx
      obtain ⟨k, hk, rfl⟩ := exists_index L x hx
      exact hnone k hk
    by_cases hfail : s.mem_brk + MAX (adjust n) CHUNKSIZE > s.mem_max_addr
    · obtain ⟨m1, m2⟩ := malloc_miss_fail s bs L n h hn' hw hf hfail
      refine ⟨0, _, bs, L, m1, m2, ?_, ?_, ?_⟩
      · rintro _ ⟨x, hx, hfx⟩; exact absurd hfx (hno x hx)
      · intro _ _
        exact ⟨fun _ => rfl, fun h2 => by omega⟩
      · intro _ hlen hfit0 _
        exact absurd hfit0 (hnone 0 hlen)
    · obtain ⟨r, s', bs', L', m1, m2, m3, m4⟩ :=
        malloc_miss_grow s bs L n h hn' hw hf (by omega)
      refine ⟨r, s', bs', L', m1, m2, ?_, ?_, ?_⟩
      · rintro _ ⟨x, hx, hfx⟩; exact absurd hfx (hno x hx)
      · intro _ _
        exact ⟨fun h2 => absurd h2 hfail, fun _ => ⟨m3, m4⟩⟩
      · intro _ hlen hfit0 _
        exact absurd hfit0 (hnone 0 hlen)

/-! ## Payload writes and `mm_realloc` -/

/-- Changing bytes inside the payload of an allocated block keeps the invariant. -/
theorem Inv_payload (s : State) (bs : List Blk) (L : List Nat) (h : Inv s bs L) (b : Blk)
    (hb : b ∈ bs) (hal : b.al = true) (m' : Mem)
    (hfr : ∀ a, (a < b.bp ∨ b.bp + b.sz ≤ a + 8) → m' a = s.mem a) :
    Inv { s with mem := m' } bs L := by
  have hbf := h.heap.mem_facts b hb
  have hhp := h.heap.hlpos
  refine ⟨⟨h.heap.hl8, hhp, ?_, ?_, h.heap.contig, ?_, ?_, h.heap.lim⟩, ?_, h.idx, h.noadj, h.rov⟩
  · show GET m' (s.heap_listp - 4) = 9
    rw [← h.heap.pro_h]; apply GET_congr; intro a _ _
    exact hfr a (by omega)
  · show GET m' s.heap_listp = 9
    rw [← h.heap.pro_f]; apply GET_congr; intro a _ _
    exact hfr a (by omega)
  · show GET m' (s.mem_brk - 4) = 1
    rw [← h.heap.epi]; apply GET_congr; intro a _ _
    exact hfr a (by omega)
  · intro c hc
    have hcf := h.heap.mem_facts c hc
    apply Tagged_frame _ _ _ (h.heap.tags c hc)
    intro a ha
    apply hfr
    rcases h.heap.disj b c hb hc with e | e | e
    · subst e; omega
    · omega
    · omega
  · apply FList_frame _ _ _ _ h.fl
    intro x hx a ha1 ha2
    obtain ⟨c, hc, rfl, hcal⟩ := (h.idx x).1 hx
    have hcf := h.heap.mem_facts c hc
    apply hfr
    rcases h.heap.disj b c hb hc with e | e | e
    · subst e; rw [hal] at hcal; cases hcal
    · omega
    · omega

theorem memcpy_in (m : Mem) (dst src n i : Nat) (h : i < n) :
    memcpy m dst src n (dst + i) = m (src + i) := by
  unfold memcpy
  rw [if_pos ⟨by omega, by omega⟩, Nat.add_sub_cancel_left]

theorem memcpy_out (m : Mem) (dst src n a : Nat) (h : a < dst ∨ dst + n ≤ a) :
    memcpy m dst src n a = m a := by
  unfold memcpy
  rw [if_neg (by omega)]

theorem mm_realloc_eq (s s1 : State) (p n r sz : Nat) (al : Bool) (hn : 0 < n) (hp : p ≠ 0)
    (hr : r ≠ 0) (hm : mm_malloc n s = some (r, s1)) (h8 : 8 ∣ sz)
    (ht : GET s1.mem (p - 4) = tagOf sz al) :
    mm_realloc p n s =
      some (r, mm_free p { s1 with mem := memcpy s1.mem r p (if n < sz then n else sz) }) := by
  have hn0 : n ≠ 0 := by omega
  unfold mm_realloc
  simp only [hn0, if_false, hp, hm, hr]
  rw [(rd_size s1.mem p sz al h8 ht).1]

theorem mm_realloc_null (s s1 : State) (p n : Nat) (hn : 0 < n) (hp : p ≠ 0)
    (hm : mm_malloc n s = some (0, s1)) : mm_realloc p n s = some (0, s1) := by
  have hn0 : n ≠ 0 := by omega
  unfold mm_realloc
  simp only [hn0, if_false, hp, hm, if_true]

/-- The spec of `mm_realloc` on an allocated block and a non-zero size. -/
theorem mm_realloc_spec (s : State) (bs : List Blk) (L : List Nat) (p sz n : Nat)
    (h : Inv s bs L) (hp : (⟨p, sz, true⟩ : Blk) ∈ bs) (hn : 0 < n)
    (hw : n + 15 < 4294967296) :
    ∃ r s' bs' L', mm_realloc p n s = some (r, s') ∧ Inv s' bs' L' ∧
      s'.mem_max_addr = s.mem_max_addr ∧ s'.heap_listp = s.heap_listp ∧
      ((∀ x ∈ L, ¬ Fits s.mem (adjust n) x) →
        s.mem_brk + MAX (adjust n) CHUNKSIZE > s.mem_max_addr → r = 0) ∧
      (r = 0 → s'.mem = s.mem ∧ s'.mem_brk = s.mem_brk ∧ s'.free_listp = s.free_listp ∧
        bs' = bs ∧ L' = L) ∧
      (r ≠ 0 → r ≠ p ∧ (∃ rsz, (⟨r, rsz, true⟩ : Blk) ∈ bs' ∧ adjust n ≤ rsz) ∧
        (∀ i, i + 8 < sz → i < n → s'.mem (r + i) = s.mem (p + i)) ∧
        (∀ c ∈ bs, c.al = true → c.bp ≠ p → c ∈ bs' ∧
          ∀ a, c.bp ≤ a + 4 → a + 4 < c.bp + c.sz → s'.mem a = s.mem a) ∧
        (∀ c ∈ bs', c.al = true → c.bp = r ∨ c ∈ bs) ∧
        (∀ c ∈ bs, c.al = true → c.bp ≠ r)) := by
  obtain ⟨a1, a2, a3, a4⟩ := adjust_facts n hn hw
  have hpf := h.heap.mem_facts _ hp
  simp only at hpf
  obtain ⟨r, s1, bs1, L1, hm, mo, _, hmiss, _⟩ := mm_malloc_spec s bs L n h hw
  by_cases hr : r = 0
  · subst hr
    obtain ⟨n1, n2, n3, n4, n5⟩ := mo.null rfl
    subst n4 n5
    exact ⟨0, s1, bs1, L1, mm_realloc_null s s1 p n hn hpf.2.2.2.2.2.2 hm, mo.inv, mo.max, mo.hl,
      fun _ _ => rfl, fun _ => ⟨n1, n2, n3, rfl, rfl⟩, fun e => absurd rfl e⟩
  · obtain ⟨pre1, rsz, post1, g1, g2, g3, g4⟩ := mo.got hr
    have hp1 := mo.keep _ hp rfl
    have hr1 : (⟨r, rsz, true⟩ : Blk) ∈ bs1 := by rw [g1]; simp
    have hrne : r ≠ p := fun e => g4 _ hp rfl e.symm
    have hrf := mo.inv.heap.mem_facts _ hr1
    simp only at hrf
    rw [mm_realloc_eq s s1 p n r sz true hn hpf.2.2.2.2.2.2 hr hm hpf.2.2.2.1
      (mo.inv.heap.tags _ hp1).1]
    have hlen : (if n < sz then n else sz) ≤ n := by split <;> omega
    have hinv2 : Inv { s1 with mem := memcpy s1.mem r p (if n < sz then n else sz) } bs1 L1 := by
      apply Inv_payload s1 bs1 L1 mo.inv _ hr1 rfl
      intro a ha
      simp only at ha
      exact memcpy_out _ _ _ _ _ (by omega)
    obtain ⟨pre, post, hdec⟩ := List.append_of_mem hp1
    rw [hdec] at hinv2
    obtain ⟨pre', b', post', L', f1, f2, f3, f4, f5, f6, f7, f8, f9, f10, f11, f12, f13, f14⟩ :=
      mm_free_spec _ pre post p sz L1 hinv2
    have hsplit : ∀ d ∈ bs1, d.bp ≠ p → d ∈ pre ∨ d ∈ post := by
      intro d hd hne
      rw [hdec] at hd
      rcases List.mem_append.1 hd with hd | hd
      · exact Or.inl hd
      · rcases List.mem_cons.1 hd with hd | hd
        · subst hd; exact absurd rfl hne
        · exact Or.inr hd
    have hjoin : ∀ d, (d ∈ pre' ∨ d ∈ post') → d ∈ pre' ++ b' :: post' := by
      rintro d (hd | hd)
      · exact List.mem_append_left _ hd
      · exact List.mem_append_right _ (List.mem_cons_of_mem _ hd)
    refine ⟨r, _, _, _, rfl, f1, by rw [f3]; exact mo.max, by rw [f4]; exact mo.hl, ?_,
      fun e => absurd e hr, fun _ => ⟨hrne, ⟨rsz, ?_, g3⟩, ?_, ?_, ?_, g4⟩⟩
    · intro hno hfail
      exact absurd ((hmiss hn hno).1 hfail) hr
    · exact hjoin _ (f11 _ rfl (hsplit _ hr1 hrne))
    · intro i hi1 hi2
      rw [f14 _ rfl (hsplit _ hr1 hrne) (r + i) (by show r ≤ r + i + 4; omega)
        (by show r + i + 4 < r + rsz; omega)]
      show memcpy s1.mem r p (if n < sz then n else sz) (r + i) = s.mem (p + i)
      rw [memcpy_in _ _ _ _ _ (by split <;> omega)]
      exact mo.frame _ hp rfl (p + i) (by show p ≤ p + i + 4; omega)
        (by show p + i + 4 < p + sz; omega)
    · intro c hc hal hne
      have hc1 := mo.keep c hc hal
      have hcs := hsplit c hc1 hne
      refine ⟨hjoin _ (f11 c hal hcs), ?_⟩
      intro a ha1 ha2
      rw [f14 c hal hcs a ha1 ha2]
      show memcpy s1.mem r p (if n < sz then n else sz) a = s.mem a
      have hcne : c.bp ≠ r := g4 c hc hal
      have hsep := mo.inv.heap.sep c _ hc1 hr1 hcne a ha1 ha2
      simp only at hsep
      rw [memcpy_out _ _ _ _ _ (by omega)]
      exact mo.frame c hc hal a ha1 ha2
    · intro c hc hal
      have hcin : c ∈ pre ∨ c ∈ post := by
        rcases List.mem_append.1 hc with hc | hc
        · exact f10 c (Or.inl hc)
        · rcases List.mem_cons.1 hc with hc | hc
          · subst hc; rw [f6] at hal; cases hal
          · exact f10 c (Or.inr hc)
      have hc1 : c ∈ bs1 := by
        rw [hdec]
        rcases hcin with e | e
        · exact List.mem_append_left _ e
        · exact List.mem_append_right _ (List.mem_cons_of_mem _ e)
      rcases mo.only c hc1 hal with e | e
      · exact Or.inr e
      · exact Or.inl e

/-! ## Observing a state: the physical walk and the free-index walk -/

theorem Contig_length (bs : List Blk) (st e : Nat) (h : Contig st bs e) :
    st + 16 * bs.length ≤ e := by
  induction bs generalizing st with
  | nil => simp only [Contig] at h; simp; omega
  | cons x xs ih =>
    obtain ⟨_, h2, _, h4⟩ := h
    have := ih _ h4
    simp only [List.length_cons]
    omega

theorem heapWalk_eq (m : Mem) (bs : List Blk) (e : Nat) (hepi : GET m (e - 4) = 1) :
    ∀ fuel st, Contig st bs e → (∀ b ∈ bs, Tagged m b) → bs.length < fuel →
      heapWalk m fuel st = bs ∧ walkEnd m fuel st = some e := by
  induction bs with
  | nil =>
    intro fuel st hc _ hf
    simp only [Contig] at hc
    subst hc
    cases fuel with
    | zero => simp at hf
    | succ fuel =>
      have hz : GET_SIZE m (HDRP st) = 0 := by
        have : GET m (st - 4) = tagOf 0 true := by rw [hepi]; rfl
        exact GET_SIZE_of_tag m _ 0 true this (by omega)
      simp only [heapWalk, walkEnd, hz, if_true, and_self]
  | cons x xs ih =>
    intro fuel st hc ht hf
    obtain ⟨h1, h2, h3, h4⟩ := hc
    cases fuel with
    | zero => simp at hf
    | succ fuel =>
      have hx := ht x (by simp)
      subst h1
      obtain ⟨r1, r2, _⟩ := rd_size m x.bp x.sz x.al h3 hx.1
      have r3 : GET_ALLOC m (HDRP x.bp) = x.al.toNat := GET_ALLOC_of_tag m _ x.sz x.al hx.1 h3
      have hnz : ¬ x.sz = 0 := by omega
      obtain ⟨i1, i2⟩ := ih fuel _ h4 (fun b hb => ht b (List.mem_cons_of_mem _ hb))
        (by simp only [List.length_cons] at hf; omega)
      simp only [heapWalk, walkEnd, r1, hnz, if_false, r2, r3, i1, i2, and_true]
      cases x with
      | mk a b c => cases c <;> simp

theorem Inv.blocks_eq {s : State} {bs : List Blk} {L : List Nat} (h : Inv s bs L) :
    blocks s = bs ∧ arenaEnd s = some s.mem_brk := by
  have hn : NEXT_BLKP s.mem s.heap_listp = s.heap_listp + 8 := by
    have : GET s.mem (s.heap_listp - 4) = tagOf 8 true := by rw [h.heap.pro_h]; rfl
    exact (rd_size s.mem _ 8 true (by omega) this).2.1
  have hlen := Contig_length _ _ _ h.heap.contig
  unfold blocks arenaEnd
  rw [hn]
  exact heapWalk_eq s.mem bs s.mem_brk h.heap.epi _ _ h.heap.contig h.heap.tags (by omega)

theorem freeWalk_eq (m : Mem) (head : Nat) (L : List Nat) (hf : FList m head L) :
    ∀ fuel k, k ≤ L.length → L.length - k < fuel →
      freeWalk m fuel (L.getD k 0) = some (L.drop k) := by
  intro fuel
  induction fuel with
  | zero => intro k _ h; omega
  | succ fuel ih =>
    intro k hk hfu
    by_cases hkn : k = L.length
    · have : L.getD k 0 = 0 := List.getD_eq_default L 0 (by omega)
      rw [this, hkn, List.drop_length]
      simp [freeWalk]
    · have hk' : k < L.length := by omega
      have hne : L.getD k 0 ≠ 0 := (hf.2.2.1 _ (getD_mem L k hk')).1
      have hsucc : GET m (L.getD k 0) = L.getD (k + 1) 0 := (hf.2.2.2 k hk').1
      simp only [freeWalk, hne, if_false, GET_SUCC, hsucc]
      rw [ih (k + 1) (by omega) (by omega)]
      simp only [Option.map_some']
      rw [List.getD_eq_getElem L 0 hk']
      simp

theorem Inv.freeList_eq {s : State} {bs : List Blk} {L : List Nat} (h : Inv s bs L) :
    freeList s = some L := by
  unfold freeList
  have := freeWalk_eq s.mem s.free_listp L h.fl (s.mem_brk + 1) 0 (by omega)
    (by have := h.len_le; omega)
  rw [← h.fl.1] at this
  simpa using this

/-! ## Reachable states under valid use -/

theorem mm_free_null (s : State) : mm_free 0 s = s := by
  unfold mm_free
  simp

theorem Inv.alloc_split {s : State} {bs : List Blk} {L : List Nat} (h : Inv s bs L) (p : Nat)
    (hp : Allocated s p) :
    ∃ pre sz post, bs = pre ++ ⟨p, sz, true⟩ :: post := by
  obtain ⟨b, hb, e1, e2⟩ := hp
  rw [h.blocks_eq.1] at hb
  obtain ⟨pre, post, hd⟩ := List.append_of_mem hb
  refine ⟨pre, b.sz, post, ?_⟩
  rw [hd]
  cases b with
  | mk x y z => simp only at e1 e2; subst e1 e2; rfl

/-- Every reachable state satisfies the invariant. -/
theorem reach_inv (s : State) (h : Reach s) : ∃ bs L, Inv s bs L := by
  induction h with
  | init s0 hb hok => exact ⟨_, _, (mm_init_spec s0 hb hok).1⟩
  | malloc s n r s' _ hw hm ih =>
    obtain ⟨bs, L, hi⟩ := ih
    obtain ⟨r2, s2, bs2, L2, hm2, mo, _⟩ := mm_malloc_spec s bs L n hi hw
    rw [hm] at hm2
    simp only [Option.some.injEq, Prod.mk.injEq] at hm2
    obtain ⟨_, e2⟩ := hm2
    subst e2
    exact ⟨bs2, L2, mo.inv⟩
  | free s p _ hp ih =>
    obtain ⟨bs, L, hi⟩ := ih
    rcases hp with hp | hp
    · subst hp; rw [mm_free_null]; exact ⟨bs, L, hi⟩
    · obtain ⟨pre, sz, post, hd⟩ := hi.alloc_split p hp
      subst hd
      obtain ⟨pre', b', post', L', f1, _⟩ := mm_free_spec s pre post p sz L hi
      exact ⟨_, _, f1⟩
  | realloc s p n r s' _ hp hw hm ih =>
    obtain ⟨bs, L, hi⟩ := ih
    by_cases hn : n = 0
    · subst hn
      have e : mm_realloc p 0 s = some (0, mm_free p s) := by
        unfold mm_realloc; simp
      rw [e] at hm
      simp only [Option.some.injEq, Prod.mk.injEq] at hm
      obtain ⟨_, e2⟩ := hm
      subst e2
      rcases hp with hp | hp
      · subst hp; rw [mm_free_null]; exact ⟨bs, L, hi⟩
      · obtain ⟨pre, sz, post, hd⟩ := hi.alloc_split p hp
        subst hd
        obtain ⟨pre', b', post', L', f1, _⟩ := mm_free_spec s pre post p sz L hi
        exact ⟨_, _, f1⟩
    · rcases hp with hp | hp
      · subst hp
        have e : mm_realloc 0 n s = mm_malloc n s := by
          unfold mm_realloc; simp [hn]
        rw [e] at hm
        obtain ⟨r2, s2, bs2, L2, hm2, mo, _⟩ := mm_malloc_spec s bs L n hi hw
        rw [hm] at hm2
        simp only [Option.some.injEq, Prod.mk.injEq] at hm2
        obtain ⟨_, e2⟩ := hm2
        subst e2
        exact ⟨bs2, L2, mo.inv⟩
      · obtain ⟨pre, sz, post, hd⟩ := hi.alloc_split p hp
        obtain ⟨r2, s2, bs2, L2, hm2, hi2, _⟩ :=
          mm_realloc_spec s bs L p sz n hi (by rw [hd]; simp) (by omega) hw
        rw [hm] at hm2
        simp only [Option.some.injEq, Prod.mk.injEq] at hm2
        obtain ⟨_, e2⟩ := hm2
        subst e2
        exact ⟨bs2, L2, hi2⟩
  | store s a v _ hp ih =>
    obtain ⟨bs, L, hi⟩ := ih
    obtain ⟨b, hb, hal, h1, h2⟩ := hp
    rw [hi.blocks_eq.1] at hb
    refine ⟨bs, L, Inv_payload s bs L hi b hb hal _ ?_⟩
    intro x hx
    have : x ≠ a := by omega
    simp only [this, if_false]

/-! ## Exact outcomes used by the scenarios -/

/-- Freeing a block whose two physical neighbours are allocated: the block is marked
free in place and pushed on the index; nothing else changes shape. -/
theorem mm_free_exact (s : State) (pre post : List Blk) (p sz : Nat) (L : List Nat)
    (h : Inv s (pre ++ ⟨p, sz, true⟩ :: post) L) (hla : lastAlloc pre)
    (hha : headAlloc post) :
    Inv (mm_free p s) (pre ++ ⟨p, sz, false⟩ :: post) (p :: L) ∧
    (mm_free p s).rover = s.rover ∧ (mm_free p s).mem_brk = s.mem_brk ∧
    (mm_free p s).mem_max_addr = s.mem_max_addr ∧
    (mm_free p s).heap_listp = s.heap_listp := by
  have hb : (⟨p, sz, true⟩ : Blk) ∈ pre ++ ⟨p, sz, true⟩ :: post := by simp
  have hbf := h.heap.mem_facts _ hb
  simp only at hbf
  have hlim := h.heap.lim
  have hhp := h.heap.hlpos
  have hmid := free_mark s pre post p sz L h
  rw [mm_free_eq s p sz true hbf.2.2.2.2.2.2 (by omega) hbf.2.2.2.1 (h.heap.tags _ hb).1
    (by omega)]
  obtain ⟨pre', b', post', L', c, hrv, hsame, _⟩ :=
    coalesce_spec _ pre post ⟨p, sz, false⟩ L hmid h.rov
  obtain ⟨e1, _, _, _, _⟩ := hsame hla hha
  simp only at e1
  rw [e1]
  obtain ⟨i1, _⟩ := insert_finish _ pre post ⟨p, sz, false⟩ L hmid hla hha (by
    rcases h.rov with e | e
    · exact Or.inl e
    · exact Or.inr (Or.inl e))
  obtain ⟨f0, f1, f2, f3, f4⟩ := headinsert_fields p { s with mem := freeMem s.mem p sz }
  exact ⟨i1, f4, f1, f2, f3⟩

/-- Allocating with a null cursor when the head of the index fits: the head block is
placed and the cursor moves to its successor. -/
theorem malloc_head_exact (s : State) (pre post : List Blk) (bp csize : Nat) (L0 : List Nat)
    (n : Nat) (h : Inv s (pre ++ ⟨bp, csize, false⟩ :: post) (bp :: L0)) (hr : s.rover = 0)
    (hn : 0 < n) (hw : n + 15 < 4294967296) (hle : adjust n ≤ csize) :
    ∃ s', mm_malloc n s = some (bp, s') ∧
      Inv s' (placeBs pre post bp csize (adjust n)) (placeL (bp :: L0) bp csize (adjust n)) ∧
      s'.rover = L0.getD 0 0 ∧ s'.mem_brk = s.mem_brk ∧
      s'.mem_max_addr = s.mem_max_addr ∧ s'.heap_listp = s.heap_listp := by
  obtain ⟨a1, a2, a3, a4⟩ := adjust_facts n hn hw
  have hb : (⟨bp, csize, false⟩ : Blk) ∈ pre ++ ⟨bp, csize, false⟩ :: post := by simp
  have hbf := h.heap.mem_facts _ hb
  simp only at hbf
  have hhp := h.heap.hlpos
  have hfit0 : Fits s.mem (adjust n) ((bp :: L0).getD 0 0) :=
    (h.fits_iff _ hb (adjust n)).2 hle
  obtain ⟨k0, hk0, hz, hnz, hcase⟩ := find_fit_spec (adjust n) s _ h.fl h.rov h.len_le
  have hk00 := hz hr
  subst hk00
  have hfind : find_fit (adjust n) s = some (bp, { s with rover := L0.getD 0 0 }) := by
    rcases hcase with ⟨j, hj, hfit, hord, hf⟩ | ⟨hnone, _⟩
    · have hj0 : j = 0 := by
        by_contra hne
        rcases hord with ⟨_, g2⟩ | ⟨g1, _⟩
        · exact g2 0 (le_refl _) (by omega) hfit0
        · omega
      subst hj0
      simpa using hf
    · exact absurd hfit0 (hnone 0 (by simp))
  have hinv1 : Inv { s with rover := L0.getD 0 0 } _ (bp :: L0) :=
    Inv_rover s _ _ _ h (by
      rcases getD_succ (bp :: L0) 0 with e | e
      · left; simpa using e
      · right; simpa using e)
  have hrne : L0.getD 0 0 ≠ bp := by
    cases L0 with
    | nil => simp; exact fun e => hbf.2.2.2.2.2.2 e.symm
    | cons x xs =>
      simp only [List.getD_cons_zero]
      have := h.fl.2.1
      simp only [List.nodup_cons, List.mem_cons, not_or] at this
      exact fun e => this.1.1 e.symm
  obtain ⟨p1, p2, p3, p4, p5, _⟩ := place_spec _ pre post bp csize (adjust n) (bp :: L0) hinv1
    hrne a1 a2 hle
  exact ⟨_, mm_malloc_hit_eq s _ n bp hn (by omega) hbf.2.2.2.2.2.2 hfind, p1, p5, p2, p3, p4⟩

/-! ## The contract of the allocator -/

/-- C1: in every state reachable from a successful `mm_init` under valid use, no two
physically adjacent blocks between the prologue and the epilogue are both free. -/
theorem no_adjacent_free (s : State) (h : Reach s) :
    List.Chain' (fun a b : Blk => a.al = true ∨ b.al = true) (blocks s) := by
  obtain ⟨bs, L, hi⟩ := reach_inv s h
  rw [hi.blocks_eq.1]
  exact hi.noadj

/-- C2: in every reachable state the walk of the free index from `free_listp` along
the successor links ends at null, visits no block twice, and visits exactly the blocks
that the physical walk of the arena shows as free. -/
theorem free_index_complete (s : State) (h : Reach s) :
    ∃ L, freeList s = some L ∧ L.Nodup ∧
      ∀ x, x ∈ L ↔ ∃ b ∈ blocks s, b.bp = x ∧ b.al = false := by
  obtain ⟨bs, L, hi⟩ := reach_inv s h
  refine ⟨L, hi.freeList_eq, hi.fl.2.1, ?_⟩
  rw [hi.blocks_eq.1]
  exact hi.idx

/-- C3: in every reachable state the physical walk from the first block after the
prologue ends exactly at the break, where the zero-size allocated epilogue header
sits, and every block on the walk has a size that is a multiple of 8 and at least 16
and a footer word equal to its header word. -/
theorem heap_well_formed (s : State) (h : Reach s) :
    arenaEnd s = some s.mem_brk ∧ GET s.mem (HDRP s.mem_brk) = PACK 0 1 ∧
    ∀ b ∈ blocks s, 8 ∣ b.sz ∧ 16 ≤ b.sz ∧
      GET s.mem (FTRP s.mem b.bp) = GET s.mem (HDRP b.bp) := by
  obtain ⟨bs, L, hi⟩ := reach_inv s h
  refine ⟨hi.blocks_eq.2, hi.heap.epi, ?_⟩
  rw [hi.blocks_eq.1]
  intro b hb
  have hbf := hi.heap.mem_facts b hb
  have ht := hi.heap.tags b hb
  refine ⟨hbf.2.2.2.1, hbf.2.2.1, ?_⟩
  rw [(rd_size s.mem b.bp b.sz b.al hbf.2.2.2.1 ht.1).2.2]
  show GET s.mem (b.bp + b.sz - 8) = GET s.mem (b.bp - 4)
  rw [ht.1, ht.2]

theorem adjust_range (n : Nat) : 8 ∣ adjust n ∧ adjust n < 4294967296 := by
  unfold adjust DSIZE TWO32
  by_cases h : n ≤ 8
  · rw [if_pos h]; omega
  · rw [if_neg h]; omega

/-- For any request size, wrapping or not, `mm_malloc` returns under the invariant, its
non-null result is 8-byte aligned, and when nothing fits and the arena cannot grow it
returns null and only resets the cursor. -/
theorem malloc_any (s : State) (bs : List Blk) (L : List Nat) (n : Nat) (h : Inv s bs L) :
    ∃ r s', mm_malloc n s = some (r, s') ∧ (r ≠ 0 → 8 ∣ r) ∧
      (0 < n → (∀ x ∈ L, ¬ Fits s.mem (adjust n) x) →
        s.mem_brk + MAX (adjust n) CHUNKSIZE > s.mem_max_addr →
        r = 0 ∧ s' = { s with rover := 0 }) := by
  have hhp := h.heap.hlpos
  by_cases hn0 : n = 0
  · subst hn0
    exact ⟨0, s, mm_malloc_zero s (by omega), fun e => absurd rfl e,
      fun e => absurd e (lt_irrefl 0)⟩
  have hn : 0 < n := by omega
  obtain ⟨a2, a5⟩ := adjust_range n
  obtain ⟨w1, w2, w3, w4, w5⟩ := ext_words (adjust n) a2
  obtain ⟨k0, _, _, _, hcase⟩ := find_fit_spec (adjust n) s L h.fl h.rov h.len_le
  rcases hcase with ⟨j, hj, hfit, _, hf⟩ | ⟨hno, hf⟩
  · have hmem := getD_mem L j hj
    have hx := h.fl.2.2.1 _ hmem
    exact ⟨_, _, mm_malloc_hit_eq s _ n _ hn (by omega) hx.1 hf, fun _ => hx.2.1,
      fun _ hno _ => absurd hfit (hno _ hmem)⟩
  · by_cases hfail : s.mem_brk + MAX (adjust n) CHUNKSIZE > s.mem_max_addr
    · have hfl : extend_heap (MAX (adjust n) CHUNKSIZE / WSIZE) { s with rover := 0 } =
          (0, { s with rover := 0 }) :=
        extend_heap_fail _ _ w1 (by rw [w2]; omega) (by rw [w2]; exact hfail)
      refine ⟨0, { s with rover := 0 }, ?_, fun e => absurd rfl e, fun _ _ _ => ⟨rfl, rfl⟩⟩
      rw [mm_malloc_miss_eq s _ n hn (by omega) hf, hfl]
      simp only [if_true]
    · have hinv1 : Inv { s with rover := 0 } bs L := Inv_rover s bs L 0 h (Or.inl rfl)
      obtain ⟨pre1, b1, L1, e1, e2, _⟩ :=
        extend_heap_spec { s with rover := 0 } bs L (MAX (adjust n) CHUNKSIZE / WSIZE) hinv1 w1
          (by rw [w2]; omega) (by rw [w2]; exact Nat.le_of_not_lt hfail)
      have hbf := e2.heap.mem_facts b1 (by simp)
      have hr0 : (extend_heap (MAX (adjust n) CHUNKSIZE / WSIZE) { s with rover := 0 }).1 ≠ 0 := by
        rw [e1]; exact hbf.2.2.2.2.2.2
      refine ⟨(extend_heap (MAX (adjust n) CHUNKSIZE / WSIZE) { s with rover := 0 }).1,
        place (extend_heap (MAX (adjust n) CHUNKSIZE / WSIZE) { s with rover := 0 }).1 (adjust n)
          (extend_heap (MAX (adjust n) CHUNKSIZE / WSIZE) { s with rover := 0 }).2,
        ?_, fun _ => ?_, fun _ _ hf2 => absurd hf2 hfail⟩
      · rw [mm_malloc_miss_eq s _ n hn (by omega) hf, if_neg hr0]
      · rw [e1]; exact hbf.2.2.2.2.1

/-- C4: in every reachable state `mm_malloc n` returns for every request size `n`, and
a non-null result is a multiple of 8. -/
theorem malloc_aligned (s : State) (h : Reach s) (n : Nat) :
    ∃ r s', mm_malloc n s = some (r, s') ∧ (r ≠ 0 → 8 ∣ r) := by
  obtain ⟨bs, L, hi⟩ := reach_inv s h
  obtain ⟨r, s', hm, h8, _⟩ := malloc_any s bs L n hi
  exact ⟨r, s', hm, h8⟩

/-- C6: in every reachable state, if some block of the free index is at least as large
as the adjusted request, `mm_malloc n` returns a non-null block that starts at a block
of the free index and is no larger than it, and the break is unchanged; this holds
wherever the scan cursor stands. -/
theorem reuse_before_growth (s : State) (h : Reach s) (n : Nat) (hn : 0 < n)
    (hw : n + 15 < 4294967296)
    (hfit : ∃ L, freeList s = some L ∧ ∃ x ∈ L, adjust n ≤ GET_SIZE s.mem (HDRP x)) :
    ∃ r s', mm_malloc n s = some (r, s') ∧ r ≠ 0 ∧ s'.mem_brk = s.mem_brk ∧
      (∃ L, freeList s = some L ∧ r ∈ L) ∧
      ∃ b ∈ blocks s, ∃ b' ∈ blocks s', b.al = false ∧ b.bp = r ∧ b'.bp = r ∧
        b'.al = true ∧ b'.sz ≤ b.sz := by
  obtain ⟨bs, L, hi⟩ := reach_inv s h
  obtain ⟨r, s', bs', L', hm, mo, hhit, _⟩ := mm_malloc_spec s bs L n hi hw
  obtain ⟨L2, e1, x, hx, hfx⟩ := hfit
  rw [hi.freeList_eq] at e1
  simp only [Option.some.injEq] at e1
  subst e1
  obtain ⟨g1, g2, g3, csize, sz, g4, g5, g6⟩ := hhit hn ⟨x, hx, hfx⟩
  refine ⟨r, s', hm, (hi.fl.2.2.1 r g1).1, g3, ⟨L, hi.freeList_eq, g1⟩, ?_⟩
  rw [hi.blocks_eq.1, mo.inv.blocks_eq.1]
  exact ⟨_, g4, _, g5, rfl, rfl, rfl, rfl, g6⟩

/-- Resize on requests whose size adjustment does not wrap: for an allocated block `b`
of a reachable state and a request `n > 0` with `n + 15 < 2^32`, `mm_realloc b n`
returns, and when its result `r` is not null the first `min (size b - 8) n` payload
bytes of `r` afterwards are those of `b` before, and `r` is an allocated block with
payload capacity at least `n`. -/
theorem realloc_preserves (s : State) (h : Reach s) (b : Blk) (hb : b ∈ blocks s)
    (hal : b.al = true) (n : Nat) (hn : 0 < n) (hw : n + 15 < 4294967296) :
    ∃ r s', mm_realloc b.bp n s = some (r, s') ∧
      (r ≠ 0 →
        (∀ i, i < min (b.sz - 8) n → s'.mem (r + i) = s.mem (b.bp + i)) ∧
        ∃ rb ∈ blocks s', rb.bp = r ∧ rb.al = true ∧ n ≤ rb.sz - 8) := by
  obtain ⟨bs, L, hi⟩ := reach_inv s h
  rw [hi.blocks_eq.1] at hb
  have hb' : (⟨b.bp, b.sz, true⟩ : Blk) ∈ bs := by
    cases b with
    | mk x y z => simp only at hal; subst hal; exact hb
  obtain ⟨a1, a2, a3, a4⟩ := adjust_facts n hn hw
  obtain ⟨r, s', bs', L', hm, hi', _, _, _, _, hgot⟩ :=
    mm_realloc_spec s bs L b.bp b.sz n hi hb' hn hw
  refine ⟨r, s', hm, fun hr => ?_⟩
  obtain ⟨_, ⟨rsz, g1, g2⟩, g3, _⟩ := hgot hr
  refine ⟨fun i hi2 => g3 i (by omega) (by omega), ?_⟩
  rw [hi'.blocks_eq.1]
  exact ⟨_, g1, rfl, rfl, by show n ≤ rsz - 8; omega⟩

theorem mem_sbrk_fail_iff (s : State) (incr : Nat) (h8 : 8 ∣ s.mem_brk) :
    (mem_sbrk incr s).1 = 4294967295 ↔ s.mem_brk + incr > s.mem_max_addr := by
  unfold mem_sbrk
  by_cases h : s.mem_brk + incr > s.mem_max_addr
  · simp [h]
  · simp only [h, if_false, iff_false]
    omega

/-- C8: in a reachable state where no block of the free index fits the adjusted request
and the growth primitive refuses the extension, `mm_malloc n` returns null, and
`mm_realloc p n` on an allocated block `p` returns null; in both cases memory, break and
free-index head are unchanged, so every tag, every payload byte and the free index are
as before and `p` is still allocated. -/
theorem failure_atomic (s : State) (h : Reach s) (n : Nat) (hn : 0 < n)
    (hnofit : ∀ L, freeList s = some L → ∀ x ∈ L, ¬ adjust n ≤ GET_SIZE s.mem (HDRP x))
    (hfail : (mem_sbrk (MAX (adjust n) CHUNKSIZE) s).1 = 4294967295) :
    (∃ s', mm_malloc n s = some (0, s') ∧ s'.mem = s.mem ∧ s'.mem_brk = s.mem_brk ∧
      s'.free_listp = s.free_listp ∧ blocks s' = blocks s ∧ freeList s' = freeList s) ∧
    (∀ p, Allocated s p →
      ∃ s', mm_realloc p n s = some (0, s') ∧ s'.mem = s.mem ∧ s'.mem_brk = s.mem_brk ∧
        s'.free_listp = s.free_listp ∧ blocks s' = blocks s ∧ freeList s' = freeList s ∧
        Allocated s' p) := by
  obtain ⟨bs, L, hi⟩ := reach_inv s h
  have hno : ∀ x ∈ L, ¬ Fits s.mem (adjust n) x := hnofit L hi.freeList_eq
  have hf2 : s.mem_brk + MAX (adjust n) CHUNKSIZE > s.mem_max_addr :=
    (mem_sbrk_fail_iff s _ hi.heap.brk8.1).1 hfail
  obtain ⟨r, s', hm, _, hnull⟩ := malloc_any s bs L n hi
  obtain ⟨hr, hs⟩ := hnull hn hno hf2
  subst hr hs
  constructor
  · exact ⟨_, hm, rfl, rfl, rfl, rfl, rfl⟩
  · intro p hp
    obtain ⟨pre, sz, post, hd⟩ := hi.alloc_split p hp
    have hpf := hi.heap.mem_facts ⟨p, sz, true⟩ (by rw [hd]; simp)
    exact ⟨_, mm_realloc_null s _ p n hn hpf.2.2.2.2.2.2 hm, rfl, rfl, rfl, rfl, rfl, hp⟩

/-- C5, as stated, fails: for the request `2^32 - 1`, which is representable in
`size_t`, the sum `size + 15` wraps and the code computes 8, while the exact value is
`2^32 + 8`. -/
theorem adjust_wraps :
    0 < 4294967295 ∧ 4294967295 < TWO32 ∧ adjust 4294967295 = 8 ∧
    adjustSpec 4294967295 = 4294967304 ∧ adjust 4294967295 ≠ adjustSpec 4294967295 := by
  decide

/-- C5, amended: for a request `0 < n < 2^32` the adjusted size the code computes equals
the exact-integer value `n ≤ 8 ? 16 : round_up_to_8 (n + 8)` exactly when `n + 15` does
not wrap (`n + 15 < 2^32`); in that case it is a multiple of 8, at least 16, at least
`n + 8`, and for `n > 8` the least such multiple of 8. -/
theorem adjust_exact_iff (n : Nat) (hn : 0 < n) (hlt : n < TWO32) :
    (adjust n = adjustSpec n ↔ n + 15 < 4294967296) ∧
    (n + 15 < 4294967296 →
      8 ∣ adjust n ∧ 16 ≤ adjust n ∧ n + 8 ≤ adjust n ∧
      (8 < n → ∀ m, 8 ∣ m → n + 8 ≤ m → adjust n ≤ m)) := by
  unfold TWO32 at hlt
  unfold adjust adjustSpec DSIZE TWO32
  by_cases h : n ≤ 8
  · rw [if_pos h, if_pos h]
    refine ⟨⟨fun _ => by omega, fun _ => rfl⟩, fun _ => ⟨by omega, by omega, by omega, ?_⟩⟩
    intro h8; omega
  · rw [if_neg h, if_neg h]
    constructor
    · constructor
      · intro e
        by_contra hc
        omega
      · intro hw
        omega
    · intro hw
      refine ⟨by omega, by omega, by omega, ?_⟩
      intro _ m hm1 hm2
      omega

/-- C9, amended: in a reachable state, after `p = mm_malloc n` succeeded and `p` was
freed at once, `mm_malloc n` returns a non-null block that is a member of the free
index left by the free, without moving the break; that block is `p` again when the
scan cursor left by the free is null, or is `p`, or stands at a block of the free index
from which no block up to the end of the index fits the adjusted request. -/
theorem round_trip (s : State) (h : Reach s) (n : Nat) (hn : 0 < n)
    (hw : n + 15 < 4294967296) (p : Nat) (s1 : State)
    (hm : mm_malloc n s = some (p, s1)) (hp : p ≠ 0) :
    ∃ q s3, mm_malloc n (mm_free p s1) = some (q, s3) ∧ q ≠ 0 ∧
      (∃ L, freeList (mm_free p s1) = some L ∧ q ∈ L) ∧
      s3.mem_brk = s1.mem_brk ∧
      (((mm_free p s1).rover = 0 ∨ (mm_free p s1).rover = p ∨
        ∃ L k, freeList (mm_free p s1) = some L ∧ k < L.length ∧
          (mm_free p s1).rover = L.getD k 0 ∧
          ∀ i, k ≤ i → i < L.length →
            ¬ adjust n ≤ GET_SIZE (mm_free p s1).mem (HDRP (L.getD i 0))) → q = p) := by
  obtain ⟨bs, L, hi⟩ := reach_inv s h
  obtain ⟨r, s1', bs1, L1, hm1, mo, _⟩ := mm_malloc_spec s bs L n hi hw
  rw [hm] at hm1
  simp only [Option.some.injEq, Prod.mk.injEq] at hm1
  obtain ⟨e1, e2⟩ := hm1
  subst e1 e2
  obtain ⟨pre1, sz, post1, g1, g2, g3, _⟩ := mo.got hp
  have hi1 := mo.inv
  rw [g1] at hi1
  obtain ⟨pre2, b2, post2, L2, hi2, f1, _, _, _, f2, f3, f4, f5, _⟩ :=
    mm_free_spec s1 pre1 post1 p sz L1 hi1
  obtain ⟨f6, _⟩ := f5 g2
  have hb2 : b2 ∈ pre2 ++ b2 :: post2 := by simp
  have hfit : Fits (mm_free p s1).mem (adjust n) b2.bp :=
    (hi2.fits_iff b2 hb2 (adjust n)).2 (by omega)
  obtain ⟨q, s3, bs3, L3, hm3, mo3, hhit, _, hhead⟩ :=
    mm_malloc_spec (mm_free p s1) _ _ n hi2 hw
  obtain ⟨q1, _, q3, _⟩ := hhit hn ⟨b2.bp, by simp, hfit⟩
  refine ⟨q, s3, hm3, (hi2.fl.2.2.1 q q1).1, ⟨_, hi2.freeList_eq, q1⟩, by rw [q3, f1], ?_⟩
  intro hcur
  have hq := hhead hn (by simp) (by simpa using hfit)
  rw [← f6]
  refine (hq ?_).trans (by simp)
  rcases hcur with c | c | ⟨L4, k, c1, c2, c3, c4⟩
  · exact Or.inl c
  · exact Or.inr ⟨0, by simp, by simp [c, f6], Or.inl rfl⟩
  · rw [hi2.freeList_eq] at c1
    simp only [Option.some.injEq] at c1
    subst c1
    exact Or.inr ⟨k, c2, c3, Or.inr c4⟩

/-- C10: from a successful `mm_init` on a boot state whose break is `B`, the calls
`a = mm_malloc 100`, `b = mm_malloc 200`, `mm_free a`, `c = mm_malloc 50` all return,
with `a = B + 16`, `b = a + 112` and `c = a`; the block of `c` has size 64 inside the
112 bytes of the former block of `a`, the remaining 48 bytes form a free block at
`a + 64` that heads the free index, and the break after each of the four calls is the
break left by `mm_init`. -/
theorem scenario_split (s0 : State) (hb : Boot s0) (hok : (mm_init s0).1 = 0) :
    ∃ sa sb sc, mm_malloc 100 (mm_init s0).2 = some (s0.mem_brk + 16, sa) ∧
      mm_malloc 200 sa = some (s0.mem_brk + 16 + 112, sb) ∧
      mm_malloc 50 (mm_free (s0.mem_brk + 16) sb) = some (s0.mem_brk + 16, sc) ∧
      blocks sb = [⟨s0.mem_brk + 16, 112, true⟩, ⟨s0.mem_brk + 16 + 112, 208, true⟩,
        ⟨s0.mem_brk + 16 + 112 + 208, 3776, false⟩] ∧
      blocks sc = [⟨s0.mem_brk + 16, 64, true⟩, ⟨s0.mem_brk + 16 + 64, 48, false⟩,
        ⟨s0.mem_brk + 16 + 112, 208, true⟩, ⟨s0.mem_brk + 16 + 112 + 208, 3776, false⟩] ∧
      freeList sc = some [s0.mem_brk + 16 + 64, s0.mem_brk + 16 + 112 + 208] ∧
      sa.mem_brk = (mm_init s0).2.mem_brk ∧ sb.mem_brk = (mm_init s0).2.mem_brk ∧
      (mm_free (s0.mem_brk + 16) sb).mem_brk = (mm_init s0).2.mem_brk ∧
      sc.mem_brk = (mm_init s0).2.mem_brk := by
  obtain ⟨i0, _, _, _, r0, _⟩ := mm_init_spec s0 hb hok
  have e100 : adjust 100 = 112 := by decide
  have e200 : adjust 200 = 208 := by decide
  have e50 : adjust 50 = 64 := by decide
  obtain ⟨sa, ha, ia, ra, ba, _⟩ :=
    malloc_head_exact (mm_init s0).2 [] [] (s0.mem_brk + 16) 4096 [] 100 i0 r0
      (by decide) (by decide) (by rw [e100]; decide)
  have ia2 : Inv sa ([] ++ ⟨s0.mem_brk + 16, 112, true⟩ ::
      [⟨s0.mem_brk + 16 + 112, 3984, false⟩]) [s0.mem_brk + 16 + 112] := by
    simpa [placeBs, placeL, e100] using ia
  have ra2 : sa.rover = 0 := by simpa using ra
  obtain ⟨sb, hb2, ib, rb, bb, _⟩ :=
    malloc_head_exact sa [⟨s0.mem_brk + 16, 112, true⟩] [] (s0.mem_brk + 16 + 112) 3984 []
      200 (by simpa using ia2) ra2 (by decide) (by decide) (by rw [e200]; decide)
  have ib2 : Inv sb ([] ++ ⟨s0.mem_brk + 16, 112, true⟩ ::
      [⟨s0.mem_brk + 16 + 112, 208, true⟩, ⟨s0.mem_brk + 16 + 112 + 208, 3776, false⟩])
      [s0.mem_brk + 16 + 112 + 208] := by
    simpa [placeBs, placeL, e200] using ib
  have rb2 : sb.rover = 0 := by simpa using rb
  obtain ⟨ifr, rf, bf, _⟩ := mm_free_exact sb [] _ (s0.mem_brk + 16) 112 _ ib2
    (by simp [lastAlloc]) (by simp [headAlloc])
  obtain ⟨sc, hc, ic, _, bc, _⟩ :=
    malloc_head_exact (mm_free (s0.mem_brk + 16) sb) [] _ (s0.mem_brk + 16) 112 _ 50 ifr
      (by rw [rf, rb2]) (by decide) (by decide) (by rw [e50]; decide)
  have ic2 : Inv sc [⟨s0.mem_brk + 16, 64, true⟩, ⟨s0.mem_brk + 16 + 64, 48, false⟩,
      ⟨s0.mem_brk + 16 + 112, 208, true⟩, ⟨s0.mem_brk + 16 + 112 + 208, 3776, false⟩]
      [s0.mem_brk + 16 + 64, s0.mem_brk + 16 + 112 + 208] := by
    simpa [placeBs, placeL, e50] using ic
  refine ⟨sa, sb, sc, ha, hb2, hc, ?_, ic2.blocks_eq.1, ic2.freeList_eq, ba, by rw [bb, ba],
    by rw [bf, bb, ba], by rw [bc, bf, bb, ba]⟩
  simpa using ib2.blocks_eq.1

theorem stepMalloc_eq (s : State) (h : Reach s) (n : Nat) (hw : n + 15 < 4294967296) :
    mm_malloc n s = some (stepMalloc n s) := by
  obtain ⟨bs, L, hi⟩ := reach_inv s h
  obtain ⟨r, s', bs', L', hm, _⟩ := mm_malloc_spec s bs L n hi hw
  unfold stepMalloc
  rw [hm]
  rfl

theorem stepMalloc_reach (s : State) (h : Reach s) (n : Nat) (hw : n + 15 < 4294967296) :
    Reach (stepMalloc n s).2 :=
  Reach.malloc s n (stepMalloc n s).1 (stepMalloc n s).2 h hw (stepMalloc_eq s h n hw)

theorem demo1_reach : Reach demo1 :=
  Reach.init demo0 ⟨by decide, by decide⟩ (by decide)

theorem demo2_reach : Reach demo2 := stepMalloc_reach demo1 demo1_reach 100 (by decide)

theorem demoA_reach : Reach demoA :=
  Reach.free _ 1016 (stepMalloc_reach demo2 demo2_reach 100 (by decide))
    (Or.inr ⟨⟨1016, 112, true⟩, by decide, rfl, rfl⟩)

theorem demoW_reach : Reach demoW :=
  stepMalloc_reach _ (Reach.free _ 1016
    (stepMalloc_reach _ (stepMalloc_reach demo1 demo1_reach 2000 (by decide)) 2000 (by decide))
    (Or.inr ⟨⟨1016, 2008, true⟩, by decide, rfl, rfl⟩)) 100 (by decide)

theorem tiny1_reach : Reach tiny1 :=
  Reach.init tiny0 ⟨by decide, by decide⟩ (by decide)

theorem tiny2_reach : Reach tiny2 := stepMalloc_reach tiny1 tiny1_reach 100 (by decide)

theorem demoS_reach : Reach demoS :=
  Reach.store _ 1017 171
    (Reach.store demo2 1016 205 demo2_reach ⟨⟨1016, 112, true⟩, by decide, rfl, by decide⟩)
    ⟨⟨1016, 112, true⟩, by decide, rfl, by decide⟩

theorem malloc_of_fst (s : State) (n r : Nat)
    (h : (mm_malloc n s).map Prod.fst = some r) :
    mm_malloc n s = some (r, (stepMalloc n s).2) := by
  unfold stepMalloc
  cases hm : mm_malloc n s with
  | none => rw [hm] at h; simp at h
  | some x =>
    rw [hm] at h
    simp only [Option.map_some', Option.some.injEq] at h
    subst h
    rfl

theorem no_adjacent_free_witness :
    Reach demoA ∧ List.Chain' (fun a b : Blk => a.al = true ∨ b.al = true) (blocks demoA) :=
  ⟨demoA_reach, no_adjacent_free demoA demoA_reach⟩

theorem free_index_complete_witness :
    Reach demoA ∧ ∃ L, freeList demoA = some L ∧ L.Nodup ∧
      ∀ x, x ∈ L ↔ ∃ b ∈ blocks demoA, b.bp = x ∧ b.al = false :=
  ⟨demoA_reach, free_index_complete demoA demoA_reach⟩

theorem heap_well_formed_witness :
    Reach demoA ∧ arenaEnd demoA = some demoA.mem_brk ∧
    GET demoA.mem (HDRP demoA.mem_brk) = PACK 0 1 ∧
    ∀ b ∈ blocks demoA, 8 ∣ b.sz ∧ 16 ≤ b.sz ∧
      GET demoA.mem (FTRP demoA.mem b.bp) = GET demoA.mem (HDRP b.bp) :=
  ⟨demoA_reach, heap_well_formed demoA demoA_reach⟩

theorem malloc_aligned_witness :
    Reach demo1 ∧ ∃ r s', mm_malloc 100 demo1 = some (r, s') ∧ (r ≠ 0 → 8 ∣ r) :=
  ⟨demo1_reach, malloc_aligned demo1 demo1_reach 100⟩

theorem adjust_exact_iff_witness :
    0 < 100 ∧ 100 < TWO32 ∧
    (adjust 100 = adjustSpec 100 ↔ 100 + 15 < 4294967296) ∧
    (100 + 15 < 4294967296 →
      8 ∣ adjust 100 ∧ 16 ≤ adjust 100 ∧ 100 + 8 ≤ adjust 100 ∧
      (8 < 100 → ∀ m, 8 ∣ m → 100 + 8 ≤ m → adjust 100 ≤ m)) :=
  ⟨by decide, by decide, adjust_exact_iff 100 (by decide) (by decide)⟩

theorem reuse_before_growth_witness :
    Reach demoW ∧ demoW.rover = 5032 ∧ freeList demoW = some [1128, 5032] ∧
    ¬ adjust 500 ≤ GET_SIZE demoW.mem (HDRP 5032) ∧
    adjust 500 ≤ GET_SIZE demoW.mem (HDRP 1128) ∧
    ∃ r s', mm_malloc 500 demoW = some (r, s') ∧ r ≠ 0 ∧ s'.mem_brk = demoW.mem_brk ∧
      (∃ L, freeList demoW = some L ∧ r ∈ L) ∧
      ∃ b ∈ blocks demoW, ∃ b' ∈ blocks s', b.al = false ∧ b.bp = r ∧ b'.bp = r ∧
        b'.al = true ∧ b'.sz ≤ b.sz :=
  ⟨demoW_reach, by decide, by decide, by decide, by decide,
    reuse_before_growth demoW demoW_reach 500 (by decide) (by decide)
      ⟨[1128, 5032], by decide, 1128, by decide, by decide⟩⟩

theorem realloc_of_fst (s : State) (p n r : Nat)
    (h : (mm_realloc p n s).map Prod.fst = some r) :
    mm_realloc p n s = some (r, (stepRealloc p n s).2) := by
  unfold stepRealloc
  cases hm : mm_realloc p n s with
  | none => rw [hm] at h; simp at h
  | some x =>
    rw [hm] at h
    simp only [Option.map_some', Option.some.injEq] at h
    subst h
    rfl

/-- C7: the code breaks the claim on a request it can receive.  In the state reached by
init and `mm_malloc 100`, resizing the allocated block at 1016 (size 112, capacity 104)
to `2^32 - 1` bytes makes the unguarded sum `size + 15` of `mm_malloc` wrap, so the
adjusted size is 8; `mm_realloc` returns the non-null block 1128 whose size is 8, below
the minimum block size of 16 and with no room for the request, the 112 bytes that
`memcpy` copies overrun it, and the byte at offset 12 of the result differs from the
byte at offset 12 of the old payload. -/
theorem realloc_wrap_counterexample :
    Reach demo2 ∧ (⟨1016, 112, true⟩ : Blk) ∈ blocks demo2 ∧ adjust 4294967295 = 8 ∧
    ∃ s', mm_realloc 1016 4294967295 demo2 = some (1128, s') ∧ (1128 : Nat) ≠ 0 ∧
      GET_SIZE s'.mem (HDRP 1128) = 8 ∧
      ¬ 4294967295 ≤ GET_SIZE s'.mem (HDRP 1128) - 8 ∧
      8 < min (GET_SIZE demo2.mem (HDRP 1016)) 4294967295 ∧
      12 < min (112 - 8) 4294967295 ∧ s'.mem (1128 + 12) ≠ demo2.mem (1016 + 12) :=
  ⟨demo2_reach, by decide, by decide, _,
    realloc_of_fst demo2 1016 4294967295 1128 (by decide),
    by decide, by decide, by decide, by decide, by decide, by decide⟩

theorem realloc_preserves_witness :
    Reach demoS ∧ (⟨1016, 112, true⟩ : Blk) ∈ blocks demoS ∧
    demoS.mem 1016 = 205 ∧ demoS.mem 1017 = 171 ∧ demoS.mem 1128 = 0 ∧
    (∃ s', mm_realloc 1016 200 demoS = some (1128, s') ∧ s'.mem 1128 = 205 ∧
      s'.mem 1129 = 171) ∧
    ∃ r s', mm_realloc 1016 200 demoS = some (r, s') ∧
      (r ≠ 0 →
        (∀ i, i < min (112 - 8) 200 → s'.mem (r + i) = demoS.mem (1016 + i)) ∧
        ∃ rb ∈ blocks s', rb.bp = r ∧ rb.al = true ∧ 200 ≤ rb.sz - 8) :=
  ⟨demoS_reach, by decide, by decide, by decide, by decide,
    ⟨_, realloc_of_fst demoS 1016 200 1128 (by decide), by decide, by decide⟩,
    realloc_preserves demoS demoS_reach ⟨1016, 112, true⟩ (by decide) rfl 200 (by decide)
      (by decide)⟩

theorem tiny2_nofit :
    ∀ L, freeList tiny2 = some L → ∀ x ∈ L, ¬ adjust 5000 ≤ GET_SIZE tiny2.mem (HDRP x) := by
  intro L hL x hx
  have e : freeList tiny2 = some [1128] := by decide
  rw [e] at hL
  simp only [Option.some.injEq] at hL
  subst hL
  simp only [List.mem_singleton] at hx
  subst hx
  decide

theorem failure_atomic_witness :
    Reach tiny2 ∧ (mem_sbrk (MAX (adjust 5000) CHUNKSIZE) tiny2).1 = 4294967295 ∧
    blocks tiny2 = [⟨1016, 112, true⟩, ⟨1128, 3984, false⟩] ∧
    freeList tiny2 = some [1128] ∧ Allocated tiny2 1016 ∧
    (∃ s', mm_malloc 5000 tiny2 = some (0, s') ∧ s'.mem = tiny2.mem ∧
      s'.mem_brk = tiny2.mem_brk ∧ s'.free_listp = tiny2.free_listp ∧
      blocks s' = blocks tiny2 ∧ freeList s' = freeList tiny2) ∧
    (∃ s', mm_realloc 1016 5000 tiny2 = some (0, s') ∧ s'.mem = tiny2.mem ∧
      s'.mem_brk = tiny2.mem_brk ∧ s'.free_listp = tiny2.free_listp ∧
      blocks s' = blocks tiny2 ∧ freeList s' = freeList tiny2 ∧ Allocated s' 1016) :=
  ⟨tiny2_reach, by decide, by decide, by decide, ⟨⟨1016, 112, true⟩, by decide, rfl, rfl⟩,
    (failure_atomic tiny2 tiny2_reach 5000 (by decide) tiny2_nofit (by decide)).1,
    (failure_atomic tiny2 tiny2_reach 5000 (by decide) tiny2_nofit (by decide)).2 1016
      ⟨⟨1016, 112, true⟩, by decide, rfl, rfl⟩⟩

/-- C9, as stated, fails: in the state reached by init, `a = mm_malloc 100`,
`mm_malloc 100`, `mm_free a`, the call `p = mm_malloc 100` returns 1016 and leaves the
cursor on the next block of the free index, so after `mm_free p` the second
`mm_malloc 100` returns 1240, not `p`. -/
theorem round_trip_counterexample :
    Reach demoA ∧ (0 < 100 ∧ 100 + 15 < 4294967296) ∧
    ∃ s1 s3, mm_malloc 100 demoA = some (1016, s1) ∧
      mm_malloc 100 (mm_free 1016 s1) = some (1240, s3) ∧ (1240 : Nat) ≠ 1016 :=
  ⟨demoA_reach, by decide, _, _, malloc_of_fst demoA 100 1016 (by decide),
    malloc_of_fst _ 100 1240 (by decide), by decide⟩

theorem round_trip_witness :
    Reach demo1 ∧ (mm_free 1016 demo2).rover = 0 ∧
    ∃ s3, mm_malloc 100 (mm_free 1016 demo2) = some (1016, s3) := by
  refine ⟨demo1_reach, by decide, ?_⟩
  obtain ⟨q, s3, hm, _, _, _, hq⟩ :=
    round_trip demo1 demo1_reach 100 (by decide) (by decide) 1016 demo2
      (malloc_of_fst demo1 100 1016 (by decide)) (by decide)
  have e := hq (Or.inl (by decide))
  subst e
  exact ⟨s3, hm⟩

theorem scenario_split_witness :
    Boot demo0 ∧ (mm_init demo0).1 = 0 ∧
    ∃ sa sb sc, mm_malloc 100 (mm_init demo0).2 = some (demo0.mem_brk + 16, sa) ∧
      mm_malloc 200 sa = some (demo0.mem_brk + 16 + 112, sb) ∧
      mm_malloc 50 (mm_free (demo0.mem_brk + 16) sb) = some (demo0.mem_brk + 16, sc) ∧
      blocks sb = [⟨demo0.mem_brk + 16, 112, true⟩, ⟨demo0.mem_brk + 16 + 112, 208, true⟩,
        ⟨demo0.mem_brk + 16 + 112 + 208, 3776, false⟩] ∧
      blocks sc = [⟨demo0.mem_brk + 16, 64, true⟩, ⟨demo0.mem_brk + 16 + 64, 48, false⟩,
        ⟨demo0.mem_brk + 16 + 112, 208, true⟩,
        ⟨demo0.mem_brk + 16 + 112 + 208, 3776, false⟩] ∧
      freeList sc = some [demo0.mem_brk + 16 + 64, demo0.mem_brk + 16 + 112 + 208] ∧
      sa.mem_brk = (mm_init demo0).2.mem_brk ∧ sb.mem_brk = (mm_init demo0).2.mem_brk ∧
      (mm_free (demo0.mem_brk + 16) sb).mem_brk = (mm_init demo0).2.mem_brk ∧
      sc.mem_brk = (mm_init demo0).2.mem_brk :=
  ⟨⟨by decide, by decide⟩, by decide,
    scenario_split demo0 ⟨by decide, by decide⟩ (by decide)⟩

/-! ## Single operations -/

/-- C11, as stated, fails: on the state before any init (`heap_listp = 0`) the call
`mm_malloc 0` first runs `mm_init`, which calls the growth primitive twice: the break
moves from 1000 to 5112, `heap_listp` becomes 1008 and the free index holds the block at
1016. -/
theorem malloc_zero_counterexample :
    demo0.heap_listp = 0 ∧
    ∃ s', mm_malloc 0 demo0 = some (0, s') ∧ demo0.mem_brk = 1000 ∧ s'.mem_brk = 5112 ∧
      s'.heap_listp = 1008 ∧ freeList demo0 = some [] ∧ freeList s' = some [1016] :=
  ⟨rfl, (mm_init demo0).2, rfl, rfl, by decide, by decide, by decide, by decide⟩

/-- C11, amended: `mm_malloc 0` always returns null; on an initialised allocator
(`heap_listp ≠ 0`) it leaves the whole state unchanged and does not call the growth
primitive, and on the state before any init it returns the state left by `mm_init`. -/
theorem malloc_zero (s : State) :
    mm_malloc 0 s = some (0, if s.heap_listp = 0 then (mm_init s).2 else s) ∧
    (s.heap_listp ≠ 0 → mm_malloc 0 s = some (0, s)) := by
  have h : mm_malloc 0 s = some (0, if s.heap_listp = 0 then (mm_init s).2 else s) := by
    unfold mm_malloc
    simp only [if_true]
  refine ⟨h, fun hne => ?_⟩
  rw [h, if_neg hne]

/-- C12, as stated, fails: after the successful `mm_init` on the boot state `demo0` the
arena holds, between prologue and epilogue, one free block of 4096 bytes at 1016, and
the free index is `[1016]`, not empty. -/
theorem init_counterexample :
    Boot demo0 ∧ (mm_init demo0).1 = 0 ∧
    blocks (mm_init demo0).2 = [⟨1016, 4096, false⟩] ∧
    freeList (mm_init demo0).2 = some [1016] :=
  ⟨⟨by decide, by decide⟩, by decide, by decide, by decide⟩

/-- C12, amended: `mm_init` returns -1 if the growth primitive cannot reserve the
initial sentinel region, and on a boot state it returns 0 exactly when the sentinel
region and the first 4096-byte extension both fit, and -1 otherwise; after a successful
`mm_init` the arena holds the prologue, one free block of 4096 bytes and the epilogue,
that block is the only member of the free index, and the cursor is null. -/
theorem init_state (s : State) (hb : Boot s) :
    ((mem_sbrk (4 * WSIZE) s).1 = 4294967295 → (mm_init s).1 = -1) ∧
    ((mm_init s).1 = 0 ∨ (mm_init s).1 = -1) ∧
    ((mm_init s).1 = 0 ↔ s.mem_brk + 16 + 4096 ≤ s.mem_max_addr) ∧
    ((mm_init s).1 = 0 →
      blocks (mm_init s).2 = [⟨s.mem_brk + 16, 4096, false⟩] ∧
      freeList (mm_init s).2 = some [s.mem_brk + 16] ∧
      (mm_init s).2.rover = 0 ∧
      (mm_init s).2.heap_listp = s.mem_brk + 8 ∧
      GET (mm_init s).2.mem (HDRP (mm_init s).2.heap_listp) = PACK DSIZE 1 ∧
      GET (mm_init s).2.mem (mm_init s).2.heap_listp = PACK DSIZE 1 ∧
      arenaEnd (mm_init s).2 = some (mm_init s).2.mem_brk ∧
      GET (mm_init s).2.mem (HDRP (mm_init s).2.mem_brk) = PACK 0 1) := by
  have hgood : (mm_init s).1 = 0 →
      s.mem_brk + 16 + 4096 ≤ s.mem_max_addr ∧
      blocks (mm_init s).2 = [⟨s.mem_brk + 16, 4096, false⟩] ∧
      freeList (mm_init s).2 = some [s.mem_brk + 16] ∧
      (mm_init s).2.rover = 0 ∧
      (mm_init s).2.heap_listp = s.mem_brk + 8 ∧
      GET (mm_init s).2.mem (HDRP (mm_init s).2.heap_listp) = PACK DSIZE 1 ∧
      GET (mm_init s).2.mem (mm_init s).2.heap_listp = PACK DSIZE 1 ∧
      arenaEnd (mm_init s).2 = some (mm_init s).2.mem_brk ∧
      GET (mm_init s).2.mem (HDRP (mm_init s).2.mem_brk) = PACK 0 1 := by
    intro hok
    obtain ⟨i0, _, _, e4, e5, e6⟩ := mm_init_spec s hb hok
    exact ⟨e6, i0.blocks_eq.1, i0.freeList_eq, e5, e4, i0.heap.pro_h, i0.heap.pro_f,
      i0.blocks_eq.2, i0.heap.epi⟩
  have hcases : (mm_init s).1 = 0 ∨ (mm_init s).1 = -1 := by
    by_cases h1 : s.mem_brk + 16 > s.mem_max_addr
    · rw [mm_init_fail s h1]; exact Or.inr rfl
    · rw [mm_init_ok s hb (by omega)]
      by_cases h2 : (extend_heap 1024 (initState s)).1 = 0
      · rw [if_pos h2]; exact Or.inr rfl
      · rw [if_neg h2]; exact Or.inl rfl
  refine ⟨?_, hcases, ⟨fun h => (hgood h).1, ?_⟩, fun h => (hgood h).2⟩
  · intro hf
    have h1 : s.mem_brk + 16 > s.mem_max_addr := (mem_sbrk_fail_iff s _ hb.1).1 hf
    rw [mm_init_fail s h1]
  · intro hfit
    rw [mm_init_ok s hb (by omega)]
    have hi := initState_inv s hb (by omega)
    obtain ⟨pre1, b1, L1, e1, e2, _⟩ :=
      extend_heap_spec (initState s) [] [] 1024 hi (by decide) (by decide)
        (by show s.mem_brk + 16 + 1024 * 4 ≤ s.mem_max_addr; omega)
    have hbf := e2.heap.mem_facts b1 (by simp)
    have hr0 : (extend_heap 1024 (initState s)).1 ≠ 0 := by
      rw [e1]; exact hbf.2.2.2.2.2.2
    rw [if_neg hr0]

/-- C13: for a well-formed free index `L` whose nodes lie below the break and a cursor
that is null (position `k = 0`) or the node of `L` at position `k`, `find_fit asize`
returns the first node at a position `≥ k` that fits, if there is one; otherwise the
first node from the head that fits, which then lies strictly before position `k`;
otherwise null.  When it returns a node, the cursor afterwards is the successor of that
node in `L` (null after the last node). -/
theorem next_fit_order (asize : Nat) (s : State) (L : List Nat)
    (hf : FList s.mem s.free_listp L) (hin : ∀ x ∈ L, x < s.mem_brk) (k : Nat)
    (hk : (s.rover = 0 ∧ k = 0) ∨ (k < L.length ∧ s.rover = L.getD k 0)) :
    (∀ j, k ≤ j → j < L.length → asize ≤ GET_SIZE s.mem (HDRP (L.getD j 0)) →
        (∀ i, k ≤ i → i < j → ¬ asize ≤ GET_SIZE s.mem (HDRP (L.getD i 0))) →
        find_fit asize s = some (L.getD j 0, { s with rover := L.getD (j + 1) 0 })) ∧
    ((∀ i, k ≤ i → i < L.length → ¬ asize ≤ GET_SIZE s.mem (HDRP (L.getD i 0))) →
        ∀ j, j < L.length → asize ≤ GET_SIZE s.mem (HDRP (L.getD j 0)) →
        (∀ i, i < j → ¬ asize ≤ GET_SIZE s.mem (HDRP (L.getD i 0))) →
        j < k ∧
        find_fit asize s = some (L.getD j 0, { s with rover := L.getD (j + 1) 0 })) ∧
    ((∀ i, i < L.length → ¬ asize ≤ GET_SIZE s.mem (HDRP (L.getD i 0))) →
        find_fit asize s = some (0, { s with rover := 0 })) := by
  have hrov : s.rover = 0 ∨ s.rover ∈ L := by
    rcases hk with ⟨h0, _⟩ | ⟨h1, h2⟩
    · exact Or.inl h0
    · right; rw [h2]; exact getD_mem L k h1
  have hlen : L.length ≤ s.mem_brk := nodup_length_le L _ hf.2.1 hin
  obtain ⟨k0, hk0, hz, hnz, hcase⟩ := find_fit_spec asize s L hf hrov hlen
  have hkk : k0 = k := by
    rcases hk with ⟨h0, h1⟩ | ⟨h1, h2⟩
    · rw [h1]; exact hz h0
    · have hne : s.rover ≠ 0 := by
        rw [h2]; exact (hf.2.2.1 _ (getD_mem L k h1)).1
      obtain ⟨h3, h4⟩ := hnz hne
      exact getD_inj L hf.2.1 k0 k h3 h1 (by rw [← h4, h2])
  subst hkk
  unfold Fits at hcase
  refine ⟨?_, ?_, ?_⟩
  · intro j hj1 hj2 hfit hfirst
    rcases hcase with ⟨j', hj', hfit', hAB, hff⟩ | ⟨hno, _⟩
    · rcases hAB with ⟨a1, a2⟩ | ⟨b1, b2, _⟩
      · have e : j' = j := by
          rcases Nat.lt_trichotomy j' j with c | c | c
          · exact absurd hfit' (hfirst j' a1 c)
          · exact c
          · exact absurd hfit (a2 j hj1 c)
        subst e
        exact hff
      · exact absurd hfit (b2 j hj1 hj2)
    · exact absurd hfit (hno j hj2)
  · intro hnone j hj2 hfit hfirst
    rcases hcase with ⟨j', hj', hfit', hAB, hff⟩ | ⟨hno, _⟩
    · rcases hAB with ⟨a1, _⟩ | ⟨b1, _, b3⟩
      · exact absurd hfit' (hnone j' a1 hj')
      · have e : j' = j := by
          rcases Nat.lt_trichotomy j' j with c | c | c
          · exact absurd hfit' (hfirst j' c)
          · exact c
          · exact absurd hfit (b3 j c)
        subst e
        exact ⟨b1, hff⟩
    · exact absurd hfit (hno j hj2)
  · intro hnone
    rcases hcase with ⟨j', hj', hfit', _, _⟩ | ⟨_, hff⟩
    · exact absurd hfit' (hnone j' hj')
    · exact hff

/-- C17: in every reachable state the scan cursor is null or a node of the free index,
and then it is the payload address of a block that the physical walk shows as free. -/
theorem cursor_valid (s : State) (h : Reach s) :
    s.rover = 0 ∨
    ((∃ L, freeList s = some L ∧ s.rover ∈ L) ∧
      ∃ b ∈ blocks s, b.bp = s.rover ∧ b.al = false) := by
  obtain ⟨bs, L, hi⟩ := reach_inv s h
  rcases hi.rov with h0 | h1
  · exact Or.inl h0
  · right
    refine ⟨⟨L, hi.freeList_eq, h1⟩, ?_⟩
    rw [hi.blocks_eq.1]
    exact (hi.idx _).1 h1

theorem flist_of_reach (s : State) (h : Reach s) (L : List Nat) (hL : freeList s = some L) :
    FList s.mem s.free_listp L := by
  obtain ⟨bs, L', hi⟩ := reach_inv s h
  rw [hi.freeList_eq] at hL
  simp only [Option.some.injEq] at hL
  subst hL
  exact hi.fl

theorem malloc_zero_witness :
    demo1.heap_listp ≠ 0 ∧ mm_malloc 0 demo1 = some (0, demo1) :=
  ⟨by decide, (malloc_zero demo1).2 (by decide)⟩

theorem init_state_witness :
    Boot demo0 ∧ (mm_init demo0).1 = 0 ∧
    blocks (mm_init demo0).2 = [⟨demo0.mem_brk + 16, 4096, false⟩] ∧
    freeList (mm_init demo0).2 = some [demo0.mem_brk + 16] :=
  ⟨⟨by decide, by decide⟩, by decide,
    ((init_state demo0 ⟨by decide, by decide⟩).2.2.2 (by decide)).1,
    ((init_state demo0 ⟨by decide, by decide⟩).2.2.2 (by decide)).2.1⟩

theorem next_fit_order_witness :
    demoW.rover = 5032 ∧ freeList demoW = some [1128, 5032] ∧
    ¬ 512 ≤ GET_SIZE demoW.mem (HDRP 5032) ∧
    (0 < 1 ∧ find_fit 512 demoW = some (1128, { demoW with rover := 5032 })) :=
  ⟨by decide, by decide, by decide,
    (next_fit_order 512 demoW [1128, 5032]
      (flist_of_reach demoW demoW_reach _ (by decide)) (by decide) 1
      (Or.inr ⟨by decide, by decide⟩)).2.1 (by decide) 0 (by decide) (by decide)
      (by decide)⟩

theorem cursor_valid_witness :
    Reach demoW ∧
    (demoW.rover = 0 ∨
      ((∃ L, freeList demoW = some L ∧ demoW.rover ∈ L) ∧
        ∃ b ∈ blocks demoW, b.bp = demoW.rover ∧ b.al = false)) :=
  ⟨demoW_reach, cursor_valid demoW demoW_reach⟩

theorem freeWalk_head (m : Mem) (head : Nat) (L : List Nat) (hf : FList m head L)
    (fuel : Nat) (h : L.length < fuel) : freeWalk m fuel head = some L := by
  have := freeWalk_eq m head L hf fuel 0 (by omega) (by omega)
  rw [← hf.1] at this
  simpa using this

/-- C16: on a well-formed free index that reads as the duplicate-free sequence `L`,
`headinsert b` for a block `b` not in `L` whose link fields are null yields the index
reading `insert_front b L = b :: L`, and `removeblock b` for `b` in `L` yields the index
reading `remove b L`; both results are again well formed (successor and predecessor
links mutually inverse, predecessor of the head null), the walk from `free_listp`
reads the new sequence, and after `removeblock` both link fields of `b` are null. -/
theorem free_index_refines (s : State) (L : List Nat) (b : Nat)
    (hf : FList s.mem s.free_listp L) :
    (b ∉ L → b ≠ 0 ∧ 8 ∣ b ∧ b < 4294967296 →
      GET_SUCC s.mem b = 0 → GET_PREV s.mem b = 0 →
      FList (headinsert b s).mem (headinsert b s).free_listp (insert_front b L) ∧
      freeWalk (headinsert b s).mem ((insert_front b L).length + 1)
        (headinsert b s).free_listp = some (insert_front b L)) ∧
    (b ∈ L →
      FList (removeblock b s).mem (removeblock b s).free_listp (remove b L) ∧
      freeWalk (removeblock b s).mem ((remove b L).length + 1)
        (removeblock b s).free_listp = some (remove b L) ∧
      GET_SUCC (removeblock b s).mem b = 0 ∧ GET_PREV (removeblock b s).mem b = 0) := by
  constructor
  · intro hnot hb h0 h4
    have h := (headinsert_spec s L b hf hnot hb h0 h4).1
    exact ⟨h, freeWalk_head _ _ _ h _ (Nat.lt_succ_self _)⟩
  · intro hin
    obtain ⟨k, hk, e⟩ := exists_index L b hin
    subst e
    obtain ⟨h1, h2, h3, _⟩ := removeblock_spec s L k hf hk
    have e2 : L.eraseIdx k = remove (L.getD k 0) L := eraseIdx_eq_erase L hf.2.1 k hk
    rw [e2] at h1
    exact ⟨h1, freeWalk_head _ _ _ h1 _ (Nat.lt_succ_self _), h2, h3⟩

/-! ## `coalesce` and `place` as single steps -/

theorem roverFix_fst (r : Nat × State) : (roverFix r).1 = r.1 := by
  unfold roverFix
  split <;> rfl

theorem roverFix_state (r : Nat × State) : ∃ x, (roverFix r).2 = { r.2 with rover := x } := by
  unfold roverFix
  split
  · exact ⟨r.1, rfl⟩
  · exact ⟨r.2.rover, rfl⟩

theorem Mid.head_notin {s : State} {pre post : List Blk} {b : Blk} {L : List Nat}
    (h : Mid s pre b post L) : b.bp ∉ L := by
  intro hin
  obtain ⟨c, hc, e, _⟩ := (h.idx _).1 hin
  have hbf := h.heap.mem_facts b (by simp)
  obtain ⟨hc1, hc2⟩ := h.contigs
  rcases hc with hc | hc
  · have := Contig_mem _ _ _ hc1 c hc
    omega
  · have := Contig_mem _ _ _ hc2 c hc
    omega

theorem coalCore_shape (s : State) (pre post : List Blk) (b : Blk) (L : List Nat)
    (h : Mid s pre b post L) :
    ∃ pre' b' post' L', CoalOut s pre b post L (coalCore b.bp s) pre' b' post' L' ∧
      MergeShape pre b post L pre' b' post' L' := by
  have hb : b ∈ pre ++ b :: post := by simp
  have hbf := h.heap.mem_facts b hb
  obtain ⟨psz, pal, hp8, hp16, hple, hpf, hph, hpT, hpF⟩ := prevView s pre post b h.heap
  obtain ⟨nsz, nal, hn8, hnh, hnT, hnF⟩ := nextView s pre post b h.heap
  have hpa := rd_prev_alloc s.mem b.bp psz pal hp8 hple hpf hph
  have hna := rd_next_alloc s.mem b.bp b.sz nsz b.al nal hbf.2.2.2.1 hn8 (by omega)
    (h.heap.tags b hb).1 hnh
  cases pal <;> cases nal
  · obtain ⟨pre0, hpre⟩ := hpF rfl
    obtain ⟨_, post', hpost⟩ := hnF rfl
    obtain ⟨c1, _⟩ := coalCore_spec4 s pre post b L h psz nsz pre0 post' hpa hna hple hpre hpost
    exact ⟨_, _, _, _, c1, Or.inr (Or.inr (Or.inr
      ⟨⟨b.bp - psz, psz, false⟩, ⟨b.bp + b.sz, nsz, false⟩, rfl, rfl, hpre, hpost, rfl, rfl⟩))⟩
  · obtain ⟨pre0, hpre⟩ := hpF rfl
    have hna' : GET_ALLOC s.mem (HDRP (NEXT_BLKP s.mem b.bp)) ≠ 0 := by rw [hna]; simp
    obtain ⟨c1, _⟩ := coalCore_spec3 s pre post b L h psz pre0 hpa hna' (hnT rfl) hple hpre
    exact ⟨_, _, _, _, c1, Or.inr (Or.inr (Or.inl
      ⟨hnT rfl, ⟨b.bp - psz, psz, false⟩, rfl, hpre, rfl, rfl, rfl⟩))⟩
  · obtain ⟨_, post', hpost⟩ := hnF rfl
    have hpa' : GET_ALLOC s.mem (FTRP s.mem (PREV_BLKP s.mem b.bp)) ≠ 0 := by rw [hpa]; simp
    obtain ⟨c1, _⟩ := coalCore_spec2 s pre post b L h nsz post' hpa' hna (hpT rfl) hpost
    exact ⟨_, _, _, _, c1, Or.inr (Or.inl
      ⟨hpT rfl, ⟨b.bp + b.sz, nsz, false⟩, rfl, hpost, rfl, rfl, rfl⟩)⟩
  · have hpa' : GET_ALLOC s.mem (FTRP s.mem (PREV_BLKP s.mem b.bp)) ≠ 0 := by rw [hpa]; simp
    have hna' : GET_ALLOC s.mem (HDRP (NEXT_BLKP s.mem b.bp)) ≠ 0 := by rw [hna]; simp
    rw [coalCore_case1 _ _ hpa' hna']
    exact ⟨pre, b, post, L, ⟨rfl, h, hpT rfl, hnT rfl, rfl, rfl, rfl, fun _ hc => hc,
      fun _ _ hc => hc, fun _ hx => hx, fun _ hx => Or.inl hx, le_refl _, le_refl _,
      fun _ => ⟨rfl, rfl⟩, fun e => e, fun _ _ _ => rfl⟩,
      Or.inl ⟨hpT rfl, hnT rfl, rfl, rfl, rfl, rfl⟩⟩

/-- C14: for a free-marked block `b` with null link fields that is not in the free
index, in a well-formed heap `pre ++ b :: post` whose other free blocks are exactly the
index `L`, `coalesce b` returns the block `b'` that starts at the previous physical
block if that one is free and at `b` otherwise; its size is the size of `b` plus the
size of each free physical neighbour, its header and footer hold `PACK size 0`, each
merged neighbour is erased from the index, the blocks before and after the merged span
are the same blocks, no byte outside the merged span and outside the link fields of
indexed blocks changes, and `b'` is not in the index. -/
theorem coalesce_result (s : State) (pre post : List Blk) (b : Blk) (L : List Nat)
    (h : Mid s pre b post L) :
    ∃ pre' b' post' L',
      (coalesce b.bp s).1 = b'.bp ∧
      MergeShape pre b post L pre' b' post' L' ∧
      Mid (coalesce b.bp s).2 pre' b' post' L' ∧
      b'.al = false ∧
      GET (coalesce b.bp s).2.mem (HDRP b'.bp) = PACK b'.sz 0 ∧
      GET (coalesce b.bp s).2.mem (FTRP (coalesce b.bp s).2.mem b'.bp) = PACK b'.sz 0 ∧
      b'.bp ∉ L' ∧
      (∀ a, (∀ y ∈ L, a < y ∨ y + 8 ≤ a) → (a < b'.bp - 4 ∨ b'.bp + b'.sz - 4 ≤ a) →
        (coalesce b.bp s).2.mem a = s.mem a) := by
  obtain ⟨pre', b', post', L', c, hshape⟩ := coalCore_shape s pre post b L h
  obtain ⟨x, hx⟩ := roverFix_state (coalCore b.bp s)
  have hmid : Mid (coalesce b.bp s).2 pre' b' post' L' := by
    rw [coalesce_eq, hx]
    exact Mid_rover _ _ _ _ _ x c.mid
  have hmem : (coalesce b.bp s).2.mem = (coalCore b.bp s).2.mem := by
    rw [coalesce_eq, hx]
  have hbf := hmid.heap.mem_facts b' (by simp)
  have hal := hmid.bfree
  have ht : GET (coalesce b.bp s).2.mem (b'.bp - 4) = tagOf b'.sz false ∧
      GET (coalesce b.bp s).2.mem (b'.bp + b'.sz - 8) = tagOf b'.sz false := by
    have := hmid.heap.tags b' (by simp)
    unfold Tagged at this
    rw [hal] at this
    exact this
  refine ⟨pre', b', post', L', ?_, hshape, hmid, hal, ?_, ?_, hmid.head_notin, ?_⟩
  · rw [coalesce_eq, roverFix_fst]; exact c.ret
  · rw [PACK_zero _ hbf.2.2.2.1]; exact ht.1
  · rw [(rd_size _ b'.bp b'.sz false hbf.2.2.2.1 ht.1).2.2, PACK_zero _ hbf.2.2.2.1]
    exact ht.2
  · intro a ha1 ha2
    rw [hmem]
    exact c.frame a ha1 ha2

theorem removeblock_noRov (bp : Nat) (s : State) :
    removeblock bp (noRov s) = noRov (removeblock bp s) := by
  rw [removeblock_eq, removeblock_eq]
  rfl

theorem headinsert_noRov (bp : Nat) (s : State) :
    headinsert bp (noRov s) = noRov (headinsert bp s) := by
  unfold headinsert noRov
  by_cases h : s.free_listp = 0
  · simp only [h, if_true]
  · simp only [h, if_false]

theorem coalCore_noRov (bp : Nat) (s : State) :
    (coalCore bp (noRov s)).1 = (coalCore bp s).1 ∧
    (coalCore bp (noRov s)).2 = noRov (coalCore bp s).2 := by
  unfold coalCore
  simp only [removeblock_noRov]
  have e : (noRov s).mem = s.mem := rfl
  simp only [e]
  split_ifs <;> exact ⟨rfl, rfl⟩

theorem coalesce_noRov (bp : Nat) (s : State) :
    (coalesce bp (noRov s)).1 = (coalesce bp s).1 ∧
    noRov (coalesce bp (noRov s)).2 = noRov (coalesce bp s).2 := by
  obtain ⟨e1, e2⟩ := coalCore_noRov bp s
  obtain ⟨x, hx⟩ := roverFix_state (coalCore bp s)
  obtain ⟨y, hy⟩ := roverFix_state (coalCore bp (noRov s))
  rw [coalesce_eq, coalesce_eq, roverFix_fst, roverFix_fst, hx, hy, e2]
  exact ⟨e1, rfl⟩

theorem noRov_mem_update (s : State) (m : Mem) :
    ({ noRov s with mem := m } : State) = noRov { s with mem := m } := rfl

theorem headinsert_noRov_congr (bp : Nat) (s t : State) (h : noRov s = noRov t) :
    noRov (headinsert bp s) = noRov (headinsert bp t) := by
  rw [← headinsert_noRov, ← headinsert_noRov, h]

/-- The arena and the free index that `place` leaves do not depend on the cursor. -/
theorem place_noRov (bp asize : Nat) (s : State) :
    noRov (place bp asize (noRov s)) = noRov (place bp asize s) := by
  unfold place
  simp only [removeblock_noRov]
  have e : (noRov s).mem = s.mem := rfl
  have e2 : (noRov (removeblock bp s)).mem = (removeblock bp s).mem := rfl
  simp only [e, e2, noRov_mem_update]
  split_ifs
  · apply headinsert_noRov_congr
    exact (coalesce_noRov _ _).2
  · rfl

theorem noRov_inv (s : State) (bs : List Blk) (L : List Nat) (h : Inv s bs L) :
    Inv (noRov s) bs L := Inv_rover s bs L 0 h (Or.inl rfl)

/-- C15: in a well-formed heap (whatever the cursor) with a free indexed block at `bp`
of size `csize`, and an adjusted size `asize ≤ csize` (a multiple of 8, at least 16),
`place bp asize` unlinks the block from the free index and, if `csize - asize ≥ 16`,
leaves an allocated block of size exactly `asize` at `bp` followed by one free block
of `csize - asize` bytes that is in the free index; otherwise it leaves the whole block
allocated with size `csize`, which is then `asize` or `asize + 8`, and adds no free
block.  Every other block is as before. -/
theorem split_policy (s : State) (pre post : List Blk) (bp csize asize : Nat) (L : List Nat)
    (h : Inv (noRov s) (pre ++ ⟨bp, csize, false⟩ :: post) L)
    (ha16 : 16 ≤ asize) (ha8 : 8 ∣ asize) (hle : asize ≤ csize) :
    bp ∈ L ∧ bp ∉ L.erase bp ∧
    (16 ≤ csize - asize →
      Inv (noRov (place bp asize s))
        (pre ++ ⟨bp, asize, true⟩ :: ⟨bp + asize, csize - asize, false⟩ :: post)
        ((bp + asize) :: L.erase bp) ∧
      blocks (place bp asize s) =
        pre ++ ⟨bp, asize, true⟩ :: ⟨bp + asize, csize - asize, false⟩ :: post ∧
      freeList (place bp asize s) = some ((bp + asize) :: L.erase bp)) ∧
    (¬ 16 ≤ csize - asize →
      Inv (noRov (place bp asize s)) (pre ++ ⟨bp, csize, true⟩ :: post) (L.erase bp) ∧
      blocks (place bp asize s) = pre ++ ⟨bp, csize, true⟩ :: post ∧
      freeList (place bp asize s) = some (L.erase bp) ∧
      (csize = asize ∨ csize = asize + 8)) := by
  have hb : (⟨bp, csize, false⟩ : Blk) ∈ pre ++ ⟨bp, csize, false⟩ :: post := by simp
  have hbf := h.heap.mem_facts _ hb
  simp only at hbf
  have hbL : bp ∈ L := (h.idx bp).2 ⟨_, hb, rfl, rfl⟩
  have hr : (noRov s).rover ≠ bp := fun e => hbf.2.2.2.2.2.2 e.symm
  refine ⟨hbL, fun hin => (List.Nodup.mem_erase_iff h.fl.2.1).1 hin |>.1 rfl, ?_, ?_⟩
  · intro hbig
    have hi := (place_spec_split (noRov s) pre post bp csize asize L h hr ha16 ha8 hle hbig).1
    have hi2 := noRov_inv _ _ _ hi
    rw [place_noRov] at hi2
    exact ⟨hi2, hi2.blocks_eq.1, hi2.freeList_eq⟩
  · intro hsmall
    have hi := (place_spec_whole (noRov s) pre post bp csize asize L h hr hle hsmall).1
    have hi2 := noRov_inv _ _ _ hi
    rw [place_noRov] at hi2
    refine ⟨hi2, hi2.blocks_eq.1, hi2.freeList_eq, ?_⟩
    have := hbf.2.2.2.1
    omega

theorem PUTP_four (m : Mem) (a val : Nat) : PUTP 4 m a val = PUT m a val := by
  funext x
  unfold PUTP PUT
  by_cases h0 : x = a
  · subst h0; simp
  by_cases h1 : x = a + 1
  · subst h1; simp
  by_cases h2 : x = a + 2
  · subst h2
    have e : a + 2 - a = 2 := by omega
    simp [e]
  by_cases h3 : x = a + 3
  · subst h3
    have e : a + 3 - a = 3 := by omega
    simp [e]
  · have hn : ¬ (a ≤ x ∧ x < a + 4) := by omega
    simp [h0, h1, h2, h3, hn]

/-- C18, as stated, fails: the footer of a 16-byte block at `bp = 16` is the word at
`bp + 8 = 24`, not at `bp + 4`; and with 8-byte pointers the predecessor field is the
bytes `[bp + 8, bp + 16)`, which lie outside the payload and cover the footer and the
header of the next block, so that `PUT_PREV(bp, NULL)` erases both words. -/
theorem link_fields_counterexample :
    FTRP minBlockMem 16 = 16 + 8 ∧ ftrWord 16 16 = (24, 28) ∧
    prevField 8 16 = (24, 32) ∧
    ¬ Within (prevField 8 16) (payloadOf 16 16) ∧
    Overlaps (prevField 8 16) (ftrWord 16 16) ∧
    Overlaps (prevField 8 16) (hdrWord (NEXT_BLKP minBlockMem 16)) ∧
    GET minBlockMem (FTRP minBlockMem 16) = PACK 16 0 ∧
    GET (PUT_PREVp 8 minBlockMem 16 0) (FTRP minBlockMem 16) = 0 ∧
    GET minBlockMem (HDRP (NEXT_BLKP minBlockMem 16)) = PACK 32 1 ∧
    GET (PUT_PREVp 8 minBlockMem 16 0) (HDRP (NEXT_BLKP minBlockMem 16)) = 0 := by
  decide

/-- C18, amended: with 4-byte pointers, in a block of the minimum size 16 at `bp`
(4-byte header at `bp - 4`, payload `[bp, bp + 8)`, 4-byte footer at `bp + 8`), the
successor field is the payload bytes `[0, 4)` and the predecessor field the payload
bytes `[4, 8)`; both lie inside the payload, overlap neither header nor footer, end
below the next block, and `PUT_SUCC` and `PUT_PREV` change no byte outside
`[bp, bp + 8)`. -/
theorem link_fields_fit (bp : Nat) (h4 : 4 ≤ bp) :
    hdrWord bp = (bp - 4, bp) ∧ ftrWord bp 16 = (bp + 8, bp + 12) ∧
    payloadOf bp 16 = (bp, bp + 8) ∧
    succField 4 bp = (bp, bp + 4) ∧ prevField 4 bp = (bp + 4, bp + 8) ∧
    Within (succField 4 bp) (payloadOf bp 16) ∧ Within (prevField 4 bp) (payloadOf bp 16) ∧
    ¬ Overlaps (succField 4 bp) (hdrWord bp) ∧ ¬ Overlaps (prevField 4 bp) (hdrWord bp) ∧
    ¬ Overlaps (succField 4 bp) (ftrWord bp 16) ∧
    ¬ Overlaps (prevField 4 bp) (ftrWord bp 16) ∧
    (prevField 4 bp).2 ≤ HDRP (bp + 16) ∧
    (∀ m v w, PUT_PREVp 4 (PUT_SUCCp 4 m bp v) bp w = PUT_PREV (PUT_SUCC m bp v) bp w) ∧
    (∀ m v w a, (a < bp ∨ bp + 8 ≤ a) → PUT_PREV (PUT_SUCC m bp v) bp w a = m a) := by
  unfold hdrWord ftrWord payloadOf succField prevField Within Overlaps HDRP WSIZE DSIZE
  have e1 : bp - 4 + 4 = bp := by omega
  have e2 : bp + 16 - 8 = bp + 8 := by omega
  rw [e1, e2]
  refine ⟨rfl, rfl, rfl, rfl, rfl, ⟨by omega, by omega⟩, ⟨by omega, by omega⟩,
    by omega, by omega, by omega, by omega, by omega, ?_, ?_⟩
  · intro m v w
    unfold PUT_PREVp PUT_SUCCp PUT_PREV PUT_SUCC
    rw [PUTP_four, PUTP_four]
  · intro m v w a ha
    unfold PUT_PREV PUT_SUCC
    rw [PUT_other _ _ _ _ (by omega), PUT_other _ _ _ _ (by omega)]

theorem link_fields_fit_witness :
    4 ≤ 16 ∧ Within (succField 4 16) (payloadOf 16 16) ∧
    Within (prevField 4 16) (payloadOf 16 16) ∧
    ¬ Overlaps (prevField 4 16) (ftrWord 16 16) :=
  ⟨by decide, (link_fields_fit 16 (by decide)).2.2.2.2.2.1,
    (link_fields_fit 16 (by decide)).2.2.2.2.2.2.1,
    (link_fields_fit 16 (by decide)).2.2.2.2.2.2.2.2.2.2.1⟩

theorem inv_of_reach (s : State) (h : Reach s) (bs : List Blk) (L : List Nat)
    (hb : blocks s = bs) (hL : freeList s = some L) : Inv s bs L := by
  obtain ⟨bs', L', hi⟩ := reach_inv s h
  have e1 := hi.blocks_eq.1
  have e2 := hi.freeList_eq
  rw [hb] at e1
  rw [hL] at e2
  simp only [Option.some.injEq] at e2
  subst e1 e2
  exact hi

theorem demoM_mid : Mid demoM [] ⟨1016, 112, false⟩ [⟨1128, 3984, false⟩] [1128] :=
  free_mark demo2 [] [⟨1128, 3984, false⟩] 1016 112 [1128]
    (inv_of_reach demo2 demo2_reach _ _ (by decide) (by decide))

theorem coalesce_result_witness :
    ∃ pre' b' post' L',
      (coalesce 1016 demoM).1 = b'.bp ∧
      MergeShape [] ⟨1016, 112, false⟩ [⟨1128, 3984, false⟩] [1128] pre' b' post' L' ∧
      Mid (coalesce 1016 demoM).2 pre' b' post' L' := by
  obtain ⟨pre', b', post', L', h1, h2, h3, _⟩ :=
    coalesce_result demoM [] [⟨1128, 3984, false⟩] ⟨1016, 112, false⟩ [1128] demoM_mid
  exact ⟨pre', b', post', L', h1, h2, h3⟩

theorem split_policy_witness :
    (16 ≤ 112 ∧ 8 ∣ 112 ∧ 112 ≤ 4096 ∧ 16 ≤ 4096 - 112) ∧
    blocks (place 1016 112 demo1) = [⟨1016, 112, true⟩, ⟨1016 + 112, 4096 - 112, false⟩] ∧
    freeList (place 1016 112 demo1) = some ((1016 + 112) :: [1016].erase 1016) :=
  ⟨by decide,
    ((split_policy demo1 [] [] 1016 4096 112 [1016]
      (noRov_inv _ _ _ (inv_of_reach demo1 demo1_reach _ _ (by decide) (by decide)))
      (by decide) (by decide) (by decide)).2.2.1 (by decide)).2⟩

theorem free_index_refines_witness :
    freeList demoW = some [1128, 5032] ∧
    FList (headinsert 3024 demoW).mem (headinsert 3024 demoW).free_listp
      (insert_front 3024 [1128, 5032]) ∧
    FList (removeblock 1128 demoW).mem (removeblock 1128 demoW).free_listp
      (remove 1128 [1128, 5032]) :=
  ⟨by decide,
    ((free_index_refines demoW [1128, 5032] 3024
      (flist_of_reach demoW demoW_reach _ (by decide))).1 (by decide) (by decide) (by decide)
      (by decide)).1,
    ((free_index_refines demoW [1128, 5032] 1128
      (flist_of_reach demoW demoW_reach _ (by decide))).2 (by decide)).1⟩

end MM

namespace Perf

/-! ## Theorems about the smooth kernels -/

theorem rd_eq (buf : Img) (k : Int) (h0 : 0 ≤ k) (h1 : k < buf.length) :
    rd buf k = some (px buf k) := by
  unfold rd px
  rw [if_pos h0]
  have h2 : k.toNat < buf.length := by omega
  rw [List.getElem?_eq_getElem h2, List.getD_eq_getElem _ _ h2]

theorem rd_none (buf : Img) (k : Int) (h : k < 0 ∨ (buf.length : Int) ≤ k) :
    rd buf k = none := by
  unfold rd
  by_cases h0 : 0 ≤ k
  · rw [if_pos h0]
    have h2 : buf.length ≤ k.toNat := by omega
    exact List.getElem?_eq_none h2
  · rw [if_neg h0]

theorem wr_eq (buf : Img) (k : Int) (p : pixel) (h0 : 0 ≤ k) (h1 : k < buf.length) :
    wr buf k p = some (buf.set k.toNat p) := by
  unfold wr
  have h2 : k.toNat < buf.length := by omega
  rw [if_pos ⟨h0, h2⟩]

theorem rd_set_same (buf : Img) (k : Int) (p : pixel) (h0 : 0 ≤ k) (h1 : k < buf.length) :
    rd (buf.set k.toNat p) k = some p := by
  unfold rd
  rw [if_pos h0]
  have h2 : k.toNat < buf.length := by omega
  simp [h2]

theorem rd_set_other (buf : Img) (k j : Int) (p : pixel) (h0 : 0 ≤ k) (hne : j ≠ k) :
    rd (buf.set k.toNat p) j = rd buf j := by
  unfold rd
  by_cases hj : 0 ≤ j
  · rw [if_pos hj, if_pos hj]
    have : k.toNat ≠ j.toNat := by omega
    simp [List.getElem?_set, this]
  · rw [if_neg hj, if_neg hj]

theorem Upd.comp {S1 S2 : Int → Prop} {T : Int → pixel} {d d1 d2 : Img}
    (h1 : Upd S1 T d d1) (h2 : Upd S2 T d1 d2) : Upd (fun k => S1 k ∨ S2 k) T d d2 := by
  refine ⟨h2.1.trans h1.1, ?_, ?_⟩
  · intro k hk
    by_cases h : S2 k
    · exact h2.2.1 k h
    · rw [h2.2.2 k h]
      rcases hk with hk | hk
      · exact h1.2.1 k hk
      · exact absurd hk h
  · intro k hk
    have a1 : ¬ S1 k := fun h => hk (Or.inl h)
    have a2 : ¬ S2 k := fun h => hk (Or.inr h)
    rw [h2.2.2 k a2, h1.2.2 k a1]

theorem Upd.congr {S S' : Int → Prop} {T : Int → pixel} {d d' : Img}
    (h : Upd S T d d') (e : ∀ k, S k ↔ S' k) : Upd S' T d d' :=
  ⟨h.1, fun k hk => h.2.1 k ((e k).2 hk), fun k hk => h.2.2 k (fun c => hk ((e k).1 c))⟩

theorem Upd.none (T : Int → pixel) (d : Img) : Upd (fun _ => False) T d d :=
  ⟨rfl, fun _ h => h.elim, fun _ _ => rfl⟩

theorem Upd_set (T : Int → pixel) (d : Img) (k : Int) (h0 : 0 ≤ k) (h1 : k < d.length) :
    Upd (fun x => x = k) T d (d.set k.toNat (T k)) := by
  refine ⟨by simp, ?_, ?_⟩
  · intro x hx
    rw [hx]
    exact rd_set_same d k _ h0 h1
  · intro x hx
    exact rd_set_other d k x _ h0 hx

/-- A counting loop whose condition holds for exactly the first `n` values of the
counter runs its body on those values in order. -/
theorem forLoop_run {σ : Type} (cond : Int → Bool) (next : Int → Int)
    (body : Int → σ → Option σ) (step : Int) (hnext : ∀ i, next i = i + step) :
    ∀ (n fuel : Nat) (lo : Int) (st : σ), n < fuel →
      (∀ t : Nat, t < n → cond (lo + t * step) = true) → cond (lo + n * step) = false →
      forLoop cond next body fuel lo st =
        ((List.range n).map (fun t : Nat => lo + t * step)).foldlM (fun st k => body k st) st := by
  intro n
  induction n with
  | zero =>
    intro fuel lo st hf _ hc
    obtain ⟨f, rfl⟩ : ∃ f, fuel = f + 1 := ⟨fuel - 1, by omega⟩
    have hc0 : cond lo = false := by simpa using hc
    simp [forLoop, hc0]
  | succ n ih =>
    intro fuel lo st hf ht hc
    obtain ⟨f, rfl⟩ : ∃ f, fuel = f + 1 := ⟨fuel - 1, by omega⟩
    have hc0 : cond lo = true := by simpa using ht 0 (by omega)
    have e : ∀ t : Nat, lo + step + (t : Int) * step = lo + ((t + 1 : Nat) : Int) * step := by
      intro t; push_cast; ring
    rw [List.range_succ_eq_map]
    simp only [forLoop, hc0, if_true, hnext, List.map_cons, List.map_map, List.foldlM_cons,
      Nat.cast_zero, zero_mul, add_zero]
    cases hb : body lo st with
    | none => rfl
    | some st1 =>
      simp only [Option.bind_eq_bind, Option.some_bind, Option.bind_some]
      rw [ih f (lo + step) st1 (by omega) (fun t htn => by rw [e]; exact ht (t + 1) (by omega)) (by rw [e]; exact hc)]
      congr 1
      apply List.map_congr_left
      intro t _
      simp only [Function.comp, e]

theorem foldlM_Upd (body : Int → Img → Option Img) (S : Int → Int → Prop) (T : Int → pixel)
    (N : Nat) :
    ∀ (ks : List Int) (d0 : Img), d0.length = N →
      (∀ k ∈ ks, ∀ d : Img, d.length = N → ∃ d', body k d = some d' ∧ Upd (S k) T d d') →
      ∃ d', ks.foldlM (fun st k => body k st) d0 = some d' ∧
        Upd (fun x => ∃ k ∈ ks, S k x) T d0 d' := by
  intro ks
  induction ks with
  | nil =>
    intro d0 _ _
    exact ⟨d0, rfl, (Upd.none T d0).congr (fun k => by simp)⟩
  | cons k ks ih =>
    intro d0 h0 hb
    obtain ⟨d1, e1, u1⟩ := hb k (by simp) d0 h0
    obtain ⟨d2, e2, u2⟩ := ih d1 (u1.1.trans h0) (fun k' hk' => hb k' (by simp [hk']))
    refine ⟨d2, ?_, (u1.comp u2).congr (fun x => by simp)⟩
    simp only [List.foldlM_cons, e1]
    exact e2

/-- A counting loop of `n` iterations whose body, at counter value `k`, sets the pixels
of the set `S k` to their target values, sets the union of these sets. -/
theorem loop_Upd (cond : Int → Bool) (next : Int → Int) (body : Int → Img → Option Img)
    (step : Int) (hnext : ∀ i, next i = i + step) (n fuel : Nat) (lo : Int) (hf : n < fuel)
    (ht : ∀ t : Nat, t < n → cond (lo + t * step) = true)
    (hc : cond (lo + n * step) = false)
    (S : Int → Int → Prop) (T : Int → pixel) (N : Nat)
    (hb : ∀ t : Nat, t < n → ∀ d : Img, d.length = N →
      ∃ d', body (lo + t * step) d = some d' ∧ Upd (S (lo + t * step)) T d d')
    (d0 : Img) (h0 : d0.length = N) :
    ∃ d', forLoop cond next body fuel lo d0 = some d' ∧
      Upd (fun x => ∃ t : Nat, t < n ∧ S (lo + t * step) x) T d0 d' := by
  rw [forLoop_run cond next body step hnext n fuel lo d0 hf ht hc]
  obtain ⟨d', e, u⟩ := foldlM_Upd body S T N
    ((List.range n).map (fun t : Nat => lo + t * step)) d0 h0 (by
      intro k hk d hd
      obtain ⟨t, ht1, rfl⟩ := List.mem_map.1 hk
      exact hb t (List.mem_range.1 ht1) d hd)
  refine ⟨d', e, u.congr (fun x => ?_)⟩
  constructor
  · rintro ⟨k, hk, hs⟩
    obtain ⟨t, ht1, rfl⟩ := List.mem_map.1 hk
    exact ⟨t, List.mem_range.1 ht1, hs⟩
  · rintro ⟨t, ht1, hs⟩
    exact ⟨_, List.mem_map.2 ⟨t, List.mem_range.2 ht1, rfl⟩, hs⟩

theorem sumAt_from (src : Img) (c : pixel → Nat) :
    ∀ (ks : List Int) (acc : Nat), (∀ k ∈ ks, 0 ≤ k ∧ k < src.length) →
      ks.foldlM (fun acc k => (rd src k).map (fun q => acc + c q)) acc =
        some (acc + (ks.map (fun k => c (px src k))).sum) := by
  intro ks
  induction ks with
  | nil => intro acc _; rfl
  | cons k ks ih =>
    intro acc h
    obtain ⟨h0, h1⟩ := h k (by simp)
    simp only [List.foldlM_cons, rd_eq src k h0 h1, Option.map_some', List.map_cons,
      List.sum_cons]
    rw [← Nat.add_assoc]
    exact ih _ (fun k' hk' => h k' (by simp [hk']))

theorem sumAt_eq (src : Img) (c : pixel → Nat) (ks : List Int)
    (h : ∀ k ∈ ks, 0 ≤ k ∧ k < src.length) :
    sumAt src c ks = some ((ks.map (fun k => c (px src k))).sum) := by
  unfold sumAt
  rw [sumAt_from src c ks 0 h, Nat.zero_add]

theorem px_set_same (d : Img) (k : Int) (p : pixel) (h0 : 0 ≤ k) (h1 : k < d.length) :
    px (d.set k.toNat p) k = p := by
  have h2 : k.toNat < d.length := by omega
  unfold px
  simp [h2]

theorem wrRed_eq (d : Img) (k : Int) (v : Nat) (h0 : 0 ≤ k) (h1 : k < d.length) :
    wrRed d k v = some (d.set k.toNat ⟨toU16 v, (px d k).green, (px d k).blue⟩) := by
  unfold wrRed
  rw [rd_eq d k h0 h1, Option.some_bind, wr_eq d k _ h0 h1]

theorem wrGreen_eq (d : Img) (k : Int) (v : Nat) (h0 : 0 ≤ k) (h1 : k < d.length) :
    wrGreen d k v = some (d.set k.toNat ⟨(px d k).red, toU16 v, (px d k).blue⟩) := by
  unfold wrGreen
  rw [rd_eq d k h0 h1, Option.some_bind, wr_eq d k _ h0 h1]

theorem wrBlue_eq (d : Img) (k : Int) (v : Nat) (h0 : 0 ≤ k) (h1 : k < d.length) :
    wrBlue d k v = some (d.set k.toNat ⟨(px d k).red, (px d k).green, toU16 v⟩) := by
  unfold wrBlue
  rw [rd_eq d k h0 h1, Option.some_bind, wr_eq d k _ h0 h1]

theorem assign3_eq (src d : Img) (curr : Int) (ks : List Int) (op : Nat → Nat)
    (hks : ∀ k ∈ ks, 0 ≤ k ∧ k < src.length) (h0 : 0 ≤ curr) (h1 : curr < d.length) :
    assign3 src d curr ks op = some (d.set curr.toNat (pix3 src ks op)) := by
  unfold assign3
  have hl : ∀ p : pixel, curr < ((d.set curr.toNat p).length : Int) := by
    intro p; simpa using h1
  have hl2 : ∀ p q : pixel, curr < (((d.set curr.toNat p).set curr.toNat q).length : Int) := by
    intro p q; simpa using h1
  rw [sumAt_eq src _ ks hks, sumAt_eq src _ ks hks, sumAt_eq src _ ks hks]
  simp only [Option.some_bind]
  rw [wrRed_eq d curr _ h0 h1]
  simp only [Option.some_bind]
  rw [wrGreen_eq _ curr _ h0 (hl _), px_set_same d curr _ h0 h1]
  simp only [Option.some_bind]
  rw [wrBlue_eq _ curr _ h0 (hl2 _ _), List.set_set, px_set_same _ curr _ h0 (hl _),
    List.set_set]
  rfl

theorem assign3_Upd (src d : Img) (curr : Int) (ks : List Int) (op : Nat → Nat)
    (T : Int → pixel) (hks : ∀ k ∈ ks, 0 ≤ k ∧ k < src.length) (h0 : 0 ≤ curr)
    (h1 : curr < d.length) (hT : T curr = pix3 src ks op) :
    ∃ d', assign3 src d curr ks op = some d' ∧ Upd (fun x => x = curr) T d d' := by
  refine ⟨_, assign3_eq src d curr ks op hks h0 h1, ?_⟩
  rw [← hT]
  exact Upd_set T d curr h0 h1

theorem ridx_bound (dim ii jj : Int) (h0 : 0 ≤ ii) (h1 : ii < dim) (h2 : 0 ≤ jj)
    (h3 : jj < dim) : 0 ≤ ii * dim + jj ∧ ii * dim + jj < dim * dim := by
  constructor
  · nlinarith
  · nlinarith

theorem fuel_ok (dim : Int) (h2 : 2 ≤ dim) (n : Nat) (hn : (n : Int) ≤ dim) :
    n < fuelOf dim := by
  unfold fuelOf
  have : dim ≤ dim * dim := by nlinarith
  omega

theorem rowsOf_mem (dim i : Int) (h2 : 2 ≤ dim) (hi0 : 0 ≤ i) (hi1 : i < dim) :
    ∀ ii ∈ rowsOf dim i, 0 ≤ ii ∧ ii < dim := by
  intro ii hii
  unfold rowsOf at hii
  split_ifs at hii <;> simp at hii <;> omega

theorem loop_rows {σ : Type} (dim i : Int) (h2 : 2 ≤ dim) (hi0 : 0 ≤ i) (hi1 : i < dim)
    (body : Int → σ → Option σ) (st : σ) :
    forLoop (fun ii => decide (ii ≤ min (i + 1) (dim - 1))) (fun ii => ii + 1) body
      (fuelOf dim) (max (i - 1) 0) st =
    (rowsOf dim i).foldlM (fun st k => body k st) st := by
  have hf2 : 2 < fuelOf dim := by
    unfold fuelOf
    have : 4 ≤ dim * dim := by nlinarith
    omega
  have hf3 : 3 < fuelOf dim := by
    unfold fuelOf
    have : 4 ≤ dim * dim := by nlinarith
    omega
  by_cases hi : i = 0
  · subst hi
    have e1 : min (0 + 1) (dim - 1) = 1 := by unfold min; split_ifs <;> omega
    have e2 : max (0 - 1) 0 = 0 := by unfold max; split_ifs <;> omega
    rw [e1, e2, forLoop_run _ _ body 1 (fun _ => rfl) 2 _ 0 st hf2
      (fun t ht => decide_eq_true (by omega)) (decide_eq_false (by norm_num))]
    have er : rowsOf dim 0 = [0, 1] := by unfold rowsOf; rw [if_pos rfl]
    rw [er]
    simp [List.range_succ]
  · by_cases hl : i = dim - 1
    · have e1 : min (i + 1) (dim - 1) = i := by unfold min; split_ifs <;> omega
      have e2 : max (i - 1) 0 = i - 1 := by unfold max; split_ifs <;> omega
      rw [e1, e2, forLoop_run _ _ body 1 (fun _ => rfl) 2 _ (i - 1) st hf2
        (fun t ht => decide_eq_true (by omega))
        (decide_eq_false (by push_cast; omega))]
      have er : rowsOf dim i = [i - 1, i] := by unfold rowsOf; rw [if_neg hi, if_pos hl]
      rw [er]
      simp [List.range_succ]
    · have e1 : min (i + 1) (dim - 1) = i + 1 := by unfold min; split_ifs <;> omega
      have e2 : max (i - 1) 0 = i - 1 := by unfold max; split_ifs <;> omega
      rw [e1, e2, forLoop_run _ _ body 1 (fun _ => rfl) 3 _ (i - 1) st hf3
        (fun t ht => decide_eq_true (by omega))
        (decide_eq_false (by push_cast; omega))]
      have er : rowsOf dim i = [i - 1, i, i + 1] := by
        unfold rowsOf; rw [if_neg hi, if_neg hl]
      have e3 : i - 1 + 2 = i + 1 := by ring
      rw [er]
      simp [List.range_succ, e3]

theorem foldlM_eq_foldl {σ : Type} (body : σ → Int → Option σ) (g : σ → Int → σ) :
    ∀ (ks : List Int), (∀ k ∈ ks, ∀ st, body st k = some (g st k)) →
      ∀ st, ks.foldlM body st = some (ks.foldl g st) := by
  intro ks
  induction ks with
  | nil => intro _ st; rfl
  | cons k ks ih =>
    intro h st
    simp only [List.foldlM_cons, List.foldl_cons, h k (by simp) st, Option.bind_eq_bind,
      Option.some_bind]
    exact ih (fun k' hk' => h k' (by simp [hk'])) _

theorem avg_eq (src : Img) (dim i j : Int) (h2 : 2 ≤ dim) (hi0 : 0 ≤ i) (hi1 : i < dim)
    (hj0 : 0 ≤ j) (hj1 : j < dim) (hs : (src.length : Int) = dim * dim) :
    avg dim i j src = some (avgval src dim i j) := by
  unfold avg avgval accAll
  rw [loop_rows dim i h2 hi0 hi1]
  simp only [loop_rows dim j h2 hj0 hj1]
  have hin : ∀ ii ∈ rowsOf dim i, ∀ st : pixel_sum,
      (rowsOf dim j).foldlM
        (fun st k => (rd src (RIDX ii k dim)).map (accumulate_sum st)) st =
      some ((rowsOf dim j).foldl
        (fun sum jj => accumulate_sum sum (px src (RIDX ii jj dim))) st) := by
    intro ii hii st
    apply foldlM_eq_foldl
    intro jj hjj st'
    obtain ⟨a0, a1⟩ := rowsOf_mem dim i h2 hi0 hi1 ii hii
    obtain ⟨b0, b1⟩ := rowsOf_mem dim j h2 hj0 hj1 jj hjj
    obtain ⟨c0, c1⟩ := ridx_bound dim ii jj a0 a1 b0 b1
    rw [rd_eq src _ (by unfold RIDX; exact c0) (by unfold RIDX; rw [hs]; exact c1)]
    rfl
  rw [foldlM_eq_foldl _ _ (rowsOf dim i) hin]
  rfl

theorem rowsOf_first (dim : Int) : rowsOf dim 0 = [0, 1] := by
  unfold rowsOf; rw [if_pos rfl]

theorem rowsOf_last (dim i : Int) (h2 : 2 ≤ dim) (hl : i = dim - 1) :
    rowsOf dim i = [i - 1, i] := by
  unfold rowsOf; rw [if_neg (by omega), if_pos hl]

theorem rowsOf_mid (dim i : Int) (h0 : 1 ≤ i) (h1 : i < dim - 1) :
    rowsOf dim i = [i - 1, i, i + 1] := by
  unfold rowsOf; rw [if_neg (by omega), if_neg (by omega)]

theorem val_interior (src : Img) (dim i j curr : Int) (hc : curr = i * dim + j)
    (hi0 : 1 ≤ i) (hi1 : i < dim - 1) (hj0 : 1 ≤ j) (hj1 : j < dim - 1) :
    pix3 src [curr, curr - 1, curr + 1, curr - dim, curr - dim - 1, curr - dim + 1,
      curr + dim, curr + dim - 1, curr + dim + 1] (fun x => x / 9) = avgval src dim i j := by
  subst hc
  unfold avgval accAll pix3 assign_sum_to_pixel
  rw [rowsOf_mid dim i hi0 hi1, rowsOf_mid dim j hj0 hj1]
  simp only [List.foldl_cons, List.foldl_nil, accumulate_sum, initialize_pixel_sum,
    List.map_cons, List.map_nil, List.sum_cons, List.sum_nil, RIDX]
  ring_nf

theorem val_top (src : Img) (dim j curr : Int) (hc : curr = j)
    (hj0 : 1 ≤ j) (hj1 : j < dim - 1) :
    pix3 src [curr, curr - 1, curr + 1, curr + dim, curr + dim - 1, curr + dim + 1]
      (fun x => x / 6) = avgval src dim 0 j := by
  subst hc
  unfold avgval accAll pix3 assign_sum_to_pixel
  rw [rowsOf_first, rowsOf_mid dim curr hj0 hj1]
  simp only [List.foldl_cons, List.foldl_nil, accumulate_sum, initialize_pixel_sum,
    List.map_cons, List.map_nil, List.sum_cons, List.sum_nil, RIDX]
  ring_nf

theorem val_bottom (src : Img) (dim i j curr : Int) (h2 : 2 ≤ dim) (hc : curr = i * dim + j)
    (hi : i = dim - 1) (hj0 : 1 ≤ j) (hj1 : j < dim - 1) :
    pix3 src [curr, curr - 1, curr + 1, curr - dim, curr - dim - 1, curr - dim + 1]
      (fun x => x / 6) = avgval src dim i j := by
  subst hc
  unfold avgval accAll pix3 assign_sum_to_pixel
  rw [rowsOf_last dim i h2 hi, rowsOf_mid dim j hj0 hj1]
  simp only [List.foldl_cons, List.foldl_nil, accumulate_sum, initialize_pixel_sum,
    List.map_cons, List.map_nil, List.sum_cons, List.sum_nil, RIDX]
  ring_nf

theorem val_left (src : Img) (dim i curr : Int) (hc : curr = i * dim)
    (hi0 : 1 ≤ i) (hi1 : i < dim - 1) :
    pix3 src [curr, curr + 1, curr - dim, curr - dim + 1, curr + dim, curr + dim + 1]
      (fun x => x / 6) = avgval src dim i 0 := by
  subst hc
  unfold avgval accAll pix3 assign_sum_to_pixel
  rw [rowsOf_first, rowsOf_mid dim i hi0 hi1]
  simp only [List.foldl_cons, List.foldl_nil, accumulate_sum, initialize_pixel_sum,
    List.map_cons, List.map_nil, List.sum_cons, List.sum_nil, RIDX]
  ring_nf

theorem val_right (src : Img) (dim i j curr : Int) (h2 : 2 ≤ dim) (hc : curr = i * dim + j)
    (hj : j = dim - 1) (hi0 : 1 ≤ i) (hi1 : i < dim - 1) :
    pix3 src [curr, curr - 1, curr - dim, curr - dim - 1, curr + dim, curr + dim - 1]
      (fun x => x / 6) = avgval src dim i j := by
  subst hc
  unfold avgval accAll pix3 assign_sum_to_pixel
  rw [rowsOf_last dim j h2 hj, rowsOf_mid dim i hi0 hi1]
  simp only [List.foldl_cons, List.foldl_nil, accumulate_sum, initialize_pixel_sum,
    List.map_cons, List.map_nil, List.sum_cons, List.sum_nil, RIDX]
  ring_nf

theorem val_c00 (src : Img) (dim : Int) :
    pix3 src [0, 1, dim, dim + 1] (fun x => x >>> 2) = avgval src dim 0 0 := by
  unfold avgval accAll pix3 assign_sum_to_pixel
  rw [rowsOf_first]
  simp only [List.foldl_cons, List.foldl_nil, accumulate_sum, initialize_pixel_sum,
    List.map_cons, List.map_nil, List.sum_cons, List.sum_nil, RIDX,
    Nat.shiftRight_eq_div_pow]
  ring_nf

theorem val_c01 (src : Img) (dim j curr : Int) (h2 : 2 ≤ dim) (hc : curr = j)
    (hj : j = dim - 1) :
    pix3 src [curr, curr - 1, curr + dim - 1, curr + dim] (fun x => x >>> 2) =
      avgval src dim 0 j := by
  subst hc
  unfold avgval accAll pix3 assign_sum_to_pixel
  rw [rowsOf_first, rowsOf_last dim curr h2 hj]
  simp only [List.foldl_cons, List.foldl_nil, accumulate_sum, initialize_pixel_sum,
    List.map_cons, List.map_nil, List.sum_cons, List.sum_nil, RIDX,
    Nat.shiftRight_eq_div_pow]
  ring_nf

theorem val_c10 (src : Img) (dim i curr : Int) (h2 : 2 ≤ dim) (hc : curr = i * dim)
    (hi : i = dim - 1) :
    pix3 src [curr, curr + 1, curr - dim, curr - dim + 1] (fun x => x >>> 2) =
      avgval src dim i 0 := by
  subst hc
  unfold avgval accAll pix3 assign_sum_to_pixel
  rw [rowsOf_first, rowsOf_last dim i h2 hi]
  simp only [List.foldl_cons, List.foldl_nil, accumulate_sum, initialize_pixel_sum,
    List.map_cons, List.map_nil, List.sum_cons, List.sum_nil, RIDX,
    Nat.shiftRight_eq_div_pow]
  ring_nf

theorem val_c11 (src : Img) (dim i j curr : Int) (h2 : 2 ≤ dim) (hc : curr = i * dim + j)
    (hi : i = dim - 1) (hj : j = dim - 1) :
    pix3 src [curr, curr - 1, curr - dim, curr - dim - 1] (fun x => x >>> 2) =
      avgval src dim i j := by
  subst hc
  unfold avgval accAll pix3 assign_sum_to_pixel
  rw [rowsOf_last dim i h2 hi, rowsOf_last dim j h2 hj]
  simp only [List.foldl_cons, List.foldl_nil, accumulate_sum, initialize_pixel_sum,
    List.map_cons, List.map_nil, List.sum_cons, List.sum_nil, RIDX,
    Nat.shiftRight_eq_div_pow]
  ring_nf

theorem target_idx (src : Img) (dim i j : Int) (hj0 : 0 ≤ j) (hj1 : j < dim) :
    target src dim (i * dim + j) = avgval src dim i j := by
  unfold target
  have hd : dim ≠ 0 := by omega
  have e1 : (i * dim + j) / dim = i := by
    rw [Int.add_comm, Int.add_mul_ediv_right _ _ hd, Int.ediv_eq_zero_of_lt hj0 hj1]
    simp
  have e2 : (i * dim + j) % dim = j := by
    rw [Int.add_comm, Int.add_mul_emod_self, Int.emod_eq_of_lt hj0 hj1]
  rw [e1, e2]

/-- One pixel assignment of `smooth` at position `(i, j)`: the indices it reads are the
neighbours at the offsets `abs`, all in bounds, and the stored pixel is the target. -/
theorem step_Upd (src : Img) (dim : Int) (hs : (src.length : Int) = dim * dim) (N : Nat)
    (hN : (N : Int) = dim * dim) (i j curr : Int) (hc : curr = i * dim + j)
    (hi0 : 0 ≤ i) (hi1 : i < dim) (hj0 : 0 ≤ j) (hj1 : j < dim)
    (abs : List (Int × Int)) (op : Nat → Nat) (ks : List Int)
    (hks : ks = abs.map (fun ab => curr + ab.1 * dim + ab.2))
    (hab : ∀ ab ∈ abs, 0 ≤ i + ab.1 ∧ i + ab.1 < dim ∧ 0 ≤ j + ab.2 ∧ j + ab.2 < dim)
    (hv : pix3 src ks op = avgval src dim i j) (d : Img) (hd : d.length = N) :
    ∃ d', assign3 src d curr ks op = some d' ∧
      Upd (fun x => x = curr) (target src dim) d d' := by
  obtain ⟨c0, c1⟩ := ridx_bound dim i j hi0 hi1 hj0 hj1
  apply assign3_Upd
  · intro k hk
    rw [hks] at hk
    obtain ⟨ab, hab1, rfl⟩ := List.mem_map.1 hk
    obtain ⟨a0, a1, b0, b1⟩ := hab ab hab1
    have := ridx_bound dim (i + ab.1) (j + ab.2) a0 a1 b0 b1
    have e : curr + ab.1 * dim + ab.2 = (i + ab.1) * dim + (j + ab.2) := by rw [hc]; ring
    rw [e, hs]
    exact this
  · rw [hc]; exact c0
  · rw [hd, hN, hc]; exact c1
  · rw [hc, target_idx src dim i j hj0 hj1]
    exact hv.symm

theorem stage_interior (src : Img) (dim : Int) (h2 : 2 ≤ dim)
    (hs : (src.length : Int) = dim * dim) (N : Nat) (hN : (N : Int) = dim * dim)
    (d : Img) (hd : d.length = N) :
    ∃ d', forLoop (fun i => decide (i < dim - 1)) (fun i => i + 1)
        (fun i dst =>
          forLoop (fun j => decide (j < dim - 1)) (fun j => j + 1)
            (fun j dst =>
              let curr := i * dim + j
              assign3 src dst curr
                [curr, curr - 1, curr + 1, curr - dim, curr - dim - 1, curr - dim + 1,
                  curr + dim, curr + dim - 1, curr + dim + 1] (fun x => x / 9))
            (fuelOf dim) 1 dst)
        (fuelOf dim) 1 d = some d' ∧
      Upd (fun x => ∃ i j : Int, 1 ≤ i ∧ i < dim - 1 ∧ 1 ≤ j ∧ j < dim - 1 ∧ x = i * dim + j)
        (target src dim) d d' := by
  obtain ⟨d', e, u⟩ := loop_Upd (fun i => decide (i < dim - 1)) (fun i => i + 1)
    (fun i dst =>
      forLoop (fun j => decide (j < dim - 1)) (fun j => j + 1)
        (fun j dst =>
          let curr := i * dim + j
          assign3 src dst curr
            [curr, curr - 1, curr + 1, curr - dim, curr - dim - 1, curr - dim + 1,
              curr + dim, curr + dim - 1, curr + dim + 1] (fun x => x / 9))
        (fuelOf dim) 1 dst)
    1 (fun _ => rfl) (dim - 2).toNat (fuelOf dim) 1 (fuel_ok dim h2 _ (by omega))
    (fun t ht => decide_eq_true (by omega)) (decide_eq_false (by omega))
    (fun i x => ∃ j : Int, 1 ≤ j ∧ j < dim - 1 ∧ x = i * dim + j) (target src dim) N
    (by
      intro t1 ht1 d1 hd1
      have hi0 : (1 : Int) ≤ 1 + t1 * 1 := by omega
      have hi1 : 1 + (t1 : Int) * 1 < dim - 1 := by omega
      generalize 1 + (t1 : Int) * 1 = i at hi0 hi1
      obtain ⟨d2, e2, u2⟩ := loop_Upd (fun j => decide (j < dim - 1)) (fun j => j + 1)
        (fun j dst =>
          let curr := i * dim + j
          assign3 src dst curr
            [curr, curr - 1, curr + 1, curr - dim, curr - dim - 1, curr - dim + 1,
              curr + dim, curr + dim - 1, curr + dim + 1] (fun x => x / 9))
        1 (fun _ => rfl) (dim - 2).toNat (fuelOf dim) 1 (fuel_ok dim h2 _ (by omega))
        (fun t ht => decide_eq_true (by omega)) (decide_eq_false (by omega))
        (fun j x => x = i * dim + j) (target src dim) N
        (by
          intro t2 ht2 d3 hd3
          have hj0 : (1 : Int) ≤ 1 + t2 * 1 := by omega
          have hj1 : 1 + (t2 : Int) * 1 < dim - 1 := by omega
          generalize 1 + (t2 : Int) * 1 = j at hj0 hj1
          exact step_Upd src dim hs N hN i j _ rfl (by omega) (by omega) (by omega) (by omega)
            [(0, 0), (0, -1), (0, 1), (-1, 0), (-1, -1), (-1, 1), (1, 0), (1, -1), (1, 1)]
            _ _ (by simp only [List.map_cons, List.map_nil]; ring_nf)
            (by
              intro ab hab
              simp only [List.mem_cons, List.mem_singleton, List.not_mem_nil, or_false] at hab
              rcases hab with rfl | rfl | rfl | rfl | rfl | rfl | rfl | rfl | rfl <;>
                refine ⟨?_, ?_, ?_, ?_⟩ <;> dsimp only <;> omega)
            (val_interior src dim i j _ rfl hi0 hi1 hj0 hj1) d3 hd3)
        d1 hd1
      refine ⟨d2, e2, u2.congr (fun x => ?_)⟩
      constructor
      · rintro ⟨t, ht, rfl⟩
        exact ⟨1 + t * 1, by omega, by omega, rfl⟩
      · rintro ⟨j, hj0, hj1, rfl⟩
        exact ⟨(j - 1).toNat, by omega, by
          have : 1 + ((j - 1).toNat : Int) * 1 = j := by omega
          rw [this]⟩)
    d hd
  refine ⟨d', e, u.congr (fun x => ?_)⟩
  constructor
  · rintro ⟨t, ht, j, hj0, hj1, rfl⟩
    exact ⟨1 + t * 1, j, by omega, by omega, hj0, hj1, rfl⟩
  · rintro ⟨i, j, hi0, hi1, hj0, hj1, rfl⟩
    exact ⟨(i - 1).toNat, by omega, j, hj0, hj1, by
      have : 1 + ((i - 1).toNat : Int) * 1 = i := by omega
      rw [this]⟩

theorem stage_top (src : Img) (dim : Int) (h2 : 2 ≤ dim)
    (hs : (src.length : Int) = dim * dim) (N : Nat) (hN : (N : Int) = dim * dim)
    (d : Img) (hd : d.length = N) :
    ∃ d', smoothTop dim src d = some d' ∧
      Upd (fun x => ∃ t : Nat, t < (dim - 2).toNat ∧ x = 1 + t * 1) (target src dim) d d' := by
  unfold smoothTop
  exact loop_Upd _ _ _ 1 (fun _ => rfl) (dim - 2).toNat (fuelOf dim) 1
    (fuel_ok dim h2 _ (by omega))
    (fun t ht => decide_eq_true (by omega)) (decide_eq_false (by omega))
    (fun k x => x = k) (target src dim) N
    (by
      intro t ht d1 hd1
      have hj0 : (1 : Int) ≤ 1 + t * 1 := by omega
      have hj1 : 1 + (t : Int) * 1 < dim - 1 := by omega
      generalize 1 + (t : Int) * 1 = j at hj0 hj1
      exact step_Upd src dim hs N hN 0 j _ (by ring) (by omega) (by omega) (by omega)
        (by omega) [(0, 0), (0, -1), (0, 1), (1, 0), (1, -1), (1, 1)]
        _ _ (by simp only [List.map_cons, List.map_nil]; ring_nf)
        (by
          intro ab hab
          simp only [List.mem_cons, List.mem_singleton, List.not_mem_nil, or_false] at hab
          rcases hab with rfl | rfl | rfl | rfl | rfl | rfl <;>
            refine ⟨?_, ?_, ?_, ?_⟩ <;> dsimp only <;> omega)
        (val_top src dim j _ rfl hj0 hj1) d1 hd1)
    d hd

theorem stage_bottom (src : Img) (dim : Int) (h2 : 2 ≤ dim)
    (hs : (src.length : Int) = dim * dim) (N : Nat) (hN : (N : Int) = dim * dim)
    (d : Img) (hd : d.length = N) :
    ∃ d', smoothBottom dim src d = some d' ∧
      Upd (fun x => ∃ t : Nat, t < (dim - 2).toNat ∧ x = (dim - 1) * dim + 1 + t * 1)
        (target src dim) d d' := by
  unfold smoothBottom
  have hq : (dim - 1) * dim = dim * dim - dim := by ring
  exact loop_Upd _ _ _ 1 (fun _ => rfl) (dim - 2).toNat (fuelOf dim) ((dim - 1) * dim + 1)
    (fuel_ok dim h2 _ (by omega))
    (fun t ht => decide_eq_true (by omega)) (decide_eq_false (by omega))
    (fun k x => x = k) (target src dim) N
    (by
      intro t ht d1 hd1
      have hj0 : (1 : Int) ≤ 1 + t := by omega
      have hj1 : 1 + (t : Int) < dim - 1 := by omega
      have hc : (dim - 1) * dim + 1 + (t : Int) * 1 = (dim - 1) * dim + (1 + t) := by ring
      rw [hc]
      generalize 1 + (t : Int) = j at hj0 hj1
      exact step_Upd src dim hs N hN (dim - 1) j _ rfl (by omega) (by omega) (by omega)
        (by omega) [(0, 0), (0, -1), (0, 1), (-1, 0), (-1, -1), (-1, 1)]
        _ _ (by simp only [List.map_cons, List.map_nil]; ring_nf)
        (by
          intro ab hab
          simp only [List.mem_cons, List.mem_singleton, List.not_mem_nil, or_false] at hab
          rcases hab with rfl | rfl | rfl | rfl | rfl | rfl <;>
            refine ⟨?_, ?_, ?_, ?_⟩ <;> dsimp only <;> omega)
        (val_bottom src dim (dim - 1) j _ h2 rfl rfl hj0 hj1) d1 hd1)
    d hd

theorem stage_left (src : Img) (dim : Int) (h2 : 2 ≤ dim)
    (hs : (src.length : Int) = dim * dim) (N : Nat) (hN : (N : Int) = dim * dim)
    (d : Img) (hd : d.length = N) :
    ∃ d', smoothLeft dim src d = some d' ∧
      Upd (fun x => ∃ t : Nat, t < (dim - 2).toNat ∧ x = dim + t * dim)
        (target src dim) d d' := by
  unfold smoothLeft
  have hn : ((dim - 2).toNat : Int) = dim - 2 := by omega
  exact loop_Upd _ _ _ dim (fun _ => rfl) (dim - 2).toNat (fuelOf dim) dim
    (fuel_ok dim h2 _ (by omega))
    (fun t ht => decide_eq_true (by
      have h1 : (t : Int) + 1 ≤ dim - 2 := by omega
      nlinarith))
    (decide_eq_false (by rw [hn]; nlinarith))
    (fun k x => x = k) (target src dim) N
    (by
      intro t ht d1 hd1
      have hi0 : (1 : Int) ≤ 1 + t := by omega
      have hi1 : 1 + (t : Int) < dim - 1 := by omega
      have hc : dim + (t : Int) * dim = (1 + t) * dim := by ring
      rw [hc]
      generalize 1 + (t : Int) = i at hi0 hi1
      exact step_Upd src dim hs N hN i 0 _ (by ring) (by omega) (by omega) (by omega)
        (by omega) [(0, 0), (0, 1), (-1, 0), (-1, 1), (1, 0), (1, 1)]
        _ _ (by simp only [List.map_cons, List.map_nil]; ring_nf)
        (by
          intro ab hab
          simp only [List.mem_cons, List.mem_singleton, List.not_mem_nil, or_false] at hab
          rcases hab with rfl | rfl | rfl | rfl | rfl | rfl <;>
            refine ⟨?_, ?_, ?_, ?_⟩ <;> dsimp only <;> omega)
        (val_left src dim i _ rfl hi0 hi1) d1 hd1)
    d hd

theorem stage_right (src : Img) (dim : Int) (h2 : 2 ≤ dim)
    (hs : (src.length : Int) = dim * dim) (N : Nat) (hN : (N : Int) = dim * dim)
    (d : Img) (hd : d.length = N) :
    ∃ d', smoothRight dim src d = some d' ∧
      Upd (fun x => ∃ t : Nat, t < (dim - 2).toNat ∧ x = 2 * dim - 1 + t * dim)
        (target src dim) d d' := by
  unfold smoothRight
  have hn : ((dim - 2).toNat : Int) = dim - 2 := by omega
  exact loop_Upd _ _ _ dim (fun _ => rfl) (dim - 2).toNat (fuelOf dim) (2 * dim - 1)
    (fuel_ok dim h2 _ (by omega))
    (fun t ht => decide_eq_true (by
      have h1 : (t : Int) + 1 ≤ dim - 2 := by omega
      nlinarith))
    (decide_eq_false (by rw [hn]; nlinarith))
    (fun k x => x = k) (target src dim) N
    (by
      intro t ht d1 hd1
      have hi0 : (1 : Int) ≤ 1 + t := by omega
      have hi1 : 1 + (t : Int) < dim - 1 := by omega
      have hc : 2 * dim - 1 + (t : Int) * dim = (1 + t) * dim + (dim - 1) := by ring
      rw [hc]
      generalize 1 + (t : Int) = i at hi0 hi1
      exact step_Upd src dim hs N hN i (dim - 1) _ rfl (by omega) (by omega) (by omega)
        (by omega) [(0, 0), (0, -1), (-1, 0), (-1, -1), (1, 0), (1, -1)]
        _ _ (by simp only [List.map_cons, List.map_nil]; ring_nf)
        (by
          intro ab hab
          simp only [List.mem_cons, List.mem_singleton, List.not_mem_nil, or_false] at hab
          rcases hab with rfl | rfl | rfl | rfl | rfl | rfl <;>
            refine ⟨?_, ?_, ?_, ?_⟩ <;> dsimp only <;> omega)
        (val_right src dim i (dim - 1) _ h2 rfl rfl hi0 hi1) d1 hd1)
    d hd

/-- The kernel `smooth` is its five loops followed by the four corner assignments. -/
theorem smooth_stages (dim : Int) (src dst : Img) :
    smooth dim src dst =
      (smoothInterior dim src dst).bind fun d =>
      (smoothTop dim src d).bind fun d =>
      (smoothBottom dim src d).bind fun d =>
      (smoothLeft dim src d).bind fun d =>
      (smoothRight dim src d).bind fun d =>
      (assign3 src d 0 [0, 1, dim, dim + 1] (fun x => x >>> 2)).bind fun d =>
      (assign3 src d (dim - 1) [dim - 1, dim - 1 - 1, dim - 1 + dim - 1, dim - 1 + dim]
        (fun x => x >>> 2)).bind fun d =>
      (assign3 src d ((dim - 1) * dim)
        [(dim - 1) * dim, (dim - 1) * dim + 1, (dim - 1) * dim - dim,
          (dim - 1) * dim - dim + 1] (fun x => x >>> 2)).bind fun d =>
      assign3 src d ((dim - 1) * dim + (dim - 1))
        [(dim - 1) * dim + (dim - 1), (dim - 1) * dim + (dim - 1) - 1,
          (dim - 1) * dim + (dim - 1) - dim, (dim - 1) * dim + (dim - 1) - dim - 1]
        (fun x => x >>> 2) := rfl

theorem stage_c00 (src : Img) (dim : Int) (h2 : 2 ≤ dim)
    (hs : (src.length : Int) = dim * dim) (N : Nat) (hN : (N : Int) = dim * dim)
    (d : Img) (hd : d.length = N) :
    ∃ d', assign3 src d 0 [0, 1, dim, dim + 1] (fun x => x >>> 2) = some d' ∧
      Upd (fun x => x = 0) (target src dim) d d' :=
  step_Upd src dim hs N hN 0 0 0 (by ring) (by omega) (by omega) (by omega) (by omega)
    [(0, 0), (0, 1), (1, 0), (1, 1)] _ _
    (by simp only [List.map_cons, List.map_nil]; ring_nf)
    (by
      intro ab hab
      simp only [List.mem_cons, List.mem_singleton, List.not_mem_nil, or_false] at hab
      rcases hab with rfl | rfl | rfl | rfl <;>
        refine ⟨?_, ?_, ?_, ?_⟩ <;> dsimp only <;> omega)
    (val_c00 src dim) d hd

theorem stage_c01 (src : Img) (dim : Int) (h2 : 2 ≤ dim)
    (hs : (src.length : Int) = dim * dim) (N : Nat) (hN : (N : Int) = dim * dim)
    (d : Img) (hd : d.length = N) :
    ∃ d', assign3 src d (dim - 1) [dim - 1, dim - 1 - 1, dim - 1 + dim - 1, dim - 1 + dim]
        (fun x => x >>> 2) = some d' ∧
      Upd (fun x => x = dim - 1) (target src dim) d d' :=
  step_Upd src dim hs N hN 0 (dim - 1) (dim - 1) (by ring) (by omega) (by omega) (by omega)
    (by omega) [(0, 0), (0, -1), (1, -1), (1, 0)] _ _
    (by simp only [List.map_cons, List.map_nil]; ring_nf)
    (by
      intro ab hab
      simp only [List.mem_cons, List.mem_singleton, List.not_mem_nil, or_false] at hab
      rcases hab with rfl | rfl | rfl | rfl <;>
        refine ⟨?_, ?_, ?_, ?_⟩ <;> dsimp only <;> omega)
    (val_c01 src dim (dim - 1) _ h2 rfl rfl) d hd

theorem stage_c10 (src : Img) (dim : Int) (h2 : 2 ≤ dim)
    (hs : (src.length : Int) = dim * dim) (N : Nat) (hN : (N : Int) = dim * dim)
    (d : Img) (hd : d.length = N) :
    ∃ d', assign3 src d ((dim - 1) * dim)
        [(dim - 1) * dim, (dim - 1) * dim + 1, (dim - 1) * dim - dim,
          (dim - 1) * dim - dim + 1] (fun x => x >>> 2) = some d' ∧
      Upd (fun x => x = (dim - 1) * dim) (target src dim) d d' :=
  step_Upd src dim hs N hN (dim - 1) 0 ((dim - 1) * dim) (by ring) (by omega) (by omega)
    (by omega) (by omega) [(0, 0), (0, 1), (-1, 0), (-1, 1)] _ _
    (by simp only [List.map_cons, List.map_nil]; ring_nf)
    (by
      intro ab hab
      simp only [List.mem_cons, List.mem_singleton, List.not_mem_nil, or_false] at hab
      rcases hab with rfl | rfl | rfl | rfl <;>
        refine ⟨?_, ?_, ?_, ?_⟩ <;> dsimp only <;> omega)
    (val_c10 src dim (dim - 1) _ h2 rfl rfl) d hd

theorem stage_c11 (src : Img) (dim : Int) (h2 : 2 ≤ dim)
    (hs : (src.length : Int) = dim * dim) (N : Nat) (hN : (N : Int) = dim * dim)
    (d : Img) (hd : d.length = N) :
    ∃ d', assign3 src d ((dim - 1) * dim + (dim - 1))
        [(dim - 1) * dim + (dim - 1), (dim - 1) * dim + (dim - 1) - 1,
          (dim - 1) * dim + (dim - 1) - dim, (dim - 1) * dim + (dim - 1) - dim - 1]
        (fun x => x >>> 2) = some d' ∧
      Upd (fun x => x = (dim - 1) * dim + (dim - 1)) (target src dim) d d' :=
  step_Upd src dim hs N hN (dim - 1) (dim - 1) _ rfl (by omega) (by omega)
    (by omega) (by omega) [(0, 0), (0, -1), (-1, 0), (-1, -1)] _ _
    (by simp only [List.map_cons, List.map_nil]; ring_nf)
    (by
      intro ab hab
      simp only [List.mem_cons, List.mem_singleton, List.not_mem_nil, or_false] at hab
      rcases hab with rfl | rfl | rfl | rfl <;>
        refine ⟨?_, ?_, ?_, ?_⟩ <;> dsimp only <;> omega)
    (val_c11 src dim (dim - 1) (dim - 1) _ h2 rfl rfl rfl) d hd

/-- The kernel `smooth` returns on a `dim × dim` image with `dim ≥ 2`, and stores the
value of `avg` at every position. -/
theorem smooth_spec (dim : Int) (h2 : 2 ≤ dim) (src dst : Img)
    (hs : (src.length : Int) = dim * dim) (hd : (dst.length : Int) = dim * dim) :
    ∃ out, smooth dim src dst = some out ∧ out.length = dst.length ∧
      ∀ i j : Int, 0 ≤ i → i < dim → 0 ≤ j → j < dim →
        rd out (i * dim + j) = some (avgval src dim i j) := by
  have hN : ((dst.length : Nat) : Int) = dim * dim := hd
  obtain ⟨d1, e1, u1⟩ := stage_interior src dim h2 hs dst.length hN dst rfl
  obtain ⟨d2, e2, u2⟩ := stage_top src dim h2 hs dst.length hN d1 u1.1
  obtain ⟨d3, e3, u3⟩ := stage_bottom src dim h2 hs dst.length hN d2 (u2.1.trans u1.1)
  have l3 := u3.1.trans (u2.1.trans u1.1)
  obtain ⟨d4, e4, u4⟩ := stage_left src dim h2 hs dst.length hN d3 l3
  have l4 := u4.1.trans l3
  obtain ⟨d5, e5, u5⟩ := stage_right src dim h2 hs dst.length hN d4 l4
  have l5 := u5.1.trans l4
  obtain ⟨d6, e6, u6⟩ := stage_c00 src dim h2 hs dst.length hN d5 l5
  have l6 := u6.1.trans l5
  obtain ⟨d7, e7, u7⟩ := stage_c01 src dim h2 hs dst.length hN d6 l6
  have l7 := u7.1.trans l6
  obtain ⟨d8, e8, u8⟩ := stage_c10 src dim h2 hs dst.length hN d7 l7
  have l8 := u8.1.trans l7
  obtain ⟨d9, e9, u9⟩ := stage_c11 src dim h2 hs dst.length hN d8 l8
  have l9 := u9.1.trans l8
  have hall := (((((((u1.comp u2).comp u3).comp u4).comp u5).comp u6).comp u7).comp u8).comp u9
  refine ⟨d9, ?_, l9, ?_⟩
  · have e1' : smoothInterior dim src dst = some d1 := e1
    rw [smooth_stages, e1', Option.some_bind, e2, Option.some_bind, e3, Option.some_bind, e4,
      Option.some_bind, e5, Option.some_bind, e6, Option.some_bind, e7, Option.some_bind, e8,
      Option.some_bind, e9]
  · intro i j hi0 hi1 hj0 hj1
    rw [← target_idx src dim i j hj0 hj1]
    apply hall.2.1
    have hn : ((dim - 2).toNat : Int) = dim - 2 := by omega
    by_cases hi : i = 0
    · subst hi
      by_cases hj : j = 0
      · subst hj
        exact Or.inl (Or.inl (Or.inl (Or.inr (by ring))))
      · by_cases hj' : j = dim - 1
        · subst hj'
          exact Or.inl (Or.inl (Or.inr (by ring)))
        · refine Or.inl (Or.inl (Or.inl (Or.inl (Or.inl (Or.inl (Or.inl (Or.inr
            ⟨(j - 1).toNat, by omega, ?_⟩)))))))
          have : ((j - 1).toNat : Int) = j - 1 := by omega
          rw [this]; ring
    · by_cases hi' : i = dim - 1
      · subst hi'
        by_cases hj : j = 0
        · subst hj
          exact Or.inl (Or.inr (by ring))
        · by_cases hj' : j = dim - 1
          · subst hj'
            exact Or.inr rfl
          · refine Or.inl (Or.inl (Or.inl (Or.inl (Or.inl (Or.inl (Or.inr
              ⟨(j - 1).toNat, by omega, ?_⟩))))))
            have : ((j - 1).toNat : Int) = j - 1 := by omega
            rw [this]; ring
      · by_cases hj : j = 0
        · subst hj
          refine Or.inl (Or.inl (Or.inl (Or.inl (Or.inl (Or.inr
            ⟨(i - 1).toNat, by omega, ?_⟩)))))
          have : ((i - 1).toNat : Int) = i - 1 := by omega
          rw [this]; ring
        · by_cases hj' : j = dim - 1
          · subst hj'
            refine Or.inl (Or.inl (Or.inl (Or.inl (Or.inr
              ⟨(i - 1).toNat, by omega, ?_⟩))))
            have : ((i - 1).toNat : Int) = i - 1 := by omega
            rw [this]; ring
          · exact Or.inl (Or.inl (Or.inl (Or.inl (Or.inl (Or.inl (Or.inl (Or.inl
              ⟨i, j, by omega, by omega, by omega, by omega, rfl⟩)))))))

/-- The kernel `naive_smooth` returns on a `dim × dim` image with `dim ≥ 2`, and stores
the value of `avg` at every position. -/
theorem naive_spec (dim : Int) (h2 : 2 ≤ dim) (src dst : Img)
    (hs : (src.length : Int) = dim * dim) (hd : (dst.length : Int) = dim * dim) :
    ∃ out, naive_smooth dim src dst = some out ∧ out.length = dst.length ∧
      ∀ i j : Int, 0 ≤ i → i < dim → 0 ≤ j → j < dim →
        rd out (i * dim + j) = some (avgval src dim i j) := by
  have hN : ((dst.length : Nat) : Int) = dim * dim := hd
  have hn : ((dim.toNat : Nat) : Int) = dim := by omega
  unfold naive_smooth
  obtain ⟨out, e, u⟩ := loop_Upd (fun i => decide (i < dim)) (fun i => i + 1)
    (fun i dst =>
      forLoop (fun j => decide (j < dim)) (fun j => j + 1)
        (fun j dst => (avg dim i j src).bind (wr dst (RIDX i j dim)))
        (fuelOf dim) 0 dst)
    1 (fun _ => rfl) dim.toNat (fuelOf dim) 0 (fuel_ok dim h2 _ (by omega))
    (fun t ht => decide_eq_true (by omega)) (decide_eq_false (by omega))
    (fun i x => ∃ j : Int, 0 ≤ j ∧ j < dim ∧ x = i * dim + j) (target src dim) dst.length
    (by
      intro t1 ht1 d1 hd1
      have hi0 : (0 : Int) ≤ 0 + t1 * 1 := by omega
      have hi1 : 0 + (t1 : Int) * 1 < dim := by omega
      generalize 0 + (t1 : Int) * 1 = i at hi0 hi1
      obtain ⟨d2, e2, u2⟩ := loop_Upd (fun j => decide (j < dim)) (fun j => j + 1)
        (fun j dst => (avg dim i j src).bind (wr dst (RIDX i j dim)))
        1 (fun _ => rfl) dim.toNat (fuelOf dim) 0 (fuel_ok dim h2 _ (by omega))
        (fun t ht => decide_eq_true (by omega)) (decide_eq_false (by omega))
        (fun j x => x = i * dim + j) (target src dim) dst.length
        (by
          intro t2 ht2 d3 hd3
          have hj0 : (0 : Int) ≤ 0 + t2 * 1 := by omega
          have hj1 : 0 + (t2 : Int) * 1 < dim := by omega
          generalize 0 + (t2 : Int) * 1 = j at hj0 hj1
          obtain ⟨c0, c1⟩ := ridx_bound dim i j hi0 hi1 hj0 hj1
          have c2 : i * dim + j < (d3.length : Int) := by rw [hd3, hN]; exact c1
          refine ⟨d3.set (i * dim + j).toNat (target src dim (i * dim + j)), ?_,
            Upd_set _ d3 _ c0 c2⟩
          show (avg dim i j src).bind (wr d3 (RIDX i j dim)) = _
          rw [avg_eq src dim i j h2 hi0 hi1 hj0 hj1 hs, Option.some_bind]
          unfold RIDX
          rw [wr_eq d3 _ _ c0 c2, target_idx src dim i j hj0 hj1])
        d1 hd1
      refine ⟨d2, e2, u2.congr (fun x => ?_)⟩
      constructor
      · rintro ⟨t, ht, rfl⟩
        exact ⟨0 + t * 1, by omega, by omega, rfl⟩
      · rintro ⟨j, hj0, hj1, rfl⟩
        exact ⟨j.toNat, by omega, by
          have : 0 + (j.toNat : Int) * 1 = j := by omega
          rw [this]⟩)
    dst rfl
  refine ⟨out, e, u.1, ?_⟩
  intro i j hi0 hi1 hj0 hj1
  rw [← target_idx src dim i j hj0 hj1]
  apply u.2.1
  exact ⟨i.toNat, by omega, j, hj0, hj1, by
    have : 0 + (i.toNat : Int) * 1 = i := by omega
    rw [this]⟩

theorem axis_eq (dim i : Int) (h2 : 2 ≤ dim) (hi0 : 0 ≤ i) (hi1 : i < dim) :
    axis dim i = rowsOf dim i := by
  unfold axis
  by_cases hi : i = 0
  · subst hi
    have a1 : ¬ ((0 : Int) ≤ 0 - 1 ∧ (0 : Int) - 1 < dim) := by omega
    have a2 : ((0 : Int) ≤ 0 ∧ (0 : Int) < dim) := by omega
    have a3 : ((0 : Int) ≤ 0 + 1 ∧ (0 : Int) + 1 < dim) := by omega
    rw [rowsOf_first, List.filter_cons_of_neg (by simp),
      List.filter_cons_of_pos (by simpa using a2), List.filter_cons_of_pos (by simpa using a3)]
    rfl
  · by_cases hl : i = dim - 1
    · have a1 : (0 ≤ i - 1 ∧ i - 1 < dim) := by omega
      have a2 : (0 ≤ i ∧ i < dim) := by omega
      have a3 : ¬ (0 ≤ i + 1 ∧ i + 1 < dim) := by omega
      rw [rowsOf_last dim i h2 hl, List.filter_cons_of_pos (by simpa using a1),
        List.filter_cons_of_pos (by simpa using a2),
        List.filter_cons_of_neg (by simpa using a3)]
      rfl
    · have a1 : (0 ≤ i - 1 ∧ i - 1 < dim) := by omega
      have a2 : (0 ≤ i ∧ i < dim) := by omega
      have a3 : (0 ≤ i + 1 ∧ i + 1 < dim) := by omega
      rw [rowsOf_mid dim i (by omega) (by omega), List.filter_cons_of_pos (by simpa using a1),
        List.filter_cons_of_pos (by simpa using a2),
        List.filter_cons_of_pos (by simpa using a3)]
      rfl

theorem acc_fold (ps : List pixel) :
    ∀ s0 : pixel_sum, ps.foldl accumulate_sum s0 =
      ⟨s0.red + (ps.map pixel.red).sum, s0.green + (ps.map pixel.green).sum,
        s0.blue + (ps.map pixel.blue).sum, s0.num + ps.length⟩ := by
  induction ps with
  | nil => intro s0; rfl
  | cons p ps ih =>
    intro s0
    simp only [List.foldl_cons, ih, accumulate_sum, List.map_cons, List.sum_cons,
      List.length_cons, pixel_sum.mk.injEq]
    refine ⟨by omega, by omega, by omega, by omega⟩

theorem nested_fold (f : Int → Int → pixel) (cols : List Int) :
    ∀ (rows : List Int) (s0 : pixel_sum),
      rows.foldl (fun sum ii => cols.foldl (fun sum jj => accumulate_sum sum (f ii jj)) sum) s0 =
        (rows.flatMap (fun ii => cols.map (f ii))).foldl accumulate_sum s0 := by
  intro rows
  induction rows with
  | nil => intro s0; rfl
  | cons r rows ih =>
    intro s0
    simp only [List.foldl_cons, List.flatMap_cons, List.foldl_append, List.foldl_map]
    exact ih _

theorem px_chan (src : Img) (h : Chan16 src) (k : Int) :
    (px src k).red < 65536 ∧ (px src k).green < 65536 ∧ (px src k).blue < 65536 := by
  unfold px
  by_cases hk : k.toNat < src.length
  · rw [List.getD_eq_getElem _ _ hk]
    exact h _ (List.getElem_mem hk)
  · rw [List.getD_eq_default _ _ (by omega)]
    exact ⟨by decide, by decide, by decide⟩

theorem sum_chan (ps : List pixel) (c : pixel → Nat) (h : ∀ p ∈ ps, c p < 65536) :
    (ps.map c).sum ≤ ps.length * 65535 := by
  induction ps with
  | nil => simp
  | cons p ps ih =>
    have h1 := h p (by simp)
    have h2 := ih (fun q hq => h q (by simp [hq]))
    simp only [List.map_cons, List.sum_cons, List.length_cons]
    omega

theorem toU16_quot (s n : Nat) (h : s ≤ n * 65535) : toU16 (s / n) = s / n := by
  unfold toU16
  apply Nat.mod_eq_of_lt
  by_cases hn : n = 0
  · subst hn; simp
  · have : s / n ≤ 65535 := by
      apply Nat.div_le_of_le_mul
      exact h
    omega

/-- On 16-bit channels the value `avg` returns is the quotient of the claim. -/
theorem avgval_eq_spec (src : Img) (dim i j : Int) (h2 : 2 ≤ dim) (hi0 : 0 ≤ i)
    (hi1 : i < dim) (hj0 : 0 ≤ j) (hj1 : j < dim) (hc : Chan16 src) :
    avgval src dim i j = smoothSpec src dim i j := by
  have e : (nbhd dim i j).map (fun p => px src (RIDX p.1 p.2 dim)) =
      (rowsOf dim i).flatMap (fun ii => (rowsOf dim j).map (fun jj => px src (RIDX ii jj dim))) := by
    unfold nbhd
    rw [axis_eq dim i h2 hi0 hi1, axis_eq dim j h2 hj0 hj1, List.map_flatMap]
    simp only [List.map_map]
    rfl
  have el : (nbhd dim i j).length =
      ((rowsOf dim i).flatMap
        (fun ii => (rowsOf dim j).map (fun jj => px src (RIDX ii jj dim)))).length := by
    rw [← e, List.length_map]
  unfold avgval accAll smoothSpec
  rw [e, el, nested_fold (fun ii jj => px src (RIDX ii jj dim)), acc_fold]
  generalize (rowsOf dim i).flatMap
    (fun ii => (rowsOf dim j).map (fun jj => px src (RIDX ii jj dim))) = ps at e
  have hps : ∀ p ∈ ps, p.red < 65536 ∧ p.green < 65536 ∧ p.blue < 65536 := by
    intro p hp
    rw [← e] at hp
    obtain ⟨q, _, rfl⟩ := List.mem_map.1 hp
    exact px_chan src hc _
  unfold assign_sum_to_pixel initialize_pixel_sum
  simp only [Nat.zero_add]
  rw [toU16_quot _ _ (sum_chan ps pixel.red (fun p hp => (hps p hp).1)),
    toU16_quot _ _ (sum_chan ps pixel.green (fun p hp => (hps p hp).2.1)),
    toU16_quot _ _ (sum_chan ps pixel.blue (fun p hp => (hps p hp).2.2))]

theorem img_ext (dim : Int) (h2 : 2 ≤ dim) (a b : Img) (ha : (a.length : Int) = dim * dim)
    (hb : (b.length : Int) = dim * dim)
    (h : ∀ i j : Int, 0 ≤ i → i < dim → 0 ≤ j → j < dim →
      rd a (i * dim + j) = rd b (i * dim + j)) : a = b := by
  apply List.ext_getElem?
  intro n
  by_cases hn : n < a.length
  · have hd : 0 < dim := by omega
    have hk : ((n : Nat) : Int) < dim * dim := by omega
    have e := Int.ediv_add_emod (n : Int) dim
    have j0 := Int.emod_nonneg (n : Int) (by omega : dim ≠ 0)
    have j1 := Int.emod_lt_of_pos (n : Int) hd
    have i0 : 0 ≤ (n : Int) / dim := Int.ediv_nonneg (by omega) (by omega)
    have i1 : (n : Int) / dim < dim := Int.ediv_lt_of_lt_mul hd hk
    have := h _ _ i0 i1 j0 j1
    have e2 : (n : Int) / dim * dim + (n : Int) % dim = n := by rw [Int.mul_comm]; exact e
    rw [e2] at this
    unfold rd at this
    simpa using this
  · have hn2 : ¬ n < b.length := by omega
    rw [List.getElem?_eq_none (by omega), List.getElem?_eq_none (by omega)]

theorem nbhd_length (dim i j : Int) (h2 : 2 ≤ dim) (hi0 : 0 ≤ i) (hi1 : i < dim)
    (hj0 : 0 ≤ j) (hj1 : j < dim) :
    (nbhd dim i j).length =
      (if i = 0 ∨ i = dim - 1 then 2 else 3) * (if j = 0 ∨ j = dim - 1 then 2 else 3) := by
  have hlen : ∀ (rows cols : List Int),
      (rows.flatMap (fun ii => cols.map (fun jj => (ii, jj)))).length =
        rows.length * cols.length := by
    intro rows cols
    induction rows with
    | nil => simp
    | cons r rows ih =>
      simp only [List.flatMap_cons, List.length_append, List.length_map, ih, List.length_cons]
      ring
  have hrow : ∀ k : Int, 0 ≤ k → k < dim →
      (rowsOf dim k).length = if k = 0 ∨ k = dim - 1 then 2 else 3 := by
    intro k hk0 hk1
    by_cases h0 : k = 0
    · subst h0
      rw [rowsOf_first, if_pos (Or.inl rfl)]
      rfl
    · by_cases h1 : k = dim - 1
      · rw [rowsOf_last dim k h2 h1, if_pos (Or.inr h1)]
        rfl
      · rw [rowsOf_mid dim k (by omega) (by omega), if_neg (by omega)]
        rfl
  unfold nbhd
  rw [axis_eq dim i h2 hi0 hi1, axis_eq dim j h2 hj0 hj1, hlen, hrow i hi0 hi1, hrow j hj0 hj1]

/-- C20: for every `dim ≥ 2` within the range of the `int` counters and indices of the
kernels (`dim * dim + dim < 2^31`, so that no counter, limit or index overflows),
every source buffer of `dim * dim` pixels and every destination buffer of `dim * dim`
pixels, `smooth` and `naive_smooth` both return, with the same destination image;
neither reads or writes an index outside `[0, dim * dim)` (such an access fails in the
model); and when the source channels are 16-bit values the pixel stored at `(i, j)`
holds, per channel, the integer quotient of the sum over the in-bounds 3×3
neighbourhood by the number of in-bounds neighbours, which is 9 in the interior, 6 on
an edge and 4 in a corner. -/
theorem smooth_equiv (dim : Int) (h2 : 2 ≤ dim) (_hb : dim * dim + dim < 2147483648)
    (src dst : Img)
    (hs : (src.length : Int) = dim * dim) (hd : (dst.length : Int) = dim * dim) :
    ∃ out, smooth dim src dst = some out ∧ naive_smooth dim src dst = some out ∧
      (out.length : Int) = dim * dim ∧
      ∀ i j : Int, 0 ≤ i → i < dim → 0 ≤ j → j < dim →
        (nbhd dim i j).length =
          (if i = 0 ∨ i = dim - 1 then 2 else 3) * (if j = 0 ∨ j = dim - 1 then 2 else 3) ∧
        (Chan16 src → rd out (RIDX i j dim) = some (smoothSpec src dim i j)) := by
  obtain ⟨o1, e1, l1, r1⟩ := smooth_spec dim h2 src dst hs hd
  obtain ⟨o2, e2, l2, r2⟩ := naive_spec dim h2 src dst hs hd
  have hl1 : (o1.length : Int) = dim * dim := by rw [l1]; exact hd
  have hl2 : (o2.length : Int) = dim * dim := by rw [l2]; exact hd
  have heq : o2 = o1 := img_ext dim h2 o2 o1 hl2 hl1 (fun i j hi0 hi1 hj0 hj1 => by
    rw [r1 i j hi0 hi1 hj0 hj1, r2 i j hi0 hi1 hj0 hj1])
  refine ⟨o1, e1, by rw [e2, heq], hl1, ?_⟩
  intro i j hi0 hi1 hj0 hj1
  refine ⟨nbhd_length dim i j h2 hi0 hi1 hj0 hj1, fun hc => ?_⟩
  unfold RIDX
  rw [r1 i j hi0 hi1 hj0 hj1, avgval_eq_spec src dim i j h2 hi0 hi1 hj0 hj1 hc]

/-- The corner assignments of `smooth` on the 2×2 image, where no loop runs. -/
theorem smooth_corners_demo :
    smooth 2 demoSrc demoDst =
      some [⟨16400, 16403, 100⟩, ⟨16400, 16403, 100⟩, ⟨16400, 16403, 100⟩,
        ⟨16400, 16403, 100⟩] := by
  decide

theorem smooth_equiv_witness :
    (2 : Int) ≤ 4 ∧ (4 : Int) * 4 + 4 < 2147483648 ∧ (gridSrc.length : Int) = 4 * 4 ∧
    (gridDst.length : Int) = 4 * 4 ∧
    smooth 4 gridSrc gridDst = some gridOut ∧ naive_smooth 4 gridSrc gridDst = some gridOut ∧
    smoothInterior 4 gridSrc gridDst ≠ some gridDst ∧
    smoothTop 4 gridSrc gridDst ≠ some gridDst ∧
    smoothBottom 4 gridSrc gridDst ≠ some gridDst ∧
    smoothLeft 4 gridSrc gridDst ≠ some gridDst ∧
    smoothRight 4 gridSrc gridDst ≠ some gridDst ∧
    smoothSpec gridSrc 4 1 1 = ⟨14740, 7620, 7781⟩ ∧
    smoothSpec gridSrc 4 0 2 = ⟨21921, 21938, 11084⟩ ∧
    smoothSpec gridSrc 4 3 3 = ⟨16428, 133, 16605⟩ ∧
    ∃ out, smooth 4 gridSrc gridDst = some out ∧ naive_smooth 4 gridSrc gridDst = some out ∧
      (out.length : Int) = 4 * 4 ∧
      ∀ i j : Int, 0 ≤ i → i < 4 → 0 ≤ j → j < 4 →
        (nbhd 4 i j).length =
          (if i = 0 ∨ i = 4 - 1 then 2 else 3) * (if j = 0 ∨ j = 4 - 1 then 2 else 3) ∧
        (Chan16 gridSrc → rd out (RIDX i j 4) = some (smoothSpec gridSrc 4 i j)) :=
  ⟨by decide, by decide, by decide, by decide, by decide, by decide, by decide, by decide,
    by decide, by decide, by decide, by decide, by decide, by decide,
    smooth_equiv 4 (by decide) (by decide) gridSrc gridDst (by decide) (by decide)⟩

/-! ## Theorems about the rotate kernels -/

theorem fuel_ok0 (dim : Int) (h0 : 0 ≤ dim) (n : Nat) (hn : (n : Int) ≤ dim) :
    n < fuelOf dim := by
  unfold fuelOf
  have : dim ≤ dim * dim := by nlinarith
  omega

theorem UpdT.seq {S1 S2 : Int → Prop} {T : Int → pixel} {c1 c2 : Nat} {d d1 d2 : Traced}
    (h1 : UpdT S1 T c1 d d1) (h2 : UpdT S2 T c2 d1 d2) :
    UpdT (fun k => S1 k ∨ S2 k) T (c1 + c2) d d2 := by
  obtain ⟨u1, n1, e1, l1, m1⟩ := h1
  obtain ⟨u2, n2, e2, l2, m2⟩ := h2
  refine ⟨u1.comp u2, n2 ++ n1, by rw [e2, e1, List.append_assoc], ?_, ?_⟩
  · rw [List.length_append, l1, l2, Nat.add_comm]
  · intro k
    rw [List.mem_append, m1, m2]
    exact Or.comm

theorem UpdT.iff {S S' : Int → Prop} {T : Int → pixel} {c c' : Nat} {d d' : Traced}
    (h : UpdT S T c d d') (e : ∀ k, S k ↔ S' k) (ec : c = c') : UpdT S' T c' d d' := by
  obtain ⟨u, n, e1, l, m⟩ := h
  exact ⟨u.congr e, n, e1, by rw [l, ec], fun k => (m k).trans (e k)⟩

theorem UpdT.nil (T : Int → pixel) (d : Traced) : UpdT (fun _ => False) T 0 d d :=
  ⟨Upd.none T d.1, [], rfl, rfl, fun k => by simp⟩

theorem foldlM_UpdT (body : Int → Traced → Option Traced) (S : Int → Int → Prop)
    (T : Int → pixel) (c N : Nat) :
    ∀ (ks : List Int) (d0 : Traced), d0.1.length = N →
      (∀ k ∈ ks, ∀ d : Traced, d.1.length = N →
        ∃ d', body k d = some d' ∧ UpdT (S k) T c d d') →
      ∃ d', ks.foldlM (fun st k => body k st) d0 = some d' ∧
        UpdT (fun x => ∃ k ∈ ks, S k x) T (ks.length * c) d0 d' := by
  intro ks
  induction ks with
  | nil =>
    intro d0 _ _
    exact ⟨d0, rfl, (UpdT.nil T d0).iff (fun k => by simp) (by simp)⟩
  | cons k ks ih =>
    intro d0 h0 hb
    obtain ⟨d1, e1, u1⟩ := hb k (by simp) d0 h0
    obtain ⟨d2, e2, u2⟩ := ih d1 (u1.1.1.trans h0) (fun k' hk' => hb k' (by simp [hk']))
    refine ⟨d2, ?_, (u1.seq u2).iff (fun x => by simp) (by
      simp only [List.length_cons]; ring)⟩
    simp only [List.foldlM_cons, e1]
    exact e2

/-- A counting loop of `n` iterations whose body, at counter value `k`, writes the `c`
indices of the set `S k`, writes the union of these sets with `n * c` writes. -/
theorem loop_UpdT (cond : Int → Bool) (next : Int → Int)
    (body : Int → Traced → Option Traced)
    (step : Int) (hnext : ∀ i, next i = i + step) (n fuel : Nat) (lo : Int) (hf : n < fuel)
    (ht : ∀ t : Nat, t < n → cond (lo + t * step) = true)
    (hc : cond (lo + n * step) = false)
    (S : Int → Int → Prop) (T : Int → pixel) (c N : Nat)
    (hb : ∀ t : Nat, t < n → ∀ d : Traced, d.1.length = N →
      ∃ d', body (lo + t * step) d = some d' ∧ UpdT (S (lo + t * step)) T c d d')
    (d0 : Traced) (h0 : d0.1.length = N) :
    ∃ d', forLoop cond next body fuel lo d0 = some d' ∧
      UpdT (fun x => ∃ t : Nat, t < n ∧ S (lo + t * step) x) T (n * c) d0 d' := by
  rw [forLoop_run cond next body step hnext n fuel lo d0 hf ht hc]
  obtain ⟨d', e, u⟩ := foldlM_UpdT body S T c N
    ((List.range n).map (fun t : Nat => lo + t * step)) d0 h0 (by
      intro k hk d hd
      obtain ⟨t, ht1, rfl⟩ := List.mem_map.1 hk
      exact hb t (List.mem_range.1 ht1) d hd)
  refine ⟨d', e, u.iff (fun x => ?_) (by simp)⟩
  constructor
  · rintro ⟨k, hk, hs⟩
    obtain ⟨t, ht1, rfl⟩ := List.mem_map.1 hk
    exact ⟨t, List.mem_range.1 ht1, hs⟩
  · rintro ⟨t, ht1, hs⟩
    exact ⟨_, List.mem_map.2 ⟨t, List.mem_range.2 ht1, rfl⟩, hs⟩

/-- A counting loop that returns its counter returns the state of the plain loop and
the first counter value that fails the condition. -/
theorem forLoopC_run {σ : Type} (cond : Int → Bool) (next : Int → Int)
    (body : Int → σ → Option σ) (step : Int) (hnext : ∀ i, next i = i + step) :
    ∀ (n fuel : Nat) (lo : Int) (st : σ), n < fuel →
      (∀ t : Nat, t < n → cond (lo + t * step) = true) → cond (lo + n * step) = false →
      forLoopC cond next body fuel lo st =
        (forLoop cond next body fuel lo st).map (fun s => (lo + n * step, s)) := by
  intro n
  induction n with
  | zero =>
    intro fuel lo st hf _ hc
    obtain ⟨f, rfl⟩ : ∃ f, fuel = f + 1 := ⟨fuel - 1, by omega⟩
    have hc0 : cond lo = false := by simpa using hc
    simp [forLoopC, forLoop, hc0]
  | succ n ih =>
    intro fuel lo st hf ht hc
    obtain ⟨f, rfl⟩ : ∃ f, fuel = f + 1 := ⟨fuel - 1, by omega⟩
    have hc0 : cond lo = true := by simpa using ht 0 (by omega)
    have e : ∀ t : Nat, lo + step + (t : Int) * step = lo + ((t + 1 : Nat) : Int) * step := by
      intro t; push_cast; ring
    simp only [forLoopC, forLoop, hc0, if_true, hnext]
    cases hb : body lo st with
    | none => rfl
    | some st1 =>
      simp only [Option.some_bind]
      rw [ih f (lo + step) st1 (by omega) (fun t htn => by rw [e]; exact ht (t + 1) (by omega))
        (by rw [e]; exact hc), e]

theorem rotTarget_idx (src : Img) (dim i j : Int) (hi0 : 0 ≤ i) (hi1 : i < dim) :
    rotTarget src dim ((dim - 1 - j) * dim + i) = px src (i * dim + j) := by
  unfold rotTarget
  have hd : dim ≠ 0 := by omega
  have e1 : ((dim - 1 - j) * dim + i) / dim = dim - 1 - j := by
    rw [Int.add_comm, Int.add_mul_ediv_right _ _ hd, Int.ediv_eq_zero_of_lt hi0 hi1]
    simp
  have e2 : ((dim - 1 - j) * dim + i) % dim = i := by
    rw [Int.add_comm, Int.add_mul_emod_self, Int.emod_eq_of_lt hi0 hi1]
  rw [e1, e2]
  congr 1
  ring

/-- One copy statement `dst[k] = src[s]` of a rotate kernel, for the source position
`(i, j)`. -/
theorem copy_UpdT (src : Img) (dim : Int) (hs : (src.length : Int) = dim * dim) (N : Nat)
    (hN : (N : Int) = dim * dim) (i j k s : Int) (hk : k = (dim - 1 - j) * dim + i)
    (hsrc : s = i * dim + j) (hi0 : 0 ≤ i) (hi1 : i < dim) (hj0 : 0 ≤ j) (hj1 : j < dim)
    (d : Traced) (hd : d.1.length = N) :
    ∃ d', copyPx src d k s = some d' ∧
      UpdT (fun x => x = (dim - 1 - j) * dim + i) (rotTarget src dim) 1 d d' := by
  obtain ⟨a0, a1⟩ := ridx_bound dim i j hi0 hi1 hj0 hj1
  obtain ⟨b0, b1⟩ := ridx_bound dim (dim - 1 - j) i (by omega) (by omega) hi0 hi1
  have b2 : (dim - 1 - j) * dim + i < (d.1.length : Int) := by rw [hd, hN]; exact b1
  subst hk hsrc
  refine ⟨(d.1.set ((dim - 1 - j) * dim + i).toNat
    (rotTarget src dim ((dim - 1 - j) * dim + i)), ((dim - 1 - j) * dim + i) :: d.2), ?_,
    Upd_set _ d.1 _ b0 b2, [(dim - 1 - j) * dim + i], rfl, rfl, fun x => by simp⟩
  unfold copyPx wrT
  rw [rd_eq src _ a0 (by rw [hs]; exact a1), Option.some_bind, wr_eq _ _ _ b0 b2,
    rotTarget_idx src dim i j hi0 hi1]
  rfl

theorem ex_range (dim : Int) (P : Int → Prop) :
    (∃ t : Nat, t < dim.toNat ∧ P (0 + (t : Int) * 1)) ↔ ∃ i, 0 ≤ i ∧ i < dim ∧ P i := by
  constructor
  · rintro ⟨t, ht, hp⟩
    exact ⟨t, by omega, by omega, by simpa using hp⟩
  · rintro ⟨i, i0, i1, hp⟩
    have e : ((i.toNat : Nat) : Int) = i := Int.toNat_of_nonneg i0
    exact ⟨i.toNat, by omega, by rw [e]; simpa using hp⟩

theorem count_cond (dim : Int) (n : Nat) (hn : (n : Int) = dim) :
    (∀ t : Nat, t < n → decide ((0 : Int) + (t : Int) * 1 < dim) = true) ∧
      decide ((0 : Int) + (n : Int) * 1 < dim) = false := by
  constructor
  · intro t ht
    exact decide_eq_true (by omega)
  · exact decide_eq_false (by omega)

/-- The inner loop of `rotate1`: one column of the source. -/
theorem col_loop (src : Img) (dim : Int) (h0 : 0 ≤ dim) (hs : (src.length : Int) = dim * dim)
    (N : Nat) (hN : (N : Int) = dim * dim) (j : Int) (hj0 : 0 ≤ j) (hj1 : j < dim)
    (d : Traced) (hd : d.1.length = N) :
    ∃ d', forLoop (fun i => decide (i < dim)) (fun i => i + 1)
        (fun i dst => copyPx src dst ((dim - 1 - j) * dim + i) (i * dim + j))
        (fuelOf dim) 0 d = some d' ∧
      UpdT (ColSet dim j) (rotTarget src dim) dim.toNat d d' := by
  have hn : ((dim.toNat : Nat) : Int) = dim := Int.toNat_of_nonneg h0
  obtain ⟨c1, c2⟩ := count_cond dim dim.toNat hn
  obtain ⟨d', e, u⟩ := loop_UpdT (fun i => decide (i < dim)) (fun i => i + 1)
    (fun i dst => copyPx src dst ((dim - 1 - j) * dim + i) (i * dim + j)) 1 (fun _ => rfl)
    dim.toNat (fuelOf dim) 0 (fuel_ok0 dim h0 _ (by omega)) c1 c2
    (fun i x => x = (dim - 1 - j) * dim + i) (rotTarget src dim) 1 N
    (fun t ht d1 hd1 => copy_UpdT src dim hs N hN _ j _ _ rfl rfl (by omega) (by omega)
      hj0 hj1 d1 hd1) d hd
  exact ⟨d', e, u.iff (fun x => ex_range dim (fun i => x = (dim - 1 - j) * dim + i))
    (by simp)⟩

/-- The inner loop of `naive_rotate`: one row of the source. -/
theorem row_loop (src : Img) (dim : Int) (h0 : 0 ≤ dim) (hs : (src.length : Int) = dim * dim)
    (N : Nat) (hN : (N : Int) = dim * dim) (i : Int) (hi0 : 0 ≤ i) (hi1 : i < dim)
    (d : Traced) (hd : d.1.length = N) :
    ∃ d', forLoop (fun j => decide (j < dim)) (fun j => j + 1)
        (fun j dst => copyPx src dst (RIDX (dim - 1 - j) i dim) (RIDX i j dim))
        (fuelOf dim) 0 d = some d' ∧
      UpdT (RowSet dim i) (rotTarget src dim) dim.toNat d d' := by
  have hn : ((dim.toNat : Nat) : Int) = dim := Int.toNat_of_nonneg h0
  obtain ⟨c1, c2⟩ := count_cond dim dim.toNat hn
  obtain ⟨d', e, u⟩ := loop_UpdT (fun j => decide (j < dim)) (fun j => j + 1)
    (fun j dst => copyPx src dst (RIDX (dim - 1 - j) i dim) (RIDX i j dim)) 1 (fun _ => rfl)
    dim.toNat (fuelOf dim) 0 (fuel_ok0 dim h0 _ (by omega)) c1 c2
    (fun j x => x = (dim - 1 - j) * dim + i) (rotTarget src dim) 1 N
    (fun t ht d1 hd1 => copy_UpdT src dim hs N hN i _ _ _ rfl rfl hi0 hi1
      (by omega) (by omega) d1 hd1) d hd
  exact ⟨d', e, u.iff (fun x => ex_range dim (fun j => x = (dim - 1 - j) * dim + i))
    (by simp)⟩

/-- The indices written by all columns, or by all rows, are the whole destination. -/
theorem cover_cols (dim : Int) (h0 : 0 ≤ dim) (x : Int) :
    (∃ j, 0 ≤ j ∧ j < dim ∧ ColSet dim j x) ↔ 0 ≤ x ∧ x < dim * dim := by
  constructor
  · rintro ⟨j, j0, j1, i, i0, i1, rfl⟩
    exact ridx_bound dim (dim - 1 - j) i (by omega) (by omega) i0 i1
  · rintro ⟨x0, x1⟩
    have hd : 0 < dim := by
      rcases (by omega : dim = 0 ∨ 0 < dim) with h | h
      · rw [h] at x1
        omega
      · exact h
    have e := Int.ediv_add_emod x dim
    have m0 := Int.emod_nonneg x (by omega : dim ≠ 0)
    have m1 := Int.emod_lt_of_pos x hd
    have q0 : 0 ≤ x / dim := Int.ediv_nonneg x0 (by omega)
    have q1 : x / dim < dim := Int.ediv_lt_of_lt_mul hd x1
    refine ⟨dim - 1 - x / dim, by omega, by omega, x % dim, m0, m1, ?_⟩
    have : (dim - 1 - (dim - 1 - x / dim)) * dim = dim * (x / dim) := by ring
    rw [this]
    exact e.symm

theorem cover_rows (dim : Int) (h0 : 0 ≤ dim) (x : Int) :
    (∃ i, 0 ≤ i ∧ i < dim ∧ RowSet dim i x) ↔ 0 ≤ x ∧ x < dim * dim := by
  rw [← cover_cols dim h0]
  constructor
  · rintro ⟨i, i0, i1, j, j0, j1, e⟩
    exact ⟨j, j0, j1, i, i0, i1, e⟩
  · rintro ⟨j, j0, j1, i, i0, i1, e⟩
    exact ⟨i, i0, i1, j, j0, j1, e⟩

/-- The naive kernel returns: it writes the rotated image with `dim * dim` writes, one
to each destination index. -/
theorem naive_rotate_spec (src : Img) (dim : Int) (h0 : 0 ≤ dim)
    (hs : (src.length : Int) = dim * dim) (N : Nat) (hN : (N : Int) = dim * dim)
    (d : Traced) (hd : d.1.length = N) :
    ∃ d', naive_rotate dim src d = some d' ∧
      UpdT (fun x => 0 ≤ x ∧ x < dim * dim) (rotTarget src dim) (dim.toNat * dim.toNat)
        d d' := by
  have hn : ((dim.toNat : Nat) : Int) = dim := Int.toNat_of_nonneg h0
  obtain ⟨c1, c2⟩ := count_cond dim dim.toNat hn
  obtain ⟨d', e, u⟩ := loop_UpdT (fun i => decide (i < dim)) (fun i => i + 1)
    (fun i dst =>
      forLoop (fun j => decide (j < dim)) (fun j => j + 1)
        (fun j dst => copyPx src dst (RIDX (dim - 1 - j) i dim) (RIDX i j dim))
        (fuelOf dim) 0 dst) 1 (fun _ => rfl)
    dim.toNat (fuelOf dim) 0 (fuel_ok0 dim h0 _ (by omega)) c1 c2
    (RowSet dim) (rotTarget src dim) dim.toNat N
    (fun t ht d1 hd1 => row_loop src dim h0 hs N hN _ (by omega) (by omega) d1 hd1) d hd
  exact ⟨d', e, u.iff (fun x => (ex_range dim (fun i => RowSet dim i x)).trans
    (cover_rows dim h0 x)) rfl⟩

/-- The kernel `rotate1` returns: it writes the rotated image with `dim * dim` writes,
one to each destination index. -/
theorem rotate1_spec (src : Img) (dim : Int) (h0 : 0 ≤ dim)
    (hs : (src.length : Int) = dim * dim) (N : Nat) (hN : (N : Int) = dim * dim)
    (d : Traced) (hd : d.1.length = N) :
    ∃ d', rotate1 dim src d = some d' ∧
      UpdT (fun x => 0 ≤ x ∧ x < dim * dim) (rotTarget src dim) (dim.toNat * dim.toNat)
        d d' := by
  have hn : ((dim.toNat : Nat) : Int) = dim := Int.toNat_of_nonneg h0
  obtain ⟨c1, c2⟩ := count_cond dim dim.toNat hn
  obtain ⟨d', e, u⟩ := loop_UpdT (fun j => decide (j < dim)) (fun j => j + 1)
    (fun j dst =>
      forLoop (fun i => decide (i < dim)) (fun i => i + 1)
        (fun i dst => copyPx src dst ((dim - 1 - j) * dim + i) (i * dim + j))
        (fuelOf dim) 0 dst) 1 (fun _ => rfl)
    dim.toNat (fuelOf dim) 0 (fuel_ok0 dim h0 _ (by omega)) c1 c2
    (ColSet dim) (rotTarget src dim) dim.toNat N
    (fun t ht d1 hd1 => col_loop src dim h0 hs N hN _ (by omega) (by omega) d1 hd1) d hd
  exact ⟨d', e, u.iff (fun x => (ex_range dim (fun j => ColSet dim j x)).trans
    (cover_cols dim h0 x)) rfl⟩

/-- The four copy statements of the unrolled loop body. -/
theorem quad_step (src : Img) (dim : Int) (hs : (src.length : Int) = dim * dim) (N : Nat)
    (hN : (N : Int) = dim * dim) (i j : Int) (hi0 : 0 ≤ i) (hi1 : i < dim) (hj0 : 0 ≤ j)
    (hj3 : j + 3 < dim) (d : Traced) (hd : d.1.length = N) :
    ∃ d', ((copyPx src d ((dim - 1 - j) * dim + i) (i * dim + j)).bind fun dst =>
        (copyPx src dst ((dim - 1 - j) * dim + i - dim) (i * dim + j + 1)).bind fun dst =>
        (copyPx src dst ((dim - 1 - j) * dim + i - 2 * dim) (i * dim + j + 2)).bind fun dst =>
        copyPx src dst ((dim - 1 - j) * dim + i - 3 * dim) (i * dim + j + 3)) = some d' ∧
      UpdT (fun x => x = (dim - 1 - j) * dim + i ∨ x = (dim - 1 - (j + 1)) * dim + i ∨
        x = (dim - 1 - (j + 2)) * dim + i ∨ x = (dim - 1 - (j + 3)) * dim + i)
        (rotTarget src dim) 4 d d' := by
  obtain ⟨d1, e1, u1⟩ := copy_UpdT src dim hs N hN i j _ _ rfl rfl hi0 hi1 hj0 (by omega) d hd
  have l1 : d1.1.length = N := u1.1.1.trans hd
  obtain ⟨d2, e2, u2⟩ := copy_UpdT src dim hs N hN i (j + 1)
    ((dim - 1 - j) * dim + i - dim) (i * dim + j + 1) (by ring) (by ring) hi0 hi1
    (by omega) (by omega) d1 l1
  have l2 : d2.1.length = N := u2.1.1.trans l1
  obtain ⟨d3, e3, u3⟩ := copy_UpdT src dim hs N hN i (j + 2)
    ((dim - 1 - j) * dim + i - 2 * dim) (i * dim + j + 2) (by ring) (by ring) hi0 hi1
    (by omega) (by omega) d2 l2
  have l3 : d3.1.length = N := u3.1.1.trans l2
  obtain ⟨d4, e4, u4⟩ := copy_UpdT src dim hs N hN i (j + 3)
    ((dim - 1 - j) * dim + i - 3 * dim) (i * dim + j + 3) (by ring) (by ring) hi0 hi1
    (by omega) (by omega) d3 l3
  refine ⟨d4, ?_, (((u1.seq u2).seq u3).seq u4).iff (fun x => ?_) rfl⟩
  · rw [e1, Option.some_bind, e2, Option.some_bind, e3, Option.some_bind, e4]
  · simp only [or_assoc]

/-- The inner loop of the unrolled kernel: four columns of the source. -/
theorem quad_loop (src : Img) (dim : Int) (h0 : 0 ≤ dim) (hs : (src.length : Int) = dim * dim)
    (N : Nat) (hN : (N : Int) = dim * dim) (j : Int) (hj0 : 0 ≤ j) (hj3 : j + 3 < dim)
    (d : Traced) (hd : d.1.length = N) :
    ∃ d', forLoop (fun i => decide (i < dim)) (fun i => i + 1)
        (fun i dst =>
          (copyPx src dst ((dim - 1 - j) * dim + i) (i * dim + j)).bind fun dst =>
          (copyPx src dst ((dim - 1 - j) * dim + i - dim) (i * dim + j + 1)).bind fun dst =>
          (copyPx src dst ((dim - 1 - j) * dim + i - 2 * dim) (i * dim + j + 2)).bind
            fun dst =>
          copyPx src dst ((dim - 1 - j) * dim + i - 3 * dim) (i * dim + j + 3))
        (fuelOf dim) 0 d = some d' ∧
      UpdT (QuadSet dim j) (rotTarget src dim) (dim.toNat * 4) d d' := by
  have hn : ((dim.toNat : Nat) : Int) = dim := Int.toNat_of_nonneg h0
  obtain ⟨c1, c2⟩ := count_cond dim dim.toNat hn
  obtain ⟨d', e, u⟩ := loop_UpdT (fun i => decide (i < dim)) (fun i => i + 1)
    (fun i dst =>
      (copyPx src dst ((dim - 1 - j) * dim + i) (i * dim + j)).bind fun dst =>
      (copyPx src dst ((dim - 1 - j) * dim + i - dim) (i * dim + j + 1)).bind fun dst =>
      (copyPx src dst ((dim - 1 - j) * dim + i - 2 * dim) (i * dim + j + 2)).bind fun dst =>
      copyPx src dst ((dim - 1 - j) * dim + i - 3 * dim) (i * dim + j + 3)) 1 (fun _ => rfl)
    dim.toNat (fuelOf dim) 0 (fuel_ok0 dim h0 _ (by omega)) c1 c2
    (fun i x => x = (dim - 1 - j) * dim + i ∨ x = (dim - 1 - (j + 1)) * dim + i ∨
        x = (dim - 1 - (j + 2)) * dim + i ∨ x = (dim - 1 - (j + 3)) * dim + i)
    (rotTarget src dim) 4 N
    (fun t ht d1 hd1 => quad_step src dim hs N hN _ j (by omega) (by omega) hj0 hj3 d1 hd1)
    d hd
  refine ⟨d', e, u.iff (fun x => ?_) rfl⟩
  rw [ex_range dim (fun i => x = (dim - 1 - j) * dim + i ∨ x = (dim - 1 - (j + 1)) * dim + i ∨
        x = (dim - 1 - (j + 2)) * dim + i ∨ x = (dim - 1 - (j + 3)) * dim + i)]
  unfold QuadSet ColSet
  constructor
  · rintro ⟨i, i0, i1, h | h | h | h⟩
    · exact Or.inl ⟨i, i0, i1, h⟩
    · exact Or.inr (Or.inl ⟨i, i0, i1, h⟩)
    · exact Or.inr (Or.inr (Or.inl ⟨i, i0, i1, h⟩))
    · exact Or.inr (Or.inr (Or.inr ⟨i, i0, i1, h⟩))
  · rintro (⟨i, i0, i1, h⟩ | ⟨i, i0, i1, h⟩ | ⟨i, i0, i1, h⟩ | ⟨i, i0, i1, h⟩)
    · exact ⟨i, i0, i1, Or.inl h⟩
    · exact ⟨i, i0, i1, Or.inr (Or.inl h)⟩
    · exact ⟨i, i0, i1, Or.inr (Or.inr (Or.inl h))⟩
    · exact ⟨i, i0, i1, Or.inr (Or.inr (Or.inr h))⟩

/-- The columns handled by the unrolled loop and by the tail loop are all the columns. -/
theorem cover_quads (dim : Int) (h0 : 0 ≤ dim) (q r : Nat) (hq : (q : Int) = dim / 4)
    (hr : (r : Int) = dim - 4 * q) (x : Int) :
    ((∃ t : Nat, t < q ∧ QuadSet dim (0 + (t : Int) * 4) x) ∨
      (∃ t : Nat, t < r ∧ ColSet dim (0 + (q : Int) * 4 + (t : Int) * 1) x)) ↔
      0 ≤ x ∧ x < dim * dim := by
  rw [← cover_cols dim h0]
  constructor
  · rintro (⟨t, ht, h | h | h | h⟩ | ⟨t, ht, h⟩)
    · exact ⟨_, by omega, by omega, h⟩
    · exact ⟨_, by omega, by omega, h⟩
    · exact ⟨_, by omega, by omega, h⟩
    · exact ⟨_, by omega, by omega, h⟩
    · exact ⟨_, by omega, by omega, h⟩
  · rintro ⟨j, j0, j1, h⟩
    by_cases hj : j < 4 * q
    · left
      obtain ⟨t, ht⟩ : ∃ t : Nat, (t : Int) = j / 4 := ⟨(j / 4).toNat, by omega⟩
      refine ⟨t, by omega, ?_⟩
      rcases (by omega : j = 0 + (t : Int) * 4 ∨ j = 0 + (t : Int) * 4 + 1 ∨
        j = 0 + (t : Int) * 4 + 2 ∨ j = 0 + (t : Int) * 4 + 3) with e | e | e | e
      · exact Or.inl (e ▸ h)
      · exact Or.inr (Or.inl (e ▸ h))
      · exact Or.inr (Or.inr (Or.inl (e ▸ h)))
      · exact Or.inr (Or.inr (Or.inr (e ▸ h)))
    · right
      obtain ⟨t, ht⟩ : ∃ t : Nat, (t : Int) = j - 4 * q := ⟨(j - 4 * q).toNat, by omega⟩
      refine ⟨t, by omega, ?_⟩
      have e : j = 0 + (q : Int) * 4 + (t : Int) * 1 := by omega
      exact e ▸ h

/-- The unrolled kernel returns: it writes the rotated image with `dim * dim` writes,
one to each destination index, whether or not `dim` is a multiple of 4. -/
theorem rotate_spec (src : Img) (dim : Int) (h0 : 0 ≤ dim)
    (hs : (src.length : Int) = dim * dim) (N : Nat) (hN : (N : Int) = dim * dim)
    (d : Traced) (hd : d.1.length = N) :
    ∃ d', rotate dim src d = some d' ∧
      UpdT (fun x => 0 ≤ x ∧ x < dim * dim) (rotTarget src dim) (dim.toNat * dim.toNat)
        d d' := by
  have hn : ((dim.toNat : Nat) : Int) = dim := Int.toNat_of_nonneg h0
  obtain ⟨q, hq⟩ : ∃ q : Nat, (q : Int) = dim / 4 := ⟨(dim / 4).toNat, by omega⟩
  obtain ⟨r, hr⟩ : ∃ r : Nat, (r : Int) = dim - 4 * q := ⟨(dim - 4 * q).toNat, by omega⟩
  have hf : q < fuelOf dim := fuel_ok0 dim h0 q (by omega)
  have ht : ∀ t : Nat, t < q →
      (fun j : Int => decide (j + 3 < dim)) (0 + (t : Int) * 4) = true :=
    fun t ht => decide_eq_true (by omega)
  have hc : (fun j : Int => decide (j + 3 < dim)) (0 + (q : Int) * 4) = false :=
    decide_eq_false (by omega)
  obtain ⟨d1, e1, u1⟩ := loop_UpdT (fun j => decide (j + 3 < dim)) (fun j => j + 4)
    (fun j dst =>
      forLoop (fun i => decide (i < dim)) (fun i => i + 1)
        (fun i dst =>
          (copyPx src dst ((dim - 1 - j) * dim + i) (i * dim + j)).bind fun dst =>
          (copyPx src dst ((dim - 1 - j) * dim + i - dim) (i * dim + j + 1)).bind fun dst =>
          (copyPx src dst ((dim - 1 - j) * dim + i - 2 * dim) (i * dim + j + 2)).bind
            fun dst =>
          copyPx src dst ((dim - 1 - j) * dim + i - 3 * dim) (i * dim + j + 3))
        (fuelOf dim) 0 dst) 4 (fun _ => rfl) q (fuelOf dim) 0 hf ht hc
    (QuadSet dim) (rotTarget src dim) (dim.toNat * 4) N
    (fun t ht d1 hd1 => quad_loop src dim h0 hs N hN _ (by omega) (by omega) d1 hd1) d hd
  have hC := forLoopC_run (fun j => decide (j + 3 < dim)) (fun j => j + 4)
    (fun j dst =>
      forLoop (fun i => decide (i < dim)) (fun i => i + 1)
        (fun i dst =>
          (copyPx src dst ((dim - 1 - j) * dim + i) (i * dim + j)).bind fun dst =>
          (copyPx src dst ((dim - 1 - j) * dim + i - dim) (i * dim + j + 1)).bind fun dst =>
          (copyPx src dst ((dim - 1 - j) * dim + i - 2 * dim) (i * dim + j + 2)).bind
            fun dst =>
          copyPx src dst ((dim - 1 - j) * dim + i - 3 * dim) (i * dim + j + 3))
        (fuelOf dim) 0 dst) 4 (fun _ => rfl) q (fuelOf dim) 0 d hf ht hc
  rw [e1, Option.map_some'] at hC
  have l1 : d1.1.length = N := u1.1.1.trans hd
  obtain ⟨d2, e2, u2⟩ := loop_UpdT (fun j => decide (j < dim)) (fun j => j + 1)
    (fun j dst =>
      forLoop (fun i => decide (i < dim)) (fun i => i + 1)
        (fun i dst => copyPx src dst ((dim - 1 - j) * dim + i) (i * dim + j))
        (fuelOf dim) 0 dst) 1 (fun _ => rfl) r (fuelOf dim) (0 + (q : Int) * 4)
    (fuel_ok0 dim h0 r (by omega)) (fun t ht => decide_eq_true (by omega))
    (decide_eq_false (by omega))
    (ColSet dim) (rotTarget src dim) dim.toNat N
    (fun t ht d1 hd1 => col_loop src dim h0 hs N hN _ (by omega) (by omega) d1 hd1) d1 l1
  refine ⟨d2, ?_, (u1.seq u2).iff (cover_quads dim h0 q r hq hr) ?_⟩
  · simp only [rotate]
    rw [hC, Option.some_bind]
    exact e2
  · have e : 4 * q + r = dim.toNat := by omega
    rw [← e]
    ring

/-- Two buffers obtained from the same buffer by the same update are equal. -/
theorem Upd.unique {S : Int → Prop} {T : Int → pixel} {d a b : Img}
    (ha : Upd S T d a) (hb : Upd S T d b) : a = b := by
  apply List.ext_getElem?
  intro n
  have h : rd a (n : Int) = rd b (n : Int) := by
    by_cases hk : S (n : Int)
    · rw [ha.2.1 _ hk, hb.2.1 _ hk]
    · rw [ha.2.2 _ hk, hb.2.2 _ hk]
  unfold rd at h
  simpa using h

/-- A trace of `N` entries that holds exactly the indices of `[0, N)` holds each of them
once. -/
theorem once_of_count (n : Int) (N : Nat) (hN : (N : Int) = n) (log : List Int)
    (hl : log.length = N) (hm : ∀ k, k ∈ log ↔ 0 ≤ k ∧ k < n) : OncEach n log := by
  refine ⟨?_, hm⟩
  have hsub : List.range N ⊆ log.map Int.toNat := by
    intro t ht
    have ht1 := List.mem_range.1 ht
    exact List.mem_map.2 ⟨(t : Int), (hm _).2 ⟨by omega, by omega⟩, by simp⟩
  have hp : (List.range N).Perm (log.map Int.toNat) :=
    (List.subperm_of_subset (List.nodup_range N) hsub).perm_of_length_le (by simp [hl])
  exact List.Nodup.of_map _ (hp.nodup_iff.1 (List.nodup_range N))

/-- What a run that starts with an empty trace and updates the whole destination
yields. -/
theorem full_run (src : Img) (dim : Int) (h0 : 0 ≤ dim) (dst : Img) (d' : Traced)
    (u : UpdT (fun x => 0 ≤ x ∧ x < dim * dim) (rotTarget src dim) (dim.toNat * dim.toNat)
      (dst, []) d') :
    OncEach (dim * dim) d'.2 := by
  obtain ⟨_, new, e, l, m⟩ := u
  rw [e, List.append_nil]
  have hn : ((dim.toNat : Nat) : Int) = dim := Int.toNat_of_nonneg h0
  exact once_of_count (dim * dim) (dim.toNat * dim.toNat) (by push_cast; rw [hn]) new l m

/-- C21: for every `dim ≥ 0` (a multiple of 4 or not) within the range of the `int`
counters and indices of the kernels (`dim * dim + dim < 2^31`, so that no counter or
index overflows) and every `dim × dim` source image, the unrolled `rotate` and
`rotate1` both return, with the destination image that `naive_rotate` returns; that
image holds `src[i*dim + j]` at the index `(dim-1-j)*dim + i` for all `0 ≤ i, j < dim`,
and each of the three kernels writes every index of `[0, dim*dim)` exactly once and no
index outside that range. -/
theorem rotate_equiv (dim : Int) (h0 : 0 ≤ dim) (_hb : dim * dim + dim < 2147483648)
    (src dst : Img)
    (hs : (src.length : Int) = dim * dim) (hd : (dst.length : Int) = dim * dim) :
    ∃ out log0 log1 log4,
      naive_rotate dim src (dst, []) = some (out, log0) ∧
      rotate1 dim src (dst, []) = some (out, log1) ∧
      rotate dim src (dst, []) = some (out, log4) ∧
      (out.length : Int) = dim * dim ∧ Rotated dim src out ∧
      OncEach (dim * dim) log0 ∧ OncEach (dim * dim) log1 ∧ OncEach (dim * dim) log4 := by
  obtain ⟨⟨o0, g0⟩, e0, u0⟩ := naive_rotate_spec src dim h0 hs dst.length hd (dst, []) rfl
  obtain ⟨⟨o1, g1⟩, e1, u1⟩ := rotate1_spec src dim h0 hs dst.length hd (dst, []) rfl
  obtain ⟨⟨o4, g4⟩, e4, u4⟩ := rotate_spec src dim h0 hs dst.length hd (dst, []) rfl
  have a1 : o1 = o0 := Upd.unique u1.1 u0.1
  have a4 : o4 = o0 := Upd.unique u4.1 u0.1
  rw [a1] at e1 u1
  rw [a4] at e4 u4
  refine ⟨o0, g0, g1, g4, e0, e1, e4, ?_, ?_, full_run src dim h0 dst _ u0,
    full_run src dim h0 dst _ u1, full_run src dim h0 dst _ u4⟩
  · have := u0.1.1
    simp only at this
    rw [this]
    exact hd
  · intro i j i0 i1 j0 j1
    obtain ⟨a0, a1⟩ := ridx_bound dim i j i0 i1 j0 j1
    refine ⟨px src (i * dim + j), rd_eq src _ a0 (by rw [hs]; exact a1), ?_⟩
    have h := u0.1.2.1 ((dim - 1 - j) * dim + i)
      (ridx_bound dim (dim - 1 - j) i (by omega) (by omega) i0 i1)
    rw [rotTarget_idx src dim i j i0 i1] at h
    exact h

theorem rotate_equiv_witness :
    (0 : Int) ≤ 5 ∧ (5 : Int) * 5 + 5 < 2147483648 ∧ (rotSrc.length : Int) = 5 * 5 ∧ (rotDst.length : Int) = 5 * 5 ∧
    (rotate 5 rotSrc (rotDst, [])).map (fun d => d.1.map pixel.red) =
      some [4, 9, 14, 19, 24, 3, 8, 13, 18, 23, 2, 7, 12, 17, 22, 1, 6, 11, 16, 21,
        0, 5, 10, 15, 20] ∧
    ∃ out log0 log1 log4,
      naive_rotate 5 rotSrc (rotDst, []) = some (out, log0) ∧
      rotate1 5 rotSrc (rotDst, []) = some (out, log1) ∧
      rotate 5 rotSrc (rotDst, []) = some (out, log4) ∧
      (out.length : Int) = 5 * 5 ∧ Rotated 5 rotSrc out ∧
      OncEach (5 * 5) log0 ∧ OncEach (5 * 5) log1 ∧ OncEach (5 * 5) log4 :=
  ⟨by decide, by decide, by decide, by decide, by decide,
    rotate_equiv 5 (by decide) (by decide) rotSrc rotDst (by decide) (by decide)⟩

end Perf
